import Mathlib

/-!
# The NEAT engine of the tetris repository (src/AI.cpp, src/AI.hpp)

A shallow embedding of the neuroevolution code, of the parts of the game that
it drives (src/Game.cpp, src/Game.hpp), and theorems about them.

Conventions of the embedding.

* C++ `int` and `int64_t` values are `Int`; sizes and indices are `Nat`. A
  `Uint32` value is a `Nat`; where the code mixes `Uint32` and `int`
  (`Genome::evaluateCurrent`) the conversion and the arithmetic modulo `2^32`
  are written out.
* C++ `float` values are rationals (`ℚ`). Where a statement is about the
  structure of a computation the operations are exact; where it depends on the
  rounding, the namespace `F32` gives the binary32 value of every conversion
  and operation: `Genome.sigmoidF32` is the binary32 reading of lines 114 to
  116, `Pool.breedQuotaF32` and `Pool.removeWeakSpeciesF32` are the binary32
  readings of lines 607 to 618, next to the exact `Pool.breedQuota` and
  `Pool.removeWeakSpecies`. A float quotient whose divisor is zero (an IEEE NaN
  or infinity) is `none` in an `Option ℚ`; every comparison against it is
  false, as for a NaN. The function `Genome::sigmoid` is a real function where
  it is studied as one and a parameter `act` where the network is evaluated.
* A method of a class that reaches the pool through its `pool` pointer takes
  the pool as an argument and returns the updated pool. A genome reaches its
  game in the same way.
* A failed `assert`, a null dereference, an index out of range or a modulo by
  zero is `none`.
-/

namespace Tetris

/-! ## Containers and random numbers (headers that are not part of src/) -/

/-- Modelled from the spec: Map.hpp is not under src/. A `Map` is used by AI.cpp
through `insert`, `operator[]` (a pointer to the value, null when the key is
absent), `getSize`, `clear` and iteration over pairs `(a, b)`. It is modelled as
an association list in insertion order with at most one entry per key. -/
abbrev Map (K V : Type) := List (K × V)

namespace Map

variable {K V : Type} [DecidableEq K]

/-- The lookup `m[k]`: the value stored under `k`, `none` for a null pointer. -/
def find : Map K V → K → Option V
  | [], _ => none
  | (a, b) :: m, k => if a = k then some b else find m k

/-- The call `m.insert(k, v)`: a new key is appended, the value of a key that is
already present is replaced. -/
def insert : Map K V → K → V → Map K V
  | [], k, v => [(k, v)]
  | (a, b) :: m, k, v => if a = k then (a, v) :: m else (a, b) :: insert m k v

/-- The assignment `*m[k] = v` through the pointer that `m[k]` returns; `none`
when the pointer is null. -/
def assign : Map K V → K → V → Option (Map K V)
  | [], _, _ => none
  | (a, b) :: m, k, v =>
    if a = k then some ((a, v) :: m) else (assign m k v).map (fun r => (a, b) :: r)

/-- The number of entries, `m.getSize()`. -/
def getSize (m : Map K V) : Nat := m.length

end Map

/-- Modelled from the spec: Random.hpp is not under src/. The generator is a
stream of raw draws and a read position; each `get` call consumes one draw.
`getFloat` yields a value in `[0, 1)`. -/
structure Random where
  stream : Nat → Nat
  pos : Nat := 0

namespace Random

/-- The call `rand.getUint32()`. -/
def getUint32 (r : Random) : Nat × Random :=
  (r.stream r.pos % 2 ^ 32, { r with pos := r.pos + 1 })

/-- The call `rand.getUint8()`. -/
def getUint8 (r : Random) : Nat × Random :=
  (r.stream r.pos % 2 ^ 8, { r with pos := r.pos + 1 })

/-- The call `rand.getFloat()`. -/
def getFloat (r : Random) : ℚ × Random :=
  (((r.stream r.pos % 2 ^ 24 : Nat) : ℚ) / 2 ^ 24, { r with pos := r.pos + 1 })

end Random

/-- Modelled from the spec: ArrayList.hpp is not under src/. `list.sort(f)` with
a comparator `f(a, b)` (true when `a` goes before `b`) is modelled as a stable
insertion sort: `ordInsert` puts `x` in front of the first element that does not
go before it. -/
def ordInsert {α : Type} (before : α → α → Bool) (x : α) : List α → List α
  | [] => [x]
  | y :: ys => if before y x then y :: ordInsert before x ys else x :: y :: ys

/-- The call `list.sort(f)`, see `ordInsert`. -/
def sortBy {α : Type} (before : α → α → Bool) : List α → List α
  | [] => []
  | x :: xs => ordInsert before x (sortBy before xs)

/-! ## Constants (AI.cpp lines 8 to 28) -/

namespace AI

def Outputs : Nat := 5
def Population : Nat := 300
def DeltaDisjoint : ℚ := 2
def DeltaWeights : ℚ := 4 / 10
def DeltaThreshold : ℚ := 1
def StaleSpecies : Int := 15
def MutateConnectionsChance : ℚ := 25 / 100
def PerturbChance : ℚ := 90 / 100
def CrossoverChance : ℚ := 75 / 100
def LinkMutationChance : ℚ := 2
def NodeMutationChance : ℚ := 50 / 100
def BiasMutationChance : ℚ := 40 / 100
def StepSize : ℚ := 1 / 10
def DisableMutationChance : ℚ := 4 / 10
def EnableMutationChance : ℚ := 2 / 10
def MaxNodes : Int := 1000000

end AI

/-! ## Data model (AI.hpp) -/

/-- The class `Gene`. -/
structure Gene where
  into : Int := 0
  out : Int := 0
  weight : ℚ := 0
  enabled : Bool := true
  innovation : Int := 0
  deriving DecidableEq, Repr

/-- The class `Neuron`. An entry of `incoming` is a `Gene*` into the gene list of
the owning genome, modelled as the index of that gene. -/
structure Neuron where
  incoming : List Nat := []
  value : ℚ := 0
  deriving DecidableEq, Repr

/-- The class `Network`. -/
structure Network where
  neurons : Map Int Neuron := []
  deriving DecidableEq, Repr

/-- The class `Genome`, without its `pool` pointer. `game` is the handle of the
task simulation the genome drives, `none` for a null pointer. The array
`outputs` is left uninitialised by the constructors and is read only after
`evaluateCurrent` or `clearJoypad` has written all its entries. -/
structure Genome where
  genes : List Gene := []
  fitness : Int := 0
  network : Network := {}
  maxNeuron : Int := 0
  globalRank : Int := 0
  mutationRates : Map String ℚ := []
  framesSurvived : Int := 0
  currentFrame : Nat := 0
  game : Option Nat := none
  finished : Bool := false
  totalDanger : ℚ := 0
  outputs : List ℚ := [0, 0, 0, 0, 0]
  deriving DecidableEq, Repr

/-- The class `Species`, without its `pool` pointer. -/
structure Species where
  topFitness : Int := 0
  staleness : Int := 0
  averageFitness : Int := 0
  genomes : List Genome := []
  deriving DecidableEq, Repr

/-- The class `Pool`. The constructor sets `innovation` to `AI::Outputs`. -/
structure Pool where
  generation : Int := 0
  innovation : Int := AI.Outputs
  maxFitness : Int := 0
  species : List Species := []
  inputSize : Int := 0
  rand : Random

/-- The constructor `Genome::Genome()` (lines 40 to 48). -/
def Genome.new : Genome :=
  { mutationRates :=
      Map.insert (Map.insert (Map.insert (Map.insert (Map.insert (Map.insert
        (Map.insert [] "connections" AI.MutateConnectionsChance)
        "link" AI.LinkMutationChance)
        "bias" AI.BiasMutationChance)
        "node" AI.NodeMutationChance)
        "enable" AI.EnableMutationChance)
        "disable" AI.DisableMutationChance)
        "step" AI.StepSize }

/-- The names under which `Genome::Genome()` stores a mutation rate. -/
def Genome.rateNames : List String :=
  ["connections", "link", "bias", "node", "enable", "disable", "step"]

/-- Every rate name that `Genome::mutate` reads is a key of the rate map. -/
def Genome.HasRates (g : Genome) : Prop :=
  ∀ name ∈ Genome.rateNames, (Map.find g.mutationRates name).isSome = true

/-- The rate map holds exactly the seven names of `Genome::Genome()`, in the order
of their insertion. -/
def Genome.RatesOK (g : Genome) : Prop :=
  g.mutationRates.map Prod.fst = Genome.rateNames

/-- What `Species::breedChild` needs of a species: a genome to pick, and in every
genome the seven rates. -/
def Species.Breedable (spec : Species) : Prop :=
  spec.genomes ≠ [] ∧ ∀ g ∈ spec.genomes, g.RatesOK

/-- The pool `q` differs from `p` at most in its generator and its innovation
counter: what a method of a genome can change through its `pool` pointer. -/
def Pool.SameFrame (p q : Pool) : Prop :=
  q.species = p.species ∧ q.inputSize = p.inputSize ∧ q.generation = p.generation ∧
    q.maxFitness = p.maxFitness

/-- The total number of genomes of a pool, summed over its species. -/
def Pool.totalGenomes (p : Pool) : Nat :=
  (p.species.map (fun s => s.genomes.length)).sum

/-- The method `Pool::newInnovation` (lines 540 to 543): the returned id and the
pool with the advanced counter. -/
def Pool.newInnovation (p : Pool) : Int × Pool :=
  (p.innovation + 1, { p with innovation := p.innovation + 1 })

/-! ## Network construction (lines 87 to 112) -/

namespace Genome

/-- The loop at lines 90 to 92: one fresh neuron per input id. -/
def insertInputs (inputSize : Int) (m : Map Int Neuron) : Map Int Neuron :=
  (List.range inputSize.toNat).foldl (fun acc (c : Nat) => Map.insert acc (c : Int) {}) m

/-- The loop at lines 94 to 96: one fresh neuron per output id. -/
def insertOutputs (m : Map Int Neuron) : Map Int Neuron :=
  (List.range AI.Outputs).foldl (fun acc (c : Nat) => Map.insert acc (AI.MaxNodes + (c : Int)) {}) m

/-- The idiom `if (neurons[k] == nullptr) neurons.insert(k, Neuron())` of lines
102 to 104 and 107 to 109. -/
def ensureNeuron (m : Map Int Neuron) (k : Int) : Map Int Neuron :=
  if (Map.find m k).isNone then Map.insert m k {} else m

/-- The statement `neurons[k]->incoming.push(&gene)` of lines 105 and 106 for the
gene at index `i`. -/
def pushIncoming (m : Map Int Neuron) (k : Int) (i : Nat) : Map Int Neuron :=
  match Map.find m k with
  | some neuron => Map.insert m k { neuron with incoming := neuron.incoming ++ [i] }
  | none => m

/-- The body of the loop at lines 99 to 111 for the gene at index `i`. -/
def linkGene (gene : Gene) (i : Nat) (m : Map Int Neuron) : Map Int Neuron :=
  if gene.enabled then
    ensureNeuron (pushIncoming (ensureNeuron m gene.out) gene.out i) gene.into
  else m

/-- The loop at lines 99 to 111 over the genes from index `i` on. -/
def linkGenes : List Gene → Nat → Map Int Neuron → Map Int Neuron
  | [], _, m => m
  | gene :: rest, i, m => linkGenes rest (i + 1) (linkGene gene i m)

/-- The method `Genome::generateNetwork` (lines 87 to 112); `inputSize` is
`pool->inputSize`. The genes are sorted with `Gene::AscSort` (`a.out < b.out`). -/
def generateNetwork (g : Genome) (inputSize : Int) : Genome :=
  let genes := sortBy (fun a b => decide (a.out < b.out)) g.genes
  { g with
    genes := genes
    network := { neurons := linkGenes genes 0 (insertOutputs (insertInputs inputSize [])) } }

/-! ## Mutation operators (lines 158 to 362) -/

/-- The loop at lines 171 to 188 of `Genome::randomNeuron`. -/
def neuronCandidates (genes : List Gene) (nonInput : Bool) (inputSize : Int)
    (m : Map Int Bool) : Map Int Bool :=
  genes.foldl
    (fun acc gene =>
      let acc1 :=
        if !nonInput || decide (gene.into > inputSize) then Map.insert acc gene.into true else acc
      if !nonInput || decide (gene.out > inputSize) then Map.insert acc1 gene.out true else acc1)
    m

/-- The method `Genome::randomNeuron` (lines 158 to 200). -/
def randomNeuron (g : Genome) (nonInput : Bool) (p : Pool) : Option (Int × Pool) :=
  let m0 : Map Int Bool :=
    if !nonInput then
      (List.range p.inputSize.toNat).foldl (fun acc i => Map.insert acc (i : Int) true) []
    else []
  let m1 := (List.range AI.Outputs).foldl
    (fun acc o => Map.insert acc (AI.MaxNodes + (o : Int)) true) m0
  let neurons := neuronCandidates g.genes nonInput p.inputSize m1
  if Map.getSize neurons = 0 then none
  else
    let (r, rand) := p.rand.getUint32
    let n := r % Map.getSize neurons
    match neurons[n]? with
    | some pair => some (pair.1, { p with rand := rand })
    | none => some (0, { p with rand := rand })

/-- The method `Genome::containsLink` (lines 202 to 210). -/
def containsLink (g : Genome) (link : Gene) : Bool :=
  g.genes.any (fun gene => decide (gene.into = link.into) && decide (gene.out = link.out))

/-- The loop of `Genome::pointMutate` (lines 215 to 222) over a gene list. -/
def pointMutateGenes (step : ℚ) : List Gene → Random → List Gene × Random
  | [], rand => ([], rand)
  | gene :: rest, rand =>
    let (c, rand1) := rand.getFloat
    let (f, rand2) := rand1.getFloat
    let gene1 : Gene :=
      if c < AI.PerturbChance then { gene with weight := gene.weight + f * step * 2 - step }
      else { gene with weight := f * 4 - 2 }
    let (rest1, rand3) := pointMutateGenes step rest rand2
    (gene1 :: rest1, rand3)

/-- The method `Genome::pointMutate` (lines 212 to 223). -/
def pointMutate (g : Genome) (p : Pool) : Option (Genome × Pool) :=
  match Map.find g.mutationRates "step" with
  | none => none
  | some step =>
    let (genes, rand) := pointMutateGenes step g.genes p.rand
    some ({ g with genes := genes }, { p with rand := rand })

/-- The method `Genome::linkMutate` (lines 225 to 255). -/
def linkMutate (g : Genome) (forceBias : Bool) (p : Pool) : Option (Genome × Pool) :=
  match randomNeuron g false p with
  | none => none
  | some (n1, p1) =>
    match randomNeuron g true p1 with
    | none => none
    | some (n2, p2) =>
      if n1 ≤ p2.inputSize ∧ n2 ≤ p2.inputSize then some (g, p2)
      else
        let neuron1 := if n2 ≤ p2.inputSize then n2 else n1
        let neuron2 := if n2 ≤ p2.inputSize then n1 else n2
        let newLink : Gene :=
          { into := if forceBias then p2.inputSize else neuron1, out := neuron2 }
        if containsLink g newLink then some (g, p2)
        else
          let (innovation, p3) := p2.newInnovation
          let (f, rand) := p3.rand.getFloat
          some ({ g with genes := g.genes ++
                    [{ newLink with innovation := innovation, weight := f * 4 - 2 }] },
                { p3 with rand := rand })

/-- The method `Genome::nodeMutate` (lines 257 to 282). The reference `gene` is
the element at the drawn index; `gene1` and `gene2` are copies of it taken
after it was disabled. -/
def nodeMutate (g : Genome) (p : Pool) : Genome × Pool :=
  if g.genes.length = 0 then (g, p)
  else
    let maxNeuron := g.maxNeuron + 1
    let (r, rand) := p.rand.getUint32
    let p1 := { p with rand := rand }
    let idx := r % g.genes.length
    match g.genes[idx]? with
    | none => ({ g with maxNeuron := maxNeuron }, p1)
    | some picked =>
      if !picked.enabled then ({ g with maxNeuron := maxNeuron }, p1)
      else
        let gene : Gene := { picked with enabled := false }
        let (innovation1, p2) := p1.newInnovation
        let gene1 : Gene :=
          { gene with out := maxNeuron, weight := 1, innovation := innovation1, enabled := true }
        let (innovation2, p3) := p2.newInnovation
        let gene2 : Gene :=
          { gene with into := maxNeuron, innovation := innovation2, enabled := true }
        ({ g with maxNeuron := maxNeuron, genes := g.genes.set idx gene ++ [gene1] ++ [gene2] }, p3)

/-- The indices of the genes collected as `candidates` at lines 285 to 290. -/
def toggleCandidates (genes : List Gene) (enable : Bool) : List Nat :=
  (List.range genes.length).filter
    (fun i => match genes[i]? with
      | some gene => gene.enabled != enable
      | none => false)

/-- The method `Genome::enableDisableMutate` (lines 284 to 298). -/
def enableDisableMutate (g : Genome) (enable : Bool) (p : Pool) : Genome × Pool :=
  let candidates := toggleCandidates g.genes enable
  if candidates.length = 0 then (g, p)
  else
    let (r, rand) := p.rand.getUint32
    let p1 := { p with rand := rand }
    match candidates[r % candidates.length]? with
    | none => (g, p1)
    | some idx =>
      match g.genes[idx]? with
      | none => (g, p1)
      | some gene => ({ g with genes := g.genes.set idx { gene with enabled := !gene.enabled } }, p1)

/-- The loop at lines 301 to 307 of `Genome::mutate` over the rate entries. -/
def perturbRates : Map String ℚ → Random → Map String ℚ × Random
  | [], rand => ([], rand)
  | (a, b) :: rest, rand =>
    let (r, rand1) := rand.getUint32
    let b1 := if r % 2 = 0 then b * (95 / 100) else b * (105263 / 100000)
    let (rest1, rand2) := perturbRates rest rand1
    ((a, b1) :: rest1, rand2)

/-- One of the loops `while (p > 0.f) { if (rand < p) op(); p -= 1.f; }` at lines
313 to 361, for the remaining mass `pr`. The first argument bounds the number
of iterations; `mutate` passes the ceiling of the rate, which the loop never
exceeds. -/
def rateLoop (op : Genome → Pool → Option (Genome × Pool)) :
    Nat → ℚ → Genome → Pool → Option (Genome × Pool)
  | 0, _, g, p => some (g, p)
  | fuel + 1, pr, g, p =>
    if pr > 0 then
      let (f, rand) := p.rand.getFloat
      let p1 := { p with rand := rand }
      match (if f < pr then op g p1 else some (g, p1)) with
      | none => none
      | some (g2, p2) => rateLoop op fuel (pr - 1) g2 p2
    else some (g, p)

/-- The block at lines 313 to 361 for the rate called `name`. -/
def rateBlock (name : String) (op : Genome → Pool → Option (Genome × Pool))
    (g : Genome) (p : Pool) : Option (Genome × Pool) :=
  match Map.find g.mutationRates name with
  | none => none
  | some pr => rateLoop op (Int.toNat ⌈pr⌉) pr g p

/-- The method `Genome::mutate` (lines 300 to 362). -/
def mutate (g : Genome) (p : Pool) : Option (Genome × Pool) :=
  let (rates, rand0) := perturbRates g.mutationRates p.rand
  let g0 := { g with mutationRates := rates }
  match Map.find g0.mutationRates "connections" with
  | none => none
  | some c =>
    let (f, rand1) := rand0.getFloat
    let p1 := { p with rand := rand1 }
    match (if f < c then pointMutate g0 p1 else some (g0, p1)) with
    | none => none
    | some (g1, p2) =>
      match rateBlock "link" (fun x q => linkMutate x false q) g1 p2 with
      | none => none
      | some (g2, p3) =>
        match rateBlock "bias" (fun x q => linkMutate x true q) g2 p3 with
        | none => none
        | some (g3, p4) =>
          match rateBlock "node" (fun x q => some (nodeMutate x q)) g3 p4 with
          | none => none
          | some (g4, p5) =>
            match rateBlock "enable" (fun x q => some (enableDisableMutate x true q)) g4 p5 with
            | none => none
            | some (g5, p6) =>
              rateBlock "disable" (fun x q => some (enableDisableMutate x false q)) g5 p6

end Genome

/-! ## Distance between genomes (lines 414 to 481) -/

namespace Species

/-- The set `Map<int, bool>` of the innovation ids of a gene list, built by the
loops at lines 418 to 428. -/
def innovationSet (genes : List Gene) : Map Int Bool :=
  genes.foldl (fun m gene => Map.insert m gene.innovation true) []

/-- The index `Map<int, Gene*>` from innovation id to gene, built by the loops at
lines 387 to 391 and 454 to 458. -/
def innovationIndex (genes : List Gene) : Map Int Gene :=
  genes.foldl (fun m gene => Map.insert m gene.innovation gene) []

/-- The counter `result` of `Species::disjoint` after both counting loops. -/
def disjointCount (g1 g2 : Genome) : Nat :=
  let i1 := innovationSet g1.genes
  let i2 := innovationSet g2.genes
  let r1 := g1.genes.foldl
    (fun result gene => if (Map.find i2 gene.innovation).isNone then result + 1 else result) 0
  g2.genes.foldl
    (fun result gene => if (Map.find i1 gene.innovation).isNone then result + 1 else result) r1

/-- The function `Species::disjoint` (lines 414 to 448): `(float)result / n` with
`n` the larger gene count; `none` is the NaN of the quotient `0 / 0`. -/
def disjoint (g1 g2 : Genome) : Option ℚ :=
  let n := max g1.genes.length g2.genes.length
  if n = 0 then none else some ((disjointCount g1 g2 : ℚ) / (n : ℚ))

/-- The pair `(sum, coincident)` of `Species::weights` after its loop. -/
def weightsSum (g1 g2 : Genome) : ℚ × Nat :=
  let i2 := innovationIndex g2.genes
  g1.genes.foldl
    (fun acc gene =>
      match Map.find i2 gene.innovation with
      | some gene2 => (acc.1 + |gene.weight - gene2.weight|, acc.2 + 1)
      | none => acc)
    (0, 0)

/-- The function `Species::weights` (lines 450 to 472): `sum / coincident`; `none`
is the NaN of the quotient `0 / 0`. -/
def weights (g1 g2 : Genome) : Option ℚ :=
  let r := weightsSum g1 g2
  if r.2 = 0 then none else some (r.1 / (r.2 : ℚ))

/-- The function `Species::sameSpecies` (lines 474 to 481). A NaN operand makes
the comparison false. -/
def sameSpecies (g1 g2 : Genome) : Bool :=
  match disjoint g1 g2, weights g1 g2 with
  | some d, some w => decide (AI.DeltaDisjoint * d + AI.DeltaWeights * w < AI.DeltaThreshold)
  | _, _ => false

/-- The loop at lines 393 to 401 of `Species::crossover` over the genes of the
fitter parent. The byte is drawn only when the other parent has a gene with the
same innovation id. -/
def crossoverGenes (innovations2 : Map Int Gene) : List Gene → Random → List Gene × Random
  | [], rand => ([], rand)
  | gene1 :: rest, rand =>
    match Map.find innovations2 gene1.innovation with
    | none =>
      let (rest1, rand1) := crossoverGenes innovations2 rest rand
      (gene1 :: rest1, rand1)
    | some gene2 =>
      let (r, rand1) := rand.getUint8
      let (rest1, rand2) := crossoverGenes innovations2 rest rand1
      ((if r % 2 = 0 ∧ gene2.enabled = true then gene2 else gene1) :: rest1, rand2)

/-- The loop at lines 405 to 409 of `Species::crossover`: every rate of the
fitter parent is written through `child.mutationRates[name]`, which is asserted
to be present. -/
def copyRates : Map String ℚ → Map String ℚ → Option (Map String ℚ)
  | [], child => some child
  | (a, b) :: rest, child =>
    match Map.assign child a b with
    | none => none
    | some child1 => copyRates rest child1

/-- The method `Species::crossover` (lines 373 to 412). -/
def crossover (g1 g2 : Genome) (p : Pool) : Option (Genome × Pool) :=
  let fit := if g2.fitness > g1.fitness then g2 else g1
  let other := if g2.fitness > g1.fitness then g1 else g2
  let child := Genome.new
  let innovations2 := innovationIndex other.genes
  let (genes, rand) := crossoverGenes innovations2 fit.genes p.rand
  match copyRates fit.mutationRates child.mutationRates with
  | none => none
  | some rates =>
    some ({ child with
            genes := genes
            maxNeuron := max fit.maxNeuron other.maxNeuron
            mutationRates := rates },
          { p with rand := rand })

/-- The method `Species::calculateAverageFitness` (lines 483 to 495); the
quotient of two `int64_t` truncates toward zero. -/
def calculateAverageFitness (s : Species) : Species :=
  let total := (s.genomes.map (fun genome => genome.globalRank)).sum
  if s.genomes.length ≠ 0 then { s with averageFitness := Int.tdiv total s.genomes.length }
  else { s with averageFitness := 0 }

/-- The method `Species::breedChild` (lines 497 to 516). An empty species fails
the `assert(0)`. -/
def breedChild (s : Species) (p : Pool) : Option (Genome × Pool) :=
  if s.genomes.length = 0 then none
  else
    let (f, rand0) := p.rand.getFloat
    let p0 := { p with rand := rand0 }
    let bred : Option (Genome × Pool) :=
      if f < AI.CrossoverChance then
        let (r1, rand1) := p0.rand.getUint32
        let (r2, rand2) := rand1.getUint32
        match s.genomes[r1 % s.genomes.length]?, s.genomes[r2 % s.genomes.length]? with
        | some g1, some g2 => crossover g1 g2 { p0 with rand := rand2 }
        | _, _ => none
      else
        let (r, rand1) := p0.rand.getUint32
        match s.genomes[r % s.genomes.length]? with
        | some g => some (g, { p0 with rand := rand1 })
        | none => none
    match bred with
    | none => none
    | some (child, p1) => Genome.mutate child p1

end Species

/-! ## The pool (lines 530 to 671) -/

namespace Pool

/-- The method `Pool::totalAverageFitness` (lines 560 to 567). -/
def totalAverageFitness (p : Pool) : Int :=
  (p.species.map (fun spec => spec.averageFitness)).sum

/-- The body of the loop of `Pool::cullSpecies` for one species: sort with
`Genome::DescSort` (`a.fitness > b.fitness`), then pop from the back down to
`remaining` genomes, `ceilf(size / 2.f)` or one. -/
def cullOne (cutToOne : Bool) (spec : Species) : Species :=
  let genomes := sortBy (fun a b : Genome => decide (a.fitness > b.fitness)) spec.genomes
  let remaining : Int := if cutToOne then 1 else ⌈(genomes.length : ℚ) / 2⌉
  { spec with genomes := genomes.take remaining.toNat }

/-- The method `Pool::cullSpecies` (lines 569 to 583). -/
def cullSpecies (p : Pool) (cutToOne : Bool) : Pool :=
  { p with species := p.species.map (cullOne cutToOne) }

/-- The update `list[i] = f(list[i])` of one element through a pointer. -/
def modifyAt {α : Type} (f : α → α) : List α → Nat → List α
  | [], _ => []
  | x :: xs, 0 => f x :: xs
  | x :: xs, n + 1 => x :: modifyAt f xs n

/-- The inner loop at lines 549 to 551 of `Pool::rankGlobally` for the species at
index `s`, from genome index `g` on: a pointer is the species index, the genome
index and the fitness read through the pointer. -/
def genomePointers (s : Nat) : Nat → List Genome → List (Nat × Nat × Int)
  | _, [] => []
  | g, genome :: rest => (s, g, genome.fitness) :: genomePointers s (g + 1) rest

/-- The outer loop at lines 547 to 552 of `Pool::rankGlobally` from species index
`s` on. -/
def speciesPointers : Nat → List Species → List (Nat × Nat × Int)
  | _, [] => []
  | s, spec :: rest => genomePointers s 0 spec.genomes ++ speciesPointers (s + 1) rest

/-- The list `global` after the loops at lines 547 to 552. -/
def globalList (species : List Species) : List (Nat × Nat × Int) :=
  speciesPointers 0 species

/-- The assignment `global[r]->globalRank = r` for the genome at index `g`. -/
def setRank (genomes : List Genome) (g r : Nat) : List Genome :=
  modifyAt (fun genome : Genome => { genome with globalRank := (r : Int) }) genomes g

/-- The loop at lines 555 to 557: the pointer at position `r` gets rank `r`. -/
def assignRanks : List (Nat × Nat × Int) → Nat → List Species → List Species
  | [], _, species => species
  | (s, g, _) :: rest, r, species =>
    assignRanks rest (r + 1)
      (modifyAt (fun spec : Species => { spec with genomes := setRank spec.genomes g r })
        species s)

/-- The method `Pool::rankGlobally` (lines 545 to 558); the sort uses
`Genome::AscSortPtr` (`a->fitness < b->fitness`). -/
def rankGlobally (p : Pool) : Pool :=
  let global := sortBy (fun a b : Nat × Nat × Int => decide (a.2.2 < b.2.2))
    (globalList p.species)
  { p with species := assignRanks global 0 p.species }

/-- The lines 590 to 599 of `Pool::removeStaleSpecies` for one species: the
assertion that it holds a genome, the sort with `Genome::DescSort` and the update
of `topFitness` and `staleness`. -/
def staleUpdate (spec : Species) : Option Species :=
  match sortBy (fun a b : Genome => decide (a.fitness > b.fitness)) spec.genomes with
  | [] => none
  | best :: more =>
    if best.fitness > spec.topFitness then
      some { spec with genomes := best :: more, topFitness := best.fitness, staleness := 0 }
    else some { spec with genomes := best :: more, staleness := spec.staleness + 1 }

/-- The test at line 600 that keeps a species. -/
def staleKeep (maxFitness : Int) (spec : Species) : Bool :=
  decide (spec.staleness < AI.StaleSpecies ∨ spec.topFitness ≥ maxFitness)

/-- The loop of `Pool::removeStaleSpecies` (lines 587 to 603): the list
`survived`. -/
def staleSurvivors (maxFitness : Int) : List Species → Option (List Species)
  | [] => some []
  | spec :: rest =>
    match staleUpdate spec with
    | none => none
    | some spec1 =>
      match staleSurvivors maxFitness rest with
      | none => none
      | some survived =>
        if staleKeep maxFitness spec1 then some (spec1 :: survived) else some survived

/-- The method `Pool::removeStaleSpecies` (lines 585 to 605). -/
def removeStaleSpecies (p : Pool) : Option Pool :=
  match staleSurvivors p.maxFitness p.species with
  | none => none
  | some survived => some { p with species := survived }

/-- The quota `floorf(((float)averageFitness / (float)sum) * (float)Population)`
of lines 612 and 652 in exact arithmetic, for a sum that is not zero: the floor
of the exact quotient. The value that binary32 gives is `breedQuotaF32`; the two
can differ by one (`breedQuotaF32_below`), and they agree on `>= 1` for sums up
to `2 ^ 24` (`quotaF32_ge_one_iff`). -/
def breedQuota (averageFitness sum : Int) : Int :=
  ⌊(averageFitness : ℚ) / (sum : ℚ) * (AI.Population : ℚ)⌋

/-- The method `Pool::removeWeakSpecies` (lines 607 to 618) in exact arithmetic;
`removeWeakSpeciesF32` is the method in binary32, and the two keep the same
species when no average is negative and the sum is at most `2 ^ 24`
(`removeWeakSpeciesF32_eq`). -/
def removeWeakSpecies (p : Pool) : Pool :=
  let sum := p.totalAverageFitness
  { p with species := p.species.filter (fun spec =>
      decide ((if sum ≠ 0 then breedQuota spec.averageFitness sum else 1) ≥ 1)) }

/-- The loop of `Pool::addToSpecies` (lines 622 to 635) over the species list.
The representative `spec.genomes[0]` of a species without genomes is out of
range. -/
def addToList (child : Genome) : List Species → Option (List Species)
  | [] => some [{ genomes := [child] }]
  | spec :: rest =>
    match spec.genomes with
    | [] => none
    | first :: _ =>
      if Species.sameSpecies child first then
        some ({ spec with genomes := spec.genomes ++ [child] } :: rest)
      else (addToList child rest).map (fun r => spec :: r)

/-- The method `Pool::addToSpecies` (lines 620 to 636). -/
def addToSpecies (p : Pool) (child : Genome) : Option Pool :=
  (addToList child p.species).map (fun species => { p with species := species })

/-- The inner loop at lines 653 to 655: `count` calls of `spec.breedChild()`. -/
def breedMany (spec : Species) : Nat → List Genome → Pool → Option (List Genome × Pool)
  | 0, children, p => some (children, p)
  | count + 1, children, p =>
    match Species.breedChild spec p with
    | none => none
    | some (child, p1) => breedMany spec count (children ++ [child]) p1

/-- The loop at lines 650 to 656 over the species. With a zero `sum` the quota is
the conversion of a NaN or an infinity to `int64_t`, which is undefined. -/
def breedAll (sum : Int) : List Species → List Genome → Pool → Option (List Genome × Pool)
  | [], children, p => some (children, p)
  | spec :: rest, children, p =>
    if sum = 0 then none
    else
      match breedMany spec (breedQuota spec.averageFitness sum).toNat children p with
      | none => none
      | some (children1, p1) => breedAll sum rest children1 p1

/-- The loop at lines 658 to 661, bounded by the number of missing children.
Without species the index `rand % 0` is undefined. -/
def topUp : Nat → List Genome → Pool → Option (List Genome × Pool)
  | 0, children, p => some (children, p)
  | fuel + 1, children, p =>
    if children.length + p.species.length < AI.Population then
      if p.species.length = 0 then none
      else
        let (r, rand) := p.rand.getUint32
        match p.species[r % p.species.length]? with
        | none => none
        | some spec =>
          match Species.breedChild spec { p with rand := rand } with
          | none => none
          | some (child, p1) => topUp fuel (children ++ [child]) p1
    else some (children, p)

/-- The loop at lines 662 to 665. -/
def addAll : List Genome → Pool → Option Pool
  | [], p => some p
  | child :: rest, p =>
    match addToSpecies p child with
    | none => none
    | some p1 => addAll rest p1

/-- The method `Pool::newGeneration` (lines 638 to 671). The backup file written
at the end is not part of the state. -/
def newGeneration (p : Pool) : Option Pool :=
  let p1 := (p.cullSpecies false).rankGlobally
  match p1.removeStaleSpecies with
  | none => none
  | some p2 =>
    let p3 := p2.rankGlobally
    let p4 := { p3 with species := p3.species.map Species.calculateAverageFitness }
    let p5 := p4.removeWeakSpecies
    match breedAll p5.totalAverageFitness p5.species [] p5 with
    | none => none
    | some (children, p6) =>
      let p7 := p6.cullSpecies true
      match topUp (AI.Population - (children.length + p7.species.length)) children p7 with
      | none => none
      | some (children1, p8) =>
        match addAll children1 p8 with
        | none => none
        | some p9 => some { p9 with generation := p9.generation + 1 }

/-- The loop of `Pool::init` (lines 531 to 537), `count` iterations. -/
def initLoop : Nat → Pool → Option Pool
  | 0, p => some p
  | count + 1, p =>
    match Genome.mutate { Genome.new with maxNeuron := p.inputSize } p with
    | none => none
    | some (genome, p1) =>
      match addToSpecies p1 genome with
      | none => none
      | some p2 => initLoop count p2

/-- The method `Pool::init` (lines 530 to 538). -/
def init (p : Pool) : Option Pool :=
  initLoop AI.Population p

/-- The `globalRank` of the genome at index `g` of the species at index `s`,
`none` when there is no such genome. -/
def rankAt (species : List Species) (s g : Nat) : Option Int :=
  (species[s]?).bind (fun spec => (spec.genomes[g]?).map (fun genome => genome.globalRank))

/-- The `globalRank` values of all genomes, species after species. -/
def allRanks (species : List Species) : List Int :=
  (species.map (fun spec => spec.genomes.map (fun genome => genome.globalRank))).flatten

/-- The fitness values `f s g` written into the genomes of a list, from genome
index `g` on. -/
def setFitness (f : Nat → Int) : Nat → List Genome → List Genome
  | _, [] => []
  | g, genome :: rest => { genome with fitness := f g } :: setFitness f (g + 1) rest

/-- The species of a pool after an evaluation pass that left the genome at
index `g` of the species at index `s` with fitness `f s g`, from species index
`s` on. -/
def evaluated (f : Nat → Nat → Int) : Nat → List Species → List Species
  | _, [] => []
  | s, spec :: rest =>
    { spec with genomes := setFitness (f s) 0 spec.genomes } :: evaluated f (s + 1) rest

/-- The pool after an evaluation pass: an arbitrary assignment `f` of fitness
values to its genomes and an arbitrary `maxFitness`. -/
def withFitness (p : Pool) (f : Nat → Nat → Int) (maxFitness : Int) : Pool :=
  { p with species := evaluated f 0 p.species, maxFitness := maxFitness }

end Pool

/-! ## Persistence (lines 30 to 38, 364 to 371, 518 to 524, 695 to 711) -/

/-- Modelled from the spec: File.hpp with `FileInterface` and `FileHelper` is not
under src/. The spec only says that a pool is written to and read from a
structured document. A document is a tree of named properties; a value is
stored exactly as given, and reading a list or a map replaces the content of
the target by the entries of the document, in their order. -/
inductive Doc where
  | int (i : Int)
  | num (q : ℚ)
  | bool (b : Bool)
  | arr (items : List Doc)
  | obj (fields : List (String × Doc))

namespace Doc

/-- The value found by `file->property(name, ...)` when reading. -/
def field (d : Doc) (name : String) : Option Doc :=
  match d with
  | obj fields => Map.find fields name
  | _ => none

/-- Reading an `int` or `int64_t` property. -/
def asInt : Doc → Option Int
  | int i => some i
  | _ => none

/-- Reading a `float` property. -/
def asNum : Doc → Option ℚ
  | num q => some q
  | _ => none

/-- Reading a `bool` property. -/
def asBool : Doc → Option Bool
  | bool b => some b
  | _ => none

/-- Reading the elements of a list one after the other, each with `read`. -/
def readItems {α β : Type} (read : β → Option α) : List β → Option (List α)
  | [] => some []
  | d :: ds =>
    match read d with
    | none => none
    | some x => (readItems read ds).map (fun xs => x :: xs)

/-- Reading an `ArrayList` property, each element with `read`. -/
def asList {α : Type} (read : Doc → Option α) : Doc → Option (List α)
  | arr items => readItems read items
  | _ => none

/-- Writing a `Map<String, float>` property. -/
def ofRates (rates : Map String ℚ) : Doc :=
  obj (rates.map (fun e => (e.1, num e.2)))

/-- Reading a `Map<String, float>` property. -/
def asRates : Doc → Option (Map String ℚ)
  | obj fields => readItems (fun e => (asNum e.2).map (fun q => (e.1, q))) fields
  | _ => none

end Doc

/-- The method `Gene::serialize` (lines 30 to 38) on a writing interface. -/
def Gene.write (g : Gene) : Doc :=
  .obj [("version", .int 0), ("into", .int g.into), ("out", .int g.out),
    ("weight", .num g.weight), ("innovation", .int g.innovation), ("enabled", .bool g.enabled)]

/-- The method `Gene::serialize` (lines 30 to 38) on a reading interface, called
on the gene `g`. -/
def Gene.read (g : Gene) (d : Doc) : Option Gene := do
  let _version ← (d.field "version").bind Doc.asInt
  let into ← (d.field "into").bind Doc.asInt
  let out ← (d.field "out").bind Doc.asInt
  let weight ← (d.field "weight").bind Doc.asNum
  let innovation ← (d.field "innovation").bind Doc.asInt
  let enabled ← (d.field "enabled").bind Doc.asBool
  pure { g with into := into, out := out, weight := weight, innovation := innovation,
                enabled := enabled }

/-- The method `Genome::serialize` (lines 364 to 371) on a writing interface. -/
def Genome.write (g : Genome) : Doc :=
  .obj [("version", .int 0), ("fitness", .int g.fitness), ("maxNeuron", .int g.maxNeuron),
    ("mutationRates", Doc.ofRates g.mutationRates), ("genes", .arr (g.genes.map Gene.write))]

/-- The method `Genome::serialize` (lines 364 to 371) on a reading interface,
called on the genome `g`; a gene of the list is read into a fresh `Gene`. -/
def Genome.read (g : Genome) (d : Doc) : Option Genome := do
  let _version ← (d.field "version").bind Doc.asInt
  let fitness ← (d.field "fitness").bind Doc.asInt
  let maxNeuron ← (d.field "maxNeuron").bind Doc.asInt
  let rates ← (d.field "mutationRates").bind Doc.asRates
  let genes ← (d.field "genes").bind (Doc.asList (Gene.read {}))
  pure { g with fitness := fitness, maxNeuron := maxNeuron, mutationRates := rates,
                genes := genes }

/-- The method `Species::serialize` (lines 518 to 524) on a writing interface. -/
def Species.write (s : Species) : Doc :=
  .obj [("version", .int 0), ("topFitness", .int s.topFitness), ("staleness", .int s.staleness),
    ("genomes", .arr (s.genomes.map Genome.write))]

/-- The method `Species::serialize` (lines 518 to 524) on a reading interface,
called on the species `s`; a genome of the list is read into a genome built by
`Genome::Genome()`. -/
def Species.read (s : Species) (d : Doc) : Option Species := do
  let _version ← (d.field "version").bind Doc.asInt
  let topFitness ← (d.field "topFitness").bind Doc.asInt
  let staleness ← (d.field "staleness").bind Doc.asInt
  let genomes ← (d.field "genomes").bind (Doc.asList (Genome.read Genome.new))
  pure { s with topFitness := topFitness, staleness := staleness, genomes := genomes }

/-- The method `Pool::serialize` (lines 695 to 711) on a writing interface. -/
def Pool.write (p : Pool) : Doc :=
  .obj [("version", .int 0), ("generation", .int p.generation), ("maxFitness", .int p.maxFitness),
    ("species", .arr (p.species.map Species.write))]

/-- The method `Pool::serialize` (lines 695 to 711) on a reading interface, called
on the pool `p`; a species of the list is read into a fresh `Species`. The loop
at lines 703 to 710 only sets `pool` pointers. -/
def Pool.read (p : Pool) (d : Doc) : Option Pool := do
  let _version ← (d.field "version").bind Doc.asInt
  let generation ← (d.field "generation").bind Doc.asInt
  let maxFitness ← (d.field "maxFitness").bind Doc.asInt
  let species ← (d.field "species").bind (Doc.asList (Species.read {}))
  pure { p with generation := generation, maxFitness := maxFitness, species := species }

/-! ## The activation function (lines 114 to 116) -/

/-- The function `Genome::sigmoid` (lines 114 to 116), read over the reals:
`2.f / (1.f + expf(-4.9f * x)) - 1.f`. Its binary32 reading is
`Genome.sigmoidF32`. -/
noncomputable def Genome.sigmoid (x : ℝ) : ℝ :=
  2 / (1 + Real.exp (-(49 / 10) * x)) - 1

/-! ## Evaluation of the network (lines 118 to 156) -/

namespace Genome

/-- The loop at lines 124 to 128 over the entries of `inputs` from index `i` on:
`neurons[i]->value = inputs[i]`, with the assertion that the neuron is there. The
call checks before that `inputs` has `pool->inputSize` entries. -/
def setInputs : List ℚ → Nat → Map Int Neuron → Option (Map Int Neuron)
  | [], _, m => some m
  | x :: rest, i, m =>
    match Map.find m (i : Int) with
    | none => none
    | some neuron => setInputs rest (i + 1) (Map.insert m (i : Int) { neuron with value := x })

/-- The loop at lines 133 to 138 over the list `incoming` of a neuron, from the
running `sum` on. An entry of `incoming` is the index of a gene of `genes`; the
neuron `neurons[gene.into]` is asserted to be there. -/
def incomingSum (genes : List Gene) (m : Map Int Neuron) : List Nat → ℚ → Option ℚ
  | [], sum => some sum
  | j :: rest, sum =>
    match genes[j]? with
    | none => none
    | some gene =>
      match Map.find m gene.into with
      | none => none
      | some other => incomingSum genes m rest (sum + gene.weight * other.value)

/-- The loop at lines 130 to 145 over the pairs of the map, given by their keys
in the order of the map. Every neuron of the map is visited, the input neurons
as well; a neuron reads the current value of its sources, which is the new one
for a source visited before it. The float function `sigmoid` enters as `act`:
its values are not rational. -/
def fire (act : ℚ → ℚ) (genes : List Gene) : List Int → Map Int Neuron → Option (Map Int Neuron)
  | [], m => some m
  | k :: rest, m =>
    match Map.find m k with
    | none => none
    | some neuron =>
      match incomingSum genes m neuron.incoming 0 with
      | none => none
      | some sum =>
        fire act genes rest
          (Map.insert m k
            { neuron with value := if neuron.incoming.length ≠ 0 then act sum else 0 })

/-- The loop at lines 149 to 153 over the output indices of a list: the value of
the neuron `neurons[MaxNodes + o]`, which is asserted to be there. -/
def readOutputs (m : Map Int Neuron) : List Nat → Option (List ℚ)
  | [] => some []
  | o :: rest =>
    match Map.find m (AI.MaxNodes + (o : Int)) with
    | none => none
    | some neuron => (readOutputs m rest).map (fun values => neuron.value :: values)

/-- The method `Genome::evaluateNetwork` (lines 118 to 156): the returned list
and the genome with the new neuron values; `inputSize` is `pool->inputSize`. -/
def evaluateNetwork (act : ℚ → ℚ) (g : Genome) (inputSize : Int) (inputs : List ℚ) :
    Option (List ℚ × Genome) :=
  if (inputs.length : Int) ≠ inputSize then some ([], g)
  else
    match setInputs inputs 0 g.network.neurons with
    | none => none
    | some m1 =>
      match fire act g.genes (m1.map Prod.fst) m1 with
      | none => none
      | some m2 =>
        match readOutputs m2 (List.range AI.Outputs) with
        | none => none
        | some outputs => some (outputs, { g with network := { neurons := m2 } })

/-- The list `incoming` of the neuron `k` of a map; empty when there is no such
neuron. -/
def incomingOf (m : Map Int Neuron) (k : Int) : List Nat :=
  match Map.find m k with
  | none => []
  | some neuron => neuron.incoming

/-- What `Genome::evaluateNetwork` asserts of a network, for the gene list
`genes` and `inputSize` inputs: a neuron for every input id and for every output
id, and for every entry of a list `incoming` a gene of the list whose source
neuron is in the map. -/
def Wired (genes : List Gene) (inputSize : Int) (m : Map Int Neuron) : Prop :=
  (∀ i : Nat, (i : Int) < inputSize → (Map.find m (i : Int)).isSome = true) ∧
  (∀ o : Nat, o < AI.Outputs → (Map.find m (AI.MaxNodes + (o : Int))).isSome = true) ∧
  ∀ k : Int, ∀ j ∈ incomingOf m k,
    ∃ gene, genes[j]? = some gene ∧ (Map.find m gene.into).isSome = true

end Genome

/-! ## The task simulation as the engine drives it (Game.hpp, Game.cpp) -/

/-- The table `tetrominos` of Game.hpp (lines 17 to 132). -/
def tetrominos : List (List (List Nat)) :=
  [[[0, 0, 0, 0], [0, 0, 0, 0], [0, 0, 1, 1], [0, 1, 1, 0]],
   [[0, 0, 0, 0], [0, 0, 1, 0], [0, 0, 1, 1], [0, 0, 0, 1]],
   [[0, 0, 0, 0], [0, 0, 0, 0], [0, 1, 1, 0], [0, 0, 1, 1]],
   [[0, 0, 0, 0], [0, 0, 0, 1], [0, 0, 1, 1], [0, 0, 1, 0]],
   [[0, 0, 1, 0], [0, 0, 1, 0], [0, 0, 1, 0], [0, 0, 1, 0]],
   [[0, 0, 0, 0], [0, 0, 0, 0], [1, 1, 1, 1], [0, 0, 0, 0]],
   [[0, 0, 0, 0], [0, 0, 0, 0], [0, 1, 1, 1], [0, 0, 1, 0]],
   [[0, 0, 0, 0], [0, 0, 1, 0], [0, 1, 1, 0], [0, 0, 1, 0]],
   [[0, 0, 0, 0], [0, 0, 1, 0], [0, 1, 1, 1], [0, 0, 0, 0]],
   [[0, 0, 0, 0], [0, 0, 1, 0], [0, 0, 1, 1], [0, 0, 1, 0]],
   [[0, 0, 0, 0], [0, 0, 1, 1], [0, 0, 1, 0], [0, 0, 1, 0]],
   [[0, 0, 0, 0], [0, 0, 0, 0], [0, 1, 1, 1], [0, 0, 0, 1]],
   [[0, 0, 0, 0], [0, 0, 1, 0], [0, 0, 1, 0], [0, 1, 1, 0]],
   [[0, 0, 0, 0], [0, 1, 0, 0], [0, 1, 1, 1], [0, 0, 0, 0]],
   [[0, 0, 0, 0], [0, 1, 1, 0], [0, 0, 1, 0], [0, 0, 1, 0]],
   [[0, 0, 0, 0], [0, 0, 0, 1], [0, 1, 1, 1], [0, 0, 0, 0]],
   [[0, 0, 0, 0], [0, 0, 1, 0], [0, 0, 1, 0], [0, 0, 1, 1]],
   [[0, 0, 0, 0], [0, 0, 0, 0], [0, 1, 1, 1], [0, 1, 0, 0]],
   [[0, 0, 0, 0], [0, 1, 1, 0], [0, 1, 1, 0], [0, 0, 0, 0]]]

/-- The table `uniqueTetrominos` of Game.hpp (lines 134 to 143). -/
def uniqueTetrominos : List Int := [0, 2, 4, 6, 10, 14, 18]

/-- The class `Game` (Game.hpp lines 196 to 293) of a game that a genome plays:
its `ai` pointer is the non-null `pool->ai`, its `genome` pointer is the genome
that owns the game, and the music fields are of no use. `inputs`, `oldInputs`
and `inputTimes` are arrays of `IN_MAX` = 5 entries (down, right, left,
clockwise, counter-clockwise) that the constructor leaves uninitialised. The
`state` is 0 for `INVALID`, 1 for `PLAY`, 2 for `CLEAR` and 3 for `DROP`. -/
structure Game where
  inputs : List Bool := [false, false, false, false, false]
  oldInputs : List Bool := [false, false, false, false, false]
  inputTimes : List Nat := [0, 0, 0, 0, 0]
  board : List Int := []
  score : Nat := 0
  ticks : Nat := 0
  rand : Random
  ticksPerSecond : Int := 60
  gameInSession : Bool := false
  tetromino : Int := 0
  playerX : Int := 0
  playerY : Int := 0
  moved : Bool := true
  state : Nat := 0
  stateTime : Nat := 0

namespace Game

def boardW : Nat := 10
def boardH : Nat := 20

/-- The method `Game::term` (Game.cpp lines 54 to 56). -/
def term (gm : Game) : Game :=
  { gm with gameInSession := false }

/-- The method `Game::newPiece` (Game.cpp lines 58 to 68); `playSound` does
nothing in a game with an `ai`. The index into `uniqueTetrominos` is below 7. -/
def newPiece (gm : Game) : Game :=
  let (r, rand) := gm.rand.getUint8
  let gm1 := { gm with
    playerX := (boardW : Int) / 2 - 2
    playerY := -3
    tetromino := uniqueTetrominos.getD (r % 7) 0
    rand := rand }
  if gm1.moved then { gm1 with moved := false } else gm1.term

/-- The method `Game::init` (Game.cpp lines 34 to 52); `seed` is the generator
that `rand.seedTime()` leaves. -/
def init (gm : Game) (seed : Random) : Game :=
  let gm1 := { gm with
    board := List.replicate (boardH * boardW) 0
    score := 0
    ticks := 0
    rand := seed
    state := 1
    stateTime := 0 }
  { gm1.newPiece with gameInSession := true }

/-- The method `Game::doAI` (Game.cpp lines 152 to 159); `outputs` is the array
`genome->outputs` of five floats. -/
def doAI (gm : Game) (outputs : List ℚ) : Game :=
  { gm with inputs := [decide (outputs.getD 0 0 > 0), decide (outputs.getD 1 0 > 0),
      decide (outputs.getD 2 0 > 0), decide (outputs.getD 3 0 > 0),
      decide (outputs.getD 4 0 > 0)] }

/-- The method `Game::process` (Game.cpp lines 184 to 294) of a game with an
`ai`: the early return of lines 185 to 187, the call of `doAI` and then the
rest of the frame (lines 194 to 293: moves, gravity, line clears, the tick
count), which enters as the function `frame`. -/
def process (frame : Game → Game) (gm : Game) (outputs : List ℚ) : Game :=
  if gm.gameInSession then frame (gm.doAI outputs) else gm

end Game

/-! ## One step of the evaluation of a genome (lines 739 to 834) -/

/-- The conversion `(int)x` of a `Uint32` value: the value itself below `2^31`,
and `x - 2^32` from there on. -/
def toInt (x : Nat) : Int :=
  if x % 2 ^ 32 < 2 ^ 31 then ((x % 2 ^ 32 : Nat) : Int) else ((x % 2 ^ 32 : Nat) : Int) - 2 ^ 32

/-- The assignment `list[i] = x` to an entry of an `ArrayList`; an index out of
range is `none`. -/
def setAt {α : Type} (l : List α) (i : Nat) (x : α) : Option (List α) :=
  if i < l.length then some (l.set i x) else none

namespace Genome

/-- The loop at lines 745 to 750 over the cells `c` of a list:
`inputs[c] = game->board[c] == 0 ? 0.f : 1.f`. -/
def boardInputs (board : List Int) : List Nat → List ℚ → Option (List ℚ)
  | [], inputs => some inputs
  | c :: rest, inputs =>
    match board[c]? with
    | none => none
    | some cell =>
      match setAt inputs c (if cell = 0 then 0 else 1) with
      | none => none
      | some inputs1 => boardInputs board rest inputs1

/-- The body of the loops at lines 760 to 771 for the offsets `(v, u)` of a list:
the cell `(playerX + u, playerY + v)`, when it is on the board and the piece
covers it, gets the input `-1`. -/
def pieceInputs (gm : Game) (shape : List (List Nat)) : List (Nat × Nat) → List ℚ →
    Option (List ℚ)
  | [], inputs => some inputs
  | (v, u) :: rest, inputs =>
    let x := gm.playerX + (u : Int)
    let y := gm.playerY + (v : Int)
    if x < 0 ∨ y < 0 ∨ x ≥ (Game.boardW : Int) ∨ y ≥ (Game.boardH : Int) then
      pieceInputs gm shape rest inputs
    else if (shape.getD v []).getD u 0 ≠ 0 then
      match setAt inputs (y * (Game.boardW : Int) + x).toNat (-1) with
      | none => none
      | some inputs1 => pieceInputs gm shape rest inputs1
    else pieceInputs gm shape rest inputs

/-- The offsets `(v, u)` of the loops at lines 760 to 771, rows first. -/
def pieceCells : List (Nat × Nat) :=
  (List.range 4).flatMap (fun v => (List.range 4).map (fun u => (v, u)))

/-- The method `Genome::getInputs` (lines 739 to 775) for the game `gm` of the
genome; `inputSize` is `pool->inputSize`. Modelled from the spec: `resize` of
ArrayList.hpp, which is not under src/, gives `inputSize` entries 0. A piece
index outside the table `tetrominos` is `none`. -/
def getInputs (gm : Game) (inputSize : Int) : Option (List ℚ) :=
  let inputs := List.replicate inputSize.toNat (0 : ℚ)
  if gm.gameInSession then
    match boardInputs gm.board (List.range (Game.boardH * Game.boardW)) inputs with
    | none => none
    | some inputs1 =>
      if gm.tetromino < 0 then none
      else
        match tetrominos[gm.tetromino.toNat]? with
        | none => none
        | some shape => pieceInputs gm shape pieceCells inputs1
  else some inputs

/-- The method `Genome::clearJoypad` (lines 777 to 781). -/
def clearJoypad (g : Genome) : Genome :=
  { g with outputs := List.replicate AI.Outputs 0 }

/-- The array `outputs` after lines 802 to 814, for the list `controller` that
`evaluateNetwork` returned (five values, or none). The outputs are indexed
`OUT_DOWN` = 0, `OUT_RIGHT` = 1, `OUT_LEFT` = 2, `OUT_CW` = 3, `OUT_CCW` = 4. The
test `controller[OUT_LEFT] && controller[OUT_RIGHT]` converts two floats to
`bool`: each is true when it is not zero; the assignment of `false` stores 0. -/
def joypad (controller : List ℚ) : List ℚ :=
  if controller.length ≠ 0 then
    let controller1 :=
      if controller.getD 2 0 ≠ 0 ∧ controller.getD 1 0 ≠ 0 then (controller.set 2 0).set 1 0
      else controller
    (List.range AI.Outputs).map (fun c => controller1.getD c 0)
  else List.replicate AI.Outputs 0

/-- The lines 818 to 832 for the game `gm` after its frame. The sum
`game->score + framesSurvived + 1` of a `Uint32` and two `int` is computed in
`Uint32`, modulo `2^32`, and then stored in the `int64_t` `fitness`. -/
def afterFrame (g : Genome) (gm : Game) (p : Pool) : Genome × Game × Pool :=
  if gm.gameInSession then
    let framesSurvived := max g.framesSurvived (toInt gm.ticks)
    let fitness : Int := ((gm.score : Int) + framesSurvived + 1) % 2 ^ 32
    ({ g with framesSurvived := framesSurvived, fitness := if fitness = 0 then -1 else fitness },
      gm, p)
  else
    ({ g with finished := true }, gm.term,
      if g.fitness > p.maxFitness then { p with maxFitness := g.fitness } else p)

/-- The method `Genome::evaluateCurrent` (lines 794 to 834) of a genome whose
game is `gm`: the genome, its game and the pool after the call. `currentFrame`
is a `Uint32`. -/
def evaluateCurrent (act : ℚ → ℚ) (frame : Game → Game) (g : Genome) (gm : Game) (p : Pool) :
    Option (Genome × Game × Pool) :=
  if g.finished then some (g.clearJoypad, gm, p)
  else
    match getInputs gm p.inputSize with
    | none => none
    | some inputs =>
      match evaluateNetwork act g p.inputSize inputs with
      | none => none
      | some (controller, g1) =>
        let g2 := { g1 with outputs := joypad controller }
        let (g3, gm1, p1) := afterFrame g2 (gm.process frame g2.outputs) p
        some ({ g3 with currentFrame := (g3.currentFrame + 1) % 2 ^ 32 }, gm1, p1)

end Genome

/-! ## Saving and loading the pool (lines 673 to 693) -/

namespace Pool

/-- The method `Pool::writeFile` (lines 673 to 675): the document that
`FileHelper::writeObject` stores under the file name. -/
def writeFile (p : Pool) : Doc :=
  p.write

/-- The method `Pool::loadFile` (lines 682 to 688). `file` is the document
stored under the file name, `none` when the file cannot be read: then
`FileHelper::readObject` leaves the object it was given untouched. The result
is `none` when the document lacks a property `Pool::serialize` asks for. -/
def loadFile (p : Pool) (file : Option Doc) : Option Pool :=
  let p1 := { p with generation := 0, innovation := AI.Outputs, maxFitness := 0, species := [] }
  match file with
  | none => some p1
  | some d => p1.read d

/-- The ids that successive calls of `Pool::newInnovation` return, one call after
each of the steps of a list, and the pool after the last call. A step is any
other code that runs between two calls. -/
def newInnovations : List (Pool → Pool) → Pool → List Int × Pool
  | [], p => ([], p)
  | step :: rest, p =>
    let (id, p1) := (step p).newInnovation
    let (ids, p2) := newInnovations rest p1
    (id :: ids, p2)

end Pool

/-! ## The evaluation pass (lines 783 to 792 and 867 to 916) -/

/-- What `Genome::getInputs` reads of a game without leaving its tables: a board
of `boardH * boardW` cells, as `Game::init` sets it up, and a piece index of the
table `tetrominos`. -/
def Game.Sound (gm : Game) : Prop :=
  gm.board.length = Game.boardH * Game.boardW ∧ 0 ≤ gm.tetromino ∧ gm.tetromino < 19

/-- The class `AI` (AI.hpp lines 71 to 126) with a pool. A shared pointer to a
`Game` is a handle, and `games` holds the `Game` objects by their handles. -/
structure AI where
  pool : Pool
  focus : Option Nat := none
  games : Map Nat Game := []

/-- The method `Genome::initializeRun` (lines 783 to 792) without the creation of
the game: `handle` is the handle of the new `Game`, `inputSize` is
`pool->inputSize`. -/
def Genome.initializeRun (g : Genome) (handle : Nat) (inputSize : Int) : Genome :=
  ({ g with game := some handle, framesSurvived := 0, currentFrame := 0,
            finished := false }).clearJoypad.generateNetwork inputSize

/-- The local variables of `AI::process` (lines 868, 869, 878 and 880). A task is
the position, species index and genome index, of the genome whose
`evaluateCurrent` it runs. -/
structure Pass where
  threads : Nat := 0
  result : Bool := true
  tasks : List (Nat × Nat) := []
  maxFitness : Int := 0

namespace AI

/-- The test `!focus || !focus->gameInSession` of line 903. A shared pointer keeps
its game alive, so the handle of `focus` is in `games`. -/
def idle (games : Map Nat Game) (focus : Option Nat) : Bool :=
  match focus with
  | none => true
  | some handle =>
    match Map.find games handle with
    | none => true
    | some gm => !gm.gameInSession

/-- The body of the inner loop of `AI::process` (lines 884 to 907) for the genome
`gen` at genome index `g` of the species at index `s`. A new game gets the first
unused handle; `seedTime handle` is the generator that `rand.seedTime()` leaves
in it. A task that is launched is recorded and run at the end of the pass. -/
def visit (seedTime : Nat → Random) (inputSize : Int) (s g : Nat) (gen : Genome)
    (games : Map Nat Game) (focus : Option Nat) (st : Pass) :
    Genome × Map Nat Game × Option Nat × Pass :=
  let handle := games.getSize
  let gen1 := if gen.game = none then gen.initializeRun handle inputSize else gen
  let games1 :=
    if gen.game = none then
      Map.insert games handle (Game.init { rand := seedTime handle } (seedTime handle))
    else games
  let focus1 :=
    if st.threads < 150 ∧ gen1.finished = true ∧ gen1.game = focus then none else focus
  let st1 :=
    if st.threads < 150 then
      if gen1.finished then st
      else { st with result := false, tasks := st.tasks ++ [(s, g)], threads := st.threads + 1 }
    else if !gen1.finished then { st with result := false }
    else st
  if !gen1.finished ∧
      (idle games1 focus1 ∨ (gen1.game.isSome ∧ gen1.fitness > st1.maxFitness)) then
    (gen1, games1, gen1.game, { st1 with maxFitness := gen1.fitness })
  else (gen1, games1, focus1, st1)

/-- The inner loop of `AI::process` (lines 883 to 908) over the genomes of the
species at index `s`, from genome index `g` on. -/
def visitGenomes (seedTime : Nat → Random) (inputSize : Int) (s : Nat) :
    Nat → List Genome → Map Nat Game → Option Nat → Pass →
      List Genome × Map Nat Game × Option Nat × Pass
  | _, [], games, focus, st => ([], games, focus, st)
  | g, gen :: rest, games, focus, st =>
    let (gen1, games1, focus1, st1) := visit seedTime inputSize s g gen games focus st
    let (rest1, games2, focus2, st2) :=
      visitGenomes seedTime inputSize s (g + 1) rest games1 focus1 st1
    (gen1 :: rest1, games2, focus2, st2)

/-- The outer loop of `AI::process` (lines 882 to 909) over the species, from
species index `s` on. -/
def visitSpecies (seedTime : Nat → Random) (inputSize : Int) :
    Nat → List Species → Map Nat Game → Option Nat → Pass →
      List Species × Map Nat Game × Option Nat × Pass
  | _, [], games, focus, st => ([], games, focus, st)
  | s, spec :: rest, games, focus, st =>
    let (genomes1, games1, focus1, st1) :=
      visitGenomes seedTime inputSize s 0 spec.genomes games focus st
    let (rest1, games2, focus2, st2) :=
      visitSpecies seedTime inputSize (s + 1) rest games1 focus1 st1
    ({ spec with genomes := genomes1 } :: rest1, games2, focus2, st2)

/-- The task `Genome::evaluateCurrent` launched at line 894 for the genome at
genome index `g` of the species at index `s`: the genome, its game and the pool
are updated in place. -/
def runTask (act : ℚ → ℚ) (frame : Game → Game) (s g : Nat) (ai : AI) : Option AI :=
  match ai.pool.species[s]? with
  | none => none
  | some spec =>
    match spec.genomes[g]? with
    | none => none
    | some gen =>
      match gen.game with
      | none => none
      | some handle =>
        match Map.find ai.games handle with
        | none => none
        | some gm =>
          match gen.evaluateCurrent act frame gm ai.pool with
          | none => none
          | some (gen1, gm1, p1) =>
            some { ai with
              pool := { p1 with species := Pool.modifyAt (fun sp : Species =>
                { sp with genomes := Pool.modifyAt (fun _ => gen1) sp.genomes g }) p1.species s }
              games := Map.insert ai.games handle gm1 }

/-- The tasks of a pass, run one after the other in the order of their launch;
the loop at lines 911 to 913 waits for all of them. -/
def runTasks (act : ℚ → ℚ) (frame : Game → Game) : List (Nat × Nat) → AI → Option AI
  | [], ai => some ai
  | (s, g) :: rest, ai =>
    match runTask act frame s g ai with
    | none => none
    | some ai1 => runTasks act frame rest ai1

/-- The method `AI::process` (lines 867 to 916) in a frame without a key press
(lines 871 to 876): the returned flag and the state after the pass. -/
def process (act : ℚ → ℚ) (frame : Game → Game) (seedTime : Nat → Random) (ai : AI) :
    Option (Bool × AI) :=
  let (species, games, focus, st) :=
    visitSpecies seedTime ai.pool.inputSize 0 ai.pool.species ai.games ai.focus {}
  let ai1 : AI := { pool := { ai.pool with species := species }, focus := focus, games := games }
  (runTasks act frame st.tasks ai1).map (fun ai2 => (st.result, ai2))

end AI

/-- Two maps of neurons with the same keys and the same lists `incoming`: they
differ in the values of their neurons at most. -/
def Genome.SameShape (m m1 : Map Int Neuron) : Prop :=
  ∀ k, (Map.find m1 k).isSome = (Map.find m k).isSome ∧
    Genome.incomingOf m1 k = Genome.incomingOf m k

/-- The entries of the lists `incoming` of a map are enabled genes of `genes`,
each in the list of its `out`, with a neuron for its `into`. -/
def Genome.Linked (genes : List Gene) (m : Map Int Neuron) : Prop :=
  ∀ k : Int, ∀ j ∈ Genome.incomingOf m k, ∃ gene, genes[j]? = some gene ∧ gene.enabled = true ∧
    gene.out = k ∧ (Map.find m gene.into).isSome = true

namespace Pool

/-- The genome at index `g` of the species at index `s`, `none` when there is no
such genome. -/
def genomeAt (species : List Species) (s g : Nat) : Option Genome :=
  (species[s]?).bind (fun spec => spec.genomes[g]?)

/-- The lines 639 to 646 of `Pool::newGeneration`: the pool after the removal of
the stale and the weak species. -/
def survivors (p : Pool) : Option Pool :=
  let p1 := (p.cullSpecies false).rankGlobally
  match p1.removeStaleSpecies with
  | none => none
  | some p2 =>
    let p3 := p2.rankGlobally
    let p4 := { p3 with species := p3.species.map Species.calculateAverageFitness }
    some p4.removeWeakSpecies

/-- The lines 647 to 661 of `Pool::newGeneration`: the list `children` after the
top-up loop, and the pool after the cut of every species to one genome. -/
def offspring (p : Pool) : Option (List Genome × Pool) :=
  match breedAll p.totalAverageFitness p.species [] p with
  | none => none
  | some (children, p6) =>
    let p7 := p6.cullSpecies true
    topUp (AI.Population - (children.length + p7.species.length)) children p7

end Pool

/-- The pools that the steps of `Pool::init` and `Pool::newGeneration` lead to
from a pool without species: `addToSpecies` with any genome, `cullSpecies` with
either flag, `rankGlobally`, `removeStaleSpecies`, the recomputation of the
averages, `removeWeakSpecies`, and every step that leaves the list of species as
it is (breeding, which draws numbers and innovation ids, and the count of the
generations). -/
inductive Pool.Reached : Pool → Prop
  | fresh (p : Pool) : p.species = [] → Pool.Reached p
  | addToSpecies (p q : Pool) (child : Genome) :
      Pool.Reached p → p.addToSpecies child = some q → Pool.Reached q
  | cullSpecies (p : Pool) (cutToOne : Bool) : Pool.Reached p → Pool.Reached (p.cullSpecies cutToOne)
  | rankGlobally (p : Pool) : Pool.Reached p → Pool.Reached p.rankGlobally
  | removeStaleSpecies (p q : Pool) :
      Pool.Reached p → p.removeStaleSpecies = some q → Pool.Reached q
  | averages (p : Pool) :
      Pool.Reached p →
      Pool.Reached { p with species := p.species.map Species.calculateAverageFitness }
  | removeWeakSpecies (p : Pool) : Pool.Reached p → Pool.Reached p.removeWeakSpecies
  | sameSpecies (p q : Pool) : Pool.Reached p → q.species = p.species → Pool.Reached q

namespace Genome

/-- The loop of `rateLoop` with a record of its rolls: for every roll the
remaining mass `p` it was made with and whether the operator was invoked. -/
def rateLoopTrace (op : Genome → Pool → Option (Genome × Pool)) :
    Nat → ℚ → Genome → Pool → Option (List (ℚ × Bool) × Genome × Pool)
  | 0, _, g, p => some ([], g, p)
  | fuel + 1, pr, g, p =>
    if pr > 0 then
      let (f, rand) := p.rand.getFloat
      let p1 := { p with rand := rand }
      match (if f < pr then op g p1 else some (g, p1)) with
      | none => none
      | some (g2, p2) =>
        (rateLoopTrace op fuel (pr - 1) g2 p2).map
          (fun r => ((pr, decide (f < pr)) :: r.1, r.2.1, r.2.2))
    else some ([], g, p)

/-- The five blocks at lines 313 to 361 of `Genome::mutate`, in their order: the
name of the rate and the operator of the loop. -/
def rateOps : List (String × (Genome → Pool → Option (Genome × Pool))) :=
  [("link", fun x q => linkMutate x false q),
   ("bias", fun x q => linkMutate x true q),
   ("node", fun x q => some (nodeMutate x q)),
   ("enable", fun x q => some (enableDisableMutate x true q)),
   ("disable", fun x q => some (enableDisableMutate x false q))]

/-- The lines 301 to 311 of `Genome::mutate`: the perturbation of the rates and
the point mutation. -/
def mutateHead (g : Genome) (p : Pool) : Option (Genome × Pool) :=
  let (rates, rand0) := perturbRates g.mutationRates p.rand
  let g0 := { g with mutationRates := rates }
  match Map.find g0.mutationRates "connections" with
  | none => none
  | some c =>
    let (f, rand1) := rand0.getFloat
    let p1 := { p with rand := rand1 }
    if f < c then pointMutate g0 p1 else some (g0, p1)

/-- A sequence of blocks `rateBlock`, one after the other. -/
def runBlocks : List (String × (Genome → Pool → Option (Genome × Pool))) →
    Genome → Pool → Option (Genome × Pool)
  | [], g, p => some (g, p)
  | (name, op) :: rest, g, p =>
    match rateBlock name op g p with
    | none => none
    | some (g1, q) => runBlocks rest g1 q

end Genome

namespace Game

/-- The test at lines 381 to 387 of `Game::dropLines`: whether the row `y` of the
board holds a cell that is not zero. On a board of `boardH * boardW` cells every
index of the loops of `dropLines` is in range. -/
def rowFilled (board : List Int) (y : Nat) : Bool :=
  (List.range boardW).any (fun x => board.getD (y * boardW + x) 0 != 0)

/-- The loop at lines 390 to 392: the cells of the row `v` become those of the
row above it. -/
def copyRow (board : List Int) (v : Nat) : List Int :=
  (List.range boardW).foldl
    (fun b u => b.set (v * boardW + u) (b.getD ((v - 1) * boardW + u) 0)) board

/-- The loop at lines 389 to 393, from the row `v` up to the row 1. -/
def shiftDown (board : List Int) : Nat → List Int
  | 0 => board
  | v + 1 => shiftDown (copyRow board (v + 1)) v

/-- The loop at lines 394 to 396: the top row is cleared. -/
def clearTop (board : List Int) : List Int :=
  (List.range boardW).foldl (fun b u => b.set u 0) board

/-- The body of the loop of `Game::dropLines` for the row `y` (lines 381 to
397). -/
def dropRow (board : List Int) (y : Nat) : List Int :=
  if rowFilled board y then board else clearTop (shiftDown board y)

/-- The method `Game::dropLines` (Game.cpp lines 379 to 399). -/
def dropLines (gm : Game) : Game :=
  { gm with board := (List.range boardH).foldl dropRow gm.board }

/-- The cells of the row `y` of a board, from left to right. -/
def row (board : List Int) (y : Nat) : List Int :=
  (List.range boardW).map (fun x => board.getD (y * boardW + x) 0)

/-- The rows of a board, from top to bottom. -/
def rows (board : List Int) : List (List Int) :=
  (List.range boardH).map (row board)

end Game

namespace Genome

/-- The `(into, out)` pairs of the genes of a genome, in the order of the genes. -/
def links (g : Genome) : List (Int × Int) :=
  g.genes.map (fun gene => (gene.into, gene.out))

/-- What no mutation of a gene changes: `into`, `out` and the innovation id, for
the genes of a genome in their order. -/
def skeleton (g : Genome) : List (Int × Int × Int) :=
  g.genes.map (fun gene => (gene.into, gene.out, gene.innovation))

/-- The ranges of the ids of a genome bred in a pool with `inputSize` inputs whose
innovation counter is at `counter`: `maxNeuron` is at least `inputSize`, every
endpoint of a gene is at most `maxNeuron` or an id from `MaxNodes` on, every
innovation id is at most `counter`, and as long as `maxNeuron` is below
`MaxNodes` no two genes have the same `(into, out)` pair. -/
def Sane (inputSize counter : Int) (g : Genome) : Prop :=
  inputSize ≤ g.maxNeuron ∧
  (∀ e ∈ g.skeleton,
    (e.1 ≤ g.maxNeuron ∨ AI.MaxNodes ≤ e.1) ∧ (e.2.1 ≤ g.maxNeuron ∨ AI.MaxNodes ≤ e.2.1) ∧
      e.2.2 ≤ counter) ∧
  (g.maxNeuron < AI.MaxNodes → g.links.Nodup)

/-- Genes of the two genomes with the same innovation id have the same
`(into, out)` pair. -/
def Agree (g h : Genome) : Prop :=
  ∀ a ∈ g.skeleton, ∀ b ∈ h.skeleton, a.2.2 = b.2.2 → a.1 = b.1 ∧ a.2.1 = b.2.1

end Genome

/-- The genomes that the breeding of a pool leads to, with the pool in which the
next call is made: the genome of `Pool::init` (lines 532 to 535), the results of
`Genome::mutate`, `Species::crossover` and `Species::breedChild` on genomes that
were reached, a genome after its evaluation (fields other than the genes and
`maxNeuron` are rewritten, `generateNetwork` reorders the genes), and the pool
after other steps that keep its innovation counter and its `inputSize`. No file
is loaded. -/
inductive Bred : List Genome → Pool → Prop
  | start (p : Pool) : Bred [] p
  | init (G : List Genome) (p : Pool) (g : Genome) (q : Pool) :
      Bred G p → Genome.mutate { Genome.new with maxNeuron := p.inputSize } p = some (g, q) →
      Bred (g :: G) q
  | mutate (G : List Genome) (p : Pool) (g g1 : Genome) (q : Pool) :
      Bred G p → g ∈ G → Genome.mutate g p = some (g1, q) → Bred (g1 :: G) q
  | crossover (G : List Genome) (p : Pool) (g1 g2 child : Genome) (q : Pool) :
      Bred G p → g1 ∈ G → g2 ∈ G → Species.crossover g1 g2 p = some (child, q) →
      Bred (child :: G) q
  | breedChild (G : List Genome) (p : Pool) (spec : Species) (child : Genome) (q : Pool) :
      Bred G p → (∀ g ∈ spec.genomes, g ∈ G) → Species.breedChild spec p = some (child, q) →
      Bred (child :: G) q
  | evaluated (G : List Genome) (p : Pool) (g g1 : Genome) :
      Bred G p → g ∈ G → g1.genes.Perm g.genes → g1.maxNeuron = g.maxNeuron →
      Bred (g1 :: G) p
  | pool (G : List Genome) (p q : Pool) :
      Bred G p → q.innovation = p.innovation → q.inputSize = p.inputSize → Bred G q

/-- The genome `x` in the pool `a` fits the genomes `G`: the pool has `inputSize`
inputs, the ids of `x` are in their ranges, genes of `x` with the same
innovation id have the same `(into, out)` pair as each other and as the genes of
`G`, and no innovation id of `G` is above the counter of the pool. -/
def Genome.Fits (G : List Genome) (inputSize : Int) (x : Genome) (a : Pool) : Prop :=
  a.inputSize = inputSize ∧ Genome.Sane inputSize a.innovation x ∧ Genome.Agree x x ∧
    ∀ h ∈ G, Genome.Agree x h ∧ ∀ e ∈ h.skeleton, e.2.2 ≤ a.innovation

namespace Pool

/-- The pool has the 200 inputs of the board, and every draw of its generator is
zero. -/
def Still (p : Pool) : Prop := p.inputSize = 200 ∧ ∀ i, p.rand.stream i = 0

end Pool

namespace Genome

/-- The endpoints and the flag `enabled` of the genes of a genome, in the order of
the genes. -/
def flags (g : Genome) : List (Int × Int × Bool) :=
  g.genes.map (fun gene => (gene.into, gene.out, gene.enabled))

/-- The seven rates of the constructor are present in its order and positive, and
the rates of the node, enable and disable loops are at most 1, so that each of
these loops makes one roll. -/
def SlowRates (g : Genome) : Prop :=
  ∃ c l b n e d s : ℚ,
    g.mutationRates = [("connections", c), ("link", l), ("bias", b), ("node", n), ("enable", e),
      ("disable", d), ("step", s)] ∧
    0 < c ∧ 0 < l ∧ 0 < b ∧ 0 < n ∧ n ≤ 1 ∧ 0 < e ∧ e ≤ 1 ∧ 0 < d ∧ d ≤ 1

/-- The genome that `Genome::mutate` makes of the basic genome of `Pool::init`
when every draw is zero, up to its weights, its rates and `maxNeuron`: the link
from input 0 to the first output, disabled, the link from the bias node, and the
two halves of the first link through the node 201. -/
def Padded (k : Int) (g : Genome) : Prop :=
  g.maxNeuron = k ∧
  g.flags = [(0, 1000000, false), (200, 1000000, true), (0, 201, true), (201, 1000000, true)] ∧
  g.SlowRates

end Genome

/-! ## Binary32 arithmetic

The values of a C++ `float` are the binary32 numbers of IEEE 754, and every
conversion and operation rounds its exact result to the nearest of them, ties to
the even significand. The functions below give the rounded value of a rational
number whose magnitude is below `2 ^ 128`; beyond that binary32 has no finite
value. An `int64_t` is far below this bound. -/

namespace F32

/-- The number of halvings that take `n` below 2, with `fuel` as a bound on
their number. -/
def halvings : Nat → Nat → Nat
  | 0, _ => 0
  | fuel + 1, n => if n < 2 then 0 else halvings fuel (n / 2) + 1

/-- The position of the leading bit of `n`: the largest `k` with `2 ^ k ≤ n`. -/
def log2 (n : Nat) : Nat := halvings n n

/-- The exponent of the binade of `x`: the largest `e` with `2 ^ e ≤ |x|`, and
`-126`, the exponent of the subnormal numbers, when `|x|` is below `2 ^ (-126)`. -/
def expo (x : ℚ) : Int :=
  if x = 0 then -126
  else
    let k : Int := (log2 x.num.natAbs : Int) - (log2 x.den : Int)
    max (if (2 : ℚ) ^ k ≤ |x| then k else k - 1) (-126)

/-- The distance between neighbouring binary32 numbers in the binade of `x`: the
significand has 24 bits. -/
def ulp (x : ℚ) : ℚ := (2 : ℚ) ^ (expo x - 23)

/-- The integer nearest to `x`, the even one of the two when `x` is halfway. -/
def rne (x : ℚ) : Int :=
  if x - ⌊x⌋ < 1 / 2 then ⌊x⌋
  else if 1 / 2 < x - ⌊x⌋ then ⌊x⌋ + 1
  else if ⌊x⌋ % 2 = 0 then ⌊x⌋ else ⌊x⌋ + 1

/-- The binary32 number nearest to `x ≥ 0`. -/
def nearest (x : ℚ) : ℚ := (rne (x / ulp x) : ℚ) * ulp x

/-- The binary32 number nearest to `x`, ties to even: the value of `(float)x`. -/
def round (x : ℚ) : ℚ := if x < 0 then -nearest (-x) else nearest x

/-- The sum `x + y` of two floats. -/
def add (x y : ℚ) : ℚ := round (x + y)

/-- The difference `x - y` of two floats. -/
def sub (x y : ℚ) : ℚ := round (x - y)

/-- The product `x * y` of two floats. -/
def mul (x y : ℚ) : ℚ := round (x * y)

/-- The quotient `x / y` of two floats, for `y` other than zero. -/
def div (x y : ℚ) : ℚ := round (x / y)

/-- The conversion `(float)n` of an integer. -/
def ofInt (n : Int) : ℚ := round n

end F32

/-- The function `Genome::sigmoid` (lines 114 to 116) in binary32:
`2.f / (1.f + expf(-4.9f * x)) - 1.f`. The literal `4.9f` is the float nearest
to 4.9, and `expf`, the exponential of the C library, is a parameter: the
library promises an accuracy, not a value. -/
def Genome.sigmoidF32 (expf : ℚ → ℚ) (x : ℚ) : ℚ :=
  F32.sub (F32.div 2 (F32.add 1 (expf (F32.mul (-F32.round (49 / 10)) x)))) 1

namespace Pool

/-- The quota `floorf(((float)averageFitness / (float)sum) * (float)Population)`
of lines 612 and 652 in binary32, for a sum that is not zero: the two
conversions, the quotient and the product are rounded, `floorf` is exact. -/
def breedQuotaF32 (averageFitness sum : Int) : Int :=
  ⌊F32.mul (F32.div (F32.ofInt averageFitness) (F32.ofInt sum)) (F32.ofInt AI.Population)⌋

/-- The method `Pool::removeWeakSpecies` (lines 607 to 618) with the quota of
line 612 in binary32. -/
def removeWeakSpeciesF32 (p : Pool) : Pool :=
  let sum := p.totalAverageFitness
  { p with species := p.species.filter (fun spec =>
      decide ((if sum ≠ 0 then breedQuotaF32 spec.averageFitness sum else 1) ≥ 1)) }

end Pool

/-- The accuracy of an exponential `expf` at the float `y`: its relative error is
at most `2 ^ (-21)`, four times the largest relative spacing `2 ^ (-23)` of the
binary32 numbers. -/
def Genome.Accurate (expf : ℚ → ℚ) (y : ℚ) : Prop :=
  |((expf y : ℚ) : ℝ) - Real.exp (y : ℝ)| ≤ Real.exp (y : ℝ) / 2 ^ 21

/-! ## Concrete inputs used by the closed statements below -/

/-- A generator whose every raw draw is zero. -/
def zeroRandom : Random := { stream := fun _ => 0 }

/-- A fresh pool with 200 inputs, as `AI::init` sets it up, on `zeroRandom`. -/
def zeroPool : Pool := { inputSize := 200, rand := zeroRandom }

/-- A genome with two genes that carry the same innovation id. -/
def dupGenome : Genome :=
  { Genome.new with
    genes := [{ into := 0, out := 1000000, weight := 0, innovation := 6 },
              { into := 1, out := 1000000, weight := 1, innovation := 6 }] }

/-- A genome with an enabled and a disabled gene. -/
def twoGenes : Genome :=
  { Genome.new with
    genes := [{ into := 0, out := 1000000, weight := 1, innovation := 6 },
              { into := 7, out := 1000001, weight := 2, enabled := false, innovation := 7 }] }

/-- A genome whose only gene is disabled. -/
def oneDisabled : Genome :=
  { Genome.new with
    genes := [{ into := 0, out := 1000000, weight := 1, enabled := false, innovation := 6 }] }

/-- A genome that carries a rate under a name `Genome::Genome()` does not know. -/
def extraRate : Genome :=
  { Genome.new with mutationRates := Map.insert Genome.new.mutationRates "speed" 1 }

/-- A genome with one gene, fitness `f` and all seven rates at zero, so that
`Genome::mutate` leaves its genes alone. -/
def quietGenome (f : Int) : Genome :=
  { genes := [{ into := 0, out := 1000000, weight := 1, innovation := 6 }]
    fitness := f
    mutationRates := [("connections", 0), ("link", 0), ("bias", 0), ("node", 0), ("enable", 0),
      ("disable", 0), ("step", 0)] }

/-- A pool with one species of five genomes of fitness 1 to 5. -/
def tinyPool : Pool :=
  { species := [{ genomes := [quietGenome 1, quietGenome 2, quietGenome 3, quietGenome 4,
                              quietGenome 5] }]
    inputSize := 1
    rand := zeroRandom }

/-- A pool after some generations: one species with one genome whose gene carries
the innovation id 6, and the innovation counter at 6. -/
def savedPool : Pool :=
  { generation := 3
    innovation := 6
    maxFitness := 5
    species := [{ genomes := [quietGenome 5] }]
    inputSize := 200
    rand := zeroRandom }

/-- A pool with the 200 inputs of the board and one species of one genome that
has no game yet. -/
def onePool : Pool :=
  { species := [{ genomes := [Genome.new] }], inputSize := 200, rand := zeroRandom }

/-- A frame of a game in which nothing but the tick count changes. -/
def idleFrame (gm : Game) : Game :=
  { gm with ticks := (gm.ticks + 1) % 2 ^ 32 }

/-- A generator whose every draw of a float is the largest one below 1. -/
def lateRandom : Random := { stream := fun _ => 2 ^ 24 - 1 }

/-- A genome after its evaluation: finished, with the game of handle 0 attached. -/
def doneGenome : Genome := { quietGenome 5 with finished := true, game := some 0 }

/-- A pool of two species, with the averages 1 and 0. -/
def weakPool : Pool :=
  { species := [{ averageFitness := 1, genomes := [quietGenome 1] },
                { averageFitness := 0, genomes := [quietGenome 2] }]
    rand := zeroRandom }

/-- A game whose board has the row 5 filled and one more filled cell in the row
7, over and under empty rows. -/
def stackedGame : Game :=
  { rand := zeroRandom
    board := (List.range 200).map (fun i => if i / 10 = 5 then 1 else if i = 73 then 2 else 0) }

/-- A genome at the end of the range of the hidden node ids: one gene from the
input 0 to the first output, and `maxNeuron` at `MaxNodes - 1`. -/
def borderGenome : Genome :=
  { Genome.new with
    genes := [{ into := 0, out := 1000000, weight := 1, innovation := 6 }]
    maxNeuron := 999999 }

/-- The first genome that `Pool::init` makes in `zeroPool`, and the pool after
it: the basic genome after its `mutate`. -/
def firstBorn : Genome × Pool :=
  (Genome.mutate { Genome.new with maxNeuron := 200 } zeroPool).getD (Genome.new, zeroPool)

/-- An exponential that returns the binary32 number nearest to `exp(-4.9f)` for a
negative argument and the one nearest to `exp(4.9f)` otherwise. -/
def expfTable (y : ℚ) : ℚ :=
  if y < 0 then 7995707 / 1073741824 else 550051 / 4096

/-- A pool with two species whose averages add up to `2 ^ 25 - 31`, which is not a
binary32 number. -/
def roundingPool : Pool :=
  { species := [{ averageFitness := 111848, genomes := [quietGenome 1] },
                { averageFitness := 33442553, genomes := [quietGenome 2] }]
    rand := zeroRandom }

/-! # Theorems -/

/-! ## Lemmas on the containers -/

namespace Map
variable {K V : Type} [DecidableEq K]

theorem find_insert_self (m : Map K V) (k : K) (v : V) : find (insert m k v) k = some v := by
  induction m with
  | nil => simp [insert, find]
  | cons e m ih =>
    obtain ⟨a, b⟩ := e
    by_cases h : a = k
    · simp [insert, find, h]
    · simp [insert, find, h, ih]

theorem find_insert_ne (m : Map K V) {k k2 : K} (v : V) (h : k ≠ k2) :
    find (insert m k v) k2 = find m k2 := by
  induction m with
  | nil => simp [insert, find, h]
  | cons e m ih =>
    obtain ⟨a, b⟩ := e
    by_cases h1 : a = k
    · subst h1; simp [insert, find, h]
    · by_cases h2 : a = k2
      · subst h2; simp [insert, find, h1]
      · simp [insert, find, h1, h2, ih]

theorem find_insert_isSome (m : Map K V) (k k2 : K) (v : V) (h : (find m k2).isSome) :
    (find (insert m k v) k2).isSome := by
  by_cases hk : k = k2
  · subst hk; simp [find_insert_self]
  · rw [find_insert_ne m v hk]; exact h

/-- Folding `insert` over a list keeps every key that is present. -/
theorem find_foldl_isSome {α : Type} (key : α → K) (val : α → V) (l : List α) (m : Map K V)
    (k : K) (h : (find m k).isSome) :
    (find (l.foldl (fun acc x => insert acc (key x) (val x)) m) k).isSome := by
  induction l generalizing m with
  | nil => simpa using h
  | cons x xs ih => exact ih _ (find_insert_isSome m (key x) k (val x) h)

theorem find_foldl_mem {α : Type} (key : α → K) (val : α → V) (l : List α) (m : Map K V)
    (x : α) (hx : x ∈ l) :
    (find (l.foldl (fun acc x => insert acc (key x) (val x)) m) (key x)).isSome := by
  induction l generalizing m with
  | nil => simp at hx
  | cons y ys ih =>
    rcases List.mem_cons.mp hx with h | h
    · subst h
      exact find_foldl_isSome key val ys _ _ (by simp [find_insert_self])
    · exact ih _ h

theorem find_foldl_not_mem {α : Type} (key : α → K) (val : α → V) (l : List α) (m : Map K V)
    (k : K) (h : ∀ x ∈ l, key x ≠ k) :
    find (l.foldl (fun acc x => insert acc (key x) (val x)) m) k = find m k := by
  induction l generalizing m with
  | nil => rfl
  | cons y ys ih =>
    rw [List.foldl_cons, ih _ (fun x hx => h x (List.mem_cons_of_mem _ hx))]
    exact find_insert_ne m (val y) (h y (List.mem_cons_self _ _))

theorem find_foldl_nodup {α : Type} (key : α → K) (val : α → V) (l : List α) (m : Map K V)
    (hn : (l.map key).Nodup) (x : α) (hx : x ∈ l) :
    find (l.foldl (fun acc x => insert acc (key x) (val x)) m) (key x) = some (val x) := by
  induction l generalizing m with
  | nil => simp at hx
  | cons y ys ih =>
    rw [List.map_cons, List.nodup_cons] at hn
    rcases List.mem_cons.mp hx with h | h
    · subst h
      rw [List.foldl_cons, find_foldl_not_mem key val ys _ _ ?_, find_insert_self]
      intro z hz hzk
      exact hn.1 (hzk ▸ List.mem_map_of_mem key hz)
    · exact ih _ hn.2 h

end Map

/-- A fold whose step leaves the accumulator alone on every element of the list
returns the initial value. -/
theorem foldl_fixed {α β : Type} (f : β → α → β) (l : List α) (b : β)
    (h : ∀ x ∈ l, f b x = b) : l.foldl f b = b := by
  induction l with
  | nil => rfl
  | cons x xs ih =>
    rw [List.foldl_cons, h x (List.mem_cons_self _ _)]
    exact ih (fun y hy => h y (List.mem_cons_of_mem _ hy))

theorem ordInsert_perm {α : Type} (before : α → α → Bool) (x : α) (l : List α) :
    (ordInsert before x l).Perm (x :: l) := by
  induction l with
  | nil => exact List.Perm.refl _
  | cons y ys ih =>
    unfold ordInsert
    split
    · exact ((List.Perm.cons y ih).trans (List.Perm.swap x y ys))
    · exact List.Perm.refl _

theorem sortBy_perm {α : Type} (before : α → α → Bool) (l : List α) :
    (sortBy before l).Perm l := by
  induction l with
  | nil => exact List.Perm.refl _
  | cons x xs ih =>
    exact (ordInsert_perm before x _).trans (List.Perm.cons x ih)

/-! ## Network construction -/

namespace Genome

theorem ensureNeuron_isSome (m : Map Int Neuron) (k k2 : Int) (h : (Map.find m k2).isSome) :
    (Map.find (ensureNeuron m k) k2).isSome := by
  unfold ensureNeuron
  split
  · exact Map.find_insert_isSome _ _ _ _ h
  · exact h

theorem ensureNeuron_self (m : Map Int Neuron) (k : Int) :
    (Map.find (ensureNeuron m k) k).isSome := by
  unfold ensureNeuron
  split
  · simp [Map.find_insert_self]
  · rename_i hn
    cases hf : Map.find m k with
    | none => simp [hf] at hn
    | some v => rfl

theorem pushIncoming_isSome (m : Map Int Neuron) (k : Int) (i : Nat) (k2 : Int)
    (h : (Map.find m k2).isSome) : (Map.find (pushIncoming m k i) k2).isSome := by
  unfold pushIncoming
  split
  · exact Map.find_insert_isSome _ _ _ _ h
  · exact h

theorem linkGene_isSome (gene : Gene) (i : Nat) (m : Map Int Neuron) (k : Int)
    (h : (Map.find m k).isSome) : (Map.find (linkGene gene i m) k).isSome := by
  unfold linkGene
  split
  · exact ensureNeuron_isSome _ _ _ (pushIncoming_isSome _ _ _ _ (ensureNeuron_isSome _ _ _ h))
  · exact h

theorem linkGene_endpoints (gene : Gene) (i : Nat) (m : Map Int Neuron)
    (he : gene.enabled = true) :
    (Map.find (linkGene gene i m) gene.into).isSome ∧
      (Map.find (linkGene gene i m) gene.out).isSome := by
  unfold linkGene
  rw [if_pos he]
  exact ⟨ensureNeuron_self _ _,
    ensureNeuron_isSome _ _ _ (pushIncoming_isSome _ _ _ _ (ensureNeuron_self _ _))⟩

theorem linkGenes_isSome (l : List Gene) (i : Nat) (m : Map Int Neuron) (k : Int)
    (h : (Map.find m k).isSome) : (Map.find (linkGenes l i m) k).isSome := by
  induction l generalizing i m with
  | nil => exact h
  | cons gene rest ih => exact ih _ _ (linkGene_isSome gene i m k h)

theorem linkGenes_endpoints (l : List Gene) (i : Nat) (m : Map Int Neuron) (gene : Gene)
    (hg : gene ∈ l) (he : gene.enabled = true) :
    (Map.find (linkGenes l i m) gene.into).isSome ∧
      (Map.find (linkGenes l i m) gene.out).isSome := by
  induction l generalizing i m with
  | nil => simp at hg
  | cons x rest ih =>
    rcases List.mem_cons.mp hg with h | h
    · subst h
      have := linkGene_endpoints gene i m he
      exact ⟨linkGenes_isSome rest _ _ _ this.1, linkGenes_isSome rest _ _ _ this.2⟩
    · exact ih _ _ h

theorem generateNetwork_endpoints (g : Genome) (inputSize : Int) :
    (g.generateNetwork inputSize).genes.Perm g.genes ∧
    ∀ gene ∈ (g.generateNetwork inputSize).genes, gene.enabled = true →
      (Map.find (g.generateNetwork inputSize).network.neurons gene.into).isSome ∧
      (Map.find (g.generateNetwork inputSize).network.neurons gene.out).isSome := by
  refine ⟨sortBy_perm _ _, ?_⟩
  intro gene hg he
  exact linkGenes_endpoints _ 0 _ gene hg he

end Genome

/-! ## Distance of a genome to itself -/

namespace Species

theorem find_innovationSet (genes : List Gene) (gene : Gene) (h : gene ∈ genes) :
    (Map.find (innovationSet genes) gene.innovation).isSome :=
  Map.find_foldl_mem Gene.innovation (fun _ => true) genes [] gene h

theorem disjointCount_self (g : Genome) : disjointCount g g = 0 := by
  have h : ∀ (b : Nat) (gene : Gene), gene ∈ g.genes →
      (if (Map.find (innovationSet g.genes) gene.innovation).isNone then b + 1 else b) = b := by
    intro b gene hg
    have := find_innovationSet g.genes gene hg
    rw [Option.isSome_iff_exists] at this
    obtain ⟨v, hv⟩ := this
    simp [hv]
  unfold disjointCount
  simp only []
  rw [foldl_fixed _ g.genes 0 (fun x hx => h 0 x hx)]
  exact foldl_fixed _ g.genes 0 (fun x hx => h 0 x hx)

theorem disjoint_self_of_ne_nil (g : Genome) (h : g.genes ≠ []) : disjoint g g = some 0 := by
  have hl : g.genes.length ≠ 0 := by simpa using h
  simp [disjoint, disjointCount_self, hl]

theorem weightsSum_self (g : Genome) (hn : (g.genes.map Gene.innovation).Nodup) :
    weightsSum g g = (0, g.genes.length) := by
  have key : ∀ (l : List Gene) (acc : ℚ × Nat), (∀ x ∈ l, x ∈ g.genes) →
      l.foldl (fun acc gene =>
        match Map.find (innovationIndex g.genes) gene.innovation with
        | some gene2 => (acc.1 + |gene.weight - gene2.weight|, acc.2 + 1)
        | none => acc) acc = (acc.1, acc.2 + l.length) := by
    intro l
    induction l with
    | nil => intro acc _; rfl
    | cons x xs ih =>
      intro acc hmem
      have hx : Map.find (innovationIndex g.genes) x.innovation = some x :=
        Map.find_foldl_nodup Gene.innovation (fun gene => gene) g.genes [] hn x
          (hmem x (List.mem_cons_self _ _))
      rw [List.foldl_cons, hx]
      simp only [sub_self, abs_zero, add_zero]
      rw [ih _ (fun y hy => hmem y (List.mem_cons_of_mem _ hy))]
      simp only [List.length_cons, Prod.mk.injEq, true_and]
      omega
  have := key g.genes (0, 0) (fun x hx => hx)
  simpa [weightsSum] using this

end Species

/-! ### Sorting: the head is a greatest element -/

theorem ordInsert_ne_nil {α : Type} (before : α → α → Bool) (x : α) (l : List α) :
    ordInsert before x l ≠ [] := by
  cases l with
  | nil => simp [ordInsert]
  | cons y ys =>
    unfold ordInsert
    split <;> simp

theorem sortBy_length {α : Type} (before : α → α → Bool) (l : List α) :
    (sortBy before l).length = l.length :=
  (sortBy_perm before l).length_eq

theorem ordInsert_head_fitness (x : Genome) (l : List Genome) (b : Genome)
    (hb : (ordInsert (fun a c : Genome => decide (a.fitness > c.fitness)) x l).head? = some b)
    (hl : ∀ y ∈ l.head?, ∀ z ∈ l, z.fitness ≤ y.fitness) :
    ∀ z ∈ x :: l, z.fitness ≤ b.fitness := by
  cases l with
  | nil =>
    simp [ordInsert] at hb
    subst hb
    simp
  | cons y ys =>
    have hy := hl y (by simp)
    unfold ordInsert at hb
    by_cases hc : y.fitness > x.fitness
    · simp [hc] at hb
      subst hb
      intro z hz
      rcases List.mem_cons.mp hz with h | h
      · subst h; omega
      · exact hy z h
    · simp [hc] at hb
      subst hb
      intro z hz
      rcases List.mem_cons.mp hz with h | h
      · subst h; omega
      · have := hy z h
        omega

theorem sortBy_head_fitness (l : List Genome) :
    ∀ b ∈ (sortBy (fun a c : Genome => decide (a.fitness > c.fitness)) l).head?,
      ∀ z ∈ l, z.fitness ≤ b.fitness := by
  induction l with
  | nil => simp [sortBy]
  | cons x xs ih =>
    intro b hb z hz
    have hperm := sortBy_perm (fun a c : Genome => decide (a.fitness > c.fitness)) xs
    have := ordInsert_head_fitness x _ b hb
      (fun y hy w hw => ih y hy w ((hperm.mem_iff).mp hw))
    rcases List.mem_cons.mp hz with h | h
    · exact this z (by simp [h])
    · exact this z (List.mem_cons_of_mem _ ((hperm.mem_iff).mpr h))

/-! ## Culling a species to its best genome -/

namespace Pool

theorem cullOne_true (spec : Species) (h : spec.genomes ≠ []) :
    ∃ best, (cullOne true spec).genomes = [best] ∧ best ∈ spec.genomes ∧
      ∀ z ∈ spec.genomes, z.fitness ≤ best.fitness := by
  have hperm := sortBy_perm (fun a c : Genome => decide (a.fitness > c.fitness)) spec.genomes
  cases hs : sortBy (fun a c : Genome => decide (a.fitness > c.fitness)) spec.genomes with
  | nil =>
    have := hperm.length_eq
    rw [hs] at this
    exact absurd (List.length_eq_zero.mp this.symm) h
  | cons b rest =>
    refine ⟨b, ?_, ?_, ?_⟩
    · simp [cullOne, hs]
    · exact (hperm.mem_iff).mp (by rw [hs]; exact List.mem_cons_self _ _)
    · exact sortBy_head_fitness spec.genomes b (by rw [hs]; rfl)

theorem cullSpecies_true (p : Pool) :
    (p.cullSpecies true).species.length = p.species.length ∧
    ∀ (i : Nat) (spec : Species), p.species[i]? = some spec →
      ∃ spec1, (p.cullSpecies true).species[i]? = some spec1 ∧
        spec1.topFitness = spec.topFitness ∧ spec1.staleness = spec.staleness ∧
        spec1.averageFitness = spec.averageFitness ∧
        (spec.genomes ≠ [] → ∃ best, spec1.genomes = [best] ∧ best ∈ spec.genomes ∧
          ∀ z ∈ spec.genomes, z.fitness ≤ best.fitness) := by
  refine ⟨by simp [cullSpecies], ?_⟩
  intro i spec hi
  refine ⟨cullOne true spec, by simp [cullSpecies, hi], rfl, rfl, rfl, ?_⟩
  exact cullOne_true spec

end Pool

/-! ## Node mutation -/

namespace Genome

theorem nodeMutate_nil (g : Genome) (p : Pool) (h : g.genes = []) :
    (nodeMutate g p).1.genes.length = 0 := by
  simp [nodeMutate, h]

theorem nodeMutate_picked (g : Genome) (p : Pool) (h : g.genes ≠ []) :
    ∃ picked, g.genes[p.rand.getUint32.1 % g.genes.length]? = some picked ∧
      (nodeMutate g p).1.genes[p.rand.getUint32.1 % g.genes.length]? =
        some { picked with enabled := false } ∧
      (nodeMutate g p).1.genes.length =
        g.genes.length + (if picked.enabled then 2 else 0) := by
  have hl : g.genes.length ≠ 0 := by simpa using h
  have hlt : p.rand.getUint32.1 % g.genes.length < g.genes.length :=
    Nat.mod_lt _ (Nat.pos_of_ne_zero hl)
  obtain ⟨picked, hp⟩ : ∃ picked, g.genes[p.rand.getUint32.1 % g.genes.length]? = some picked :=
    ⟨_, List.getElem?_eq_getElem hlt⟩
  refine ⟨picked, hp, ?_⟩
  unfold nodeMutate
  rw [if_neg hl]
  simp only [hp]
  cases he : picked.enabled with
  | false =>
    simp only [Bool.not_false, if_true]
    refine ⟨?_, by simp⟩
    rw [hp]
    congr 1
    cases picked
    simp_all
  | true =>
    simp only [Bool.not_true, Bool.false_eq_true, if_false, if_true]
    refine ⟨?_, by simp [Pool.newInnovation]⟩
    simp only [Pool.newInnovation, List.append_assoc]
    rw [List.getElem?_append_left (by simpa using hlt)]
    simp [List.getElem?_set, hlt]

end Genome

/-! ## Crossover of a genome with itself -/

namespace Map
variable {K V : Type} [DecidableEq K]

theorem assign_isSome (m : Map K V) (k : K) (v : V) (h : (find m k).isSome) :
    ∃ m1, assign m k v = some m1 ∧ ∀ k2, (find m1 k2).isSome = (find m k2).isSome := by
  induction m with
  | nil => simp [find] at h
  | cons e m ih =>
    obtain ⟨a, b⟩ := e
    by_cases ha : a = k
    · subst ha
      refine ⟨(a, v) :: m, by simp [assign], ?_⟩
      intro k2
      by_cases h2 : a = k2 <;> simp [find, h2]
    · simp only [find, ha, if_false] at h
      obtain ⟨m1, hm1, hk⟩ := ih h
      refine ⟨(a, b) :: m1, by simp [assign, ha, hm1], ?_⟩
      intro k2
      by_cases h2 : a = k2
      · simp [find, h2]
      · simp [find, h2, hk k2]

theorem assign_none (m : Map K V) (k : K) (v : V) (h : find m k = none) :
    assign m k v = none := by
  induction m with
  | nil => rfl
  | cons e m ih =>
    obtain ⟨a, b⟩ := e
    by_cases ha : a = k
    · simp [find, ha] at h
    · simp only [find, ha, if_false] at h
      simp [assign, ha, ih h]

end Map

namespace Species

theorem crossoverGenes_length (idx : Map Int Gene) (l : List Gene) (r : Random) :
    (crossoverGenes idx l r).1.length = l.length := by
  induction l generalizing r with
  | nil => rfl
  | cons x xs ih =>
    unfold crossoverGenes
    split
    · simp [ih]
    · simp [ih]

theorem copyRates_isSome (src child : Map String ℚ)
    (h : ∀ e ∈ src, (Map.find child e.1).isSome) : (copyRates src child).isSome := by
  induction src generalizing child with
  | nil => rfl
  | cons e rest ih =>
    obtain ⟨a, b⟩ := e
    obtain ⟨m1, hm1, hk⟩ := Map.assign_isSome child a b (h (a, b) (List.mem_cons_self _ _))
    unfold copyRates
    rw [hm1]
    apply ih
    intro e he
    rw [hk]
    exact h e (List.mem_cons_of_mem _ he)

/-- A genome built by `Genome::Genome()` has a rate under each of the seven names. -/
theorem find_new_isSome (name : String)
    (h : name ∈ ["connections", "link", "bias", "node", "enable", "disable", "step"]) :
    (Map.find Genome.new.mutationRates name).isSome := by
  simp only [List.mem_cons, List.mem_singleton, List.not_mem_nil, or_false] at h
  rcases h with h | h | h | h | h | h | h <;> subst h <;> decide

theorem crossover_self (g : Genome) (p : Pool)
    (h : ∀ e ∈ g.mutationRates,
      e.1 ∈ ["connections", "link", "bias", "node", "enable", "disable", "step"]) :
    ∃ child p1, crossover g g p = some (child, p1) ∧
      child.genes.length = g.genes.length ∧ child.maxNeuron = g.maxNeuron := by
  have hc := copyRates_isSome g.mutationRates Genome.new.mutationRates
    (fun e he => find_new_isSome e.1 (h e he))
  obtain ⟨rates, hr⟩ := Option.isSome_iff_exists.mp hc
  unfold crossover
  simp only [gt_iff_lt, lt_self_iff_false, if_false, hr, max_self]
  exact ⟨_, _, rfl, crossoverGenes_length _ _ _, rfl⟩

end Species

/-! ## What a mutation changes: totality and frame -/

namespace Pool
theorem SameFrame.refl (p : Pool) : SameFrame p p := ⟨rfl, rfl, rfl, rfl⟩

theorem SameFrame.trans {p q r : Pool} (h1 : SameFrame p q) (h2 : SameFrame q r) :
    SameFrame p r :=
  ⟨h2.1.trans h1.1, h2.2.1.trans h1.2.1, h2.2.2.1.trans h1.2.2.1, h2.2.2.2.trans h1.2.2.2⟩

theorem sameFrame_rand (p : Pool) (r : Random) : SameFrame p { p with rand := r } :=
  ⟨rfl, rfl, rfl, rfl⟩

theorem sameFrame_newInnovation (p : Pool) : SameFrame p p.newInnovation.2 :=
  ⟨rfl, rfl, rfl, rfl⟩
end Pool

namespace Map
variable {K V : Type} [DecidableEq K]
theorem ne_nil_of_find_isSome (m : Map K V) (k : K) (h : (find m k).isSome) : m ≠ [] := by
  intro hm
  subst hm
  simp [find] at h
end Map

namespace Genome

theorem perturbRates_find (m : Map String ℚ) (r : Random) (k : String) :
    (Map.find (perturbRates m r).1 k).isSome = (Map.find m k).isSome := by
  induction m generalizing r with
  | nil => rfl
  | cons e rest ih =>
    obtain ⟨a, b⟩ := e
    unfold perturbRates
    by_cases h : a = k
    · simp [Map.find, h]
    · simp [Map.find, h, ih]

theorem neuronCandidates_isSome (genes : List Gene) (nonInput : Bool) (inputSize : Int)
    (m : Map Int Bool) (k : Int) (h : (Map.find m k).isSome) :
    (Map.find (neuronCandidates genes nonInput inputSize m) k).isSome := by
  unfold neuronCandidates
  induction genes generalizing m with
  | nil => exact h
  | cons gene rest ih =>
    rw [List.foldl_cons]
    apply ih
    have h1 : (Map.find (if !nonInput || decide (gene.into > inputSize)
        then Map.insert m gene.into true else m) k).isSome := by
      split
      · exact Map.find_insert_isSome _ _ _ _ h
      · exact h
    simp only []
    split
    · exact Map.find_insert_isSome _ _ _ _ h1
    · exact h1

theorem randomNeuron_spec (g : Genome) (nonInput : Bool) (p : Pool) :
    ∃ n q, randomNeuron g nonInput p = some (n, q) ∧ Pool.SameFrame p q ∧
      q.innovation = p.innovation := by
  unfold randomNeuron
  simp only []
  have hne : Map.getSize (neuronCandidates g.genes nonInput p.inputSize
      ((List.range AI.Outputs).foldl (fun acc o => Map.insert acc (AI.MaxNodes + (o : Int)) true)
        (if !nonInput then
          (List.range p.inputSize.toNat).foldl (fun acc i => Map.insert acc (i : Int) true) []
        else []))) ≠ 0 := by
    have h0 := Map.find_foldl_mem (fun o : Nat => AI.MaxNodes + (o : Int)) (fun _ => true)
      (List.range AI.Outputs)
      (if !nonInput then
          (List.range p.inputSize.toNat).foldl (fun acc i => Map.insert acc (i : Int) true) []
        else []) 0 (by simp [AI.Outputs])
    have h1 := neuronCandidates_isSome g.genes nonInput p.inputSize _ _ h0
    have h2 := Map.ne_nil_of_find_isSome _ _ h1
    simpa [Map.getSize] using h2
  rw [if_neg hne]
  split
  · exact ⟨_, _, rfl, Pool.sameFrame_rand _ _, rfl⟩
  · exact ⟨_, _, rfl, Pool.sameFrame_rand _ _, rfl⟩

theorem pointMutate_spec (g : Genome) (p : Pool) (h : (Map.find g.mutationRates "step").isSome) :
    ∃ g1 q, pointMutate g p = some (g1, q) ∧ g1.mutationRates = g.mutationRates ∧
      Pool.SameFrame p q := by
  obtain ⟨step, hs⟩ := Option.isSome_iff_exists.mp h
  unfold pointMutate
  rw [hs]
  exact ⟨_, _, rfl, rfl, Pool.sameFrame_rand _ _⟩

theorem linkMutate_spec (g : Genome) (forceBias : Bool) (p : Pool) :
    ∃ g1 q, linkMutate g forceBias p = some (g1, q) ∧ g1.mutationRates = g.mutationRates ∧
      Pool.SameFrame p q := by
  obtain ⟨n1, p1, h1, f1, -⟩ := randomNeuron_spec g false p
  obtain ⟨n2, p2, h2, f2, -⟩ := randomNeuron_spec g true p1
  unfold linkMutate
  rw [h1]
  simp only [h2]
  split_ifs
  all_goals exact ⟨_, _, rfl, rfl, f1.trans f2⟩

theorem nodeMutate_spec (g : Genome) (p : Pool) :
    (nodeMutate g p).1.mutationRates = g.mutationRates ∧ Pool.SameFrame p (nodeMutate g p).2 := by
  unfold nodeMutate
  split
  · exact ⟨rfl, Pool.SameFrame.refl p⟩
  · simp only []
    split
    · exact ⟨rfl, Pool.sameFrame_rand _ _⟩
    · split
      · exact ⟨rfl, Pool.sameFrame_rand _ _⟩
      · exact ⟨rfl, ⟨rfl, rfl, rfl, rfl⟩⟩

theorem enableDisableMutate_spec (g : Genome) (enable : Bool) (p : Pool) :
    (enableDisableMutate g enable p).1.mutationRates = g.mutationRates ∧
      Pool.SameFrame p (enableDisableMutate g enable p).2 := by
  unfold enableDisableMutate
  simp only []
  split
  · exact ⟨rfl, Pool.SameFrame.refl p⟩
  · split
    · exact ⟨rfl, Pool.sameFrame_rand _ _⟩
    · split
      · exact ⟨rfl, Pool.sameFrame_rand _ _⟩
      · exact ⟨rfl, Pool.sameFrame_rand _ _⟩

theorem rateLoop_spec (op : Genome → Pool → Option (Genome × Pool))
    (hop : ∀ g p, ∃ g1 q, op g p = some (g1, q) ∧ g1.mutationRates = g.mutationRates ∧
      Pool.SameFrame p q)
    (fuel : Nat) (pr : ℚ) (g : Genome) (p : Pool) :
    ∃ g1 q, rateLoop op fuel pr g p = some (g1, q) ∧ g1.mutationRates = g.mutationRates ∧
      Pool.SameFrame p q := by
  induction fuel generalizing pr g p with
  | zero => exact ⟨g, p, rfl, rfl, Pool.SameFrame.refl p⟩
  | succ n ih =>
    unfold rateLoop
    by_cases hpos : pr > 0
    · rw [if_pos hpos]
      simp only []
      by_cases hlt : p.rand.getFloat.1 < pr
      · rw [if_pos hlt]
        obtain ⟨g1, q, h1, hr, hf⟩ := hop g { p with rand := p.rand.getFloat.2 }
        rw [h1]
        simp only []
        obtain ⟨g2, q2, h2, hr2, hf2⟩ := ih (pr - 1) g1 q
        exact ⟨g2, q2, h2, hr2.trans hr, (Pool.sameFrame_rand p _).trans (hf.trans hf2)⟩
      · rw [if_neg hlt]
        simp only []
        obtain ⟨g2, q2, h2, hr2, hf2⟩ := ih (pr - 1) g { p with rand := p.rand.getFloat.2 }
        exact ⟨g2, q2, h2, hr2, (Pool.sameFrame_rand p _).trans hf2⟩
    · rw [if_neg hpos]
      exact ⟨g, p, rfl, rfl, Pool.SameFrame.refl p⟩

theorem rateBlock_spec (name : String) (op : Genome → Pool → Option (Genome × Pool))
    (hop : ∀ g p, ∃ g1 q, op g p = some (g1, q) ∧ g1.mutationRates = g.mutationRates ∧
      Pool.SameFrame p q)
    (g : Genome) (p : Pool) (h : (Map.find g.mutationRates name).isSome) :
    ∃ g1 q, rateBlock name op g p = some (g1, q) ∧ g1.mutationRates = g.mutationRates ∧
      Pool.SameFrame p q := by
  obtain ⟨pr, hp⟩ := Option.isSome_iff_exists.mp h
  unfold rateBlock
  rw [hp]
  exact rateLoop_spec op hop _ _ _ _

theorem mutate_spec (g : Genome) (p : Pool) (h : g.HasRates) :
    ∃ g1 q, mutate g p = some (g1, q) ∧
      g1.mutationRates = (perturbRates g.mutationRates p.rand).1 ∧ Pool.SameFrame p q := by
  have hk : ∀ name ∈ rateNames,
      (Map.find (perturbRates g.mutationRates p.rand).1 name).isSome = true := by
    intro name hn
    rw [perturbRates_find]
    exact h name hn
  obtain ⟨c, hc⟩ := Option.isSome_iff_exists.mp (hk "connections" (by decide))
  unfold mutate
  simp only [hc]
  obtain ⟨g1, p2, e1, r1, f1⟩ :
      ∃ g1 q, (if (perturbRates g.mutationRates p.rand).2.getFloat.1 < c then
          pointMutate { g with mutationRates := (perturbRates g.mutationRates p.rand).1 }
            { p with rand := (perturbRates g.mutationRates p.rand).2.getFloat.2 }
        else some ({ g with mutationRates := (perturbRates g.mutationRates p.rand).1 },
            { p with rand := (perturbRates g.mutationRates p.rand).2.getFloat.2 })) = some (g1, q) ∧
        g1.mutationRates = (perturbRates g.mutationRates p.rand).1 ∧ Pool.SameFrame p q := by
    split
    · obtain ⟨g1, q, e, r, f⟩ := pointMutate_spec
        { g with mutationRates := (perturbRates g.mutationRates p.rand).1 }
        { p with rand := (perturbRates g.mutationRates p.rand).2.getFloat.2 }
        (hk "step" (by decide))
      exact ⟨g1, q, e, r, (Pool.sameFrame_rand p _).trans f⟩
    · exact ⟨_, _, rfl, rfl, Pool.sameFrame_rand p _⟩
  rw [e1]
  simp only []
  obtain ⟨g2, p3, e2, r2, f2⟩ := rateBlock_spec "link" (fun x q => linkMutate x false q)
    (fun x q => linkMutate_spec x false q) g1 p2 (by rw [r1]; exact hk "link" (by decide))
  rw [e2]
  simp only []
  obtain ⟨g3, p4, e3, r3, f3⟩ := rateBlock_spec "bias" (fun x q => linkMutate x true q)
    (fun x q => linkMutate_spec x true q) g2 p3 (by rw [r2, r1]; exact hk "bias" (by decide))
  rw [e3]
  simp only []
  obtain ⟨g4, p5, e4, r4, f4⟩ := rateBlock_spec "node" (fun x q => some (nodeMutate x q))
    (fun x q => ⟨_, _, rfl, (nodeMutate_spec x q).1, (nodeMutate_spec x q).2⟩) g3 p4
    (by rw [r3, r2, r1]; exact hk "node" (by decide))
  rw [e4]
  simp only []
  obtain ⟨g5, p6, e5, r5, f5⟩ := rateBlock_spec "enable"
    (fun x q => some (enableDisableMutate x true q))
    (fun x q => ⟨_, _, rfl, (enableDisableMutate_spec x true q).1,
      (enableDisableMutate_spec x true q).2⟩) g4 p5
    (by rw [r4, r3, r2, r1]; exact hk "enable" (by decide))
  rw [e5]
  simp only []
  obtain ⟨g6, p7, e6, r6, f6⟩ := rateBlock_spec "disable"
    (fun x q => some (enableDisableMutate x false q))
    (fun x q => ⟨_, _, rfl, (enableDisableMutate_spec x false q).1,
      (enableDisableMutate_spec x false q).2⟩) g5 p6
    (by rw [r5, r4, r3, r2, r1]; exact hk "disable" (by decide))
  exact ⟨g6, p7, e6, by rw [r6, r5, r4, r3, r2, r1],
    f1.trans (f2.trans (f3.trans (f4.trans (f5.trans f6))))⟩

end Genome

/-! ## Speciation and `Pool::init` -/

namespace Pool

/-- The total of a pool is the sum of the sizes of its species. -/
theorem totalGenomes_eq (p : Pool) :
    p.totalGenomes = (p.species.map (fun s => s.genomes.length)).sum := rfl

theorem addToList_spec (child : Genome) (l : List Species)
    (h : ∀ spec ∈ l, spec.genomes ≠ []) :
    ∃ l1, addToList child l = some l1 ∧ (∀ spec ∈ l1, spec.genomes ≠ []) ∧
      (1 ≤ l1.length ∧ l.length ≤ l1.length) ∧
      (l1.map (fun s => s.genomes.length)).sum = (l.map (fun s => s.genomes.length)).sum + 1 := by
  induction l with
  | nil =>
    refine ⟨[{ genomes := [child] }], rfl, ?_, by simp, by simp⟩
    intro spec hs
    simp at hs
    subst hs
    simp
  | cons spec rest ih =>
    have hne := h spec (List.mem_cons_self _ _)
    obtain ⟨l1, e1, n1, ⟨-, k1⟩, s1⟩ := ih (fun x hx => h x (List.mem_cons_of_mem _ hx))
    unfold addToList
    cases hg : spec.genomes with
    | nil => exact absurd hg hne
    | cons first more =>
      simp only []
      by_cases hs : Species.sameSpecies child first = true
      · rw [if_pos hs]
        refine ⟨_, rfl, ?_, by simp, ?_⟩
        · intro x hx
          rcases List.mem_cons.mp hx with hx | hx
          · subst hx; simp
          · exact h x (List.mem_cons_of_mem _ hx)
        · simp [hg]; omega
      · rw [if_neg hs, e1]
        refine ⟨spec :: l1, rfl, ?_, by simpa using k1, ?_⟩
        · intro x hx
          rcases List.mem_cons.mp hx with hx | hx
          · subst hx; exact hne
          · exact n1 x hx
        · simp [s1, hg]; omega

theorem addToSpecies_spec (p : Pool) (child : Genome)
    (h : ∀ spec ∈ p.species, spec.genomes ≠ []) :
    ∃ q, addToSpecies p child = some q ∧ (∀ spec ∈ q.species, spec.genomes ≠ []) ∧
      (1 ≤ q.species.length ∧ p.species.length ≤ q.species.length) ∧
      q.totalGenomes = p.totalGenomes + 1 ∧ q.inputSize = p.inputSize := by
  obtain ⟨l1, e1, n1, k1, s1⟩ := addToList_spec child p.species h
  exact ⟨{ p with species := l1 }, by simp [addToSpecies, e1], n1, k1, s1, rfl⟩

theorem initLoop_spec (count : Nat) (p : Pool) (h : ∀ spec ∈ p.species, spec.genomes ≠ []) :
    ∃ q, initLoop count p = some q ∧ (∀ spec ∈ q.species, spec.genomes ≠ []) ∧
      ((1 ≤ count → 1 ≤ q.species.length) ∧ p.species.length ≤ q.species.length) ∧
      q.totalGenomes = p.totalGenomes + count := by
  induction count generalizing p with
  | zero => exact ⟨p, rfl, h, by simp, rfl⟩
  | succ n ih =>
    obtain ⟨g1, p1, e1, -, f1⟩ := Genome.mutate_spec { Genome.new with maxNeuron := p.inputSize } p
      (fun name hn => Species.find_new_isSome name hn)
    obtain ⟨p2, e2, n2, k2, t2, -⟩ := addToSpecies_spec p1 g1 (by rw [f1.1]; exact h)
    obtain ⟨q, e3, n3, ⟨-, k3⟩, t3⟩ := ih p2 n2
    refine ⟨q, ?_, n3, ?_, ?_⟩
    · unfold initLoop
      rw [e1]
      simp only [e2]
      exact e3
    · have := f1.1
      constructor
      · intro _; omega
      · rw [← this]; omega
    · rw [t3, t2]
      simp [totalGenomes, f1.1]
      omega

/-! ## Sizes of the species through the steps of a generation -/

theorem modifyAt_map {α β : Type} (f : α → α) (k : α → β) (h : ∀ x, k (f x) = k x)
    (l : List α) (n : Nat) : (modifyAt f l n).map k = l.map k := by
  induction l generalizing n with
  | nil => rfl
  | cons x xs ih =>
    cases n with
    | zero => simp [modifyAt, h]
    | succ m => simp [modifyAt, ih]

theorem setRank_length (genomes : List Genome) (g r : Nat) :
    (setRank genomes g r).length = genomes.length := by
  have := congrArg List.length
    (modifyAt_map (fun genome : Genome => { genome with globalRank := (r : Int) })
      (fun _ => ()) (fun _ => rfl) genomes g)
  simpa [setRank] using this

theorem assignRanks_sizes (l : List (Nat × Nat × Int)) (r : Nat) (species : List Species) :
    (assignRanks l r species).map (fun s => s.genomes.length) =
      species.map (fun s => s.genomes.length) := by
  induction l generalizing r species with
  | nil => rfl
  | cons e rest ih =>
    obtain ⟨s, g, f⟩ := e
    unfold assignRanks
    rw [ih]
    exact modifyAt_map (fun spec : Species => { spec with genomes := setRank spec.genomes g r })
      (fun s : Species => s.genomes.length) (fun spec => setRank_length spec.genomes g r) species s

theorem rankGlobally_sizes (p : Pool) :
    (p.rankGlobally).species.map (fun s => s.genomes.length) =
      p.species.map (fun s => s.genomes.length) :=
  assignRanks_sizes _ _ _

theorem staleUpdate_ne_nil (spec spec1 : Species) (h : staleUpdate spec = some spec1) :
    spec1.genomes.length ≠ 0 := by
  unfold staleUpdate at h
  split at h
  · simp at h
  · split at h <;>
    · injection h with h
      subst h
      simp

theorem staleSurvivors_sizes (maxFitness : Int) (l l1 : List Species)
    (h : staleSurvivors maxFitness l = some l1) :
    ∀ n ∈ l1.map (fun s => s.genomes.length), n ≠ 0 := by
  induction l generalizing l1 with
  | nil =>
    simp [staleSurvivors] at h
    subst h
    simp
  | cons spec rest ih =>
    unfold staleSurvivors at h
    cases hu : staleUpdate spec with
    | none => rw [hu] at h; simp at h
    | some spec1 =>
      rw [hu] at h
      simp only [] at h
      cases hr : staleSurvivors maxFitness rest with
      | none => rw [hr] at h; simp at h
      | some survived =>
        rw [hr] at h
        simp only [] at h
        have ih1 := ih survived hr
        split at h
        · injection h with h
          subst h
          intro n hn
          simp only [List.map_cons, List.mem_cons] at hn
          rcases hn with hn | hn
          · subst hn
            exact staleUpdate_ne_nil spec spec1 hu
          · exact ih1 n hn
        · injection h with h
          subst h
          exact ih1

theorem removeWeakSpecies_sizes (p : Pool)
    (h : ∀ n ∈ p.species.map (fun s => s.genomes.length), n ≠ 0) :
    ∀ n ∈ p.removeWeakSpecies.species.map (fun s => s.genomes.length), n ≠ 0 := by
  intro n hn
  simp only [removeWeakSpecies, List.mem_map, List.mem_filter] at hn
  obtain ⟨spec, ⟨hs, -⟩, rfl⟩ := hn
  exact h _ (List.mem_map_of_mem _ hs)

theorem calculateAverageFitness_genomes (s : Species) :
    (Species.calculateAverageFitness s).genomes = s.genomes := by
  unfold Species.calculateAverageFitness
  simp only []
  split <;> rfl

theorem cullSpecies_true_total (p : Pool)
    (h : ∀ n ∈ p.species.map (fun s => s.genomes.length), n ≠ 0) :
    (p.cullSpecies true).totalGenomes = p.species.length := by
  have key : ∀ l : List Species, (∀ n ∈ l.map (fun s => s.genomes.length), n ≠ 0) →
      ((l.map (cullOne true)).map (fun s => s.genomes.length)).sum = l.length := by
    intro l
    induction l with
    | nil => intro _; rfl
    | cons spec rest ih =>
      intro hl
      have hne : spec.genomes ≠ [] := by
        have := hl spec.genomes.length (by simp)
        intro hc
        exact this (by simp [hc])
      obtain ⟨best, hb, -⟩ := cullOne_true spec hne
      have := ih (fun n hn => hl n (by simp only [List.map_cons, List.mem_cons]; exact Or.inr hn))
      simp only [List.map_cons, List.sum_cons, List.length_cons, this, hb]
      simp only [List.length_singleton, List.length_nil]
      omega
  exact key p.species h

end Pool

/-! ## The frame of a breeding step -/

namespace Genome

theorem rateLoop_frame (op : Genome → Pool → Option (Genome × Pool))
    (hop : ∀ g p g1 q, op g p = some (g1, q) → Pool.SameFrame p q)
    (fuel : Nat) (pr : ℚ) (g : Genome) (p : Pool) (g1 : Genome) (q : Pool)
    (h : rateLoop op fuel pr g p = some (g1, q)) : Pool.SameFrame p q := by
  induction fuel generalizing pr g p with
  | zero =>
    simp only [rateLoop, Option.some.injEq, Prod.mk.injEq] at h
    rw [← h.2]
    exact Pool.SameFrame.refl p
  | succ n ih =>
    unfold rateLoop at h
    by_cases hpos : pr > 0
    · rw [if_pos hpos] at h
      simp only [] at h
      by_cases hlt : p.rand.getFloat.1 < pr
      · rw [if_pos hlt] at h
        cases ho : op g { p with rand := p.rand.getFloat.2 } with
        | none => rw [ho] at h; simp at h
        | some r =>
          obtain ⟨g2, p2⟩ := r
          rw [ho] at h
          exact (Pool.sameFrame_rand p _).trans ((hop _ _ _ _ ho).trans (ih _ _ _ h))
      · rw [if_neg hlt] at h
        exact (Pool.sameFrame_rand p _).trans (ih _ _ _ h)
    · rw [if_neg hpos] at h
      simp only [Option.some.injEq, Prod.mk.injEq] at h
      rw [← h.2]
      exact Pool.SameFrame.refl p

theorem rateBlock_frame (name : String) (op : Genome → Pool → Option (Genome × Pool))
    (hop : ∀ g p g1 q, op g p = some (g1, q) → Pool.SameFrame p q)
    (g : Genome) (p : Pool) (g1 : Genome) (q : Pool)
    (h : rateBlock name op g p = some (g1, q)) : Pool.SameFrame p q := by
  unfold rateBlock at h
  split at h
  · simp at h
  · exact rateLoop_frame op hop _ _ _ _ _ _ h

theorem pointMutate_frame (g : Genome) (p : Pool) (g1 : Genome) (q : Pool)
    (h : pointMutate g p = some (g1, q)) : Pool.SameFrame p q := by
  unfold pointMutate at h
  split at h
  · simp at h
  · simp only [Option.some.injEq, Prod.mk.injEq] at h
    rw [← h.2]
    exact Pool.sameFrame_rand p _

theorem linkMutate_frame (forceBias : Bool) (g : Genome) (p : Pool) (g1 : Genome) (q : Pool)
    (h : linkMutate g forceBias p = some (g1, q)) : Pool.SameFrame p q := by
  obtain ⟨g2, q2, e, -, f⟩ := linkMutate_spec g forceBias p
  rw [e] at h
  simp only [Option.some.injEq, Prod.mk.injEq] at h
  rw [← h.2]
  exact f

theorem mutate_frame (g : Genome) (p : Pool) (g1 : Genome) (q : Pool)
    (h : mutate g p = some (g1, q)) : Pool.SameFrame p q := by
  have hnode : ∀ (x : Genome) (a : Pool) (x1 : Genome) (a1 : Pool),
      (fun x q => some (nodeMutate x q)) x a = some (x1, a1) → Pool.SameFrame a a1 := by
    intro x a x1 a1 hx
    simp only [Option.some.injEq] at hx
    have := (nodeMutate_spec x a).2
    rw [hx] at this
    exact this
  have htog : ∀ (e : Bool) (x : Genome) (a : Pool) (x1 : Genome) (a1 : Pool),
      (fun x q => some (enableDisableMutate x e q)) x a = some (x1, a1) →
        Pool.SameFrame a a1 := by
    intro e x a x1 a1 hx
    simp only [Option.some.injEq] at hx
    have := (enableDisableMutate_spec x e a).2
    rw [hx] at this
    exact this
  unfold mutate at h
  simp only [] at h
  split at h
  · simp at h
  · rename_i c hc
    cases h1 : (if (perturbRates g.mutationRates p.rand).2.getFloat.1 < c then
          pointMutate { g with mutationRates := (perturbRates g.mutationRates p.rand).1 }
            { p with rand := (perturbRates g.mutationRates p.rand).2.getFloat.2 }
        else some ({ g with mutationRates := (perturbRates g.mutationRates p.rand).1 },
            { p with rand := (perturbRates g.mutationRates p.rand).2.getFloat.2 })) with
    | none => rw [h1] at h; simp at h
    | some r1 =>
      obtain ⟨x1, a1⟩ := r1
      rw [h1] at h
      simp only [] at h
      have f1 : Pool.SameFrame p a1 := by
        split at h1
        · exact (Pool.sameFrame_rand p _).trans (pointMutate_frame _ _ _ _ h1)
        · simp only [Option.some.injEq, Prod.mk.injEq] at h1
          rw [← h1.2]
          exact Pool.sameFrame_rand p _
      cases h2 : rateBlock "link" (fun x q => linkMutate x false q) x1 a1 with
      | none => rw [h2] at h; simp at h
      | some r2 =>
        obtain ⟨x2, a2⟩ := r2
        rw [h2] at h
        simp only [] at h
        have f2 := rateBlock_frame _ _ (linkMutate_frame false) _ _ _ _ h2
        cases h3 : rateBlock "bias" (fun x q => linkMutate x true q) x2 a2 with
        | none => rw [h3] at h; simp at h
        | some r3 =>
          obtain ⟨x3, a3⟩ := r3
          rw [h3] at h
          simp only [] at h
          have f3 := rateBlock_frame _ _ (linkMutate_frame true) _ _ _ _ h3
          cases h4 : rateBlock "node" (fun x q => some (nodeMutate x q)) x3 a3 with
          | none => rw [h4] at h; simp at h
          | some r4 =>
            obtain ⟨x4, a4⟩ := r4
            rw [h4] at h
            simp only [] at h
            have f4 := rateBlock_frame _ _ hnode _ _ _ _ h4
            cases h5 : rateBlock "enable" (fun x q => some (enableDisableMutate x true q))
                x4 a4 with
            | none => rw [h5] at h; simp at h
            | some r5 =>
              obtain ⟨x5, a5⟩ := r5
              rw [h5] at h
              simp only [] at h
              have f5 := rateBlock_frame _ _ (htog true) _ _ _ _ h5
              have f6 := rateBlock_frame _ _ (htog false) _ _ _ _ h
              exact f1.trans (f2.trans (f3.trans (f4.trans (f5.trans f6))))

end Genome

namespace Species

theorem crossover_frame (g1 g2 : Genome) (p : Pool) (child : Genome) (q : Pool)
    (h : crossover g1 g2 p = some (child, q)) : Pool.SameFrame p q := by
  unfold crossover at h
  simp only [] at h
  split at h
  · simp at h
  · simp only [Option.some.injEq, Prod.mk.injEq] at h
    rw [← h.2]
    exact Pool.sameFrame_rand p _

theorem breedChild_frame (s : Species) (p : Pool) (child : Genome) (q : Pool)
    (h : breedChild s p = some (child, q)) : Pool.SameFrame p q := by
  unfold breedChild at h
  split at h
  · simp at h
  · simp only [] at h
    split at h
    · simp at h
    · rename_i c p1 hb
      have f1 : Pool.SameFrame p p1 := by
        split at hb
        · split at hb
          · exact (Pool.sameFrame_rand p _).trans (crossover_frame _ _ _ _ _ hb)
          · simp at hb
        · split at hb
          · simp only [Option.some.injEq, Prod.mk.injEq] at hb
            rw [← hb.2]
            exact Pool.sameFrame_rand p _
          · simp at hb
      exact f1.trans (Genome.mutate_frame _ _ _ _ h)

end Species

/-! ## The population after a generation -/

namespace Pool

theorem breedMany_spec (spec : Species) (count : Nat) (children : List Genome) (p : Pool)
    (children1 : List Genome) (q : Pool)
    (h : breedMany spec count children p = some (children1, q)) :
    children1.length = children.length + count ∧ SameFrame p q := by
  induction count generalizing children p with
  | zero =>
    simp only [breedMany, Option.some.injEq, Prod.mk.injEq] at h
    rw [← h.1, ← h.2]
    exact ⟨rfl, SameFrame.refl p⟩
  | succ n ih =>
    unfold breedMany at h
    cases hb : Species.breedChild spec p with
    | none => rw [hb] at h; simp at h
    | some r =>
      obtain ⟨child, p1⟩ := r
      rw [hb] at h
      simp only [] at h
      obtain ⟨hl, hf⟩ := ih _ _ h
      refine ⟨?_, (Species.breedChild_frame _ _ _ _ hb).trans hf⟩
      rw [hl]
      simp
      omega

theorem breedAll_spec (sum : Int) (l : List Species) (children : List Genome) (p : Pool)
    (children1 : List Genome) (q : Pool)
    (h : breedAll sum l children p = some (children1, q)) :
    children1.length =
        children.length + (l.map (fun s => (breedQuota s.averageFitness sum).toNat)).sum ∧
      SameFrame p q ∧ (l ≠ [] → sum ≠ 0) := by
  induction l generalizing children p with
  | nil =>
    simp only [breedAll, Option.some.injEq, Prod.mk.injEq] at h
    rw [← h.1, ← h.2]
    exact ⟨rfl, SameFrame.refl p, fun hc => absurd rfl hc⟩
  | cons spec rest ih =>
    unfold breedAll at h
    by_cases hs : sum = 0
    · rw [if_pos hs] at h; simp at h
    · rw [if_neg hs] at h
      cases hb : breedMany spec (breedQuota spec.averageFitness sum).toNat children p with
      | none => rw [hb] at h; simp at h
      | some r =>
        obtain ⟨c1, p1⟩ := r
        rw [hb] at h
        simp only [] at h
        obtain ⟨hl1, hf1⟩ := breedMany_spec _ _ _ _ _ _ hb
        obtain ⟨hl2, hf2, -⟩ := ih _ _ h
        refine ⟨?_, hf1.trans hf2, fun _ => hs⟩
        rw [hl2, hl1]
        simp
        omega

theorem topUp_spec (fuel : Nat) (children : List Genome) (p : Pool)
    (children1 : List Genome) (q : Pool)
    (h : topUp fuel children p = some (children1, q)) :
    children.length ≤ children1.length ∧ SameFrame p q := by
  induction fuel generalizing children p with
  | zero =>
    simp only [topUp, Option.some.injEq, Prod.mk.injEq] at h
    rw [← h.1, ← h.2]
    exact ⟨le_refl _, SameFrame.refl p⟩
  | succ n ih =>
    unfold topUp at h
    split at h
    · split at h
      · simp at h
      · simp only [] at h
        split at h
        · simp at h
        · rename_i spec hspec
          cases hb : Species.breedChild spec { p with rand := p.rand.getUint32.2 } with
          | none => rw [hb] at h; simp at h
          | some r =>
            obtain ⟨child, p1⟩ := r
            rw [hb] at h
            simp only [] at h
            obtain ⟨hl, hf⟩ := ih _ _ h
            refine ⟨?_, (sameFrame_rand p _).trans
              ((Species.breedChild_frame _ _ _ _ hb).trans hf)⟩
            simp at hl
            omega
    · simp only [Option.some.injEq, Prod.mk.injEq] at h
      rw [← h.1, ← h.2]
      exact ⟨le_refl _, SameFrame.refl p⟩

theorem addToList_total (child : Genome) (l l1 : List Species)
    (h : addToList child l = some l1) :
    (l1.map (fun s => s.genomes.length)).sum = (l.map (fun s => s.genomes.length)).sum + 1 := by
  induction l generalizing l1 with
  | nil =>
    simp only [addToList, Option.some.injEq] at h
    subst h
    simp
  | cons spec rest ih =>
    unfold addToList at h
    split at h
    · simp at h
    · rename_i first more hg
      split at h
      · simp only [Option.some.injEq] at h
        subst h
        simp
        omega
      · cases hr : addToList child rest with
        | none => rw [hr] at h; simp at h
        | some r =>
          rw [hr] at h
          simp only [Option.map_some', Option.some.injEq] at h
          subst h
          simp [ih r hr]
          omega

theorem addAll_total (children : List Genome) (p q : Pool) (h : addAll children p = some q) :
    q.totalGenomes = p.totalGenomes + children.length := by
  induction children generalizing p with
  | nil =>
    simp only [addAll, Option.some.injEq] at h
    subst h
    rfl
  | cons child rest ih =>
    unfold addAll at h
    cases ha : addToSpecies p child with
    | none => rw [ha] at h; simp at h
    | some p1 =>
      rw [ha] at h
      simp only [] at h
      rw [ih p1 h]
      unfold addToSpecies at ha
      cases hl : addToList child p.species with
      | none => rw [hl] at ha; simp at ha
      | some l1 =>
        rw [hl] at ha
        simp only [Option.map_some', Option.some.injEq] at ha
        subst ha
        have := addToList_total child p.species l1 hl
        simp only [totalGenomes, List.length_cons]
        omega

/-- The quotas of a nonempty list of species overshoot: with `sum` the total
of the averages and not zero, the floors add up to more than `Population`
minus the number of species. -/
theorem quota_sum_gt (l : List Species)
    (hs : (l.map (fun s => s.averageFitness)).sum ≠ 0) :
    AI.Population < l.length +
      (l.map (fun s =>
        (breedQuota s.averageFitness (l.map (fun s => s.averageFitness)).sum).toNat)).sum := by
  generalize hsum : (l.map (fun s => s.averageFitness)).sum = sum at hs ⊢
  have hq : (sum : ℚ) ≠ 0 := by exact_mod_cast hs
  have key : ∀ m : List Species, m ≠ [] →
      (((m.map (fun s => s.averageFitness)).sum : Int) : ℚ) / (sum : ℚ) * (AI.Population : ℚ) <
        ((m.length + (m.map (fun s => (breedQuota s.averageFitness sum).toNat)).sum : Nat) : ℚ) := by
    have one : ∀ s : Species, (s.averageFitness : ℚ) / (sum : ℚ) * (AI.Population : ℚ) <
        (((breedQuota s.averageFitness sum).toNat : Nat) : ℚ) + 1 := by
      intro s
      have h1 := Int.lt_floor_add_one ((s.averageFitness : ℚ) / (sum : ℚ) * (AI.Population : ℚ))
      have h2 : (breedQuota s.averageFitness sum : ℚ) ≤
          (((breedQuota s.averageFitness sum).toNat : Nat) : ℚ) := by
        have := Int.self_le_toNat (breedQuota s.averageFitness sum)
        exact_mod_cast this
      simp only [breedQuota] at h2 ⊢
      linarith
    intro m
    induction m with
    | nil => intro h; exact absurd rfl h
    | cons s rest ih =>
      intro _
      have h1 := one s
      by_cases hr : rest = []
      · subst hr
        simp only [List.map_cons, List.map_nil, List.sum_cons, List.sum_nil, List.length_cons,
          List.length_nil, add_zero, zero_add, Nat.cast_add, Nat.cast_one]
        linarith
      · have h2 := ih hr
        simp only [List.map_cons, List.sum_cons, List.length_cons, Nat.cast_add, Nat.cast_one,
          Int.cast_add]
        simp only [Nat.cast_add] at h2
        have : ((s.averageFitness : ℚ) + ((rest.map (fun s => s.averageFitness)).sum : Int)) /
            (sum : ℚ) * (AI.Population : ℚ) =
            (s.averageFitness : ℚ) / (sum : ℚ) * (AI.Population : ℚ) +
            (((rest.map (fun s => s.averageFitness)).sum : Int) : ℚ) / (sum : ℚ) *
              (AI.Population : ℚ) := by ring
        rw [this]
        linarith
  have hne : l ≠ [] := by
    intro hl
    subst hl
    simp at hsum
    exact hs hsum.symm
  have := key l hne
  rw [hsum, div_self hq, one_mul] at this
  exact_mod_cast this


theorem newGeneration_total_gt (p q : Pool) (h : newGeneration p = some q) :
    AI.Population < q.totalGenomes := by
  unfold newGeneration at h
  simp only [] at h
  cases h2 : ((p.cullSpecies false).rankGlobally).removeStaleSpecies with
  | none => rw [h2] at h; simp at h
  | some p2 =>
    rw [h2] at h
    simp only [] at h
    -- every species that survives the staleness test holds a genome
    have n2 : ∀ n ∈ p2.species.map (fun s => s.genomes.length), n ≠ 0 := by
      unfold removeStaleSpecies at h2
      split at h2
      · simp at h2
      · rename_i survived hs
        simp only [Option.some.injEq] at h2
        subst h2
        exact staleSurvivors_sizes _ _ _ hs
    have n4 : ∀ n ∈ (p2.rankGlobally.species.map Species.calculateAverageFitness).map
        (fun s => s.genomes.length), n ≠ 0 := by
      intro n hn
      rw [List.map_map] at hn
      have : ((fun s : Species => s.genomes.length) ∘ Species.calculateAverageFitness) =
          (fun s : Species => s.genomes.length) := by
        funext s
        simp [calculateAverageFitness_genomes]
      rw [this, rankGlobally_sizes] at hn
      exact n2 n hn
    generalize hp5 : ({ p2.rankGlobally with
        species := p2.rankGlobally.species.map Species.calculateAverageFitness } :
          Pool).removeWeakSpecies = p5 at h
    have n5 : ∀ n ∈ p5.species.map (fun s => s.genomes.length), n ≠ 0 := by
      rw [← hp5]
      exact removeWeakSpecies_sizes _ n4
    cases h6 : breedAll p5.totalAverageFitness p5.species [] p5 with
    | none => rw [h6] at h; simp at h
    | some r6 =>
      obtain ⟨children, p6⟩ := r6
      rw [h6] at h
      simp only [] at h
      obtain ⟨hl6, hf6, hsum⟩ := breedAll_spec _ _ _ _ _ _ h6
      cases h8 : topUp (AI.Population - (children.length + (p6.cullSpecies true).species.length))
          children (p6.cullSpecies true) with
      | none => rw [h8] at h; simp at h
      | some r8 =>
        obtain ⟨children1, p8⟩ := r8
        rw [h8] at h
        simp only [] at h
        obtain ⟨hl8, hf8⟩ := topUp_spec _ _ _ _ _ h8
        cases h9 : addAll children1 p8 with
        | none => rw [h9] at h; simp at h
        | some p9 =>
          rw [h9] at h
          simp only [Option.some.injEq] at h
          subst h
          have t9 := addAll_total _ _ _ h9
          have t8 : p8.totalGenomes = (p6.cullSpecies true).totalGenomes := by
            simp only [totalGenomes, hf8.1]
          have t7 : (p6.cullSpecies true).totalGenomes = p5.species.length := by
            rw [cullSpecies_true_total p6 (by rw [hf6.1]; exact n5), hf6.1]
          have hne : p5.species ≠ [] := by
            intro hnil
            -- without species the loop at lines 658 to 661 cannot pick one
            have hlen : (p6.cullSpecies true).species.length = 0 := by
              simp [cullSpecies, hf6.1, hnil]
            have hc : children.length = 0 := by
              rw [hl6, hnil]; rfl
            rw [hc, hlen] at h8
            simp only [add_zero, Nat.sub_zero] at h8
            have : AI.Population = 299 + 1 := rfl
            rw [this] at h8
            unfold topUp at h8
            simp [hc, hlen, AI.Population] at h8
          have hq := quota_sum_gt p5.species (hsum hne)
          show AI.Population < totalGenomes p9
          have e9 : totalGenomes p9 = p9.totalGenomes := rfl
          simp only [totalGenomes] at t9 t8 t7 ⊢
          simp only [totalAverageFitness, List.length_nil, zero_add] at hl6
          omega

end Pool

/-! ## The activation function over the reals -/

namespace Genome

theorem sigmoid_strictMono : StrictMono sigmoid := by
  intro x y hxy
  unfold sigmoid
  have hx : 0 < 1 + Real.exp (-(49 / 10) * x) := by positivity
  have hy : 0 < 1 + Real.exp (-(49 / 10) * y) := by positivity
  have he : Real.exp (-(49 / 10) * y) < Real.exp (-(49 / 10) * x) := by
    apply Real.exp_lt_exp.mpr
    linarith
  have : 2 / (1 + Real.exp (-(49 / 10) * x)) < 2 / (1 + Real.exp (-(49 / 10) * y)) := by
    apply div_lt_div_of_pos_left (by norm_num) hy
    linarith
  linarith

theorem sigmoid_zero : sigmoid 0 = 0 := by
  unfold sigmoid
  norm_num

theorem sigmoid_bounds (x : ℝ) : -1 < sigmoid x ∧ sigmoid x < 1 := by
  unfold sigmoid
  have he : 0 < Real.exp (-(49 / 10) * x) := Real.exp_pos _
  have hx : 0 < 1 + Real.exp (-(49 / 10) * x) := by positivity
  constructor
  · have : 0 < 2 / (1 + Real.exp (-(49 / 10) * x)) := by positivity
    linarith
  · have : 2 / (1 + Real.exp (-(49 / 10) * x)) < 2 := by
      rw [div_lt_iff₀ hx]
      linarith
    linarith

end Genome

/-! ## Persistence: reading back what was written -/

theorem Doc.readItems_map {α β : Type} (write : α → β) (read : β → Option α) (k : α → α)
    (h : ∀ x, read (write x) = some (k x)) (l : List α) :
    Doc.readItems read (l.map write) = some (l.map k) := by
  induction l with
  | nil => rfl
  | cons x xs ih => simp [Doc.readItems, h, ih]

theorem Gene.read_write_gene (g : Gene) : Gene.read {} (Gene.write g) = some g := by
  simp [Gene.read, Gene.write, Doc.field, Map.find, Doc.asInt, Doc.asNum, Doc.asBool]

theorem Doc.asRates_ofRates (rates : Map String ℚ) :
    Doc.asRates (Doc.ofRates rates) = some rates := by
  have := Doc.readItems_map (fun e : String × ℚ => (e.1, Doc.num e.2))
    (fun e => (Doc.asNum e.2).map (fun q => (e.1, q))) id (fun x => rfl) rates
  simpa [Doc.asRates, Doc.ofRates] using this

theorem Doc.readItems_proj {α β γ : Type} (write : α → β) (read : β → Option α) (proj : α → γ)
    (h : ∀ x, ∃ y, read (write x) = some y ∧ proj y = proj x) (l : List α) :
    ∃ ys, Doc.readItems read (l.map write) = some ys ∧ ys.map proj = l.map proj := by
  induction l with
  | nil => exact ⟨[], rfl, rfl⟩
  | cons x xs ih =>
    obtain ⟨y, hy, hp⟩ := h x
    obtain ⟨ys, hys, hps⟩ := ih
    exact ⟨y :: ys, by simp [Doc.readItems, hy, hys], by simp [hp, hps]⟩

theorem Genome.read_write_genome (g0 g : Genome) :
    ∃ g1, Genome.read g0 (Genome.write g) = some g1 ∧
      (g1.genes, g1.fitness, g1.mutationRates) = (g.genes, g.fitness, g.mutationRates) := by
  have hg := Doc.readItems_map Gene.write (Gene.read {}) id Gene.read_write_gene g.genes
  simp only [List.map_id] at hg
  cases hres : Genome.read g0 (Genome.write g) with
  | none =>
    simp [Genome.read, Genome.write, Doc.field, Map.find, Doc.asInt, Doc.asList,
      Doc.asRates_ofRates, hg] at hres
  | some g1 =>
    simp [Genome.read, Genome.write, Doc.field, Map.find, Doc.asInt, Doc.asList,
      Doc.asRates_ofRates, hg] at hres
    subst hres
    exact ⟨_, rfl, rfl⟩

theorem Species.read_write_species (s0 s : Species) :
    ∃ s1, Species.read s0 (Species.write s) = some s1 ∧
      s1.genomes.map (fun g => (g.genes, g.fitness, g.mutationRates)) =
        s.genomes.map (fun g => (g.genes, g.fitness, g.mutationRates)) := by
  obtain ⟨ys, hys, hp⟩ := Doc.readItems_proj Genome.write (Genome.read Genome.new)
    (fun g => (g.genes, g.fitness, g.mutationRates)) (Genome.read_write_genome Genome.new) s.genomes
  cases hres : Species.read s0 (Species.write s) with
  | none =>
    simp [Species.read, Species.write, Doc.field, Map.find, Doc.asInt, Doc.asList, hys] at hres
  | some s1 =>
    simp [Species.read, Species.write, Doc.field, Map.find, Doc.asInt, Doc.asList, hys] at hres
    subst hres
    exact ⟨_, rfl, hp⟩

theorem Pool.read_write_pool (fresh p : Pool) :
    ∃ q, Pool.read fresh (Pool.write p) = some q ∧
      q.generation = p.generation ∧ q.maxFitness = p.maxFitness ∧
      q.species.map (fun s => s.genomes.map (fun g => (g.genes, g.fitness, g.mutationRates))) =
        p.species.map (fun s => s.genomes.map (fun g => (g.genes, g.fitness, g.mutationRates))) := by
  obtain ⟨ys, hys, hp⟩ := Doc.readItems_proj Species.write (Species.read {})
    (fun s => s.genomes.map (fun g => (g.genes, g.fitness, g.mutationRates)))
    (Species.read_write_species {}) p.species
  cases hres : Pool.read fresh (Pool.write p) with
  | none =>
    simp [Pool.read, Pool.write, Doc.field, Map.find, Doc.asInt, Doc.asList, hys] at hres
  | some q =>
    simp [Pool.read, Pool.write, Doc.field, Map.find, Doc.asInt, Doc.asList, hys] at hres
    subst hres
    exact ⟨_, rfl, rfl, rfl, hp⟩

/-! ## Ranks after `Pool::rankGlobally` -/

namespace Pool

theorem modifyAt_getElem? {α : Type} (f : α → α) (l : List α) (n m : Nat) :
    (modifyAt f l n)[m]? = if m = n then (l[m]?).map f else l[m]? := by
  induction l generalizing n m with
  | nil => simp [modifyAt]
  | cons x xs ih =>
    cases n with
    | zero =>
      cases m with
      | zero => simp [modifyAt]
      | succ k => simp [modifyAt]
    | succ j =>
      cases m with
      | zero => simp [modifyAt]
      | succ k => simp [modifyAt, ih]

theorem rankAt_modify (species : List Species) (s g r s2 g2 : Nat) :
    rankAt (modifyAt (fun spec : Species => { spec with genomes := setRank spec.genomes g r })
        species s) s2 g2 =
      if s2 = s ∧ g2 = g then (rankAt species s g).map (fun _ => (r : Int))
      else rankAt species s2 g2 := by
  unfold rankAt
  rw [modifyAt_getElem?]
  by_cases hs : s2 = s
  · subst hs
    cases hsp : species[s2]? with
    | none => simp
    | some spec =>
      simp only [if_true, Option.map_some', Option.some_bind, true_and, setRank]
      rw [modifyAt_getElem?]
      by_cases hg : g2 = g
      · subst hg
        cases spec.genomes[g2]? <;> simp
      · simp [hg]
  · simp [hs]

/-- The ranks after the loop at lines 555 to 557 over a list of pairwise
different pointers to existing genomes: the pointer at position `i` of the list
has rank `r + i`, every other genome keeps its rank. -/
theorem assignRanks_rankAt (l : List (Nat × Nat × Int)) (r : Nat) (species : List Species)
    (hn : (l.map (fun x => (x.1, x.2.1))).Nodup)
    (hv : ∀ x ∈ l, (rankAt species x.1 x.2.1).isSome = true) :
    l.map (fun x => rankAt (assignRanks l r species) x.1 x.2.1) =
        (List.range' r l.length).map (fun i : Nat => some (Int.ofNat i)) ∧
      ∀ s g, (s, g) ∉ l.map (fun x => (x.1, x.2.1)) →
        rankAt (assignRanks l r species) s g = rankAt species s g := by
  induction l generalizing r species with
  | nil => exact ⟨rfl, fun _ _ _ => rfl⟩
  | cons x rest ih =>
    obtain ⟨s, g, f⟩ := x
    rw [List.map_cons, List.nodup_cons] at hn
    have hv1 : ∀ y ∈ rest, (rankAt (modifyAt (fun spec : Species =>
        { spec with genomes := setRank spec.genomes g r }) species s) y.1 y.2.1).isSome = true := by
      intro y hy
      rw [rankAt_modify]
      split
      · rename_i h
        have := hv (s, g, f) (List.mem_cons_self _ _)
        simpa using this
      · exact hv y (List.mem_cons_of_mem _ hy)
    obtain ⟨h1, h2⟩ := ih (r + 1) _ hn.2 hv1
    unfold assignRanks
    constructor
    · rw [List.map_cons, h1, List.length_cons, List.range'_succ, List.map_cons]
      congr 1
      show rankAt _ s g = _
      rw [h2 s g hn.1, rankAt_modify]
      have := hv (s, g, f) (List.mem_cons_self _ _)
      obtain ⟨v, hvv⟩ := Option.isSome_iff_exists.mp this
      simp only [] at hvv
      simp [hvv]
    · intro s2 g2 hnot
      simp only [List.map_cons, List.mem_cons, not_or] at hnot
      rw [h2 s2 g2 hnot.2, rankAt_modify]
      have : ¬(s2 = s ∧ g2 = g) := by
        intro hc
        exact hnot.1 (by rw [hc.1, hc.2])
      rw [if_neg this]


theorem genomePointers_mem (s j : Nat) (l : List Genome) (x : Nat × Nat × Int)
    (h : x ∈ genomePointers s j l) : x.1 = s ∧ ∃ i, x.2.1 = j + i ∧ i < l.length := by
  induction l generalizing j with
  | nil => simp [genomePointers] at h
  | cons a rest ih =>
    simp only [genomePointers, List.mem_cons] at h
    rcases h with h | h
    · subst h
      exact ⟨rfl, 0, rfl, by simp⟩
    · obtain ⟨h1, i, h2, h3⟩ := ih (j + 1) h
      exact ⟨h1, i + 1, by omega, by simp; omega⟩

theorem genomePointers_nodup (s j : Nat) (l : List Genome) :
    ((genomePointers s j l).map (fun x => (x.1, x.2.1))).Nodup := by
  induction l generalizing j with
  | nil => simp [genomePointers]
  | cons a rest ih =>
    simp only [genomePointers, List.map_cons, List.nodup_cons]
    refine ⟨?_, ih (j + 1)⟩
    intro hc
    obtain ⟨x, hx, he⟩ := List.mem_map.mp hc
    obtain ⟨-, i, h2, -⟩ := genomePointers_mem s (j + 1) rest x hx
    simp only [Prod.mk.injEq] at he
    omega

theorem speciesPointers_mem (k : Nat) (species : List Species) (x : Nat × Nat × Int)
    (h : x ∈ speciesPointers k species) :
    ∃ i, x.1 = k + i ∧ (rankAt species i x.2.1).isSome = true := by
  induction species generalizing k with
  | nil => simp [speciesPointers] at h
  | cons spec rest ih =>
    simp only [speciesPointers, List.mem_append] at h
    rcases h with h | h
    · obtain ⟨h1, i, h2, h3⟩ := genomePointers_mem k 0 spec.genomes x h
      refine ⟨0, by omega, ?_⟩
      have : x.2.1 < spec.genomes.length := by omega
      simp [rankAt, List.getElem?_eq_getElem this]
    · obtain ⟨i, h1, h2⟩ := ih (k + 1) h
      exact ⟨i + 1, by omega, by simpa [rankAt] using h2⟩

theorem speciesPointers_nodup (k : Nat) (species : List Species) :
    ((speciesPointers k species).map (fun x => (x.1, x.2.1))).Nodup := by
  induction species generalizing k with
  | nil => simp [speciesPointers]
  | cons spec rest ih =>
    simp only [speciesPointers, List.map_append]
    refine List.Nodup.append (genomePointers_nodup k 0 spec.genomes) (ih (k + 1)) ?_
    intro p h1 h2
    obtain ⟨x, hx, rfl⟩ := List.mem_map.mp h1
    obtain ⟨y, hy, he⟩ := List.mem_map.mp h2
    obtain ⟨hx1, -⟩ := genomePointers_mem k 0 spec.genomes x hx
    obtain ⟨i, hy1, -⟩ := speciesPointers_mem (k + 1) rest y hy
    simp only [Prod.mk.injEq] at he
    omega

theorem genomePointers_ranks (s j : Nat) (l l2 : List Genome) (φ : Nat → Option Int)
    (hl : l.length = l2.length)
    (hφ : ∀ i, φ (j + i) = (l2[i]?).map (fun genome => genome.globalRank)) :
    (genomePointers s j l).map (fun x => φ x.2.1) =
      (l2.map (fun genome => genome.globalRank)).map some := by
  induction l generalizing j l2 with
  | nil =>
    cases l2 with
    | nil => rfl
    | cons b more => simp at hl
  | cons a rest ih =>
    cases l2 with
    | nil => simp at hl
    | cons b more =>
      simp only [genomePointers, List.map_cons]
      congr 1
      · have := hφ 0
        simpa using this
      · apply ih (j + 1) more (by simpa using hl)
        intro i
        have := hφ (i + 1)
        simp only [List.getElem?_cons_succ] at this
        rw [← this]
        congr 1
        omega

theorem speciesPointers_ranks (k : Nat) (species species2 : List Species)
    (ρ : Nat → Nat → Option Int)
    (hl : species.map (fun s => s.genomes.length) = species2.map (fun s => s.genomes.length))
    (hρ : ∀ i g, ρ (k + i) g = rankAt species2 i g) :
    (speciesPointers k species).map (fun x => ρ x.1 x.2.1) = (allRanks species2).map some := by
  induction species generalizing k species2 with
  | nil =>
    cases species2 with
    | nil => rfl
    | cons b more => simp at hl
  | cons spec rest ih =>
    cases species2 with
    | nil => simp at hl
    | cons spec2 more =>
      simp only [List.map_cons, List.cons.injEq] at hl
      simp only [speciesPointers, List.map_append, allRanks, List.map_cons, List.flatten_cons]
      congr 1
      · have h1 : (genomePointers k 0 spec.genomes).map (fun x => ρ x.1 x.2.1) =
            (genomePointers k 0 spec.genomes).map (fun x => ρ k x.2.1) := by
          apply List.map_congr_left
          intro x hx
          rw [(genomePointers_mem k 0 spec.genomes x hx).1]
        rw [h1]
        apply genomePointers_ranks k 0 spec.genomes spec2.genomes (ρ k) hl.1
        intro i
        have := hρ 0 (0 + i)
        simpa [rankAt] using this
      · apply ih (k + 1) more hl.2
        intro i g
        have := hρ (i + 1) g
        have e : k + 1 + i = k + (i + 1) := by omega
        rw [e, this]
        simp [rankAt]

/-- After `Pool::rankGlobally` the ranks of the genomes are the numbers 0 to
`N - 1` in some order, `N` the number of genomes. -/
theorem rankGlobally_ranks (p : Pool) :
    (allRanks p.rankGlobally.species).Perm
      ((List.range p.totalGenomes).map (fun i : Nat => Int.ofNat i)) := by
  have hperm := sortBy_perm (fun a b : Nat × Nat × Int => decide (a.2.2 < b.2.2))
    (globalList p.species)
  have hnd : ((sortBy (fun a b : Nat × Nat × Int => decide (a.2.2 < b.2.2))
      (globalList p.species)).map (fun x => (x.1, x.2.1))).Nodup :=
    ((hperm.map _).nodup_iff).mpr (speciesPointers_nodup 0 p.species)
  have hv : ∀ x ∈ sortBy (fun a b : Nat × Nat × Int => decide (a.2.2 < b.2.2))
      (globalList p.species), (rankAt p.species x.1 x.2.1).isSome = true := by
    intro x hx
    obtain ⟨i, h1, h2⟩ := speciesPointers_mem 0 p.species x ((hperm.mem_iff).mp hx)
    have : x.1 = i := by omega
    rw [this]
    exact h2
  obtain ⟨h1, -⟩ := assignRanks_rankAt _ 0 p.species hnd hv
  have h2 := speciesPointers_ranks 0 p.species p.rankGlobally.species
    (fun s g => rankAt p.rankGlobally.species s g) (rankGlobally_sizes p).symm
    (fun i g => by simp)
  have h3 := hperm.map (fun x => rankAt p.rankGlobally.species x.1 x.2.1)
  have h4 : ((allRanks p.rankGlobally.species).map some).Perm
      ((List.range' 0 (globalList p.species).length).map (fun i : Nat => some (Int.ofNat i))) := by
    rw [← h2]
    refine h3.symm.trans ?_
    have : (sortBy (fun a b : Nat × Nat × Int => decide (a.2.2 < b.2.2))
      (globalList p.species)).length = (globalList p.species).length := hperm.length_eq
    rw [← this]
    exact List.Perm.of_eq h1
  have hlen : (globalList p.species).length = p.totalGenomes := by
    have h5 := congrArg List.length (speciesPointers_ranks 0 p.species p.species
      (fun s g => rankAt p.species s g) rfl (fun i g => by simp))
    simp only [List.length_map] at h5
    rw [globalList, h5]
    simp [allRanks, totalGenomes, List.length_flatten, Function.comp_def]
  rw [hlen] at h4
  have h6 := h4.filterMap id
  have e1 : ∀ l : List Int, List.filterMap id (l.map some) = l := by
    intro l
    induction l with
    | nil => rfl
    | cons a t ih => simp [List.filterMap_cons, ih]
  have e2 : List.filterMap id ((List.range' 0 p.totalGenomes).map
      (fun i : Nat => some (Int.ofNat i))) =
      (List.range p.totalGenomes).map (fun i : Nat => Int.ofNat i) := by
    rw [← e1 ((List.range p.totalGenomes).map (fun i : Nat => Int.ofNat i)),
      List.range_eq_range', List.map_map]
    rfl
  rw [e1, e2] at h6
  exact h6

end Pool

/-! ## The seven rates: what breeding needs and keeps -/

namespace Map
variable {K V : Type} [DecidableEq K]

theorem find_isSome_of_mem_keys (m : Map K V) (k : K) (h : k ∈ m.map Prod.fst) :
    (find m k).isSome = true := by
  induction m with
  | nil => simp at h
  | cons e rest ih =>
    obtain ⟨a, b⟩ := e
    by_cases ha : a = k
    · simp [find, ha]
    · simp only [List.map_cons, List.mem_cons] at h
      rcases h with h | h
      · exact absurd h.symm ha
      · simp [find, ha, ih h]

theorem assign_keys (m m1 : Map K V) (k : K) (v : V) (h : assign m k v = some m1) :
    m1.map Prod.fst = m.map Prod.fst := by
  induction m generalizing m1 with
  | nil => simp [assign] at h
  | cons e rest ih =>
    obtain ⟨a, b⟩ := e
    unfold assign at h
    by_cases ha : a = k
    · rw [if_pos ha] at h
      simp only [Option.some.injEq] at h
      subst h
      rfl
    · rw [if_neg ha] at h
      cases hr : assign rest k v with
      | none => rw [hr] at h; simp at h
      | some r =>
        rw [hr] at h
        simp only [Option.map_some', Option.some.injEq] at h
        subst h
        simp [ih r hr]

end Map

namespace Genome

theorem perturbRates_keys (m : Map String ℚ) (r : Random) :
    (perturbRates m r).1.map Prod.fst = m.map Prod.fst := by
  induction m generalizing r with
  | nil => rfl
  | cons e rest ih =>
    obtain ⟨a, b⟩ := e
    unfold perturbRates
    simp [ih]

theorem RatesOK.hasRates {g : Genome} (h : g.RatesOK) : g.HasRates := by
  intro name hn
  apply Map.find_isSome_of_mem_keys
  rw [h]
  exact hn

theorem new_ratesOK : Genome.new.RatesOK := by
  unfold RatesOK
  decide

/-- A genome with the seven rates comes out of `Genome::mutate` with the seven
rates, and the pool keeps its species. -/
theorem mutate_ratesOK (g : Genome) (p : Pool) (h : g.RatesOK) :
    ∃ g1 q, mutate g p = some (g1, q) ∧ g1.RatesOK ∧ Pool.SameFrame p q := by
  obtain ⟨g1, q, e, r, f⟩ := mutate_spec g p h.hasRates
  refine ⟨g1, q, e, ?_, f⟩
  unfold RatesOK
  rw [r, perturbRates_keys]
  exact h

end Genome

namespace Species

theorem copyRates_keys (src child rates : Map String ℚ) (h : copyRates src child = some rates) :
    rates.map Prod.fst = child.map Prod.fst := by
  induction src generalizing child with
  | nil =>
    simp only [copyRates, Option.some.injEq] at h
    rw [h]
  | cons e rest ih =>
    obtain ⟨a, b⟩ := e
    unfold copyRates at h
    cases ha : Map.assign child a b with
    | none => rw [ha] at h; simp at h
    | some c1 =>
      rw [ha] at h
      simp only [] at h
      rw [ih c1 h, Map.assign_keys child c1 a b ha]

/-- The crossover of two genomes with the seven rates returns a child with the
seven rates. -/
theorem crossover_ratesOK (g1 g2 : Genome) (p : Pool) (h1 : g1.RatesOK) (h2 : g2.RatesOK) :
    ∃ child q, crossover g1 g2 p = some (child, q) ∧ child.RatesOK ∧ Pool.SameFrame p q := by
  have hfit : (if g2.fitness > g1.fitness then g2 else g1).RatesOK := by
    split
    · exact h2
    · exact h1
  have hc := copyRates_isSome (if g2.fitness > g1.fitness then g2 else g1).mutationRates
    Genome.new.mutationRates
    (fun e he => find_new_isSome e.1 (by
      have : e.1 ∈ (if g2.fitness > g1.fitness then g2 else g1).mutationRates.map Prod.fst :=
        List.mem_map_of_mem _ he
      rw [hfit] at this
      exact this))
  obtain ⟨rates, hr⟩ := Option.isSome_iff_exists.mp hc
  have hk := copyRates_keys _ _ _ hr
  unfold crossover
  simp only [hr]
  refine ⟨_, _, rfl, ?_, Pool.sameFrame_rand p _⟩
  unfold Genome.RatesOK
  simp only []
  rw [hk]
  exact Genome.new_ratesOK

/-- A breedable species always breeds a child, with the seven rates. -/
theorem breedChild_total (s : Species) (p : Pool) (h : s.Breedable) :
    ∃ child q, breedChild s p = some (child, q) ∧ child.RatesOK ∧ Pool.SameFrame p q := by
  have hl : s.genomes.length ≠ 0 := by simpa using h.1
  have hpos : 0 < s.genomes.length := Nat.pos_of_ne_zero hl
  have pick : ∀ r : Nat, ∃ g, s.genomes[r % s.genomes.length]? = some g ∧ g.RatesOK := by
    intro r
    have hlt := Nat.mod_lt r hpos
    exact ⟨_, List.getElem?_eq_getElem hlt, h.2 _ (List.getElem_mem _)⟩
  unfold breedChild
  rw [if_neg hl]
  simp only []
  by_cases hf : p.rand.getFloat.1 < AI.CrossoverChance
  · rw [if_pos hf]
    obtain ⟨g1, e1, r1⟩ := pick p.rand.getFloat.2.getUint32.1
    obtain ⟨g2, e2, r2⟩ := pick p.rand.getFloat.2.getUint32.2.getUint32.1
    simp only [e1, e2]
    obtain ⟨child, q, ec, rc, fc⟩ := crossover_ratesOK g1 g2
      { p with rand := p.rand.getFloat.2.getUint32.2.getUint32.2 } r1 r2
    rw [ec]
    simp only []
    obtain ⟨c2, q2, em, rm, fm⟩ := Genome.mutate_ratesOK child q rc
    exact ⟨c2, q2, em, rm, (Pool.sameFrame_rand p _).trans (fc.trans fm)⟩
  · rw [if_neg hf]
    obtain ⟨g, e, r⟩ := pick p.rand.getFloat.2.getUint32.1
    simp only [e]
    obtain ⟨c2, q2, em, rm, fm⟩ := Genome.mutate_ratesOK g
      { p with rand := p.rand.getFloat.2.getUint32.2 } r
    exact ⟨c2, q2, em, rm, (Pool.sameFrame_rand p _).trans fm⟩

end Species

namespace Pool

/-! ## Breedable species through the steps of a generation -/

theorem ceil_half_bounds (n : Nat) :
    n ≤ 2 * (⌈(n : ℚ) / 2⌉).toNat ∧ (1 ≤ n → 1 ≤ (⌈(n : ℚ) / 2⌉).toNat) := by
  have h1 : (n : ℚ) / 2 ≤ ((⌈(n : ℚ) / 2⌉ : Int) : ℚ) := Int.le_ceil _
  have h0 : (0 : Int) ≤ ⌈(n : ℚ) / 2⌉ := by
    apply Int.ceil_nonneg
    positivity
  have h2 : ((⌈(n : ℚ) / 2⌉).toNat : Int) = ⌈(n : ℚ) / 2⌉ := Int.toNat_of_nonneg h0
  have h3 : (n : ℚ) ≤ 2 * (((⌈(n : ℚ) / 2⌉).toNat : Nat) : ℚ) := by
    have : (((⌈(n : ℚ) / 2⌉).toNat : Nat) : ℚ) = ((⌈(n : ℚ) / 2⌉ : Int) : ℚ) := by
      exact_mod_cast h2
    rw [this]
    linarith
  have h4 : n ≤ 2 * (⌈(n : ℚ) / 2⌉).toNat := by exact_mod_cast h3
  exact ⟨h4, fun h => by omega⟩

/-- What `Pool::cullSpecies` leaves of a breedable species: a breedable species
with the same staleness, whose genomes were genomes of the species before, at
least half of them when `cutToOne` is false. -/
theorem cullOne_breedable (cutToOne : Bool) (spec : Species) (h : spec.Breedable) :
    (cullOne cutToOne spec).Breedable ∧ (cullOne cutToOne spec).staleness = spec.staleness ∧
      (cutToOne = false → spec.genomes.length ≤ 2 * (cullOne cutToOne spec).genomes.length) := by
  have hperm := sortBy_perm (fun a b : Genome => decide (a.fitness > b.fitness)) spec.genomes
  have hlen := hperm.length_eq
  have hpos : 1 ≤ spec.genomes.length := by
    have : spec.genomes.length ≠ 0 := by simpa using h.1
    omega
  have hb := ceil_half_bounds spec.genomes.length
  have hk : 1 ≤ (if cutToOne then (1 : Int) else
      ⌈((sortBy (fun a b : Genome => decide (a.fitness > b.fitness)) spec.genomes).length : ℚ) /
        2⌉).toNat := by
    split
    · simp
    · rw [hlen]; exact hb.2 hpos
  refine ⟨⟨?_, ?_⟩, rfl, ?_⟩
  · intro hc
    have := congrArg List.length hc
    simp only [cullOne, List.length_take, List.length_nil] at this
    omega
  · intro g hg
    exact h.2 g ((hperm.mem_iff).mp (List.mem_of_mem_take hg))
  · intro hcut
    subst hcut
    simp only [cullOne, List.length_take, Bool.false_eq_true, if_false]
    rw [hlen]
    have := hb.1
    omega

theorem mem_modifyAt {α : Type} (f : α → α) (l : List α) (n : Nat) (x : α)
    (h : x ∈ modifyAt f l n) : x ∈ l ∨ ∃ y ∈ l, x = f y := by
  induction l generalizing n with
  | nil => simp [modifyAt] at h
  | cons a rest ih =>
    cases n with
    | zero =>
      simp only [modifyAt, List.mem_cons] at h
      rcases h with h | h
      · exact Or.inr ⟨a, List.mem_cons_self _ _, h⟩
      · exact Or.inl (List.mem_cons_of_mem _ h)
    | succ k =>
      simp only [modifyAt, List.mem_cons] at h
      rcases h with h | h
      · exact Or.inl (by rw [h]; exact List.mem_cons_self _ _)
      · rcases ih k h with h1 | ⟨y, hy, hx⟩
        · exact Or.inl (List.mem_cons_of_mem _ h1)
        · exact Or.inr ⟨y, List.mem_cons_of_mem _ hy, hx⟩

/-- The loop at lines 555 to 557 keeps every property of the species that
does not depend on the ranks of its genomes. -/
theorem assignRanks_forall (Q : Species → Prop)
    (hQ : ∀ (spec : Species) (g r : Nat), Q spec →
      Q { spec with genomes := setRank spec.genomes g r })
    (l : List (Nat × Nat × Int)) (r : Nat) (species : List Species)
    (h : ∀ spec ∈ species, Q spec) : ∀ spec ∈ assignRanks l r species, Q spec := by
  induction l generalizing r species with
  | nil => exact h
  | cons x rest ih =>
    obtain ⟨s, g, f⟩ := x
    unfold assignRanks
    apply ih
    intro spec hs
    rcases mem_modifyAt _ _ _ _ hs with h1 | ⟨y, hy, hx⟩
    · exact h spec h1
    · rw [hx]
      exact hQ y g r (h y hy)

theorem setRank_breedable (spec : Species) (g r : Nat) (h : spec.Breedable) :
    Species.Breedable { spec with genomes := setRank spec.genomes g r } := by
  constructor
  · intro hc
    have := congrArg List.length hc
    simp only [setRank_length, List.length_nil] at this
    exact h.1 (List.length_eq_zero.mp this)
  · intro x hx
    rcases mem_modifyAt _ _ _ _ hx with h1 | ⟨y, hy, hxy⟩
    · exact h.2 x h1
    · rw [hxy]
      exact h.2 y hy

theorem rankGlobally_breedable (p : Pool) (h : ∀ spec ∈ p.species, spec.Breedable) :
    ∀ spec ∈ p.rankGlobally.species, spec.Breedable :=
  assignRanks_forall Species.Breedable setRank_breedable _ _ _ h

theorem rankGlobally_staleness (p : Pool) (k : Int) (h : ∀ spec ∈ p.species, spec.staleness < k) :
    ∀ spec ∈ p.rankGlobally.species, spec.staleness < k :=
  assignRanks_forall (fun spec => spec.staleness < k) (fun _ _ _ hs => hs) _ _ _ h

theorem rankGlobally_length (p : Pool) : p.rankGlobally.species.length = p.species.length := by
  have := congrArg List.length (rankGlobally_sizes p)
  simpa using this

theorem rankGlobally_total (p : Pool) : p.rankGlobally.totalGenomes = p.totalGenomes := by
  simp only [totalGenomes, rankGlobally_sizes]

/-- A list of breedable species that are not stale passes `removeStaleSpecies`
whole: every species is kept, with its genomes reordered. -/
theorem staleSurvivors_all (maxFitness : Int) (l : List Species)
    (hb : ∀ spec ∈ l, spec.Breedable)
    (hs : ∀ spec ∈ l, spec.staleness + 1 < AI.StaleSpecies) :
    ∃ l1, staleSurvivors maxFitness l = some l1 ∧ (∀ spec ∈ l1, spec.Breedable) ∧
      l1.map (fun s => s.genomes.length) = l.map (fun s => s.genomes.length) := by
  induction l with
  | nil => exact ⟨[], rfl, by simp, rfl⟩
  | cons spec rest ih =>
    obtain ⟨l1, e1, b1, s1⟩ := ih (fun x hx => hb x (List.mem_cons_of_mem _ hx))
      (fun x hx => hs x (List.mem_cons_of_mem _ hx))
    have hbs := hb spec (List.mem_cons_self _ _)
    have hss := hs spec (List.mem_cons_self _ _)
    have hperm := sortBy_perm (fun a b : Genome => decide (a.fitness > b.fitness)) spec.genomes
    obtain ⟨spec1, hu, hg, hst⟩ : ∃ spec1, staleUpdate spec = some spec1 ∧
        spec1.genomes = sortBy (fun a b : Genome => decide (a.fitness > b.fitness)) spec.genomes ∧
        spec1.staleness < AI.StaleSpecies := by
      unfold staleUpdate
      cases hsort : sortBy (fun a b : Genome => decide (a.fitness > b.fitness)) spec.genomes with
      | nil =>
        have := hperm.length_eq
        rw [hsort] at this
        exact absurd (List.length_eq_zero.mp this.symm) hbs.1
      | cons best more =>
        simp only []
        split
        · exact ⟨_, rfl, rfl, by simp [AI.StaleSpecies]⟩
        · refine ⟨_, rfl, rfl, ?_⟩
          simp only []
          omega
    have hkeep : staleKeep maxFitness spec1 = true := by
      simp [staleKeep, hst]
    refine ⟨spec1 :: l1, ?_, ?_, ?_⟩
    · unfold staleSurvivors
      rw [hu]
      simp only [e1, hkeep, if_true]
    · intro x hx
      rcases List.mem_cons.mp hx with h | h
      · subst h
        refine ⟨?_, ?_⟩
        · rw [hg]
          intro hc
          have := hperm.length_eq
          rw [hc] at this
          exact hbs.1 (List.length_eq_zero.mp this.symm)
        · intro g hgm
          rw [hg] at hgm
          exact hbs.2 g ((hperm.mem_iff).mp hgm)
      · exact b1 x h
    · simp only [List.map_cons, s1, hg, hperm.length_eq]


/-! ## The averages of the ranks -/

theorem sum_range_ge (n : Nat) (h : 3 ≤ n) :
    (n : Int) ≤ ((List.range n).map (fun i : Nat => Int.ofNat i)).sum := by
  induction n with
  | zero => omega
  | succ k ih =>
    rw [List.range_succ, List.map_append, List.sum_append]
    simp only [List.map_cons, List.map_nil, List.sum_cons, List.sum_nil, Int.ofNat_eq_coe, add_zero]
    by_cases hk : 3 ≤ k
    · have := ih hk
      simp only [Int.ofNat_eq_coe] at this
      push_cast
      omega
    · have : k = 2 := by omega
      subst this
      decide

theorem rank_mem_allRanks (species : List Species) (spec : Species) (g : Genome)
    (hs : spec ∈ species) (hg : g ∈ spec.genomes) : g.globalRank ∈ allRanks species := by
  unfold allRanks
  rw [List.mem_flatten]
  exact ⟨_, List.mem_map_of_mem _ hs, List.mem_map_of_mem _ hg⟩

theorem allRanks_sum (species : List Species) :
    (allRanks species).sum =
      (species.map (fun spec => (spec.genomes.map (fun g => g.globalRank)).sum)).sum := by
  induction species with
  | nil => rfl
  | cons spec rest ih =>
    simp only [allRanks, List.map_cons, List.flatten_cons, List.sum_append, List.sum_cons]
    rw [← ih]
    rfl

theorem sum_nonneg_of_forall (l : List Int) (h : ∀ x ∈ l, 0 ≤ x) : 0 ≤ l.sum := by
  induction l with
  | nil => simp
  | cons a t ih =>
    have h1 := h a (List.mem_cons_self _ _)
    have h2 := ih (fun x hx => h x (List.mem_cons_of_mem _ hx))
    simp only [List.sum_cons]
    omega

/-- If the truncated means of the rank sums of all species add up to nothing,
the rank sums are small: each is below the size of its species. -/
theorem ranks_small_of_avg_zero (l : List Species)
    (hpos : ∀ spec ∈ l, spec.genomes ≠ [] ∧ 0 ≤ (spec.genomes.map (fun g => g.globalRank)).sum)
    (hz : (l.map (fun spec => (Species.calculateAverageFitness spec).averageFitness)).sum ≤ 0) :
    (l.map (fun spec => (spec.genomes.map (fun g => g.globalRank)).sum)).sum + (l.length : Int) ≤
      ((l.map (fun spec => spec.genomes.length)).sum : Nat) := by
  induction l with
  | nil => simp
  | cons spec rest ih =>
    obtain ⟨hne, hr⟩ := hpos spec (List.mem_cons_self _ _)
    have hl : spec.genomes.length ≠ 0 := by simpa using hne
    have havg : (Species.calculateAverageFitness spec).averageFitness =
        Int.tdiv (spec.genomes.map (fun g => g.globalRank)).sum spec.genomes.length := by
      simp [Species.calculateAverageFitness, hl]
    have hn : (0 : Int) < spec.genomes.length := by omega
    have hdiv : 0 ≤ Int.tdiv (spec.genomes.map (fun g => g.globalRank)).sum spec.genomes.length :=
      Int.tdiv_nonneg hr (le_of_lt hn)
    have hrest : 0 ≤ (rest.map (fun spec =>
        (Species.calculateAverageFitness spec).averageFitness)).sum := by
      apply sum_nonneg_of_forall
      intro x hx
      obtain ⟨s2, hs2, rfl⟩ := List.mem_map.mp hx
      obtain ⟨hne2, hr2⟩ := hpos s2 (List.mem_cons_of_mem _ hs2)
      have hl2 : s2.genomes.length ≠ 0 := by simpa using hne2
      simp only [Species.calculateAverageFitness, hl2, ne_eq, not_false_eq_true, if_true]
      exact Int.tdiv_nonneg hr2 (Int.ofNat_nonneg _)
    simp only [List.map_cons, List.sum_cons, havg] at hz
    have hz1 : Int.tdiv (spec.genomes.map (fun g => g.globalRank)).sum spec.genomes.length = 0 := by
      omega
    have hz2 : (rest.map (fun spec =>
        (Species.calculateAverageFitness spec).averageFitness)).sum ≤ 0 := by omega
    have ih1 := ih (fun x hx => hpos x (List.mem_cons_of_mem _ hx)) hz2
    have hlt : (spec.genomes.map (fun g => g.globalRank)).sum < spec.genomes.length := by
      rw [Int.tdiv_eq_ediv hr (le_of_lt hn)] at hz1
      have := Int.lt_ediv_add_one_mul_self (spec.genomes.map (fun g => g.globalRank)).sum hn
      rw [hz1] at this
      simpa using this
    simp only [List.map_cons, List.sum_cons, List.length_cons]
    push_cast
    push_cast at ih1
    omega

/-- After `rankGlobally` and `calculateAverageFitness` on a pool of at least
three genomes in breedable species, every average is at least 0 and their sum
is positive. -/
theorem averages_positive (p : Pool) (hb : ∀ spec ∈ p.species, spec.Breedable)
    (hn : 3 ≤ p.totalGenomes) :
    (∀ spec ∈ p.rankGlobally.species.map Species.calculateAverageFitness,
        0 ≤ spec.averageFitness) ∧
      0 < ((p.rankGlobally.species.map Species.calculateAverageFitness).map
        (fun spec => spec.averageFitness)).sum := by
  have hperm := rankGlobally_ranks p
  have hbr := rankGlobally_breedable p hb
  have hrank : ∀ spec ∈ p.rankGlobally.species, ∀ g ∈ spec.genomes, 0 ≤ g.globalRank := by
    intro spec hs g hg
    have := (hperm.mem_iff).mp (rank_mem_allRanks _ spec g hs hg)
    obtain ⟨i, -, hi⟩ := List.mem_map.mp this
    rw [← hi]
    exact Int.ofNat_nonneg i
  have hsum : ∀ spec ∈ p.rankGlobally.species,
      spec.genomes ≠ [] ∧ 0 ≤ (spec.genomes.map (fun g => g.globalRank)).sum := by
    intro spec hs
    refine ⟨(hbr spec hs).1, sum_nonneg_of_forall _ ?_⟩
    intro x hx
    obtain ⟨g, hg, rfl⟩ := List.mem_map.mp hx
    exact hrank spec hs g hg
  have havg : ∀ spec ∈ p.rankGlobally.species.map Species.calculateAverageFitness,
      0 ≤ spec.averageFitness := by
    intro spec hs
    obtain ⟨s0, hs0, rfl⟩ := List.mem_map.mp hs
    obtain ⟨hne, hr⟩ := hsum s0 hs0
    have hl : s0.genomes.length ≠ 0 := by simpa using hne
    simp only [Species.calculateAverageFitness, hl, ne_eq, not_false_eq_true, if_true]
    exact Int.tdiv_nonneg hr (Int.ofNat_nonneg _)
  refine ⟨havg, ?_⟩
  by_contra hcon
  have hz : (p.rankGlobally.species.map
      (fun spec => (Species.calculateAverageFitness spec).averageFitness)).sum ≤ 0 := by
    have : ((p.rankGlobally.species.map Species.calculateAverageFitness).map
        (fun spec => spec.averageFitness)) = p.rankGlobally.species.map
        (fun spec => (Species.calculateAverageFitness spec).averageFitness) := by
      rw [List.map_map]
      rfl
    rw [← this]
    omega
  have h1 := ranks_small_of_avg_zero p.rankGlobally.species hsum hz
  have h2 : (p.totalGenomes : Int) ≤ (allRanks p.rankGlobally.species).sum := by
    rw [hperm.sum_eq]
    exact sum_range_ge _ hn
  rw [allRanks_sum] at h2
  have h3 : ((p.rankGlobally.species.map (fun spec => spec.genomes.length)).sum : Nat) =
      p.totalGenomes := by
    rw [rankGlobally_sizes]
    rfl
  rw [h3] at h1
  have h4 : p.rankGlobally.species.length = 0 := by omega
  have h5 : p.totalGenomes = 0 := by
    rw [← h3, List.length_eq_zero.mp h4]
    rfl
  omega


/-! ## Weak species and the totality of the breeding loops -/

theorem quota_ge_one_iff (a c : Int) (hc : 0 < c) :
    1 ≤ breedQuota a c ↔ c ≤ 300 * a := by
  unfold breedQuota
  have hq : (0 : ℚ) < (c : ℚ) := by exact_mod_cast hc
  rw [Int.le_floor]
  have hP : ((AI.Population : Nat) : ℚ) = 300 := by simp [AI.Population]
  rw [hP]
  constructor
  · intro h
    have h1 : (c : ℚ) ≤ 300 * (a : ℚ) := by
      have := (le_div_iff₀ hq).mp (show ((1 : Int) : ℚ) ≤ ((a : ℚ) * 300) / (c : ℚ) by
        rw [mul_div_right_comm]; exact h)
      push_cast at this
      linarith
    exact_mod_cast h1
  · intro h
    have h1 : (c : ℚ) ≤ 300 * (a : ℚ) := by exact_mod_cast h
    have : ((1 : Int) : ℚ) ≤ ((a : ℚ) * 300) / (c : ℚ) := by
      rw [le_div_iff₀ hq]
      push_cast
      linarith
    rw [mul_div_right_comm] at this
    exact this

theorem sum_lt_of_forall (l : List Species) (c : Int)
    (h : ∀ spec ∈ l, 300 * spec.averageFitness + 1 ≤ c) :
    300 * (l.map (fun spec => spec.averageFitness)).sum + (l.length : Int) ≤ (l.length : Int) * c := by
  induction l with
  | nil => simp
  | cons spec rest ih =>
    have h1 := h spec (List.mem_cons_self _ _)
    have h2 := ih (fun x hx => h x (List.mem_cons_of_mem _ hx))
    simp only [List.map_cons, List.sum_cons, List.length_cons]
    push_cast
    nlinarith

/-- If the sum of the averages is positive and there are at most `Population`
species, `Pool::removeWeakSpecies` keeps a species, and every
species it keeps has an average of at least 1. -/
theorem removeWeakSpecies_survivors (p : Pool)
    (hsum : 0 < p.totalAverageFitness) (hlen : p.species.length ≤ AI.Population) :
    p.removeWeakSpecies.species ≠ [] ∧
      ∀ spec ∈ p.removeWeakSpecies.species, 1 ≤ spec.averageFitness := by
  have hne : p.totalAverageFitness ≠ 0 := by omega
  have hiff : ∀ spec : Species, spec ∈ p.removeWeakSpecies.species ↔
      spec ∈ p.species ∧ p.totalAverageFitness ≤ 300 * spec.averageFitness := by
    intro spec
    simp only [removeWeakSpecies, List.mem_filter, hne, ne_eq, not_false_eq_true, if_true,
      decide_eq_true_eq, ge_iff_le]
    rw [quota_ge_one_iff _ _ hsum]
  constructor
  · intro hnil
    have hall : ∀ spec ∈ p.species, 300 * spec.averageFitness + 1 ≤ p.totalAverageFitness := by
      intro spec hs
      by_contra hc
      have : spec ∈ p.removeWeakSpecies.species := (hiff spec).mpr ⟨hs, by omega⟩
      rw [hnil] at this
      simp at this
    have h1 := sum_lt_of_forall p.species p.totalAverageFitness hall
    have h2 : (p.species.length : Int) * p.totalAverageFitness ≤ 300 * p.totalAverageFitness := by
      have : (p.species.length : Int) ≤ 300 := by
        have := hlen
        simp only [AI.Population] at this
        omega
      exact Int.mul_le_mul_of_nonneg_right this (le_of_lt hsum)
    have h3 : (p.species.map (fun spec => spec.averageFitness)).sum = p.totalAverageFitness := rfl
    rw [h3] at h1
    have h4 : p.species.length = 0 := by omega
    have h5 : p.species = [] := List.length_eq_zero.mp h4
    rw [totalAverageFitness, h5] at hsum
    simp at hsum
  · intro spec hs
    have := ((hiff spec).mp hs).2
    omega

theorem sum_pos_of_forall (l : List Species) (hne : l ≠ [])
    (h : ∀ spec ∈ l, 1 ≤ spec.averageFitness) :
    0 < (l.map (fun spec => spec.averageFitness)).sum := by
  induction l with
  | nil => exact absurd rfl hne
  | cons spec rest ih =>
    have h1 := h spec (List.mem_cons_self _ _)
    simp only [List.map_cons, List.sum_cons]
    by_cases hr : rest = []
    · subst hr
      simp
      omega
    · have := ih hr (fun x hx => h x (List.mem_cons_of_mem _ hx))
      omega

theorem breedMany_total (spec : Species) (hb : spec.Breedable) (count : Nat)
    (children : List Genome) (p : Pool) :
    ∃ children1 q, breedMany spec count children p = some (children1, q) := by
  induction count generalizing children p with
  | zero => exact ⟨children, p, rfl⟩
  | succ n ih =>
    obtain ⟨child, q, e, -, -⟩ := Species.breedChild_total spec p hb
    obtain ⟨c1, q1, e1⟩ := ih (children ++ [child]) q
    exact ⟨c1, q1, by unfold breedMany; rw [e]; exact e1⟩

theorem breedAll_total (sum : Int) (hsum : sum ≠ 0) (l : List Species)
    (hb : ∀ spec ∈ l, spec.Breedable) (children : List Genome) (p : Pool) :
    ∃ children1 q, breedAll sum l children p = some (children1, q) := by
  induction l generalizing children p with
  | nil => exact ⟨children, p, rfl⟩
  | cons spec rest ih =>
    obtain ⟨c1, q1, e1⟩ := breedMany_total spec (hb spec (List.mem_cons_self _ _))
      (breedQuota spec.averageFitness sum).toNat children p
    obtain ⟨c2, q2, e2⟩ := ih (fun x hx => hb x (List.mem_cons_of_mem _ hx)) c1 q1
    exact ⟨c2, q2, by unfold breedAll; rw [if_neg hsum, e1]; exact e2⟩

theorem topUp_total (fuel : Nat) (children : List Genome) (p : Pool)
    (hne : p.species ≠ []) (hb : ∀ spec ∈ p.species, spec.Breedable) :
    ∃ children1 q, topUp fuel children p = some (children1, q) := by
  induction fuel generalizing children p with
  | zero => exact ⟨children, p, rfl⟩
  | succ n ih =>
    unfold topUp
    split
    · have hl : p.species.length ≠ 0 := by simpa using hne
      rw [if_neg hl]
      simp only []
      have hlt : p.rand.getUint32.1 % p.species.length < p.species.length :=
        Nat.mod_lt _ (Nat.pos_of_ne_zero hl)
      rw [List.getElem?_eq_getElem hlt]
      simp only []
      obtain ⟨child, q, e, -, f⟩ := Species.breedChild_total
        (p.species[p.rand.getUint32.1 % p.species.length]) { p with rand := p.rand.getUint32.2 }
        (hb _ (List.getElem_mem _))
      rw [e]
      simp only []
      apply ih
      · rw [f.1]; exact hne
      · rw [f.1]; exact hb
    · exact ⟨children, p, rfl⟩

theorem addAll_total_some (children : List Genome) (p : Pool)
    (h : ∀ spec ∈ p.species, spec.genomes ≠ []) : ∃ q, addAll children p = some q := by
  induction children generalizing p with
  | nil => exact ⟨p, rfl⟩
  | cons child rest ih =>
    obtain ⟨p1, e1, n1, -, -, -⟩ := addToSpecies_spec p child h
    obtain ⟨q, e⟩ := ih p1 n1
    exact ⟨q, by unfold addAll; rw [e1]; exact e⟩


/-! ## The generational turnover runs to its end -/

theorem cullSpecies_false_total (l : List Species) (h : ∀ spec ∈ l, spec.Breedable) :
    (l.map (fun s => s.genomes.length)).sum ≤
      2 * ((l.map (cullOne false)).map (fun s => s.genomes.length)).sum := by
  induction l with
  | nil => simp
  | cons spec rest ih =>
    have h1 := (cullOne_breedable false spec (h spec (List.mem_cons_self _ _))).2.2 rfl
    have h2 := ih (fun x hx => h x (List.mem_cons_of_mem _ hx))
    simp only [List.map_cons, List.sum_cons]
    omega

/-- The generational turnover runs to its end on every pool of at most
`Population` breedable species that are not about to go stale and hold five
genomes or more. -/
theorem newGeneration_defined (p : Pool) (H1 : ∀ spec ∈ p.species, spec.Breedable)
    (H2 : ∀ spec ∈ p.species, spec.staleness < AI.StaleSpecies - 1)
    (H3 : p.species.length ≤ AI.Population) (H4 : 5 ≤ p.totalGenomes) :
    ∃ q, newGeneration p = some q := by
  -- line 639
  have b0 : ∀ spec ∈ (p.cullSpecies false).species, spec.Breedable := by
    intro spec hs
    obtain ⟨s0, hs0, rfl⟩ := List.mem_map.mp hs
    exact (cullOne_breedable false s0 (H1 s0 hs0)).1
  have s0 : ∀ spec ∈ (p.cullSpecies false).species, spec.staleness < AI.StaleSpecies - 1 := by
    intro spec hs
    obtain ⟨s0, hs0, rfl⟩ := List.mem_map.mp hs
    rw [(cullOne_breedable false s0 (H1 s0 hs0)).2.1]
    exact H2 s0 hs0
  have l0 : (p.cullSpecies false).species.length = p.species.length := by simp [cullSpecies]
  have t0 : 3 ≤ (p.cullSpecies false).totalGenomes := by
    have := cullSpecies_false_total p.species H1
    simp only [totalGenomes, cullSpecies] at H4 ⊢
    omega
  -- line 640
  have b1 := rankGlobally_breedable _ b0
  have s1 := rankGlobally_staleness _ _ s0
  have l1 := rankGlobally_length (p.cullSpecies false)
  have t1 := rankGlobally_total (p.cullSpecies false)
  -- line 641
  obtain ⟨sp2, e2, b2, z2⟩ := staleSurvivors_all (p.cullSpecies false).rankGlobally.maxFitness
    (p.cullSpecies false).rankGlobally.species b1 (fun spec hs => by
      have := s1 spec hs
      omega)
  have hst : (p.cullSpecies false).rankGlobally.removeStaleSpecies =
      some { (p.cullSpecies false).rankGlobally with species := sp2 } := by
    unfold removeStaleSpecies
    rw [e2]
  have l2 : sp2.length = p.species.length := by
    have := congrArg List.length z2
    simp only [List.length_map] at this
    omega
  -- lines 642 to 646
  generalize hp2 : ({ (p.cullSpecies false).rankGlobally with species := sp2 } : Pool) = p2 at hst
  have b2' : ∀ spec ∈ p2.species, spec.Breedable := by rw [← hp2]; exact b2
  have t2 : 3 ≤ p2.totalGenomes := by
    rw [← hp2]
    simp only [totalGenomes, z2]
    simp only [totalGenomes] at t1 t0
    omega
  obtain ⟨a3, a4⟩ := averages_positive p2 b2' t2
  have b3 := rankGlobally_breedable _ b2'
  have b4 : ∀ spec ∈ p2.rankGlobally.species.map Species.calculateAverageFitness,
      spec.Breedable := by
    intro spec hs
    obtain ⟨s0, hs0, rfl⟩ := List.mem_map.mp hs
    unfold Species.Breedable
    rw [calculateAverageFitness_genomes]
    exact b3 s0 hs0
  -- line 647
  generalize hp4 : ({ p2.rankGlobally with
      species := p2.rankGlobally.species.map Species.calculateAverageFitness } : Pool) = p4
  have l4 : p4.species.length ≤ AI.Population := by
    rw [← hp4]
    simp only [List.length_map, rankGlobally_length]
    rw [← hp2]
    simp only []
    omega
  have a4' : 0 < p4.totalAverageFitness := by rw [← hp4]; exact a4
  obtain ⟨n5, a5⟩ := removeWeakSpecies_survivors p4 a4' l4
  have b5 : ∀ spec ∈ p4.removeWeakSpecies.species, spec.Breedable := by
    intro spec hs
    simp only [removeWeakSpecies, List.mem_filter] at hs
    rw [← hp4] at hs
    exact b4 spec hs.1
  have sum5 : p4.removeWeakSpecies.totalAverageFitness ≠ 0 := by
    have := sum_pos_of_forall _ n5 a5
    unfold totalAverageFitness
    omega
  -- lines 648 to 656
  obtain ⟨children, p6, e6⟩ := breedAll_total _ sum5 _ b5 [] p4.removeWeakSpecies
  obtain ⟨-, f6, -⟩ := breedAll_spec _ _ _ _ _ _ e6
  -- line 657
  have b7 : ∀ spec ∈ (p6.cullSpecies true).species, spec.Breedable := by
    intro spec hs
    obtain ⟨s0, hs0, rfl⟩ := List.mem_map.mp hs
    rw [f6.1] at hs0
    exact (cullOne_breedable true s0 (b5 s0 hs0)).1
  have n7 : (p6.cullSpecies true).species ≠ [] := by
    simp only [cullSpecies, f6.1, ne_eq, List.map_eq_nil_iff]
    exact n5
  -- lines 658 to 661
  obtain ⟨children1, p8, e8⟩ := topUp_total
    (AI.Population - (children.length + (p6.cullSpecies true).species.length)) children
    (p6.cullSpecies true) n7 b7
  obtain ⟨-, f8⟩ := topUp_spec _ _ _ _ _ e8
  -- lines 662 to 665
  obtain ⟨p9, e9⟩ := addAll_total_some children1 p8 (fun spec hs => by
    rw [f8.1] at hs
    exact (b7 spec hs).1)
  refine ⟨{ p9 with generation := p9.generation + 1 }, ?_⟩
  unfold newGeneration
  simp only [hst]
  subst hp4
  simp only [e6, e8, e9]


/-! ## From `Pool::init` to the next generation -/

theorem addToList_fresh (child : Genome) (hc : child.RatesOK) (l l1 : List Species)
    (h : ∀ spec ∈ l, spec.Breedable ∧ spec.staleness = 0)
    (e : addToList child l = some l1) :
    ∀ spec ∈ l1, spec.Breedable ∧ spec.staleness = 0 := by
  induction l generalizing l1 with
  | nil =>
    simp only [addToList, Option.some.injEq] at e
    subst e
    intro spec hs
    simp only [List.mem_singleton] at hs
    subst hs
    refine ⟨⟨by simp, ?_⟩, rfl⟩
    intro g hg
    simp only [List.mem_singleton] at hg
    subst hg
    exact hc
  | cons spec rest ih =>
    have hs := h spec (List.mem_cons_self _ _)
    unfold addToList at e
    split at e
    · simp at e
    · rename_i first more hg
      split at e
      · simp only [Option.some.injEq] at e
        subst e
        intro x hx
        rcases List.mem_cons.mp hx with hx | hx
        · subst hx
          refine ⟨⟨by simp, ?_⟩, hs.2⟩
          intro g hgm
          simp only [List.mem_append, List.mem_singleton] at hgm
          rcases hgm with hgm | hgm
          · exact hs.1.2 g hgm
          · subst hgm; exact hc
        · exact h x (List.mem_cons_of_mem _ hx)
      · cases hr : addToList child rest with
        | none => rw [hr] at e; simp at e
        | some r =>
          rw [hr] at e
          simp only [Option.map_some', Option.some.injEq] at e
          subst e
          intro x hx
          rcases List.mem_cons.mp hx with hx | hx
          · subst hx; exact hs
          · exact ih r (fun y hy => h y (List.mem_cons_of_mem _ hy)) hr x hx

/-- The loop of `Pool::init` returns, and it leaves every species breedable and
with staleness 0 if it found the pool so. -/
theorem initLoop_fresh (count : Nat) (p : Pool)
    (h : ∀ spec ∈ p.species, spec.Breedable ∧ spec.staleness = 0) :
    ∃ q, initLoop count p = some q ∧ (∀ spec ∈ q.species, spec.Breedable ∧ spec.staleness = 0) ∧
      q.totalGenomes = p.totalGenomes + count := by
  induction count generalizing p with
  | zero => exact ⟨p, rfl, h, rfl⟩
  | succ n ih =>
    have hnew : Genome.RatesOK { Genome.new with maxNeuron := p.inputSize } := Genome.new_ratesOK
    obtain ⟨g1, p1, e1, r1, f1⟩ := Genome.mutate_ratesOK _ p hnew
    obtain ⟨p2, e2, -, -, t2, -⟩ := addToSpecies_spec p1 g1 (by
      rw [f1.1]
      exact fun spec hs => (h spec hs).1.1)
    have h2 : ∀ spec ∈ p2.species, spec.Breedable ∧ spec.staleness = 0 := by
      unfold addToSpecies at e2
      cases hl : addToList g1 p1.species with
      | none => rw [hl] at e2; simp at e2
      | some l1 =>
        rw [hl] at e2
        simp only [Option.map_some', Option.some.injEq] at e2
        subst e2
        exact addToList_fresh g1 r1 p1.species l1 (by rw [f1.1]; exact h) hl
    obtain ⟨q, e3, h3, t3⟩ := ih p2 h2
    refine ⟨q, ?_, h3, ?_⟩
    · unfold initLoop
      rw [e1]
      simp only [e2]
      exact e3
    · rw [t3, t2]
      simp only [totalGenomes, f1.1]
      omega

theorem length_le_total (l : List Species) (h : ∀ spec ∈ l, spec.genomes ≠ []) :
    l.length ≤ (l.map (fun s => s.genomes.length)).sum := by
  induction l with
  | nil => simp
  | cons spec rest ih =>
    have h1 : spec.genomes.length ≠ 0 := by simpa using h spec (List.mem_cons_self _ _)
    have h2 := ih (fun x hx => h x (List.mem_cons_of_mem _ hx))
    simp only [List.length_cons, List.map_cons, List.sum_cons]
    omega

theorem setFitness_spec (f : Nat → Int) (g : Nat) (l : List Genome) :
    (setFitness f g l).length = l.length ∧
      ((∀ x ∈ l, x.RatesOK) → ∀ x ∈ setFitness f g l, x.RatesOK) := by
  induction l generalizing g with
  | nil => exact ⟨rfl, fun _ x hx => by simp [setFitness] at hx⟩
  | cons a rest ih =>
    obtain ⟨h1, h2⟩ := ih (g + 1)
    refine ⟨by simp [setFitness, h1], ?_⟩
    intro h x hx
    simp only [setFitness, List.mem_cons] at hx
    rcases hx with hx | hx
    · subst hx
      exact h a (List.mem_cons_self _ _)
    · exact h2 (fun y hy => h y (List.mem_cons_of_mem _ hy)) x hx

theorem evaluated_spec (f : Nat → Nat → Int) (s : Nat) (l : List Species)
    (k : Int) (h : ∀ spec ∈ l, spec.Breedable ∧ spec.staleness < k) :
    (evaluated f s l).map (fun spec => spec.genomes.length) =
        l.map (fun spec => spec.genomes.length) ∧
      ∀ spec ∈ evaluated f s l, spec.Breedable ∧ spec.staleness < k := by
  induction l generalizing s with
  | nil => exact ⟨rfl, fun x hx => by simp [evaluated] at hx⟩
  | cons a rest ih =>
    obtain ⟨h1, h2⟩ := ih (s + 1) (fun x hx => h x (List.mem_cons_of_mem _ hx))
    obtain ⟨⟨ha1, ha2⟩, ha3⟩ := h a (List.mem_cons_self _ _)
    obtain ⟨hl, hr⟩ := setFitness_spec (f s) 0 a.genomes
    refine ⟨by simp [evaluated, h1, hl], ?_⟩
    intro x hx
    simp only [evaluated, List.mem_cons] at hx
    rcases hx with hx | hx
    · subst hx
      refine ⟨⟨?_, hr ha2⟩, ha3⟩
      intro hc
      have := congrArg List.length hc
      simp only [hl, List.length_nil] at this
      exact ha1 (List.length_eq_zero.mp this)
    · exact h2 x hx

end Pool

/-- After `Pool::init` on a fresh pool, whatever seed and input size, and
whatever fitness values the evaluation then leaves in the genomes and in
`maxFitness`, `Pool::newGeneration` runs to its end and leaves more than
`AI::Population` genomes. -/
theorem init_newGeneration_total (inputSize : Int) (rand : Random) :
    ∃ p0, Pool.init { inputSize := inputSize, rand := rand } = some p0 ∧
      ∀ (f : Nat → Nat → Int) (maxFitness : Int),
        ∃ q, Pool.newGeneration (p0.withFitness f maxFitness) = some q ∧
          AI.Population < q.totalGenomes := by
  obtain ⟨p0, e0, h0, t0⟩ := Pool.initLoop_fresh AI.Population
    { inputSize := inputSize, rand := rand } (fun spec hs => absurd hs (List.not_mem_nil spec))
  refine ⟨p0, e0, ?_⟩
  intro f m
  have t0' : p0.totalGenomes = 300 := by
    rw [t0]
    rfl
  obtain ⟨z1, b1⟩ := Pool.evaluated_spec f 0 p0.species (AI.StaleSpecies - 1) (fun spec hs => by
    refine ⟨(h0 spec hs).1, ?_⟩
    rw [(h0 spec hs).2]
    decide)
  have hlen : p0.species.length ≤ 300 := by
    have := Pool.length_le_total p0.species (fun spec hs => (h0 spec hs).1.1)
    simp only [Pool.totalGenomes] at t0'
    omega
  have hl1 : (p0.withFitness f m).species.length = p0.species.length := by
    have := congrArg List.length z1
    simpa [Pool.withFitness] using this
  obtain ⟨q, hq⟩ := Pool.newGeneration_defined (p0.withFitness f m)
    (fun spec hs => (b1 spec hs).1) (fun spec hs => (b1 spec hs).2)
    (by rw [hl1]; exact hlen)
    (by
      simp only [Pool.totalGenomes, Pool.withFitness, z1]
      simp only [Pool.totalGenomes] at t0'
      omega)
  exact ⟨q, hq, Pool.newGeneration_total_gt _ q hq⟩

/-! ## The bounds on the loops are never reached -/

namespace Genome

/-- The bound on the iterations of a rate loop is never reached before the
loop ends by itself: with any bound from the ceiling of the rate on, the result
is the one that `mutate` computes. -/
theorem rateLoop_fuel (op : Genome → Pool → Option (Genome × Pool)) (fuel : Nat) (pr : ℚ)
    (g : Genome) (p : Pool) (h : Int.toNat ⌈pr⌉ ≤ fuel) :
    rateLoop op fuel pr g p = rateLoop op (Int.toNat ⌈pr⌉) pr g p := by
  induction fuel generalizing pr g p with
  | zero =>
    have : Int.toNat ⌈pr⌉ = 0 := by omega
    rw [this]
  | succ n ih =>
    by_cases hpos : pr > 0
    · have hc : (1 : Int) ≤ ⌈pr⌉ := by
        have : (0 : Int) < ⌈pr⌉ := Int.ceil_pos.mpr hpos
        omega
      have hsub : ⌈pr - 1⌉ = ⌈pr⌉ - 1 := Int.ceil_sub_one pr
      have hk : Int.toNat ⌈pr⌉ = Int.toNat ⌈pr - 1⌉ + 1 := by
        rw [hsub]
        omega
      have hle : Int.toNat ⌈pr - 1⌉ ≤ n := by omega
      rw [hk]
      unfold rateLoop
      rw [if_pos hpos, if_pos hpos]
      simp only []
      cases (if p.rand.getFloat.1 < pr then op g { p with rand := p.rand.getFloat.2 }
          else some (g, { p with rand := p.rand.getFloat.2 })) with
      | none => rfl
      | some r =>
        obtain ⟨g2, p2⟩ := r
        simp only []
        exact ih (pr - 1) g2 p2 hle
    · have hz : Int.toNat ⌈pr⌉ = 0 := by
        have : ⌈pr⌉ ≤ 0 := Int.ceil_le.mpr (by push_cast; linarith)
        omega
      rw [hz]
      unfold rateLoop
      rw [if_neg hpos]

end Genome

namespace Pool

/-- The bound on the iterations of the top-up loop is never reached before the
loop ends by itself. -/
theorem topUp_fuel (fuel : Nat) (children : List Genome) (p : Pool)
    (h : AI.Population - (children.length + p.species.length) ≤ fuel) :
    topUp fuel children p =
      topUp (AI.Population - (children.length + p.species.length)) children p := by
  induction fuel generalizing children p with
  | zero =>
    have : AI.Population - (children.length + p.species.length) = 0 := by omega
    rw [this]
  | succ n ih =>
    by_cases hc : children.length + p.species.length < AI.Population
    · obtain ⟨k, hk⟩ : ∃ k, AI.Population - (children.length + p.species.length) = k + 1 :=
        ⟨AI.Population - (children.length + p.species.length) - 1, by omega⟩
      rw [hk]
      unfold topUp
      rw [if_pos hc]
      split
      · rfl
      · simp only []
        split
        · rfl
        · rename_i spec hspec
          cases hb : Species.breedChild spec { p with rand := p.rand.getUint32.2 } with
          | none => rfl
          | some r =>
            obtain ⟨child, p1⟩ := r
            simp only []
            have hf := (Species.breedChild_frame _ _ _ _ hb).1
            simp only [] at hf
            have hk1 : AI.Population - ((children ++ [child]).length + p1.species.length) = k := by
              rw [hf]
              simp only [List.length_append, List.length_singleton]
              omega
            rw [ih (children ++ [child]) p1 (by omega), hk1]
    · have : AI.Population - (children.length + p.species.length) = 0 := by omega
      rw [this]
      unfold topUp
      rw [if_neg hc]

end Pool

/-! ## The activation is odd; innovation ids, loading, speciation and the joypad -/

namespace Genome

/-- Over the reals the activation function is odd. -/
theorem sigmoid_neg (x : ℝ) : sigmoid (-x) = -sigmoid x := by
  unfold sigmoid
  have h1 : -(49 / 10 : ℝ) * -x = -(-(49 / 10 : ℝ) * x) := by ring
  rw [h1, Real.exp_neg]
  have hpos : 0 < Real.exp (-(49 / 10 : ℝ) * x) := Real.exp_pos _
  field_simp
  ring

end Genome

namespace Pool

/-- Successive calls of `newInnovation`, with steps in between that leave the
counter alone: the ids go up, and all lie above the counter at the start. -/
theorem newInnovations_spec (steps : List (Pool → Pool))
    (h : ∀ step ∈ steps, ∀ q : Pool, (step q).innovation = q.innovation) (p : Pool) :
    (newInnovations steps p).1.Pairwise (fun a b => a < b) ∧
      (∀ id ∈ (newInnovations steps p).1, p.innovation < id) ∧
      (newInnovations steps p).1.length = steps.length ∧
      (newInnovations steps p).2.innovation = p.innovation + steps.length := by
  induction steps generalizing p with
  | nil => simp [newInnovations]
  | cons step rest ih =>
    have hs := h step (List.mem_cons_self _ _) p
    obtain ⟨h1, h2, h3, h4⟩ := ih (fun f hf => h f (List.mem_cons_of_mem _ hf))
      ((step p).newInnovation).2
    have hp1 : ((step p).newInnovation).2.innovation = p.innovation + 1 := by
      simp [newInnovation, hs]
    have hid : ((step p).newInnovation).1 = p.innovation + 1 := by
      simp [newInnovation, hs]
    simp only [newInnovations, List.pairwise_cons, List.mem_cons, List.length_cons]
    refine ⟨⟨?_, h1⟩, ?_, by rw [h3], ?_⟩
    · intro id hid2
      have := h2 id hid2
      rw [hp1] at this
      rw [hid]
      exact this
    · intro id hid2
      rcases hid2 with hid2 | hid2
      · rw [hid2, hid]; omega
      · have := h2 id hid2
        rw [hp1] at this
        omega
    · rw [h4, hp1]
      push_cast
      ring

/-- A load that finds no file leaves the pool reset. -/
theorem loadFile_none (p : Pool) :
    loadFile p none =
      some { p with generation := 0, innovation := AI.Outputs, maxFitness := 0, species := [] } :=
  rfl

/-- A load of the document that `writeFile` stored succeeds; the pool read has
the generation, the best fitness and the genes of the pool written, and its
innovation counter is `AI::Outputs`. -/
theorem loadFile_writeFile (fresh p : Pool) :
    ∃ q, loadFile fresh (some p.writeFile) = some q ∧ q.innovation = AI.Outputs ∧
      q.generation = p.generation ∧ q.maxFitness = p.maxFitness ∧
      q.species.map (fun s => s.genomes.map (fun g => g.genes)) =
        p.species.map (fun s => s.genomes.map (fun g => g.genes)) := by
  obtain ⟨ys, hys, hp⟩ := Doc.readItems_proj Species.write (Species.read {})
    (fun s => s.genomes.map (fun g => (g.genes, g.fitness, g.mutationRates)))
    (Species.read_write_species {}) p.species
  have hgenes : ys.map (fun s => s.genomes.map (fun g => g.genes)) =
      p.species.map (fun s => s.genomes.map (fun g => g.genes)) := by
    have := congrArg (List.map (fun l : List (List Gene × Int × Map String ℚ) =>
      l.map (fun t => t.1))) hp
    simpa [List.map_map, Function.comp_def] using this
  cases hres : loadFile fresh (some p.writeFile) with
  | none =>
    simp [loadFile, writeFile, Pool.read, Pool.write, Doc.field, Map.find, Doc.asInt,
      Doc.asList, hys] at hres
  | some q =>
    simp [loadFile, writeFile, Pool.read, Pool.write, Doc.field, Map.find, Doc.asInt,
      Doc.asList, hys] at hres
    subst hres
    exact ⟨_, rfl, rfl, rfl, rfl, hgenes⟩

/-- The species that `addToSpecies` picks: the first one whose first genome is of
the same species as the child gets the child at its end; without such a species
a new species with the child alone goes to the end of the list. -/
theorem addToList_first (child : Genome) (l : List Species)
    (h : ∀ spec ∈ l, spec.genomes ≠ []) :
    (∃ k spec first, l[k]? = some spec ∧ spec.genomes.head? = some first ∧
        Species.sameSpecies child first = true ∧
        (∀ j sp f, j < k → l[j]? = some sp → sp.genomes.head? = some f →
          Species.sameSpecies child f = false) ∧
        addToList child l = some (l.set k { spec with genomes := spec.genomes ++ [child] })) ∨
      ((∀ sp ∈ l, ∀ f, sp.genomes.head? = some f → Species.sameSpecies child f = false) ∧
        addToList child l = some (l ++ [{ genomes := [child] }])) := by
  induction l with
  | nil =>
    right
    exact ⟨fun sp hsp => absurd hsp (List.not_mem_nil sp), rfl⟩
  | cons spec rest ih =>
    have hne := h spec (List.mem_cons_self _ _)
    cases hg : spec.genomes with
    | nil => exact absurd hg hne
    | cons first more =>
      by_cases hs : Species.sameSpecies child first = true
      · left
        refine ⟨0, spec, first, by simp, by simp [hg], hs, ?_, ?_⟩
        · intro j sp f hj
          omega
        · unfold addToList
          simp only [hg, if_pos hs]
          rfl
      · have hsf : Species.sameSpecies child first = false := by
          simpa using hs
        have hstep : addToList child (spec :: rest) =
            (addToList child rest).map (fun r => spec :: r) := by
          conv_lhs => unfold addToList
          simp only [hg, if_neg hs]
        rcases ih (fun x hx => h x (List.mem_cons_of_mem _ hx)) with
          ⟨k, sp, f, hk, hf, hsame, hbefore, hadd⟩ | ⟨hnone, hadd⟩
        · left
          refine ⟨k + 1, sp, f, by simpa using hk, hf, hsame, ?_, ?_⟩
          · intro j sp2 f2 hj hsp2 hf2
            cases j with
            | zero =>
              simp only [List.getElem?_cons_zero, Option.some.injEq] at hsp2
              subst hsp2
              simp only [hg, List.head?_cons, Option.some.injEq] at hf2
              subst hf2
              exact hsf
            | succ j =>
              simp only [List.getElem?_cons_succ] at hsp2
              exact hbefore j sp2 f2 (by omega) hsp2 hf2
          · rw [hstep, hadd]
            rfl
        · right
          refine ⟨?_, ?_⟩
          · intro sp2 hsp2 f2 hf2
            rcases List.mem_cons.mp hsp2 with hsp2 | hsp2
            · subst hsp2
              simp only [hg, List.head?_cons, Option.some.injEq] at hf2
              subst hf2
              exact hsf
            · exact hnone sp2 hsp2 f2 hf2
          · rw [hstep, hadd]
            rfl

end Pool

/-- The controls that reach the game for a controller of five values
(down, right, left, clockwise, counter-clockwise): right is active when its value
is positive and the value of left is zero, and left in the same way. -/
theorem Game.doAI_joypad (gm : Game) (d r l cw ccw : ℚ) :
    (gm.doAI (Genome.joypad [d, r, l, cw, ccw])).inputs =
      [decide (d > 0), decide (r > 0 ∧ l = 0), decide (l > 0 ∧ r = 0), decide (cw > 0),
        decide (ccw > 0)] := by
  unfold Genome.joypad Game.doAI
  by_cases hl : l = 0
  · subst hl
    simp [AI.Outputs, List.range, List.range.loop]
  · by_cases hr : r = 0
    · subst hr
      simp [AI.Outputs, List.range, List.range.loop, hl]
    · have h1 : ¬ (r > 0 ∧ l = 0) := fun h => hl h.2
      have h2 : ¬ (l > 0 ∧ r = 0) := fun h => hr h.2
      simp [AI.Outputs, List.range, List.range.loop, hl, hr]

/-! ## Evaluation of a wired network -/

namespace Map
variable {K V : Type} [DecidableEq K]

theorem mem_keys_of_find_isSome (m : Map K V) (k : K) (h : (find m k).isSome = true) :
    k ∈ m.map Prod.fst := by
  induction m with
  | nil => simp [find] at h
  | cons e rest ih =>
    obtain ⟨a, b⟩ := e
    by_cases ha : a = k
    · simp [ha]
    · simp only [find, ha, if_false] at h
      simp [ih h]

theorem insert_keys (m : Map K V) (k : K) (v : V) (h : (find m k).isSome = true) :
    (insert m k v).map Prod.fst = m.map Prod.fst := by
  induction m with
  | nil => simp [find] at h
  | cons e rest ih =>
    obtain ⟨a, b⟩ := e
    by_cases ha : a = k
    · simp [insert, ha]
    · simp only [find, ha, if_false] at h
      simp [insert, ha, ih h]

end Map

namespace Genome

theorem incomingOf_insert_self (m : Map Int Neuron) (k : Int) (n : Neuron) :
    incomingOf (Map.insert m k n) k = n.incoming := by
  simp [incomingOf, Map.find_insert_self]

theorem incomingOf_insert_ne (m : Map Int Neuron) {k k2 : Int} (n : Neuron) (h : k ≠ k2) :
    incomingOf (Map.insert m k n) k2 = incomingOf m k2 := by
  simp [incomingOf, Map.find_insert_ne m n h]

theorem sameShape_refl (m : Map Int Neuron) : SameShape m m :=
  fun _ => ⟨rfl, rfl⟩

theorem sameShape_trans {m m1 m2 : Map Int Neuron} (h1 : SameShape m m1)
    (h2 : SameShape m1 m2) : SameShape m m2 :=
  fun k => ⟨(h2 k).1.trans (h1 k).1, (h2 k).2.trans (h1 k).2⟩

/-- Writing the value of a neuron changes neither the keys nor the lists
`incoming`. -/
theorem sameShape_value (m : Map Int Neuron) (k : Int) (neuron : Neuron) (v : ℚ)
    (h : Map.find m k = some neuron) :
    SameShape m (Map.insert m k { neuron with value := v }) := by
  intro k2
  by_cases hk : k = k2
  · subst hk
    simp [incomingOf, Map.find_insert_self, h]
  · rw [incomingOf_insert_ne m _ hk, Map.find_insert_ne m _ hk]
    exact ⟨rfl, rfl⟩

theorem Wired.of_sameShape {genes : List Gene} {inputSize : Int} {m m1 : Map Int Neuron}
    (hw : Wired genes inputSize m) (hs : SameShape m m1) : Wired genes inputSize m1 := by
  obtain ⟨h1, h2, h3⟩ := hw
  refine ⟨?_, ?_, ?_⟩
  · intro i hi
    rw [(hs _).1]
    exact h1 i hi
  · intro o ho
    rw [(hs _).1]
    exact h2 o ho
  · intro k j hj
    rw [(hs k).2] at hj
    obtain ⟨gene, hg, hf⟩ := h3 k j hj
    exact ⟨gene, hg, by rw [(hs _).1]; exact hf⟩

theorem setInputs_spec (inputs : List ℚ) (start : Nat) (m : Map Int Neuron)
    (h : ∀ i : Nat, i < inputs.length → (Map.find m ((start + i : Nat) : Int)).isSome = true) :
    ∃ m1, setInputs inputs start m = some m1 ∧ SameShape m m1 := by
  induction inputs generalizing start m with
  | nil => exact ⟨m, rfl, sameShape_refl m⟩
  | cons x rest ih =>
    have h0 := h 0 (by simp)
    simp only [Nat.add_zero] at h0
    cases hf : Map.find m (start : Int) with
    | none => rw [hf] at h0; simp at h0
    | some neuron =>
      have hs := sameShape_value m (start : Int) neuron x hf
      obtain ⟨m1, e1, s1⟩ := ih (start + 1) (Map.insert m (start : Int) { neuron with value := x })
        (by
          intro i hi
          rw [(hs _).1]
          have := h (i + 1) (by simp; omega)
          rw [show start + (i + 1) = start + 1 + i by omega] at this
          exact this)
      refine ⟨m1, ?_, sameShape_trans hs s1⟩
      simp only [setInputs, hf]
      exact e1

theorem incomingSum_isSome (genes : List Gene) (m : Map Int Neuron) (inc : List Nat) (sum : ℚ)
    (h : ∀ j ∈ inc, ∃ gene, genes[j]? = some gene ∧ (Map.find m gene.into).isSome = true) :
    ∃ total, incomingSum genes m inc sum = some total := by
  induction inc generalizing sum with
  | nil => exact ⟨sum, rfl⟩
  | cons j rest ih =>
    obtain ⟨gene, hg, hf⟩ := h j (List.mem_cons_self _ _)
    cases hfind : Map.find m gene.into with
    | none => rw [hfind] at hf; simp at hf
    | some other =>
      obtain ⟨total, ht⟩ := ih (sum + gene.weight * other.value)
        (fun j2 hj2 => h j2 (List.mem_cons_of_mem _ hj2))
      exact ⟨total, by simp only [incomingSum, hg, hfind]; exact ht⟩

/-- The loop over the neurons runs to its end on a wired network; it keeps the
keys and the lists `incoming`, leaves the neurons it does not visit alone and
leaves the value 0 in every neuron it visits that has no incoming gene. -/
theorem fire_spec (act : ℚ → ℚ) (genes : List Gene) (keys : List Int) (m : Map Int Neuron)
    (hk : ∀ k ∈ keys, (Map.find m k).isSome = true)
    (hw : ∀ k : Int, ∀ j ∈ incomingOf m k,
      ∃ gene, genes[j]? = some gene ∧ (Map.find m gene.into).isSome = true) :
    ∃ m2, fire act genes keys m = some m2 ∧ SameShape m m2 ∧
      (∀ k, k ∉ keys → Map.find m2 k = Map.find m k) ∧
      (∀ k ∈ keys, incomingOf m k = [] →
        (Map.find m2 k).map (fun n => n.value) = some 0) := by
  induction keys generalizing m with
  | nil =>
    refine ⟨m, rfl, sameShape_refl m, fun _ _ => rfl, ?_⟩
    intro k hk0
    simp at hk0
  | cons k rest ih =>
    have hk0 := hk k (List.mem_cons_self _ _)
    cases hf : Map.find m k with
    | none => rw [hf] at hk0; simp at hk0
    | some neuron =>
      have hinc : incomingOf m k = neuron.incoming := by simp [incomingOf, hf]
      obtain ⟨sum, hsum⟩ := incomingSum_isSome genes m neuron.incoming 0
        (fun j hj => hw k j (by rw [hinc]; exact hj))
      have hs := sameShape_value m k neuron
        (if neuron.incoming.length ≠ 0 then act sum else 0) hf
      obtain ⟨m2, e2, s2, hrest, hzero⟩ := ih
        (Map.insert m k { neuron with value := if neuron.incoming.length ≠ 0 then act sum else 0 })
        (by
          intro k2 hk2
          rw [(hs _).1]
          exact hk k2 (List.mem_cons_of_mem _ hk2))
        (by
          intro k2 j hj
          rw [(hs k2).2] at hj
          obtain ⟨gene, hg, hfi⟩ := hw k2 j hj
          exact ⟨gene, hg, by rw [(hs _).1]; exact hfi⟩)
      refine ⟨m2, ?_, sameShape_trans hs s2, ?_, ?_⟩
      · simp only [fire, hf, hsum]
        exact e2
      · intro k2 hk2
        have hne : k ≠ k2 := fun h => hk2 (h ▸ List.mem_cons_self _ _)
        rw [hrest k2 (fun h => hk2 (List.mem_cons_of_mem _ h)), Map.find_insert_ne m _ hne]
      · intro k2 hk2 hempty
        by_cases hin : k2 ∈ rest
        · exact hzero k2 hin (by rw [(hs k2).2]; exact hempty)
        · rcases List.mem_cons.mp hk2 with h | h
          · subst h
            rw [hrest k2 hin, Map.find_insert_self]
            rw [hinc] at hempty
            simp [hempty]
          · exact absurd h hin

theorem readOutputs_spec (m : Map Int Neuron) (l : List Nat)
    (h : ∀ o ∈ l, (Map.find m (AI.MaxNodes + (o : Int))).isSome = true) :
    ∃ out, readOutputs m l = some out ∧ out.length = l.length := by
  induction l with
  | nil => exact ⟨[], rfl, rfl⟩
  | cons o rest ih =>
    obtain ⟨out, e, hl⟩ := ih (fun o2 ho2 => h o2 (List.mem_cons_of_mem _ ho2))
    have h0 := h o (List.mem_cons_self _ _)
    cases hf : Map.find m (AI.MaxNodes + (o : Int)) with
    | none => rw [hf] at h0; simp at h0
    | some neuron =>
      exact ⟨neuron.value :: out, by simp [readOutputs, hf, e], by simp [hl]⟩

/-- On a wired network and a vector of the right length `evaluateNetwork` returns
five values and a genome that differs in the values of its neurons only; every
neuron without an incoming gene is left with the value 0. -/
theorem evaluateNetwork_spec (act : ℚ → ℚ) (g : Genome) (inputSize : Int) (inputs : List ℚ)
    (hw : Wired g.genes inputSize g.network.neurons) (hlen : (inputs.length : Int) = inputSize) :
    ∃ out m2, evaluateNetwork act g inputSize inputs =
        some (out, { g with network := { neurons := m2 } }) ∧
      out.length = AI.Outputs ∧ SameShape g.network.neurons m2 ∧
      ∀ k, (Map.find g.network.neurons k).isSome = true → incomingOf g.network.neurons k = [] →
        (Map.find m2 k).map (fun n => n.value) = some 0 := by
  obtain ⟨m1, e1, s1⟩ := setInputs_spec inputs 0 g.network.neurons (by
    intro i hi
    simp only [Nat.zero_add]
    exact hw.1 i (by omega))
  have hw1 := hw.of_sameShape s1
  obtain ⟨m2, e2, s2, -, hzero⟩ := fire_spec act g.genes (m1.map Prod.fst) m1
    (fun k hk => Map.find_isSome_of_mem_keys m1 k hk) hw1.2.2
  have hw2 := hw1.of_sameShape s2
  obtain ⟨out, e3, hl⟩ := readOutputs_spec m2 (List.range AI.Outputs)
    (fun o ho => hw2.2.1 o (List.mem_range.mp ho))
  refine ⟨out, m2, ?_, by simpa using hl, sameShape_trans s1 s2, ?_⟩
  · simp only [evaluateNetwork, hlen, ne_eq, not_true_eq_false, if_false, e1, e2, e3]
  · intro k hk hempty
    refine hzero k (Map.mem_keys_of_find_isSome m1 k ?_) ?_
    · rw [(s1 k).1]; exact hk
    · rw [(s1 k).2]; exact hempty

/-- On a wired network `evaluateNetwork` returns for every vector. -/
theorem evaluateNetwork_defined (act : ℚ → ℚ) (g : Genome) (inputSize : Int) (inputs : List ℚ)
    (hw : Wired g.genes inputSize g.network.neurons) :
    ∃ out m2, evaluateNetwork act g inputSize inputs =
        some (out, { g with network := { neurons := m2 } }) ∧
      SameShape g.network.neurons m2 := by
  by_cases hlen : (inputs.length : Int) = inputSize
  · obtain ⟨out, m2, e, -, hs, -⟩ := evaluateNetwork_spec act g inputSize inputs hw hlen
    exact ⟨out, m2, e, hs⟩
  · exact ⟨[], g.network.neurons, by simp [evaluateNetwork, hlen], sameShape_refl _⟩

end Genome

/-! ## The generated network is wired -/

namespace Genome

theorem incomingOf_ensureNeuron (m : Map Int Neuron) (k k2 : Int) :
    incomingOf (ensureNeuron m k) k2 = incomingOf m k2 := by
  unfold ensureNeuron
  cases hf : Map.find m k with
  | some n => simp
  | none =>
    simp only [Option.isNone_none, if_true]
    by_cases hk : k = k2
    · subst hk
      simp [incomingOf, Map.find_insert_self, hf]
    · exact incomingOf_insert_ne m _ hk

theorem incomingOf_pushIncoming (m : Map Int Neuron) (k : Int) (i : Nat) (k2 : Int)
    (h : (Map.find m k).isSome = true) :
    incomingOf (pushIncoming m k i) k2 =
      if k2 = k then incomingOf m k2 ++ [i] else incomingOf m k2 := by
  unfold pushIncoming
  cases hf : Map.find m k with
  | none => rw [hf] at h; simp at h
  | some n =>
    simp only []
    by_cases hk : k2 = k
    · subst hk
      simp [incomingOf, Map.find_insert_self, hf]
    · rw [if_neg hk]
      exact incomingOf_insert_ne m _ (fun h => hk h.symm)

/-- The list `incoming` of every neuron after the step of `generateNetwork` for
the gene at index `i`: an enabled gene is appended to the list of its `out`. -/
theorem incomingOf_linkGene (gene : Gene) (i : Nat) (m : Map Int Neuron) (k : Int) :
    incomingOf (linkGene gene i m) k =
      if gene.enabled = true ∧ k = gene.out then incomingOf m k ++ [i] else incomingOf m k := by
  unfold linkGene
  by_cases he : gene.enabled = true
  · rw [if_pos he, incomingOf_ensureNeuron,
      incomingOf_pushIncoming _ _ _ _ (ensureNeuron_self m gene.out), incomingOf_ensureNeuron]
    by_cases hk : k = gene.out
    · simp [he, hk]
    · simp [hk]
  · rw [if_neg he]
    simp [he]

theorem linkGene_linked (genes : List Gene) (gene : Gene) (i : Nat) (m : Map Int Neuron)
    (hi : genes[i]? = some gene) (h : Linked genes m) : Linked genes (linkGene gene i m) := by
  intro k j hj
  rw [incomingOf_linkGene] at hj
  have hold : j ∈ incomingOf m k → ∃ gene2, genes[j]? = some gene2 ∧ gene2.enabled = true ∧
      gene2.out = k ∧ (Map.find (linkGene gene i m) gene2.into).isSome = true := by
    intro hj2
    obtain ⟨gene2, h1, h2, h3, h4⟩ := h k j hj2
    exact ⟨gene2, h1, h2, h3, linkGene_isSome gene i m _ h4⟩
  by_cases hc : gene.enabled = true ∧ k = gene.out
  · rw [if_pos hc] at hj
    rcases List.mem_append.mp hj with hj2 | hj2
    · exact hold hj2
    · simp only [List.mem_singleton] at hj2
      subst hj2
      exact ⟨gene, hi, hc.1, hc.2.symm, (linkGene_endpoints gene j m hc.1).1⟩
  · rw [if_neg hc] at hj
    exact hold hj

theorem linkGenes_linked (genes rest : List Gene) (i : Nat) (m : Map Int Neuron)
    (hrest : ∀ t : Nat, rest[t]? = genes[i + t]?) (h : Linked genes m) :
    Linked genes (linkGenes rest i m) := by
  induction rest generalizing i m with
  | nil => exact h
  | cons gene more ih =>
    have h0 := hrest 0
    simp only [List.getElem?_cons_zero, Nat.add_zero] at h0
    refine ih (i + 1) (linkGene gene i m) ?_ (linkGene_linked genes gene i m h0.symm h)
    intro t
    have := hrest (t + 1)
    simp only [List.getElem?_cons_succ] at this
    rw [this]
    congr 1
    omega

theorem incomingOf_foldl_new {α : Type} (key : α → Int) (l : List α) (m : Map Int Neuron)
    (h : ∀ k, incomingOf m k = []) (k : Int) :
    incomingOf (l.foldl (fun acc x => Map.insert acc (key x) {}) m) k = [] := by
  induction l generalizing m with
  | nil => exact h k
  | cons x xs ih =>
    refine ih (Map.insert m (key x) {}) ?_
    intro k2
    by_cases hk : key x = k2
    · subst hk
      rw [incomingOf_insert_self]
    · rw [incomingOf_insert_ne m _ hk]
      exact h k2

/-- The network that `generateNetwork` builds is wired, and every entry of a list
`incoming` is an enabled gene with that neuron as its `out`. -/
theorem generateNetwork_wired (g : Genome) (inputSize : Int) :
    Wired (g.generateNetwork inputSize).genes inputSize
        (g.generateNetwork inputSize).network.neurons ∧
      Linked (g.generateNetwork inputSize).genes
        (g.generateNetwork inputSize).network.neurons := by
  have hlinked : Linked (g.generateNetwork inputSize).genes
      (g.generateNetwork inputSize).network.neurons := by
    refine linkGenes_linked _ _ 0 _ (fun t => by simp [generateNetwork]) ?_
    intro k j hj
    have hempty : incomingOf (insertOutputs (insertInputs inputSize [])) k = [] := by
      unfold insertOutputs insertInputs
      refine incomingOf_foldl_new (fun c : Nat => AI.MaxNodes + (c : Int)) _ _ ?_ k
      intro k2
      refine incomingOf_foldl_new (fun c : Nat => (c : Int)) _ _ ?_ k2
      intro k3
      simp [incomingOf, Map.find]
    rw [hempty] at hj
    simp at hj
  refine ⟨⟨?_, ?_, ?_⟩, hlinked⟩
  · intro i hi
    refine linkGenes_isSome _ _ _ _ ?_
    unfold insertOutputs
    refine Map.find_foldl_isSome (fun c : Nat => AI.MaxNodes + (c : Int)) (fun _ => ({} : Neuron)) _ _ _ ?_
    unfold insertInputs
    exact Map.find_foldl_mem (fun c : Nat => (c : Int)) (fun _ => ({} : Neuron)) _ _ i
      (List.mem_range.mpr (by omega))
  · intro o ho
    refine linkGenes_isSome _ _ _ _ ?_
    unfold insertOutputs
    exact Map.find_foldl_mem (fun c : Nat => AI.MaxNodes + (c : Int)) (fun _ => ({} : Neuron))
      _ _ o (List.mem_range.mpr ho)
  · intro k j hj
    obtain ⟨gene, h1, -, -, h4⟩ := hlinked k j hj
    exact ⟨gene, h1, h4⟩

/-- In a generated network a neuron that is the `out` of no enabled gene has no
incoming gene. -/
theorem generateNetwork_incoming_nil (g : Genome) (inputSize : Int) (k : Int)
    (h : ∀ gene ∈ g.genes, gene.enabled = true → gene.out ≠ k) :
    incomingOf (g.generateNetwork inputSize).network.neurons k = [] := by
  cases hinc : incomingOf (g.generateNetwork inputSize).network.neurons k with
  | nil => rfl
  | cons j rest =>
    exfalso
    obtain ⟨gene, h1, h2, h3, -⟩ := (generateNetwork_wired g inputSize).2 k j
      (by rw [hinc]; exact List.mem_cons_self _ _)
    have hmem : gene ∈ (g.generateNetwork inputSize).genes := List.getElem?_mem h1
    exact h gene ((generateNetwork_endpoints g inputSize).1.mem_iff.mp hmem) h2 h3

end Genome

/-! ## One step of the evaluation of a genome -/

theorem setAt_spec {α : Type} (l : List α) (i : Nat) (x : α) (h : i < l.length) :
    ∃ l1, setAt l i x = some l1 ∧ l1.length = l.length :=
  ⟨l.set i x, by simp [setAt, h], by simp⟩

/-- Below `2^31` the conversion of a `Uint32` to `int` keeps the value; from
there on the result is negative. -/
theorem toInt_spec (x : Nat) :
    (x < 2 ^ 31 → toInt x = (x : Int)) ∧ (2 ^ 31 ≤ x % 2 ^ 32 → toInt x < 0) ∧
      (x % 2 ^ 32 < 2 ^ 31 → 0 ≤ toInt x) := by
  unfold toInt
  refine ⟨?_, ?_, ?_⟩
  · intro h
    have h1 : x % 2 ^ 32 = x := Nat.mod_eq_of_lt (by omega)
    rw [h1, if_pos h]
  · intro h
    rw [if_neg (by omega)]
    have : x % 2 ^ 32 < 2 ^ 32 := Nat.mod_lt _ (by norm_num)
    omega
  · intro h
    rw [if_pos h]
    omega

namespace Game

theorem init_sound (gm : Game) (seed : Random) :
    (gm.init seed).Sound ∧ (gm.init seed).gameInSession = true := by
  have hu : ∀ i : Fin 7, 0 ≤ uniqueTetrominos.getD i.val 0 ∧ uniqueTetrominos.getD i.val 0 < 19 := by
    decide
  have hr := hu ⟨seed.getUint8.1 % 7, Nat.mod_lt _ (by norm_num)⟩
  refine ⟨⟨?_, ?_, ?_⟩, ?_⟩
  · simp only [init, newPiece, term]
    split <;> exact List.length_replicate _ _
  · simp only [init, newPiece, term]
    split <;> exact hr.1
  · simp only [init, newPiece, term]
    split <;> exact hr.2
  · rfl

end Game

namespace Genome

theorem boardInputs_spec (board : List Int) (cells : List Nat) (inputs : List ℚ)
    (h : ∀ c ∈ cells, c < board.length ∧ c < inputs.length) :
    ∃ out, boardInputs board cells inputs = some out ∧ out.length = inputs.length := by
  induction cells generalizing inputs with
  | nil => exact ⟨inputs, rfl, rfl⟩
  | cons c rest ih =>
    obtain ⟨hb, hi⟩ := h c (List.mem_cons_self _ _)
    obtain ⟨l1, e1, n1⟩ := setAt_spec inputs c (if board[c] = 0 then (0 : ℚ) else 1) hi
    obtain ⟨out, e2, n2⟩ := ih l1 (fun c2 hc2 => by
      rw [n1]
      exact h c2 (List.mem_cons_of_mem _ hc2))
    refine ⟨out, ?_, by rw [n2, n1]⟩
    simp only [boardInputs, List.getElem?_eq_getElem hb, e1]
    exact e2

theorem pieceInputs_spec (gm : Game) (shape : List (List Nat)) (cells : List (Nat × Nat))
    (inputs : List ℚ) (h : Game.boardH * Game.boardW ≤ inputs.length) :
    ∃ out, pieceInputs gm shape cells inputs = some out ∧ out.length = inputs.length := by
  induction cells generalizing inputs with
  | nil => exact ⟨inputs, rfl, rfl⟩
  | cons c rest ih =>
    obtain ⟨v, u⟩ := c
    unfold pieceInputs
    simp only []
    split_ifs with h1 h2
    · exact ih inputs h
    · have hidx : ((gm.playerY + (v : Int)) * (Game.boardW : Int) +
          (gm.playerX + (u : Int))).toNat < inputs.length := by
        simp only [Game.boardW, Game.boardH] at h1 h ⊢
        push_cast at h1 ⊢
        omega
      obtain ⟨l1, e1, n1⟩ := setAt_spec inputs _ (-1 : ℚ) hidx
      obtain ⟨out, e2, n2⟩ := ih l1 (by rw [n1]; exact h)
      refine ⟨out, ?_, by rw [n2, n1]⟩
      rw [e1]
      exact e2
    · exact ih inputs h

/-- The observation vector of a sound game has `inputSize` entries; for a game in
session the pool needs as many inputs as the board has cells. -/
theorem getInputs_spec (gm : Game) (inputSize : Int)
    (h : gm.gameInSession = true → 200 ≤ inputSize ∧ gm.Sound) :
    ∃ inputs, getInputs gm inputSize = some inputs ∧ inputs.length = inputSize.toNat := by
  unfold getInputs
  by_cases hs : gm.gameInSession = true
  · obtain ⟨hsize, hb, ht0, ht1⟩ := h hs
    simp only [hs, if_true]
    obtain ⟨l1, e1, n1⟩ := boardInputs_spec gm.board (List.range (Game.boardH * Game.boardW))
      (List.replicate inputSize.toNat (0 : ℚ)) (by
        intro c hc
        rw [List.mem_range] at hc
        simp only [Game.boardH, Game.boardW] at hc hb
        simp only [List.length_replicate]
        omega)
    rw [e1]
    simp only [if_neg (not_lt.mpr ht0)]
    have hlt : gm.tetromino.toNat < tetrominos.length := by
      have : tetrominos.length = 19 := rfl
      omega
    rw [List.getElem?_eq_getElem hlt]
    simp only []
    obtain ⟨out, e2, n2⟩ := pieceInputs_spec gm tetrominos[gm.tetromino.toNat] pieceCells l1 (by
      rw [n1]
      simp only [Game.boardH, Game.boardW, List.length_replicate]
      omega)
    exact ⟨out, e2, by rw [n2, n1]; simp⟩
  · simp only [hs]
    exact ⟨_, rfl, by simp⟩

/-- The lines 818 to 832 for a game that is still in session. -/
theorem afterFrame_session (g : Genome) (gm : Game) (p : Pool) (h : gm.gameInSession = true) :
    afterFrame g gm p =
      ({ g with
          framesSurvived := max g.framesSurvived (toInt gm.ticks)
          fitness :=
            if ((gm.score : Int) + max g.framesSurvived (toInt gm.ticks) + 1) % 2 ^ 32 = 0 then -1
            else ((gm.score : Int) + max g.framesSurvived (toInt gm.ticks) + 1) % 2 ^ 32 },
        gm, p) := by
  simp [afterFrame, h]

/-- The lines 818 to 832 for a game that has ended. -/
theorem afterFrame_over (g : Genome) (gm : Game) (p : Pool) (h : gm.gameInSession = false) :
    afterFrame g gm p =
      ({ g with finished := true }, gm.term,
        if g.fitness > p.maxFitness then { p with maxFitness := g.fitness } else p) := by
  simp [afterFrame, h]

/-- On a wired network and a sound game `evaluateCurrent` returns for a genome
that is not finished: the network is evaluated, the controls are stored, the
game runs its frame and lines 818 to 833 follow. -/
theorem evaluateCurrent_spec (act : ℚ → ℚ) (frame : Game → Game) (g : Genome) (gm : Game)
    (p : Pool) (hfin : g.finished = false)
    (hw : Wired g.genes p.inputSize g.network.neurons)
    (hgm : gm.gameInSession = true → 200 ≤ p.inputSize ∧ gm.Sound) :
    ∃ controller m2, SameShape g.network.neurons m2 ∧
      g.evaluateCurrent act frame gm p =
        some
          ({ (afterFrame { g with network := { neurons := m2 }, outputs := joypad controller }
                (gm.process frame (joypad controller)) p).1 with
              currentFrame :=
                ((afterFrame { g with network := { neurons := m2 }, outputs := joypad controller }
                  (gm.process frame (joypad controller)) p).1.currentFrame + 1) % 2 ^ 32 },
            (afterFrame { g with network := { neurons := m2 }, outputs := joypad controller }
              (gm.process frame (joypad controller)) p).2.1,
            (afterFrame { g with network := { neurons := m2 }, outputs := joypad controller }
              (gm.process frame (joypad controller)) p).2.2) := by
  obtain ⟨inputs, e1, -⟩ := getInputs_spec gm p.inputSize hgm
  obtain ⟨controller, m2, e2, hs⟩ := evaluateNetwork_defined act g p.inputSize inputs hw
  refine ⟨controller, m2, hs, ?_⟩
  simp only [evaluateCurrent, hfin, e1, e2]
  rfl

end Genome

/-! ## The flag of an evaluation pass -/

namespace Genome

theorem initializeRun_fields (g : Genome) (handle : Nat) (inputSize : Int) :
    (g.initializeRun handle inputSize).finished = false ∧
      (g.initializeRun handle inputSize).game = some handle ∧
      (g.initializeRun handle inputSize).framesSurvived = 0 :=
  ⟨rfl, rfl, rfl⟩

theorem initializeRun_wired (g : Genome) (handle : Nat) (inputSize : Int) :
    Wired (g.initializeRun handle inputSize).genes inputSize
      (g.initializeRun handle inputSize).network.neurons :=
  (generateNetwork_wired _ inputSize).1

end Genome

namespace AI

/-- The flag of `AI::process` after the visit of a genome: it stays true only
when the genome came with a game and was finished. -/
theorem visit_result (seedTime : Nat → Random) (inputSize : Int) (s g : Nat) (gen : Genome)
    (games : Map Nat Game) (focus : Option Nat) (st : Pass) :
    (visit seedTime inputSize s g gen games focus st).2.2.2.result =
      (st.result && (gen.game.isSome && gen.finished)) := by
  have hinit := (Genome.initializeRun_fields gen games.getSize inputSize).1
  unfold visit
  cases hgame : gen.game with
  | none =>
    simp only [if_true, hinit]
    split_ifs <;> simp_all
  | some handle =>
    cases hfin : gen.finished <;> simp <;> split_ifs <;> simp_all

theorem visitGenomes_result (seedTime : Nat → Random) (inputSize : Int) (s : Nat)
    (genomes : List Genome) (g : Nat) (games : Map Nat Game) (focus : Option Nat) (st : Pass) :
    (visitGenomes seedTime inputSize s g genomes games focus st).2.2.2.result =
      (st.result && genomes.all (fun gen => gen.game.isSome && gen.finished)) := by
  induction genomes generalizing g games focus st with
  | nil => simp [visitGenomes]
  | cons gen rest ih =>
    simp only [visitGenomes, List.all_cons]
    rw [ih, visit_result, Bool.and_assoc]

theorem visitSpecies_result (seedTime : Nat → Random) (inputSize : Int)
    (species : List Species) (s : Nat) (games : Map Nat Game) (focus : Option Nat) (st : Pass) :
    (visitSpecies seedTime inputSize s species games focus st).2.2.2.result =
      (st.result &&
        species.all (fun spec => spec.genomes.all (fun gen => gen.game.isSome && gen.finished))) := by
  induction species generalizing s games focus st with
  | nil => simp [visitSpecies]
  | cons spec rest ih =>
    simp only [visitSpecies, List.all_cons]
    rw [ih, visitGenomes_result, Bool.and_assoc]

/-- No task is launched for a genome that has a game and is finished. -/
theorem visit_tasks (seedTime : Nat → Random) (inputSize : Int) (s g : Nat) (gen : Genome)
    (games : Map Nat Game) (focus : Option Nat) (st : Pass)
    (h : (gen.game.isSome && gen.finished) = true) :
    (visit seedTime inputSize s g gen games focus st).2.2.2.tasks = st.tasks := by
  simp only [Bool.and_eq_true] at h
  obtain ⟨hgame, hfin⟩ := h
  cases hg : gen.game with
  | none => rw [hg] at hgame; simp at hgame
  | some handle =>
    unfold visit
    simp [hg, hfin]

theorem visitGenomes_tasks (seedTime : Nat → Random) (inputSize : Int) (s : Nat)
    (genomes : List Genome) (g : Nat) (games : Map Nat Game) (focus : Option Nat) (st : Pass)
    (h : genomes.all (fun gen => gen.game.isSome && gen.finished) = true) :
    (visitGenomes seedTime inputSize s g genomes games focus st).2.2.2.tasks = st.tasks := by
  induction genomes generalizing g games focus st with
  | nil => simp [visitGenomes]
  | cons gen rest ih =>
    simp only [List.all_cons, Bool.and_eq_true] at h
    simp only [visitGenomes]
    rw [ih _ _ _ _ (by simpa using h.2), visit_tasks _ _ _ _ _ _ _ _ (by simpa using h.1)]

theorem visitSpecies_tasks (seedTime : Nat → Random) (inputSize : Int)
    (species : List Species) (s : Nat) (games : Map Nat Game) (focus : Option Nat) (st : Pass)
    (h : species.all (fun spec =>
      spec.genomes.all (fun gen => gen.game.isSome && gen.finished)) = true) :
    (visitSpecies seedTime inputSize s species games focus st).2.2.2.tasks = st.tasks := by
  induction species generalizing s games focus st with
  | nil => simp [visitSpecies]
  | cons spec rest ih =>
    simp only [List.all_cons, Bool.and_eq_true] at h
    simp only [visitSpecies]
    rw [ih _ _ _ _ h.2, visitGenomes_tasks _ _ _ _ _ _ _ _ h.1]

/-- The flag that `AI::process` returns is true when every genome came with a
game and was finished, and false when some genome was still to be measured. -/
theorem process_result (act : ℚ → ℚ) (frame : Game → Game) (seedTime : Nat → Random) (ai : AI)
    (r : Bool) (ai1 : AI) (h : process act frame seedTime ai = some (r, ai1)) :
    r = ai.pool.species.all (fun spec =>
      spec.genomes.all (fun gen => gen.game.isSome && gen.finished)) := by
  unfold process at h
  simp only [Option.map_eq_some', Prod.mk.injEq] at h
  obtain ⟨ai2, -, hr, -⟩ := h
  rw [← hr, visitSpecies_result]
  rfl

/-- A pass over genomes that are all finished returns true. -/
theorem process_finished (act : ℚ → ℚ) (frame : Game → Game) (seedTime : Nat → Random)
    (ai : AI)
    (h : ai.pool.species.all (fun spec =>
      spec.genomes.all (fun gen => gen.game.isSome && gen.finished)) = true) :
    ∃ ai1, process act frame seedTime ai = some (true, ai1) := by
  unfold process
  simp only []
  rw [visitSpecies_tasks _ _ _ _ _ _ _ h, visitSpecies_result, h]
  exact ⟨_, rfl⟩

/-- A pass over a pool whose only genome has no game yet, in a pool with the 200
inputs of the board: the genome gets its game, its step is run, and the pass
returns false. -/
theorem process_fresh (act : ℚ → ℚ) (frame : Game → Game) (seedTime : Nat → Random) (ai : AI)
    (spec : Species) (gen : Genome) (hs : ai.pool.species = [spec]) (hg : spec.genomes = [gen])
    (hgame : gen.game = none) (hin : 200 ≤ ai.pool.inputSize) :
    ∃ ai1, process act frame seedTime ai = some (false, ai1) := by
  have hf := Genome.initializeRun_fields gen ai.games.getSize ai.pool.inputSize
  have hsound := Game.init_sound { rand := seedTime ai.games.getSize } (seedTime ai.games.getSize)
  obtain ⟨controller, m2, -, he⟩ := Genome.evaluateCurrent_spec act frame
    (gen.initializeRun ai.games.getSize ai.pool.inputSize)
    (Game.init { rand := seedTime ai.games.getSize } (seedTime ai.games.getSize))
    { ai.pool with species := [{ spec with
        genomes := [gen.initializeRun ai.games.getSize ai.pool.inputSize] }] }
    hf.1 (Genome.initializeRun_wired gen _ _) (fun _ => ⟨hin, hsound.1⟩)
  have hvisit : visit seedTime ai.pool.inputSize 0 0 gen ai.games ai.focus {} =
      (gen.initializeRun ai.games.getSize ai.pool.inputSize,
        Map.insert ai.games ai.games.getSize
          (Game.init { rand := seedTime ai.games.getSize } (seedTime ai.games.getSize)),
        (visit seedTime ai.pool.inputSize 0 0 gen ai.games ai.focus {}).2.2.1,
        { (visit seedTime ai.pool.inputSize 0 0 gen ai.games ai.focus {}).2.2.2 with
          result := false, tasks := [(0, 0)] }) := by
    unfold visit
    simp only [hgame, if_true, hf.1]
    split_ifs <;> simp_all
  unfold process
  simp only [hs, visitSpecies, visitGenomes, hg]
  rw [hvisit]
  simp only [runTasks, runTask, List.getElem?_cons_zero, hf.2.1, Map.find_insert_self, he,
    Option.map_some']
  exact ⟨_, rfl⟩

end AI

/-! ## Sorting: the result is ordered -/

theorem ordInsert_pairwise {α : Type} (before : α → α → Bool) (r : α → α → Prop)
    (h1 : ∀ a b, before a b = true → r a b) (h2 : ∀ a b, before a b = false → r b a)
    (ht : ∀ a b c, r a b → r b c → r a c) (x : α) (l : List α) (hl : l.Pairwise r) :
    (ordInsert before x l).Pairwise r := by
  induction l with
  | nil => simp [ordInsert]
  | cons y ys ih =>
    rw [List.pairwise_cons] at hl
    unfold ordInsert
    split
    · rename_i hb
      rw [List.pairwise_cons]
      refine ⟨?_, ih hl.2⟩
      intro z hz
      rcases List.mem_cons.mp ((ordInsert_perm before x ys).mem_iff.mp hz) with h | h
      · subst h; exact h1 _ _ hb
      · exact hl.1 z h
    · rename_i hb
      have hxy : r x y := h2 _ _ (by simpa using hb)
      rw [List.pairwise_cons, List.pairwise_cons]
      refine ⟨?_, hl⟩
      intro z hz
      rcases List.mem_cons.mp hz with h | h
      · subst h; exact hxy
      · exact ht _ _ _ hxy (hl.1 z h)

/-- The list that `sort` returns is ordered by every transitive relation that
holds from `a` to `b` when the comparator puts `a` before `b`, and from `b` to
`a` when it does not. -/
theorem sortBy_pairwise {α : Type} (before : α → α → Bool) (r : α → α → Prop)
    (h1 : ∀ a b, before a b = true → r a b) (h2 : ∀ a b, before a b = false → r b a)
    (ht : ∀ a b c, r a b → r b c → r a c) (l : List α) : (sortBy before l).Pairwise r := by
  induction l with
  | nil => simp [sortBy]
  | cons x xs ih => exact ordInsert_pairwise before r h1 h2 ht x _ ih

/-- The sort with `Genome::DescSort` leaves the genomes by non-increasing
fitness. -/
theorem sortBy_desc (l : List Genome) :
    (sortBy (fun a b : Genome => decide (a.fitness > b.fitness)) l).Pairwise
      (fun a b => b.fitness ≤ a.fitness) := by
  apply sortBy_pairwise
  · intro a b h
    simp only [gt_iff_lt, decide_eq_true_eq] at h
    omega
  · intro a b h
    simp only [gt_iff_lt, decide_eq_false_iff_not] at h
    omega
  · intro a b c hab hbc
    omega

/-- The sort with `Genome::AscSortPtr` leaves the pointers by non-decreasing
fitness. -/
theorem sortBy_asc (l : List (Nat × Nat × Int)) :
    (sortBy (fun a b : Nat × Nat × Int => decide (a.2.2 < b.2.2)) l).Pairwise
      (fun a b => a.2.2 ≤ b.2.2) := by
  apply sortBy_pairwise
  · intro a b h
    simp only [decide_eq_true_eq] at h
    omega
  · intro a b h
    simp only [decide_eq_false_iff_not] at h
    omega
  · intro a b c hab hbc
    omega

/-! ## Crossover: the genes and the rates of the child -/

namespace Map
variable {K V : Type} [DecidableEq K]

/-- A value found after a fold of `insert` was in the map before or is the value
of an element of the list under its key. -/
theorem find_foldl_some {α : Type} (key : α → K) (val : α → V) (l : List α) (m : Map K V)
    (k : K) (v : V)
    (h : find (l.foldl (fun acc x => insert acc (key x) (val x)) m) k = some v) :
    find m k = some v ∨ ∃ x ∈ l, key x = k ∧ val x = v := by
  induction l generalizing m with
  | nil => exact Or.inl h
  | cons y ys ih =>
    rcases ih _ h with h1 | ⟨x, hx, hk, hv⟩
    · by_cases hy : key y = k
      · rw [← hy, find_insert_self] at h1
        exact Or.inr ⟨y, List.mem_cons_self _ _, hy, by simpa using h1⟩
      · rw [find_insert_ne m (val y) hy] at h1
        exact Or.inl h1
    · exact Or.inr ⟨x, List.mem_cons_of_mem _ hx, hk, hv⟩

/-- The lookups after an assignment through `m[k]`. -/
theorem find_assign (m m1 : Map K V) (k : K) (v : V) (h : assign m k v = some m1) (k2 : K) :
    find m1 k2 = if k2 = k then some v else find m k2 := by
  induction m generalizing m1 with
  | nil => simp [assign] at h
  | cons e m ih =>
    obtain ⟨a, b⟩ := e
    unfold assign at h
    by_cases hak : a = k
    · rw [if_pos hak] at h
      simp only [Option.some.injEq] at h
      subst h
      subst hak
      by_cases h2 : k2 = a
      · subst h2; simp [find]
      · have : ¬ a = k2 := fun hc => h2 hc.symm
        simp [find, this, h2]
    · rw [if_neg hak] at h
      cases hr : assign m k v with
      | none => rw [hr] at h; simp at h
      | some r =>
        rw [hr] at h
        simp only [Option.map_some', Option.some.injEq] at h
        subst h
        have := ih r hr
        by_cases h2 : k2 = k
        · subst h2
          simp [find, hak, this]
        · by_cases h3 : a = k2
          · simp [find, h3, h2]
          · simp [find, h3, h2, this]

theorem find_eq_none_of_not_mem_keys (m : Map K V) (k : K) (h : k ∉ m.map Prod.fst) :
    find m k = none := by
  induction m with
  | nil => rfl
  | cons e m ih =>
    obtain ⟨a, b⟩ := e
    simp only [List.map_cons, List.mem_cons, not_or] at h
    have : ¬ a = k := fun hc => h.1 hc.symm
    simp [find, this, ih h.2]

end Map

namespace Species

/-- A gene found in the index of a gene list is a gene of the list with the
innovation id that was looked up. -/
theorem find_innovationIndex (genes : List Gene) (k : Int) (gene2 : Gene)
    (h : Map.find (innovationIndex genes) k = some gene2) :
    gene2 ∈ genes ∧ gene2.innovation = k := by
  rcases Map.find_foldl_some (fun gene : Gene => gene.innovation) (fun gene : Gene => gene)
    genes [] k gene2 h with h1 | ⟨x, hx, hk, hv⟩
  · simp [Map.find] at h1
  · subst hv
    exact ⟨hx, hk⟩

/-- The loop at lines 393 to 401: gene by gene, the child has the innovation id
of the fitter parent, and the gene is that of the fitter parent or an enabled
gene of the other parent. -/
theorem crossoverGenes_spec (idx : Map Int Gene) (other : List Gene)
    (hidx : ∀ k gene2, Map.find idx k = some gene2 → gene2 ∈ other ∧ gene2.innovation = k)
    (l : List Gene) (r : Random) :
    List.Forall₂ (fun c gene1 : Gene => c.innovation = gene1.innovation ∧
        (c = gene1 ∨ (c ∈ other ∧ c.enabled = true))) (crossoverGenes idx l r).1 l := by
  induction l generalizing r with
  | nil => simp [crossoverGenes]
  | cons gene1 rest ih =>
    unfold crossoverGenes
    cases hf : Map.find idx gene1.innovation with
    | none =>
      simp only []
      exact List.Forall₂.cons ⟨rfl, Or.inl rfl⟩ (ih r)
    | some gene2 =>
      simp only []
      obtain ⟨hm, hk⟩ := hidx _ _ hf
      refine List.Forall₂.cons ?_ (ih _)
      split
      · rename_i hc
        exact ⟨hk, Or.inr ⟨hm, hc.2⟩⟩
      · exact ⟨rfl, Or.inl rfl⟩

/-- The rates after the loop at lines 405 to 409, for a source without a
repeated name: a name of the source has the value of the source, every other
name keeps its value. -/
theorem copyRates_find (src child rates : Map String ℚ)
    (hn : (src.map Prod.fst).Nodup) (h : copyRates src child = some rates) (name : String) :
    Map.find rates name =
      if name ∈ src.map Prod.fst then Map.find src name else Map.find child name := by
  induction src generalizing child with
  | nil =>
    simp only [copyRates, Option.some.injEq] at h
    subst h
    simp
  | cons e rest ih =>
    obtain ⟨a, b⟩ := e
    rw [List.map_cons, List.nodup_cons] at hn
    unfold copyRates at h
    cases ha : Map.assign child a b with
    | none => rw [ha] at h; simp at h
    | some child1 =>
      rw [ha] at h
      simp only [] at h
      rw [ih child1 hn.2 h, Map.find_assign child child1 a b ha name]
      by_cases h1 : name = a
      · subst h1
        simp [hn.1, Map.find]
      · have h2 : ¬ a = name := fun hc => h1 hc.symm
        have hiff : name ∈ List.map Prod.fst ((a, b) :: rest) ↔ name ∈ rest.map Prod.fst := by
          simp [h1]
        by_cases hm : name ∈ rest.map Prod.fst
        · rw [if_pos hm, if_pos (hiff.mpr hm)]
          simp [h2, Map.find]
        · rw [if_neg hm, if_neg (fun hc => hm (hiff.mp hc))]
          simp [h1]

/-! ## The count of the disjoint genes -/

theorem innovationSet_isNone (genes : List Gene) (k : Int) :
    (Map.find (innovationSet genes) k).isNone = true ↔ k ∉ genes.map Gene.innovation := by
  constructor
  · intro h hk
    obtain ⟨gene, hg, rfl⟩ := List.mem_map.mp hk
    have := find_innovationSet genes gene hg
    cases hf : Map.find (innovationSet genes) gene.innovation with
    | none => rw [hf] at this; simp at this
    | some v => rw [hf] at h; simp at h
  · intro h
    unfold innovationSet
    rw [Map.find_foldl_not_mem (fun gene : Gene => gene.innovation) (fun _ => true) genes [] k
      (fun x hx hk => h (hk ▸ List.mem_map_of_mem _ hx))]
    rfl

theorem foldl_count {α : Type} (P : α → Prop) [DecidablePred P] (l : List α) (n : Nat) :
    l.foldl (fun result x => if P x then result + 1 else result) n =
      n + l.countP (fun x => decide (P x)) := by
  induction l generalizing n with
  | nil => simp
  | cons x xs ih =>
    rw [List.foldl_cons, ih, List.countP_cons]
    by_cases hx : P x
    · simp [hx]; omega
    · simp [hx]

/-- The counter of `Species::disjoint`: the genes of either genome whose
innovation id no gene of the other genome carries. -/
theorem disjointCount_eq (g1 g2 : Genome) :
    disjointCount g1 g2 =
      g1.genes.countP (fun gene => decide (gene.innovation ∉ g2.genes.map Gene.innovation)) +
      g2.genes.countP (fun gene => decide (gene.innovation ∉ g1.genes.map Gene.innovation)) := by
  unfold disjointCount
  simp only []
  rw [foldl_count, foldl_count, Nat.zero_add]
  congr 1
  · apply List.countP_congr
    intro gene _
    simp only [decide_eq_true_eq]
    exact innovationSet_isNone _ _
  · apply List.countP_congr
    intro gene _
    simp only [decide_eq_true_eq]
    exact innovationSet_isNone _ _

end Species

namespace Pool

/-! ## The half of a species that a cull keeps -/

theorem ceil_half (n : Nat) : ⌈(n : ℚ) / 2⌉ = (((n + 1) / 2 : Nat) : Int) := by
  have h := Nat.div_add_mod (n + 1) 2
  have hr : (n + 1) % 2 = 0 ∨ (n + 1) % 2 = 1 := by omega
  generalize (n + 1) / 2 = k at h ⊢
  rw [Int.ceil_eq_iff]
  simp only [Int.cast_natCast]
  rcases hr with hr | hr
  · rw [hr] at h
    have hq : (n : ℚ) + 1 = 2 * (k : ℚ) := by exact_mod_cast h.symm
    constructor <;> linarith
  · rw [hr] at h
    have hq : (n : ℚ) + 1 = 2 * (k : ℚ) + 1 := by exact_mod_cast h.symm
    constructor <;> linarith

/-- The body of `Pool::cullSpecies(false)` for one species: the genomes are
ordered by non-increasing fitness, the first `ceil(n / 2)` stay. -/
theorem cullOne_false (spec : Species) :
    ∃ removed, ((cullOne false spec).genomes ++ removed).Perm spec.genomes ∧
      (cullOne false spec).genomes.length = (spec.genomes.length + 1) / 2 ∧
      (cullOne false spec).genomes.Pairwise (fun a b => b.fitness ≤ a.fitness) ∧
      (∀ a ∈ (cullOne false spec).genomes, ∀ b ∈ removed, b.fitness ≤ a.fitness) ∧
      cullOne false spec = { spec with genomes := (cullOne false spec).genomes } := by
  have hperm := sortBy_perm (fun a b : Genome => decide (a.fitness > b.fitness)) spec.genomes
  have hsorted := sortBy_desc spec.genomes
  have hlen := hperm.length_eq
  have hk : (⌈((sortBy (fun a b : Genome => decide (a.fitness > b.fitness))
      spec.genomes).length : ℚ) / 2⌉).toNat = (spec.genomes.length + 1) / 2 := by
    rw [ceil_half, hlen]
    exact Int.toNat_natCast _
  have hg : (cullOne false spec).genomes =
      (sortBy (fun a b : Genome => decide (a.fitness > b.fitness)) spec.genomes).take
        ((spec.genomes.length + 1) / 2) := by
    unfold cullOne
    simp only [Bool.false_eq_true, if_false]
    rw [hk]
  refine ⟨(sortBy (fun a b : Genome => decide (a.fitness > b.fitness)) spec.genomes).drop
    ((spec.genomes.length + 1) / 2), ?_, ?_, ?_, ?_, rfl⟩
  · rw [hg, List.take_append_drop]
    exact hperm
  · rw [hg, List.length_take, hlen]
    omega
  · rw [hg]
    exact hsorted.sublist (List.take_sublist _ _)
  · rw [hg]
    rw [← List.take_append_drop ((spec.genomes.length + 1) / 2)
      (sortBy (fun a b : Genome => decide (a.fitness > b.fitness)) spec.genomes),
      List.pairwise_append] at hsorted
    exact hsorted.2.2

/-! ## The order of the ranks -/

theorem genomePointers_complete (s j : Nat) (l : List Genome) (i : Nat) (a : Genome)
    (h : l[i]? = some a) : (s, j + i, a.fitness) ∈ genomePointers s j l := by
  induction l generalizing j i with
  | nil => simp at h
  | cons x rest ih =>
    cases i with
    | zero =>
      simp only [List.getElem?_cons_zero, Option.some.injEq] at h
      subst h
      simp [genomePointers]
    | succ k =>
      simp only [List.getElem?_cons_succ] at h
      have := ih (j + 1) k h
      simp only [genomePointers, List.mem_cons]
      right
      have e : j + (k + 1) = j + 1 + k := by omega
      rw [e]
      exact this

/-- Every genome of the pool has its pointer in the list `global`. -/
theorem speciesPointers_complete (k : Nat) (species : List Species) (i g : Nat) (a : Genome)
    (h : genomeAt species i g = some a) : (k + i, g, a.fitness) ∈ speciesPointers k species := by
  induction species generalizing k i with
  | nil => simp [genomeAt] at h
  | cons spec rest ih =>
    simp only [speciesPointers, List.mem_append]
    cases i with
    | zero =>
      left
      simp only [genomeAt, List.getElem?_cons_zero, Option.some_bind] at h
      have := genomePointers_complete k 0 spec.genomes g a h
      simpa using this
    | succ n =>
      right
      have h1 : genomeAt rest n g = some a := by
        simpa [genomeAt] using h
      have := ih (k + 1) n h1
      have e : k + (n + 1) = k + 1 + n := by omega
      rw [e]
      exact this

theorem rankAt_eq_genomeAt (species : List Species) (s g : Nat) :
    rankAt species s g = (genomeAt species s g).map (fun genome => genome.globalRank) := by
  unfold rankAt genomeAt
  cases species[s]? <;> simp

/-- After `Pool::rankGlobally` a genome of lower fitness has the lower rank. -/
theorem rankGlobally_mono (p : Pool) (s g s2 g2 : Nat) (a b : Genome)
    (ha : genomeAt p.species s g = some a) (hb : genomeAt p.species s2 g2 = some b)
    (hlt : a.fitness < b.fitness) :
    ∃ r r2 : Nat, rankAt p.rankGlobally.species s g = some (r : Int) ∧
      rankAt p.rankGlobally.species s2 g2 = some (r2 : Int) ∧ r < r2 := by
  have hperm := sortBy_perm (fun a b : Nat × Nat × Int => decide (a.2.2 < b.2.2))
    (globalList p.species)
  have hsorted := sortBy_asc (globalList p.species)
  have hnd : ((sortBy (fun a b : Nat × Nat × Int => decide (a.2.2 < b.2.2))
      (globalList p.species)).map (fun x => (x.1, x.2.1))).Nodup :=
    ((hperm.map _).nodup_iff).mpr (speciesPointers_nodup 0 p.species)
  have hv : ∀ x ∈ sortBy (fun a b : Nat × Nat × Int => decide (a.2.2 < b.2.2))
      (globalList p.species), (rankAt p.species x.1 x.2.1).isSome = true := by
    intro x hx
    obtain ⟨i, h1, h2⟩ := speciesPointers_mem 0 p.species x ((hperm.mem_iff).mp hx)
    have : x.1 = i := by omega
    rw [this]
    exact h2
  obtain ⟨h1, -⟩ := assignRanks_rankAt _ 0 p.species hnd hv
  generalize hL : sortBy (fun a b : Nat × Nat × Int => decide (a.2.2 < b.2.2))
    (globalList p.species) = L at hperm hsorted h1
  have hq : p.rankGlobally.species = assignRanks L 0 p.species := by
    rw [← hL]
    rfl
  rw [← hq] at h1
  -- the position of a pointer in the sorted list is the rank of its genome
  have hpos : ∀ (i : Nat) (hi : i < L.length),
      rankAt p.rankGlobally.species L[i].1 L[i].2.1 = some (i : Int) := by
    intro i hi
    have e := congrArg (fun l => l[i]?) h1
    simp only [List.getElem?_map, List.getElem?_eq_getElem hi, Option.map_some'] at e
    rw [List.getElem?_range' _ _ hi] at e
    simpa using e
  have hma : (s, g, a.fitness) ∈ L := by
    have := speciesPointers_complete 0 p.species s g a ha
    rw [Nat.zero_add] at this
    exact hperm.mem_iff.mpr this
  have hmb : (s2, g2, b.fitness) ∈ L := by
    have := speciesPointers_complete 0 p.species s2 g2 b hb
    rw [Nat.zero_add] at this
    exact hperm.mem_iff.mpr this
  obtain ⟨i, hi, hia⟩ := List.getElem_of_mem hma
  obtain ⟨j, hj, hjb⟩ := List.getElem_of_mem hmb
  refine ⟨i, j, ?_, ?_, ?_⟩
  · have := hpos i hi
    rw [hia] at this
    exact this
  · have := hpos j hj
    rw [hjb] at this
    exact this
  · by_contra hge
    have hle : j ≤ i := by omega
    rcases Nat.lt_or_eq_of_le hle with hlt2 | heq
    · have := (List.pairwise_iff_getElem.mp hsorted) j i hj hi hlt2
      rw [hia, hjb] at this
      simp only [] at this
      omega
    · subst heq
      rw [hia] at hjb
      simp only [Prod.mk.injEq] at hjb
      omega

/-- The loop at lines 555 to 557 changes nothing of a genome but its rank. -/
theorem assignRanks_frame (l : List (Nat × Nat × Int)) (r : Nat) (species : List Species) :
    (assignRanks l r species).map (fun spec : Species =>
        { spec with genomes := spec.genomes.map (fun a : Genome => { a with globalRank := 0 }) }) =
      species.map (fun spec : Species =>
        { spec with genomes := spec.genomes.map (fun a : Genome => { a with globalRank := 0 }) }) := by
  induction l generalizing r species with
  | nil => rfl
  | cons e rest ih =>
    obtain ⟨s, g, f⟩ := e
    unfold assignRanks
    rw [ih]
    apply modifyAt_map
    intro spec
    have := modifyAt_map (fun genome : Genome => { genome with globalRank := (r : Int) })
      (fun a : Genome => ({ a with globalRank := 0 } : Genome)) (fun _ => rfl) spec.genomes g
    simp only [setRank, this]

end Pool

namespace Pool

/-! ## The staleness of the species -/

/-- The lines 590 to 599 for a species that holds a genome: `best` is a genome of
the greatest fitness. -/
theorem staleUpdate_spec (spec : Species) (h : spec.genomes ≠ []) :
    ∃ best, best ∈ spec.genomes ∧ (∀ g ∈ spec.genomes, g.fitness ≤ best.fitness) ∧
      staleUpdate spec = some { spec with
        genomes := sortBy (fun a b : Genome => decide (a.fitness > b.fitness)) spec.genomes
        topFitness := if best.fitness > spec.topFitness then best.fitness else spec.topFitness
        staleness := if best.fitness > spec.topFitness then 0 else spec.staleness + 1 } := by
  have hperm := sortBy_perm (fun a b : Genome => decide (a.fitness > b.fitness)) spec.genomes
  have hhead := sortBy_head_fitness spec.genomes
  unfold staleUpdate
  cases hsort : sortBy (fun a b : Genome => decide (a.fitness > b.fitness)) spec.genomes with
  | nil =>
    have := hperm.length_eq
    rw [hsort] at this
    exact absurd (List.length_eq_zero.mp this.symm) h
  | cons best more =>
    rw [hsort] at hhead hperm
    refine ⟨best, hperm.mem_iff.mp (List.mem_cons_self _ _), hhead best (by simp), ?_⟩
    simp only []
    split
    · rfl
    · rfl

/-- The loop of `Pool::removeStaleSpecies` over species that all hold a genome:
every species is updated, and the updated species that pass the test of line 600
are kept, in their order. -/
theorem staleSurvivors_spec (maxFitness : Int) (l : List Species)
    (h : ∀ spec ∈ l, spec.genomes ≠ []) :
    ∃ updated, List.Forall₂ (fun spec spec1 => staleUpdate spec = some spec1) l updated ∧
      staleSurvivors maxFitness l = some (updated.filter (staleKeep maxFitness)) := by
  induction l with
  | nil => exact ⟨[], List.Forall₂.nil, rfl⟩
  | cons spec rest ih =>
    obtain ⟨updated, hu, hs⟩ := ih (fun x hx => h x (List.mem_cons_of_mem _ hx))
    obtain ⟨spec1, he⟩ : ∃ spec1, staleUpdate spec = some spec1 := by
      obtain ⟨best, -, -, he⟩ := staleUpdate_spec spec (h spec (List.mem_cons_self _ _))
      exact ⟨_, he⟩
    refine ⟨spec1 :: updated, List.Forall₂.cons he hu, ?_⟩
    unfold staleSurvivors
    rw [he]
    simp only [hs, List.filter_cons]
    by_cases hk : staleKeep maxFitness spec1 = true
    · simp [hk]
    · simp [hk]

/-- A species that passes `removeStaleSpecies` stays breedable. -/
theorem staleUpdate_breedable (spec spec1 : Species) (hb : spec.Breedable)
    (h : staleUpdate spec = some spec1) : spec1.Breedable := by
  obtain ⟨best, -, -, he⟩ := staleUpdate_spec spec hb.1
  rw [he] at h
  simp only [Option.some.injEq] at h
  subst h
  have hperm := sortBy_perm (fun a b : Genome => decide (a.fitness > b.fitness)) spec.genomes
  constructor
  · intro hc
    have := hperm.length_eq
    simp only [] at hc
    rw [hc] at this
    exact hb.1 (List.length_eq_zero.mp this.symm)
  · intro g hg
    exact hb.2 g (hperm.mem_iff.mp hg)

theorem removeStaleSpecies_breedable (p q : Pool) (hb : ∀ spec ∈ p.species, spec.Breedable)
    (h : p.removeStaleSpecies = some q) : ∀ spec ∈ q.species, spec.Breedable := by
  obtain ⟨updated, hu, hs⟩ := staleSurvivors_spec p.maxFitness p.species
    (fun spec hm => (hb spec hm).1)
  unfold removeStaleSpecies at h
  rw [hs] at h
  simp only [Option.some.injEq] at h
  subst h
  intro spec1 hm
  simp only [List.mem_filter] at hm
  obtain ⟨i, hi, rfl⟩ := List.getElem_of_mem hm.1
  have hlen := hu.length_eq
  have := (List.forall₂_iff_get.mp hu).2 i (by omega) hi
  simp only [List.get_eq_getElem] at this
  exact staleUpdate_breedable _ _ (hb _ (List.getElem_mem _)) this

/-! ## The count of the genomes after a generation -/

/-- The method `Pool::newGeneration` in three parts: the removals, the breeding,
and the insertion of the children. -/
theorem newGeneration_eq (p : Pool) :
    p.newGeneration = p.survivors.bind (fun p5 => p5.offspring.bind (fun r =>
      (addAll r.1 r.2).map (fun p9 => { p9 with generation := p9.generation + 1 }))) := by
  unfold newGeneration survivors
  simp only []
  cases h2 : ((p.cullSpecies false).rankGlobally).removeStaleSpecies with
  | none => rfl
  | some p2 =>
    simp only [Option.some_bind]
    unfold offspring
    cases h6 : breedAll
        ({ p2.rankGlobally with
            species := p2.rankGlobally.species.map
              Species.calculateAverageFitness } : Pool).removeWeakSpecies.totalAverageFitness
        ({ p2.rankGlobally with
            species := p2.rankGlobally.species.map
              Species.calculateAverageFitness } : Pool).removeWeakSpecies.species []
        ({ p2.rankGlobally with
            species := p2.rankGlobally.species.map
              Species.calculateAverageFitness } : Pool).removeWeakSpecies with
    | none => rfl
    | some r6 =>
      obtain ⟨children, p6⟩ := r6
      simp only []
      cases h8 : topUp (AI.Population - (children.length + (p6.cullSpecies true).species.length))
          children (p6.cullSpecies true) with
      | none => rfl
      | some r8 =>
        obtain ⟨children1, p8⟩ := r8
        simp only [Option.some_bind]
        cases h9 : addAll children1 p8 with
        | none => rfl
        | some p9 => rfl

/-- The species that `survivors` leaves are breedable when those of the pool
are. -/
theorem survivors_breedable (p p5 : Pool) (hb : ∀ spec ∈ p.species, spec.Breedable)
    (h : p.survivors = some p5) : ∀ spec ∈ p5.species, spec.Breedable := by
  have b0 : ∀ spec ∈ (p.cullSpecies false).species, spec.Breedable := by
    intro spec hs
    obtain ⟨s0, hs0, rfl⟩ := List.mem_map.mp hs
    exact (cullOne_breedable false s0 (hb s0 hs0)).1
  have b1 := rankGlobally_breedable _ b0
  unfold survivors at h
  simp only [] at h
  cases h2 : ((p.cullSpecies false).rankGlobally).removeStaleSpecies with
  | none => rw [h2] at h; simp at h
  | some p2 =>
    rw [h2] at h
    simp only [Option.some.injEq] at h
    subst h
    have b2 := removeStaleSpecies_breedable _ _ b1 h2
    have b3 := rankGlobally_breedable _ b2
    intro spec hs
    simp only [removeWeakSpecies, List.mem_filter, List.mem_map] at hs
    obtain ⟨⟨s0, hs0, rfl⟩, -⟩ := hs
    unfold Species.Breedable
    rw [calculateAverageFitness_genomes]
    exact b3 s0 hs0

/-- The loop at lines 658 to 661 ends with `Population` genomes or more in the
list `children` and the species together. -/
theorem topUp_reaches (fuel : Nat) (children : List Genome) (p : Pool)
    (children1 : List Genome) (q : Pool)
    (hf : AI.Population - (children.length + p.species.length) ≤ fuel)
    (h : topUp fuel children p = some (children1, q)) :
    AI.Population ≤ children1.length + q.species.length := by
  induction fuel generalizing children p with
  | zero =>
    simp only [topUp, Option.some.injEq, Prod.mk.injEq] at h
    rw [← h.1, ← h.2]
    omega
  | succ n ih =>
    unfold topUp at h
    split at h
    · rename_i hc
      split at h
      · simp at h
      · simp only [] at h
        split at h
        · simp at h
        · rename_i spec hspec
          cases hb : Species.breedChild spec { p with rand := p.rand.getUint32.2 } with
          | none => rw [hb] at h; simp at h
          | some r =>
            obtain ⟨child, p1⟩ := r
            rw [hb] at h
            simp only [] at h
            have hfr := (Species.breedChild_frame _ _ _ _ hb).1
            simp only [] at hfr
            apply ih (children ++ [child]) p1 ?_ h
            rw [hfr]
            simp only [List.length_append, List.length_singleton]
            omega
    · rename_i hc
      simp only [Option.some.injEq, Prod.mk.injEq] at h
      rw [← h.1, ← h.2]
      omega

/-- The breeding of lines 647 to 661 runs to its end on breedable species with a
non-zero sum of averages: every species is left with one genome, and the
children and the species together are `Population` or more. -/
theorem offspring_spec (p : Pool) (hb : ∀ spec ∈ p.species, spec.Breedable)
    (hne : p.species ≠ []) (hsum : p.totalAverageFitness ≠ 0) :
    ∃ children q, p.offspring = some (children, q) ∧
      AI.Population ≤ children.length + q.species.length ∧
      q.species.length = p.species.length ∧ q.totalGenomes = q.species.length ∧
      ∀ spec ∈ q.species, spec.genomes ≠ [] := by
  obtain ⟨children, p6, e6⟩ := breedAll_total _ hsum _ hb [] p
  obtain ⟨-, f6, -⟩ := breedAll_spec _ _ _ _ _ _ e6
  have b7 : ∀ spec ∈ (p6.cullSpecies true).species, spec.Breedable := by
    intro spec hs
    obtain ⟨s0, hs0, rfl⟩ := List.mem_map.mp hs
    rw [f6.1] at hs0
    exact (cullOne_breedable true s0 (hb s0 hs0)).1
  have n7 : (p6.cullSpecies true).species ≠ [] := by
    simp only [cullSpecies, f6.1, ne_eq, List.map_eq_nil_iff]
    exact hne
  obtain ⟨children1, p8, e8⟩ := topUp_total
    (AI.Population - (children.length + (p6.cullSpecies true).species.length)) children
    (p6.cullSpecies true) n7 b7
  obtain ⟨-, f8⟩ := topUp_spec _ _ _ _ _ e8
  have hreach := topUp_reaches _ _ _ _ _ (le_refl _) e8
  have t7 : (p6.cullSpecies true).totalGenomes = p6.species.length :=
    cullSpecies_true_total p6 (by
      intro n hn
      obtain ⟨spec, hs, rfl⟩ := List.mem_map.mp hn
      rw [f6.1] at hs
      intro hc
      exact (hb spec hs).1 (List.length_eq_zero.mp hc))
  have l7 : (p6.cullSpecies true).species.length = p6.species.length := by
    simp [cullSpecies]
  refine ⟨children1, p8, ?_, hreach, ?_, ?_, ?_⟩
  · unfold offspring
    rw [e6]
    exact e8
  · rw [f8.1, l7, f6.1]
  · have : p8.totalGenomes = (p6.cullSpecies true).totalGenomes := by
      simp only [totalGenomes, f8.1]
    rw [this, t7, f8.1, l7]
  · intro spec hs
    rw [f8.1] at hs
    exact (b7 spec hs).1

/-- The breeding of lines 647 to 661 returns only for a pool with a species and
a non-zero sum of averages; the species stay the same in number, and the
children and the species together are `Population` or more. -/
theorem offspring_some (p : Pool) (children : List Genome) (q : Pool)
    (h : p.offspring = some (children, q)) :
    p.species ≠ [] ∧ p.totalAverageFitness ≠ 0 ∧ q.species.length = p.species.length ∧
      AI.Population ≤ children.length + q.species.length := by
  unfold offspring at h
  cases h6 : breedAll p.totalAverageFitness p.species [] p with
  | none => rw [h6] at h; simp at h
  | some r6 =>
    obtain ⟨children0, p6⟩ := r6
    rw [h6] at h
    simp only [] at h
    obtain ⟨hl6, hf6, hsum⟩ := breedAll_spec _ _ _ _ _ _ h6
    obtain ⟨-, hf8⟩ := topUp_spec _ _ _ _ _ h
    have hreach := topUp_reaches _ _ _ _ _ (le_refl _) h
    have l7 : (p6.cullSpecies true).species.length = p6.species.length := by
      simp [cullSpecies]
    have hne : p.species ≠ [] := by
      intro hnil
      have hq : q.species.length = 0 := by
        rw [hf8.1, l7, hf6.1, hnil]
        rfl
      have hlen : (p6.cullSpecies true).species.length = 0 := by
        rw [l7, hf6.1, hnil]
        rfl
      have hc : children0.length = 0 := by
        rw [hl6, hnil]
        rfl
      rw [hc, hlen] at h
      have e : AI.Population - (0 + 0) = 299 + 1 := rfl
      rw [e] at h
      unfold topUp at h
      simp [hc, hlen, AI.Population] at h
    exact ⟨hne, hsum hne, by rw [hf8.1, l7, hf6.1], hreach⟩

/-- Every species that `survivors` leaves holds a genome: a species without
genomes fails the assertion of line 589. -/
theorem survivors_sizes (p p5 : Pool) (h : p.survivors = some p5) :
    ∀ n ∈ p5.species.map (fun s => s.genomes.length), n ≠ 0 := by
  unfold survivors at h
  simp only [] at h
  cases h2 : ((p.cullSpecies false).rankGlobally).removeStaleSpecies with
  | none => rw [h2] at h; simp at h
  | some p2 =>
    rw [h2] at h
    simp only [Option.some.injEq] at h
    subst h
    have n2 : ∀ n ∈ p2.species.map (fun s => s.genomes.length), n ≠ 0 := by
      unfold removeStaleSpecies at h2
      split at h2
      · simp at h2
      · rename_i survived hs
        simp only [Option.some.injEq] at h2
        subst h2
        exact staleSurvivors_sizes _ _ _ hs
    apply removeWeakSpecies_sizes
    intro n hn
    rw [List.map_map] at hn
    have : ((fun s : Species => s.genomes.length) ∘ Species.calculateAverageFitness) =
        (fun s : Species => s.genomes.length) := by
      funext s
      simp [calculateAverageFitness_genomes]
    rw [this, rankGlobally_sizes] at hn
    exact n2 n hn

/-- After the breeding of lines 647 to 661 every species that held a genome
holds exactly one, so the pool holds as many genomes as species. -/
theorem offspring_total (p : Pool) (children : List Genome) (q : Pool)
    (hn : ∀ n ∈ p.species.map (fun s => s.genomes.length), n ≠ 0)
    (h : p.offspring = some (children, q)) : q.totalGenomes = q.species.length := by
  unfold offspring at h
  cases h6 : breedAll p.totalAverageFitness p.species [] p with
  | none => rw [h6] at h; simp at h
  | some r6 =>
    obtain ⟨children0, p6⟩ := r6
    rw [h6] at h
    simp only [] at h
    obtain ⟨-, hf6, -⟩ := breedAll_spec _ _ _ _ _ _ h6
    obtain ⟨-, hf8⟩ := topUp_spec _ _ _ _ _ h
    have t7 : (p6.cullSpecies true).totalGenomes = p6.species.length :=
      cullSpecies_true_total p6 (by rw [hf6.1]; exact hn)
    have l7 : (p6.cullSpecies true).species.length = p6.species.length := by
      simp [cullSpecies]
    have : q.totalGenomes = (p6.cullSpecies true).totalGenomes := by
      simp only [totalGenomes, hf8.1]
    rw [this, t7, hf8.1, l7]

end Pool

/-! ## Node mutation: the two outcomes of a pick -/

namespace Genome

/-- The pick of a disabled gene: `maxNeuron` has been incremented at line 262,
one draw is consumed, and nothing else changes. -/
theorem nodeMutate_disabled (g : Genome) (p : Pool) (picked : Gene) (hne : g.genes ≠ [])
    (hp : g.genes[p.rand.getUint32.1 % g.genes.length]? = some picked)
    (hd : picked.enabled = false) :
    nodeMutate g p =
      ({ g with maxNeuron := g.maxNeuron + 1 }, { p with rand := p.rand.getUint32.2 }) := by
  have hl : g.genes.length ≠ 0 := fun hc => hne (List.length_eq_zero.mp hc)
  unfold nodeMutate
  rw [if_neg hl]
  simp only [hp, hd, Bool.not_false, if_true]

/-- The pick of an enabled gene: the lines 268 to 281. -/
theorem nodeMutate_enabled (g : Genome) (p : Pool) (picked : Gene) (hne : g.genes ≠ [])
    (hp : g.genes[p.rand.getUint32.1 % g.genes.length]? = some picked)
    (he : picked.enabled = true) :
    nodeMutate g p =
      ({ g with
          maxNeuron := g.maxNeuron + 1
          genes := g.genes.set (p.rand.getUint32.1 % g.genes.length)
              { picked with enabled := false } ++
            [{ picked with
                out := g.maxNeuron + 1, weight := 1, innovation := p.innovation + 1,
                enabled := true }] ++
            [{ picked with
                into := g.maxNeuron + 1, innovation := p.innovation + 2, enabled := true }] },
        { p with rand := p.rand.getUint32.2, innovation := p.innovation + 2 }) := by
  have hl : g.genes.length ≠ 0 := fun hc => hne (List.length_eq_zero.mp hc)
  unfold nodeMutate
  rw [if_neg hl]
  simp only [hp, he, Bool.not_true, Pool.newInnovation]
  have e : p.innovation + 1 + 1 = p.innovation + 2 := by ring
  simp [e]

end Genome

namespace Pool

/-- After the breeding of lines 647 to 661 every species that held a genome
holds exactly one. -/
theorem offspring_ones (p : Pool) (children : List Genome) (q : Pool)
    (hn : ∀ n ∈ p.species.map (fun s => s.genomes.length), n ≠ 0)
    (h : p.offspring = some (children, q)) : ∀ spec ∈ q.species, spec.genomes.length = 1 := by
  unfold offspring at h
  cases h6 : breedAll p.totalAverageFitness p.species [] p with
  | none => rw [h6] at h; simp at h
  | some r6 =>
    obtain ⟨children0, p6⟩ := r6
    rw [h6] at h
    simp only [] at h
    obtain ⟨-, hf6, -⟩ := breedAll_spec _ _ _ _ _ _ h6
    obtain ⟨-, hf8⟩ := topUp_spec _ _ _ _ _ h
    intro spec hs
    rw [hf8.1] at hs
    obtain ⟨s0, hs0, rfl⟩ := List.mem_map.mp hs
    rw [hf6.1] at hs0
    have hne : s0.genomes ≠ [] := by
      intro hc
      exact hn _ (List.mem_map_of_mem _ hs0) (by simp [hc])
    obtain ⟨best, hb, -⟩ := cullOne_true s0 hne
    rw [hb]
    rfl

end Pool

/-! ## The link and the toggle mutations -/

namespace Map
variable {K V : Type} [DecidableEq K]

theorem keys_insert (m : Map K V) (k : K) (v : V) (x : K)
    (h : x ∈ (insert m k v).map Prod.fst) : x = k ∨ x ∈ m.map Prod.fst := by
  induction m with
  | nil =>
    simp only [insert, List.map_cons, List.map_nil, List.mem_singleton] at h
    exact Or.inl h
  | cons e m ih =>
    obtain ⟨a, b⟩ := e
    unfold insert at h
    split at h
    · right
      simpa using h
    · simp only [List.map_cons, List.mem_cons] at h ⊢
      rcases h with h | h
      · exact Or.inr (Or.inl h)
      · rcases ih h with h1 | h1
        · exact Or.inl h1
        · exact Or.inr (Or.inr h1)

theorem keys_foldl_insert {α : Type} (key : α → K) (val : α → V) (l : List α) (m : Map K V)
    (x : K) (h : x ∈ (l.foldl (fun acc a => insert acc (key a) (val a)) m).map Prod.fst) :
    (∃ a ∈ l, x = key a) ∨ x ∈ m.map Prod.fst := by
  induction l generalizing m with
  | nil => exact Or.inr h
  | cons a rest ih =>
    rcases ih _ h with ⟨b, hb, hx⟩ | h1
    · exact Or.inl ⟨b, List.mem_cons_of_mem _ hb, hx⟩
    · rcases keys_insert m (key a) (val a) x h1 with h2 | h2
      · exact Or.inl ⟨a, List.mem_cons_self _ _, h2⟩
      · exact Or.inr h2

end Map

namespace Genome

/-- The keys of the candidates of `Genome::randomNeuron`: a key that was not in
the map before the loop at lines 171 to 188 is an endpoint of a gene, and with
`nonInput` it lies above `inputSize`. -/
theorem neuronCandidates_keys (genes : List Gene) (nonInput : Bool) (inputSize : Int)
    (m : Map Int Bool) (x : Int)
    (h : x ∈ (neuronCandidates genes nonInput inputSize m).map Prod.fst) :
    (∃ gene ∈ genes, (x = gene.into ∨ x = gene.out) ∧ (nonInput = true → inputSize < x)) ∨
      x ∈ m.map Prod.fst := by
  unfold neuronCandidates at h
  induction genes generalizing m with
  | nil => exact Or.inr h
  | cons gene rest ih =>
    rw [List.foldl_cons] at h
    rcases ih _ h with ⟨g2, hg2, hx⟩ | h1
    · exact Or.inl ⟨g2, List.mem_cons_of_mem _ hg2, hx⟩
    · simp only [] at h1
      have step : ∀ (c : Int) (acc : Map Int Bool),
          x ∈ (if (!nonInput || decide (c > inputSize)) = true then Map.insert acc c true
            else acc).map Prod.fst →
          (x = c ∧ (nonInput = true → inputSize < x)) ∨ x ∈ acc.map Prod.fst := by
        intro c acc hc
        split at hc
        · rename_i hcond
          rcases Map.keys_insert acc c true x hc with h2 | h2
          · left
            refine ⟨h2, ?_⟩
            intro hn
            subst hn
            subst h2
            simpa using hcond
          · exact Or.inr h2
        · exact Or.inr hc
      rcases step gene.out _ h1 with ⟨h2, h3⟩ | h2
      · exact Or.inl ⟨gene, List.mem_cons_self _ _, Or.inr h2, h3⟩
      · rcases step gene.into _ h2 with ⟨h4, h5⟩ | h4
        · exact Or.inl ⟨gene, List.mem_cons_self _ _, Or.inl h4, h5⟩
        · exact Or.inr h4

/-- The method `Genome::randomNeuron(true)` returns an output id or an endpoint
of a gene above `inputSize`. -/
theorem randomNeuron_true (g : Genome) (p : Pool) :
    ∃ n q, randomNeuron g true p = some (n, q) ∧ q = { p with rand := p.rand.getUint32.2 } ∧
      ((∃ o : Nat, o < AI.Outputs ∧ n = AI.MaxNodes + (o : Int)) ∨
        (∃ gene ∈ g.genes, (n = gene.into ∨ n = gene.out) ∧ p.inputSize < n)) := by
  obtain ⟨n, q, h, -, -⟩ := randomNeuron_spec g true p
  refine ⟨n, q, h, ?_⟩
  unfold randomNeuron at h
  simp only [Bool.not_true, Bool.false_eq_true, if_false] at h
  split at h
  · simp at h
  · rename_i hsize
    split at h
    · rename_i pair hpair
      simp only [Option.some.injEq, Prod.mk.injEq] at h
      refine ⟨h.2.symm, ?_⟩
      have hmem : pair.1 ∈ (neuronCandidates g.genes true p.inputSize
          ((List.range AI.Outputs).foldl
            (fun acc o => Map.insert acc (AI.MaxNodes + (o : Int)) true) [])).map Prod.fst :=
        List.mem_map_of_mem _ (List.getElem?_mem hpair)
      rw [← h.1]
      rcases neuronCandidates_keys _ _ _ _ _ hmem with ⟨gene, hg, hx, hgt⟩ | h1
      · exact Or.inr ⟨gene, hg, hx, hgt rfl⟩
      · rcases Map.keys_foldl_insert (fun o : Nat => AI.MaxNodes + (o : Int)) (fun _ => true)
          (List.range AI.Outputs) [] pair.1 h1 with ⟨o, ho, hx⟩ | h2
        · exact Or.inl ⟨o, List.mem_range.mp ho, hx⟩
        · simp at h2
    · rename_i hnone
      exfalso
      have hlt : p.rand.getUint32.1 % Map.getSize (neuronCandidates g.genes true p.inputSize
          ((List.range AI.Outputs).foldl
            (fun acc o => Map.insert acc (AI.MaxNodes + (o : Int)) true) [])) <
          (neuronCandidates g.genes true p.inputSize
          ((List.range AI.Outputs).foldl
            (fun acc o => Map.insert acc (AI.MaxNodes + (o : Int)) true) [])).length :=
        Nat.mod_lt _ (Nat.pos_of_ne_zero hsize)
      rw [List.getElem?_eq_getElem hlt] at hnone
      simp at hnone

/-- The outcomes of `Genome::linkMutate`: the two draws of a node, then either
an early return or one appended gene. -/
theorem linkMutate_cases (g : Genome) (forceBias : Bool) (p : Pool) :
    ∃ n1 p1 n2 p2, randomNeuron g false p = some (n1, p1) ∧
      randomNeuron g true p1 = some (n2, p2) ∧
      p2.inputSize = p.inputSize ∧ p2.innovation = p.innovation ∧
      (linkMutate g forceBias p = some (g, p2) ∨
        ∃ gene : Gene, gene.enabled = true ∧
          gene.into = (if forceBias then p.inputSize
            else if n2 ≤ p.inputSize then n2 else n1) ∧
          gene.out = (if n2 ≤ p.inputSize then n1 else n2) ∧
          gene.innovation = p.innovation + 1 ∧
          (∀ old ∈ g.genes, ¬ (old.into = gene.into ∧ old.out = gene.out)) ∧
          ¬ (n1 ≤ p.inputSize ∧ n2 ≤ p.inputSize) ∧
          linkMutate g forceBias p =
            some ({ g with genes := g.genes ++ [gene] },
              { p2 with innovation := p.innovation + 1, rand := p2.rand.getFloat.2 })) := by
  obtain ⟨n1, p1, h1, f1, i1⟩ := randomNeuron_spec g false p
  obtain ⟨n2, p2, h2, f2, i2⟩ := randomNeuron_spec g true p1
  have hin : p2.inputSize = p.inputSize := by rw [f2.2.1, f1.2.1]
  have hinn : p2.innovation = p.innovation := by rw [i2, i1]
  refine ⟨n1, p1, n2, p2, h1, h2, hin, hinn, ?_⟩
  unfold linkMutate
  rw [h1]
  simp only [h2]
  by_cases hboth : n1 ≤ p2.inputSize ∧ n2 ≤ p2.inputSize
  · left
    rw [if_pos hboth]
  · rw [if_neg hboth]
    by_cases hc : containsLink g
        { into := if forceBias then p2.inputSize else if n2 ≤ p2.inputSize then n2 else n1,
          out := if n2 ≤ p2.inputSize then n1 else n2 } = true
    · left
      rw [if_pos hc]
    · right
      rw [if_neg hc]
      simp only [Bool.not_eq_true] at hc
      unfold containsLink at hc
      rw [List.any_eq_false] at hc
      refine ⟨{ into := if forceBias then p2.inputSize else if n2 ≤ p2.inputSize then n2 else n1,
                out := if n2 ≤ p2.inputSize then n1 else n2,
                innovation := p2.innovation + 1,
                weight := p2.rand.getFloat.1 * 4 - 2 }, rfl, ?_, ?_, ?_, ?_, ?_, ?_⟩
      · simp only [hin]
      · simp only [hin]
      · simp only [hinn]
      · intro old hold hcon
        have := hc old hold
        simp only [Bool.and_eq_true, decide_eq_true_eq] at this
        exact this hcon
      · rw [← hin]
        exact hboth
      · simp only [Pool.newInnovation, hinn]

/-- The candidates of `Genome::enableDisableMutate` are the indices of the genes
whose flag differs from `enable`. -/
theorem mem_toggleCandidates (genes : List Gene) (enable : Bool) (i : Nat) :
    i ∈ toggleCandidates genes enable ↔
      ∃ gene, genes[i]? = some gene ∧ gene.enabled ≠ enable := by
  unfold toggleCandidates
  simp only [List.mem_filter, List.mem_range]
  constructor
  · rintro ⟨hlt, hm⟩
    rw [List.getElem?_eq_getElem hlt] at hm
    simp only [bne_iff_ne, ne_eq] at hm
    exact ⟨genes[i], List.getElem?_eq_getElem hlt, hm⟩
  · rintro ⟨gene, hg, hne⟩
    have hlt : i < genes.length := by
      by_contra hge
      rw [List.getElem?_eq_none (by omega)] at hg
      simp at hg
    refine ⟨hlt, ?_⟩
    rw [hg]
    simpa using hne

/-- The two outcomes of `Genome::enableDisableMutate`. -/
theorem enableDisableMutate_cases (g : Genome) (enable : Bool) (p : Pool) :
    ((∀ gene ∈ g.genes, gene.enabled = enable) → enableDisableMutate g enable p = (g, p)) ∧
    ((∃ gene ∈ g.genes, gene.enabled ≠ enable) →
      ∃ idx gene, g.genes[idx]? = some gene ∧ gene.enabled ≠ enable ∧
        enableDisableMutate g enable p =
          ({ g with genes := g.genes.set idx { gene with enabled := enable } },
            { p with rand := p.rand.getUint32.2 })) := by
  constructor
  · intro hall
    have hnil : toggleCandidates g.genes enable = [] := by
      apply List.eq_nil_iff_forall_not_mem.mpr
      intro i hi
      obtain ⟨gene, hg, hne⟩ := (mem_toggleCandidates _ _ _).mp hi
      exact hne (hall gene (List.getElem?_mem hg))
    unfold enableDisableMutate
    simp [hnil]
  · rintro ⟨gene0, hg0, hne0⟩
    obtain ⟨i0, hi0, rfl⟩ := List.getElem_of_mem hg0
    have hmem0 : i0 ∈ toggleCandidates g.genes enable :=
      (mem_toggleCandidates _ _ _).mpr ⟨_, List.getElem?_eq_getElem hi0, hne0⟩
    have hlen : (toggleCandidates g.genes enable).length ≠ 0 := by
      intro hc
      rw [List.length_eq_zero.mp hc] at hmem0
      simp at hmem0
    have hlt : p.rand.getUint32.1 % (toggleCandidates g.genes enable).length <
        (toggleCandidates g.genes enable).length := Nat.mod_lt _ (Nat.pos_of_ne_zero hlen)
    obtain ⟨gene, hg, hne⟩ := (mem_toggleCandidates g.genes enable _).mp (List.getElem_mem hlt)
    refine ⟨_, gene, hg, hne, ?_⟩
    unfold enableDisableMutate
    simp only [if_neg hlen, List.getElem?_eq_getElem hlt, hg]
    have hflip : (!gene.enabled) = enable := by
      cases hge : gene.enabled <;> cases hen : enable <;> simp_all
    rw [hflip]

end Genome

/-! ## What a mutation keeps: a rule for invariants -/

namespace Genome

/-- A rate loop keeps every property of the genome and the pool that the
operator keeps and that does not depend on the generator. -/
theorem rateLoop_preserves (Q : Genome → Pool → Prop)
    (hrand : ∀ g p r, Q g p → Q g { p with rand := r })
    (op : Genome → Pool → Option (Genome × Pool))
    (hop : ∀ g p g1 q, Q g p → op g p = some (g1, q) → Q g1 q)
    (fuel : Nat) (pr : ℚ) (g : Genome) (p : Pool) (g1 : Genome) (q : Pool)
    (h : rateLoop op fuel pr g p = some (g1, q)) (hQ : Q g p) : Q g1 q := by
  induction fuel generalizing pr g p with
  | zero =>
    simp only [rateLoop, Option.some.injEq, Prod.mk.injEq] at h
    rw [← h.1, ← h.2]
    exact hQ
  | succ n ih =>
    unfold rateLoop at h
    by_cases hpos : pr > 0
    · rw [if_pos hpos] at h
      simp only [] at h
      by_cases hlt : p.rand.getFloat.1 < pr
      · rw [if_pos hlt] at h
        cases ho : op g { p with rand := p.rand.getFloat.2 } with
        | none => rw [ho] at h; simp at h
        | some r =>
          obtain ⟨g2, p2⟩ := r
          rw [ho] at h
          exact ih _ _ _ h (hop _ _ _ _ (hrand _ _ _ hQ) ho)
      · rw [if_neg hlt] at h
        exact ih _ _ _ h (hrand _ _ _ hQ)
    · rw [if_neg hpos] at h
      simp only [Option.some.injEq, Prod.mk.injEq] at h
      rw [← h.1, ← h.2]
      exact hQ

theorem rateBlock_preserves (Q : Genome → Pool → Prop)
    (hrand : ∀ g p r, Q g p → Q g { p with rand := r })
    (name : String) (op : Genome → Pool → Option (Genome × Pool))
    (hop : ∀ g p g1 q, Q g p → op g p = some (g1, q) → Q g1 q)
    (g : Genome) (p : Pool) (g1 : Genome) (q : Pool)
    (h : rateBlock name op g p = some (g1, q)) (hQ : Q g p) : Q g1 q := by
  unfold rateBlock at h
  split at h
  · simp at h
  · exact rateLoop_preserves Q hrand op hop _ _ _ _ _ _ h hQ

/-- The method `Genome::mutate` keeps every property of the genome and the pool
that its operators keep and that depends neither on the generator nor on the
rates. -/
theorem mutate_preserves (Q : Genome → Pool → Prop)
    (hrand : ∀ g p r, Q g p → Q g { p with rand := r })
    (hrates : ∀ g p rates, Q g p → Q { g with mutationRates := rates } p)
    (hpoint : ∀ g p g1 q, Q g p → pointMutate g p = some (g1, q) → Q g1 q)
    (hlink : ∀ forceBias g p g1 q, Q g p → linkMutate g forceBias p = some (g1, q) → Q g1 q)
    (hnode : ∀ g p, Q g p → Q (nodeMutate g p).1 (nodeMutate g p).2)
    (htoggle : ∀ enable g p, Q g p →
      Q (enableDisableMutate g enable p).1 (enableDisableMutate g enable p).2)
    (g : Genome) (p : Pool) (g1 : Genome) (q : Pool)
    (h : mutate g p = some (g1, q)) (hQ : Q g p) : Q g1 q := by
  have hnode1 : ∀ (x : Genome) (a : Pool) (x1 : Genome) (a1 : Pool), Q x a →
      (fun x q => some (nodeMutate x q)) x a = some (x1, a1) → Q x1 a1 := by
    intro x a x1 a1 hx he
    simp only [Option.some.injEq] at he
    have := hnode x a hx
    rw [he] at this
    exact this
  have htog1 : ∀ (e : Bool) (x : Genome) (a : Pool) (x1 : Genome) (a1 : Pool), Q x a →
      (fun x q => some (enableDisableMutate x e q)) x a = some (x1, a1) → Q x1 a1 := by
    intro e x a x1 a1 hx he
    simp only [Option.some.injEq] at he
    have := htoggle e x a hx
    rw [he] at this
    exact this
  unfold mutate at h
  simp only [] at h
  split at h
  · simp at h
  · rename_i c hc
    have hQ0 : Q { g with mutationRates := (perturbRates g.mutationRates p.rand).1 }
        { p with rand := (perturbRates g.mutationRates p.rand).2.getFloat.2 } :=
      hrand _ _ _ (hrates _ _ _ hQ)
    cases h1 : (if (perturbRates g.mutationRates p.rand).2.getFloat.1 < c then
          pointMutate { g with mutationRates := (perturbRates g.mutationRates p.rand).1 }
            { p with rand := (perturbRates g.mutationRates p.rand).2.getFloat.2 }
        else some ({ g with mutationRates := (perturbRates g.mutationRates p.rand).1 },
            { p with rand := (perturbRates g.mutationRates p.rand).2.getFloat.2 })) with
    | none => rw [h1] at h; simp at h
    | some r1 =>
      obtain ⟨x1, a1⟩ := r1
      rw [h1] at h
      simp only [] at h
      have q1 : Q x1 a1 := by
        split at h1
        · exact hpoint _ _ _ _ hQ0 h1
        · simp only [Option.some.injEq, Prod.mk.injEq] at h1
          rw [← h1.1, ← h1.2]
          exact hQ0
      cases h2 : rateBlock "link" (fun x q => linkMutate x false q) x1 a1 with
      | none => rw [h2] at h; simp at h
      | some r2 =>
        obtain ⟨x2, a2⟩ := r2
        rw [h2] at h
        simp only [] at h
        have q2 := rateBlock_preserves Q hrand _ _ (hlink false) _ _ _ _ h2 q1
        cases h3 : rateBlock "bias" (fun x q => linkMutate x true q) x2 a2 with
        | none => rw [h3] at h; simp at h
        | some r3 =>
          obtain ⟨x3, a3⟩ := r3
          rw [h3] at h
          simp only [] at h
          have q3 := rateBlock_preserves Q hrand _ _ (hlink true) _ _ _ _ h3 q2
          cases h4 : rateBlock "node" (fun x q => some (nodeMutate x q)) x3 a3 with
          | none => rw [h4] at h; simp at h
          | some r4 =>
            obtain ⟨x4, a4⟩ := r4
            rw [h4] at h
            simp only [] at h
            have q4 := rateBlock_preserves Q hrand _ _ hnode1 _ _ _ _ h4 q3
            cases h5 : rateBlock "enable" (fun x q => some (enableDisableMutate x true q))
                x4 a4 with
            | none => rw [h5] at h; simp at h
            | some r5 =>
              obtain ⟨x5, a5⟩ := r5
              rw [h5] at h
              simp only [] at h
              have q5 := rateBlock_preserves Q hrand _ _ (htog1 true) _ _ _ _ h5 q4
              exact rateBlock_preserves Q hrand _ _ (htog1 false) _ _ _ _ h q5

/-- A mutation leaves alone what evaluation wrote into the genome: the flag
`finished`, the game, the fitness and the rank. -/
theorem mutate_run (g : Genome) (p : Pool) (g1 : Genome) (q : Pool)
    (h : mutate g p = some (g1, q)) :
    g1.finished = g.finished ∧ g1.game = g.game ∧ g1.fitness = g.fitness := by
  apply mutate_preserves
    (fun x _ => x.finished = g.finished ∧ x.game = g.game ∧ x.fitness = g.fitness)
    (fun _ _ _ hx => hx) (fun _ _ _ hx => hx) ?_ ?_ ?_ ?_ g p g1 q h ⟨rfl, rfl, rfl⟩
  · intro x a x1 a1 hx he
    unfold pointMutate at he
    split at he
    · simp at he
    · simp only [Option.some.injEq, Prod.mk.injEq] at he
      rw [← he.1]
      exact hx
  · intro fb x a x1 a1 hx he
    obtain ⟨n1, p1, n2, p2, -, -, -, -, hc⟩ := linkMutate_cases x fb a
    rcases hc with hc | ⟨gene, -, -, -, -, -, -, hc⟩
    · rw [hc] at he
      simp only [Option.some.injEq, Prod.mk.injEq] at he
      rw [← he.1]
      exact hx
    · rw [hc] at he
      simp only [Option.some.injEq, Prod.mk.injEq] at he
      rw [← he.1]
      exact hx
  · intro x a hx
    unfold nodeMutate
    split
    · exact hx
    · simp only []
      split
      · exact hx
      · split
        · exact hx
        · exact hx
  · intro e x a hx
    unfold enableDisableMutate
    simp only []
    split
    · exact hx
    · split
      · exact hx
      · split
        · exact hx
        · exact hx

end Genome

/-! ## Every species of a pool holds a genome -/

namespace Pool

theorem sizes_iff (l : List Species) :
    (∀ n ∈ l.map (fun s => s.genomes.length), n ≠ 0) ↔ ∀ spec ∈ l, spec.genomes ≠ [] := by
  constructor
  · intro h spec hs hc
    exact h _ (List.mem_map_of_mem _ hs) (by simp [hc])
  · intro h n hn
    obtain ⟨spec, hs, rfl⟩ := List.mem_map.mp hn
    intro hc
    exact h spec hs (List.length_eq_zero.mp hc)

theorem cullOne_ne_nil (cutToOne : Bool) (spec : Species) (h : spec.genomes ≠ []) :
    (cullOne cutToOne spec).genomes ≠ [] := by
  cases cutToOne with
  | true =>
    obtain ⟨best, hb, -⟩ := cullOne_true spec h
    rw [hb]
    simp
  | false =>
    obtain ⟨removed, -, hl, -⟩ := cullOne_false spec
    intro hc
    rw [hc] at hl
    have := List.length_pos.mpr h
    simp only [List.length_nil] at hl
    omega

/-- Every species of a reached pool holds a genome. -/
theorem reached_ne_nil {p : Pool} (h : Reached p) : ∀ spec ∈ p.species, spec.genomes ≠ [] := by
  induction h with
  | fresh p hp =>
    intro spec hs
    rw [hp] at hs
    simp at hs
  | addToSpecies p q child _ he ih =>
    obtain ⟨q1, e1, n1, -⟩ := addToSpecies_spec p child ih
    rw [e1] at he
    simp only [Option.some.injEq] at he
    rw [← he]
    exact n1
  | cullSpecies p cutToOne _ ih =>
    intro spec hs
    obtain ⟨s0, hs0, rfl⟩ := List.mem_map.mp hs
    exact cullOne_ne_nil cutToOne s0 (ih s0 hs0)
  | rankGlobally p _ ih =>
    rw [← sizes_iff, rankGlobally_sizes, sizes_iff]
    exact ih
  | removeStaleSpecies p q _ he ih =>
    unfold Pool.removeStaleSpecies at he
    split at he
    · simp at he
    · rename_i survived hs
      simp only [Option.some.injEq] at he
      rw [← he, ← sizes_iff]
      exact staleSurvivors_sizes _ _ _ hs
  | averages p _ ih =>
    intro spec hs
    obtain ⟨s0, hs0, rfl⟩ := List.mem_map.mp hs
    rw [calculateAverageFitness_genomes]
    exact ih s0 hs0
  | removeWeakSpecies p _ ih =>
    rw [← sizes_iff]
    exact removeWeakSpecies_sizes p ((sizes_iff _).mpr ih)
  | sameSpecies p q _ he ih =>
    rw [he]
    exact ih

/-- The loop of `Pool::init` leads from a reached pool to a reached pool. -/
theorem initLoop_reached (count : Nat) (p q : Pool) (hp : Reached p)
    (h : initLoop count p = some q) : Reached q := by
  induction count generalizing p with
  | zero =>
    simp only [initLoop, Option.some.injEq] at h
    rw [← h]
    exact hp
  | succ n ih =>
    unfold initLoop at h
    split at h
    · simp at h
    · rename_i genome p1 hm
      split at h
      · simp at h
      · rename_i p2 ha
        have f1 := Genome.mutate_frame _ _ _ _ hm
        exact ih p2 (Reached.addToSpecies p1 p2 genome (Reached.sameSpecies p p1 hp f1.1) ha) h

theorem addAll_reached (children : List Genome) (p q : Pool) (hp : Reached p)
    (h : addAll children p = some q) : Reached q := by
  induction children generalizing p with
  | nil =>
    simp only [addAll, Option.some.injEq] at h
    rw [← h]
    exact hp
  | cons child rest ih =>
    unfold addAll at h
    split at h
    · simp at h
    · rename_i p1 ha
      exact ih p1 (Reached.addToSpecies p p1 child hp ha) h

theorem survivors_reached (p p5 : Pool) (hp : Reached p) (h : p.survivors = some p5) :
    Reached p5 := by
  unfold survivors at h
  simp only [] at h
  split at h
  · simp at h
  · rename_i p2 h2
    simp only [Option.some.injEq] at h
    rw [← h]
    exact Reached.removeWeakSpecies _ (Reached.averages _ (Reached.rankGlobally _
      (Reached.removeStaleSpecies _ p2
        (Reached.rankGlobally _ (Reached.cullSpecies p false hp)) h2)))

theorem offspring_reached (p : Pool) (children : List Genome) (q : Pool) (hp : Reached p)
    (h : p.offspring = some (children, q)) : Reached q := by
  unfold offspring at h
  split at h
  · simp at h
  · rename_i children0 p6 h6
    simp only [] at h
    obtain ⟨-, hf6, -⟩ := breedAll_spec _ _ _ _ _ _ h6
    obtain ⟨-, hf8⟩ := topUp_spec _ _ _ _ _ h
    exact Reached.sameSpecies _ q
      (Reached.cullSpecies p6 true (Reached.sameSpecies p p6 hp hf6.1)) hf8.1

/-- The method `Pool::newGeneration` leads from a reached pool to a reached
pool. -/
theorem newGeneration_reached (p q : Pool) (hp : Reached p) (h : p.newGeneration = some q) :
    Reached q := by
  rw [newGeneration_eq] at h
  cases h5 : p.survivors with
  | none => rw [h5] at h; simp at h
  | some p5 =>
    rw [h5] at h
    simp only [Option.some_bind] at h
    cases ho : p5.offspring with
    | none => rw [ho] at h; simp at h
    | some r =>
      obtain ⟨children, p8⟩ := r
      rw [ho] at h
      simp only [Option.some_bind] at h
      cases h9 : addAll children p8 with
      | none => rw [h9] at h; simp at h
      | some p9 =>
        rw [h9] at h
        simp only [Option.map_some', Option.some.injEq] at h
        rw [← h]
        exact Reached.sameSpecies p9 _
          (addAll_reached children p8 p9
            (offspring_reached p5 children p8 (survivors_reached p p5 hp h5) ho) h9) rfl

/-- With at most `Population` species of non-negative average,
`Pool::removeWeakSpecies` keeps a species of a pool that has one. -/
theorem removeWeakSpecies_ne_nil (p : Pool) (h1 : p.species ≠ [])
    (h2 : p.species.length ≤ AI.Population)
    (h3 : ∀ spec ∈ p.species, 0 ≤ spec.averageFitness) :
    p.removeWeakSpecies.species ≠ [] := by
  have hsum : 0 ≤ p.totalAverageFitness := by
    unfold totalAverageFitness
    apply sum_nonneg_of_forall
    intro x hx
    obtain ⟨spec, hs, rfl⟩ := List.mem_map.mp hx
    exact h3 spec hs
  by_cases hz : p.totalAverageFitness = 0
  · simp only [removeWeakSpecies, hz, ne_eq, not_true_eq_false, if_false]
    simpa using h1
  · exact (removeWeakSpecies_survivors p (by omega) h2).1

end Pool

/-! ## The rolls of a rate loop -/

theorem Random.getFloat_range (r : Random) : 0 ≤ r.getFloat.1 ∧ r.getFloat.1 < 1 := by
  unfold Random.getFloat
  simp only []
  have h : r.stream r.pos % 2 ^ 24 < 2 ^ 24 := Nat.mod_lt _ (by norm_num)
  constructor
  · positivity
  · rw [div_lt_one (by norm_num)]
    exact_mod_cast h

namespace Genome

/-- Without its record the loop `rateLoopTrace` is the loop `rateLoop`. -/
theorem rateLoopTrace_forget (op : Genome → Pool → Option (Genome × Pool)) (fuel : Nat)
    (pr : ℚ) (g : Genome) (p : Pool) :
    (rateLoopTrace op fuel pr g p).map (fun r => (r.2.1, r.2.2)) = rateLoop op fuel pr g p := by
  induction fuel generalizing pr g p with
  | zero => rfl
  | succ n ih =>
    unfold rateLoopTrace rateLoop
    by_cases hpos : pr > 0
    · simp only [if_pos hpos]
      cases (if p.rand.getFloat.1 < pr then op g { p with rand := p.rand.getFloat.2 }
          else some (g, { p with rand := p.rand.getFloat.2 })) with
      | none => rfl
      | some r =>
        obtain ⟨g2, p2⟩ := r
        simp only [Option.map_map]
        rw [← ih (pr - 1) g2 p2]
        rfl
    · simp only [if_neg hpos]
      rfl

/-- The method `Genome::mutate` is its head followed by the five blocks. -/
theorem mutate_blocks (g : Genome) (p : Pool) :
    mutate g p = (mutateHead g p).bind (fun r => runBlocks rateOps r.1 r.2) := by
  unfold mutate mutateHead
  simp only []
  cases Map.find (perturbRates g.mutationRates p.rand).1 "connections" with
  | none => rfl
  | some c =>
    simp only []
    cases (if (perturbRates g.mutationRates p.rand).2.getFloat.1 < c then
          pointMutate { g with mutationRates := (perturbRates g.mutationRates p.rand).1 }
            { p with rand := (perturbRates g.mutationRates p.rand).2.getFloat.2 }
        else some ({ g with mutationRates := (perturbRates g.mutationRates p.rand).1 },
            { p with rand := (perturbRates g.mutationRates p.rand).2.getFloat.2 })) with
    | none => rfl
    | some r1 =>
      obtain ⟨x1, a1⟩ := r1
      simp only [Option.some_bind, rateOps, runBlocks]
      cases rateBlock "link" (fun x q => linkMutate x false q) x1 a1 with
      | none => rfl
      | some r2 =>
        obtain ⟨x2, a2⟩ := r2
        simp only []
        cases rateBlock "bias" (fun x q => linkMutate x true q) x2 a2 with
        | none => rfl
        | some r3 =>
          obtain ⟨x3, a3⟩ := r3
          simp only []
          cases rateBlock "node" (fun x q => some (nodeMutate x q)) x3 a3 with
          | none => rfl
          | some r4 =>
            obtain ⟨x4, a4⟩ := r4
            simp only []
            cases rateBlock "enable" (fun x q => some (enableDisableMutate x true q)) x4 a4 with
            | none => rfl
            | some r5 =>
              obtain ⟨x5, a5⟩ := r5
              simp only []
              cases rateBlock "disable" (fun x q => some (enableDisableMutate x false q))
                  x5 a5 with
              | none => rfl
              | some r6 => rfl

/-- The rolls of a rate loop whose operator always returns, with a bound from
the ceiling of the rate on: the loop makes `ceil(pr)` rolls, the roll `k` with
the remaining mass `pr - k`, which is positive, and the operator is invoked on
every roll whose remaining mass is 1 or more. -/
theorem rateLoopTrace_spec (op : Genome → Pool → Option (Genome × Pool))
    (hop : ∀ g p, (op g p).isSome = true) (fuel : Nat) (pr : ℚ) (g : Genome) (p : Pool)
    (hf : Int.toNat ⌈pr⌉ ≤ fuel) :
    ∃ rolls g1 q, rateLoopTrace op fuel pr g p = some (rolls, g1, q) ∧
      rolls.length = Int.toNat ⌈pr⌉ ∧
      (∀ (k : Nat) (e : ℚ × Bool), rolls[k]? = some e →
        e.1 = pr - (k : ℚ) ∧ 0 < e.1 ∧ (1 ≤ e.1 → e.2 = true)) ∧
      Int.toNat ⌊pr⌋ ≤ rolls.countP (fun e => e.2) := by
  induction fuel generalizing pr g p with
  | zero =>
    refine ⟨[], g, p, rfl, by simp only [List.length_nil]; omega, by simp, ?_⟩
    have h0 : Int.toNat ⌈pr⌉ = 0 := by omega
    have : ⌊pr⌋ ≤ ⌈pr⌉ := Int.floor_le_ceil pr
    omega
  | succ n ih =>
    unfold rateLoopTrace
    by_cases hpos : pr > 0
    · have hc : (1 : Int) ≤ ⌈pr⌉ := by
        have : (0 : Int) < ⌈pr⌉ := Int.ceil_pos.mpr hpos
        omega
      have hsub : ⌈pr - 1⌉ = ⌈pr⌉ - 1 := Int.ceil_sub_one pr
      have hfl : ⌊pr - 1⌋ = ⌊pr⌋ - 1 := Int.floor_sub_one pr
      have hle : Int.toNat ⌈pr - 1⌉ ≤ n := by
        rw [hsub]
        omega
      simp only [if_pos hpos]
      obtain ⟨g2, p2, he⟩ : ∃ g2 p2,
          (if p.rand.getFloat.1 < pr then op g { p with rand := p.rand.getFloat.2 }
            else some (g, { p with rand := p.rand.getFloat.2 })) = some (g2, p2) := by
        split
        · obtain ⟨r, hr⟩ := Option.isSome_iff_exists.mp (hop g { p with rand := p.rand.getFloat.2 })
          exact ⟨r.1, r.2, hr⟩
        · exact ⟨_, _, rfl⟩
      rw [he]
      simp only []
      obtain ⟨rolls, g1, q, e1, hl, hk, hcount⟩ := ih (pr - 1) g2 p2 hle
      rw [e1]
      refine ⟨_, g1, q, rfl, ?_, ?_, ?_⟩
      · simp only [List.length_cons, hl, hsub]
        omega
      · intro k e hke
        cases k with
        | zero =>
          simp only [List.getElem?_cons_zero, Option.some.injEq] at hke
          rw [← hke]
          refine ⟨by simp, hpos, ?_⟩
          intro h1
          have := (Random.getFloat_range p.rand).2
          simp only [decide_eq_true_eq]
          linarith
        | succ j =>
          simp only [List.getElem?_cons_succ] at hke
          obtain ⟨a1, a2, a3⟩ := hk j e hke
          refine ⟨?_, a2, a3⟩
          rw [a1]
          push_cast
          ring
      · rw [List.countP_cons]
        by_cases h1 : 1 ≤ pr
        · have hlt : p.rand.getFloat.1 < pr := by
            have := (Random.getFloat_range p.rand).2
            linarith
          have hfloor : (1 : Int) ≤ ⌊pr⌋ := Int.le_floor.mpr (by exact_mod_cast h1)
          simp only [hlt, decide_True, if_true]
          rw [hfl] at hcount
          omega
        · have hfloor : ⌊pr⌋ ≤ 0 := by
            have : ⌊pr⌋ < 1 := Int.floor_lt.mpr (by push_cast; linarith)
            omega
          omega
    · simp only [if_neg hpos]
      have hz : Int.toNat ⌈pr⌉ = 0 := by
        have : ⌈pr⌉ ≤ 0 := Int.ceil_le.mpr (by push_cast; linarith)
        omega
      refine ⟨[], g, p, rfl, by simp only [List.length_nil]; omega, by simp, ?_⟩
      have : ⌊pr⌋ ≤ ⌈pr⌉ := Int.floor_le_ceil pr
      omega

/-- Each of the five operators of `Genome::mutate` returns, and leaves the rates
alone. -/
theorem rateOps_total (b : String × (Genome → Pool → Option (Genome × Pool)))
    (hb : b ∈ rateOps) (g : Genome) (p : Pool) : (b.2 g p).isSome = true := by
  simp only [rateOps, List.mem_cons, List.mem_singleton, List.not_mem_nil, or_false] at hb
  rcases hb with h | h | h | h | h
  all_goals subst h
  · obtain ⟨g1, q, e, -⟩ := linkMutate_spec g false p
    simp only [e, Option.isSome_some]
  · obtain ⟨g1, q, e, -⟩ := linkMutate_spec g true p
    simp only [e, Option.isSome_some]
  · rfl
  · rfl
  · rfl

end Genome

/-! ## The incoming genes of a generated network -/

namespace Genome

/-- The lists `incoming` after the loop at lines 99 to 111 over the genes from
index `i` on: the indices of the enabled genes with `out = k`, in their order,
are appended to the list of the neuron `k`. -/
theorem incomingOf_linkGenes (genes : List Gene) (n i : Nat) (m : Map Int Neuron) (k : Int)
    (hn : n = genes.length - i) :
    incomingOf (linkGenes (genes.drop i) i m) k =
      incomingOf m k ++ (List.range' i n).filter (fun j =>
        match genes[j]? with
        | some gene => gene.enabled && decide (gene.out = k)
        | none => false) := by
  induction n generalizing i m with
  | zero =>
    have : genes.drop i = [] := List.drop_eq_nil_iff.mpr (by omega)
    rw [this]
    simp [linkGenes]
  | succ n ih =>
    have hi : i < genes.length := by omega
    rw [List.drop_eq_getElem_cons hi]
    simp only [linkGenes]
    rw [ih (i + 1) (linkGene genes[i] i m) (by omega), incomingOf_linkGene,
      List.range'_succ, List.filter_cons, List.getElem?_eq_getElem hi]
    simp only [Bool.and_eq_true, decide_eq_true_eq]
    by_cases hc : genes[i].enabled = true ∧ k = genes[i].out
    · have hc2 : genes[i].enabled = true ∧ genes[i].out = k := ⟨hc.1, hc.2.symm⟩
      rw [if_pos hc, if_pos hc2]
      simp
    · have hc2 : ¬ (genes[i].enabled = true ∧ genes[i].out = k) := fun h => hc ⟨h.1, h.2.symm⟩
      rw [if_neg hc, if_neg hc2]

/-- The sum of the lengths of the lists `incoming` of a map. -/
theorem incoming_sum_insert (m : Map Int Neuron) (k : Int) (v : Neuron) :
    ((Map.insert m k v).map (fun e => e.2.incoming.length)).sum + (incomingOf m k).length =
      (m.map (fun e => e.2.incoming.length)).sum + v.incoming.length := by
  induction m with
  | nil => simp [Map.insert, incomingOf, Map.find]
  | cons e m ih =>
    obtain ⟨a, b⟩ := e
    by_cases ha : a = k
    · subst ha
      simp only [Map.insert, if_true, incomingOf, Map.find, List.map_cons, List.sum_cons]
      omega
    · have hinc : incomingOf ((a, b) :: m) k = incomingOf m k := by
        simp [incomingOf, Map.find, ha]
      rw [hinc]
      simp only [Map.insert, if_neg ha, List.map_cons, List.sum_cons]
      omega

theorem incoming_sum_ensureNeuron (m : Map Int Neuron) (k : Int) :
    ((ensureNeuron m k).map (fun e => e.2.incoming.length)).sum =
      (m.map (fun e => e.2.incoming.length)).sum := by
  unfold ensureNeuron
  cases hf : Map.find m k with
  | some n => simp
  | none =>
    simp only [Option.isNone_none, if_true]
    have := incoming_sum_insert m k {}
    simp only [incomingOf, hf, List.length_nil, Nat.add_zero] at this
    exact this

theorem incoming_sum_linkGene (gene : Gene) (i : Nat) (m : Map Int Neuron) :
    ((linkGene gene i m).map (fun e => e.2.incoming.length)).sum =
      (m.map (fun e => e.2.incoming.length)).sum + (if gene.enabled then 1 else 0) := by
  unfold linkGene
  by_cases he : gene.enabled = true
  · rw [if_pos he, if_pos he, incoming_sum_ensureNeuron]
    obtain ⟨neuron, hn⟩ := Option.isSome_iff_exists.mp (ensureNeuron_self m gene.out)
    unfold pushIncoming
    rw [hn]
    simp only []
    have := incoming_sum_insert (ensureNeuron m gene.out) gene.out
      { neuron with incoming := neuron.incoming ++ [i] }
    simp only [incomingOf, hn, List.length_append, List.length_singleton] at this
    rw [incoming_sum_ensureNeuron] at this
    omega
  · rw [if_neg he, if_neg he]
    rfl

theorem incoming_sum_linkGenes (l : List Gene) (i : Nat) (m : Map Int Neuron) :
    ((linkGenes l i m).map (fun e => e.2.incoming.length)).sum =
      (m.map (fun e => e.2.incoming.length)).sum + l.countP (fun gene => gene.enabled) := by
  induction l generalizing i m with
  | nil => simp [linkGenes]
  | cons gene rest ih =>
    simp only [linkGenes]
    rw [ih, incoming_sum_linkGene, List.countP_cons]
    omega

theorem incoming_sum_foldl_new {α : Type} (key : α → Int) (l : List α) (m : Map Int Neuron) :
    ((l.foldl (fun acc x => Map.insert acc (key x) {}) m).map
        (fun e => e.2.incoming.length)).sum ≤ (m.map (fun e => e.2.incoming.length)).sum := by
  induction l generalizing m with
  | nil => simp
  | cons x xs ih =>
    rw [List.foldl_cons]
    have h1 := ih (Map.insert m (key x) {})
    have h2 := incoming_sum_insert m (key x) {}
    simp only [List.length_nil, Nat.add_zero] at h2 h1 ⊢
    omega

/-- The network that `Genome::generateNetwork` builds: the list `incoming` of
every neuron holds the indices of the enabled genes with that neuron as `out`,
each once and in their order, and all the lists together hold as many entries
as there are enabled genes. -/
theorem generateNetwork_incoming (g : Genome) (inputSize : Int) :
    (∀ k : Int, incomingOf (g.generateNetwork inputSize).network.neurons k =
      (List.range (g.generateNetwork inputSize).genes.length).filter (fun j =>
        match (g.generateNetwork inputSize).genes[j]? with
        | some gene => gene.enabled && decide (gene.out = k)
        | none => false)) ∧
    (((g.generateNetwork inputSize).network.neurons).map (fun e => e.2.incoming.length)).sum =
      (g.generateNetwork inputSize).genes.countP (fun gene => gene.enabled) := by
  constructor
  · intro k
    have hempty : incomingOf (insertOutputs (insertInputs inputSize [])) k = [] := by
      unfold insertOutputs insertInputs
      refine incomingOf_foldl_new (fun c : Nat => AI.MaxNodes + (c : Int)) _ _ ?_ k
      intro k2
      refine incomingOf_foldl_new (fun c : Nat => (c : Int)) _ _ ?_ k2
      intro k3
      simp [incomingOf, Map.find]
    have := incomingOf_linkGenes (g.generateNetwork inputSize).genes
      (g.generateNetwork inputSize).genes.length 0 (insertOutputs (insertInputs inputSize [])) k
      (by omega)
    rw [List.drop_zero, hempty, List.nil_append, ← List.range_eq_range'] at this
    exact this
  · show ((linkGenes _ 0 (insertOutputs (insertInputs inputSize []))).map _).sum = _
    rw [incoming_sum_linkGenes]
    have h0 : ((insertOutputs (insertInputs inputSize [])).map
        (fun e => e.2.incoming.length)).sum = 0 := by
      unfold insertOutputs insertInputs
      have h1 := incoming_sum_foldl_new (fun c : Nat => AI.MaxNodes + (c : Int))
        (List.range AI.Outputs)
        ((List.range inputSize.toNat).foldl (fun acc (c : Nat) => Map.insert acc (c : Int) {}) [])
      have h2 := incoming_sum_foldl_new (fun c : Nat => (c : Int)) (List.range inputSize.toNat) []
      simp only [List.map_nil, List.sum_nil, Nat.add_zero, Nat.le_zero_eq] at h1 h2
      rw [h2] at h1
      simpa using h1
    rw [h0, Nat.zero_add]
    rfl

end Genome

/-! ## The rows of the board after `Game::dropLines` -/

namespace Game

theorem getD_set (l : List Int) (i j : Nat) (a : Int) :
    (l.set i a).getD j 0 = if i = j ∧ i < l.length then a else l.getD j 0 := by
  simp only [List.getD_eq_getElem?_getD, List.getElem?_set]
  by_cases hij : i = j
  · subst hij
    by_cases hl : i < l.length
    · simp [hl]
    · simp [hl, List.getElem?_eq_none (Nat.le_of_not_lt hl)]
  · simp [hij]

/-- The loop at lines 390 to 392 after `n` of its steps. -/
theorem copyCells_spec (b : List Int) (v n : Nat) (hv : 1 ≤ v) (hn : n ≤ 10)
    (hl : v * 10 + n ≤ b.length) :
    ((List.range n).foldl
        (fun b u => b.set (v * boardW + u) (b.getD ((v - 1) * boardW + u) 0)) b).length =
      b.length ∧
    ∀ i, ((List.range n).foldl
        (fun b u => b.set (v * boardW + u) (b.getD ((v - 1) * boardW + u) 0)) b).getD i 0 =
      if v * 10 ≤ i ∧ i < v * 10 + n then b.getD (i - 10) 0 else b.getD i 0 := by
  induction n with
  | zero =>
    refine ⟨rfl, ?_⟩
    intro i
    have : ¬ (v * 10 ≤ i ∧ i < v * 10 + 0) := by omega
    rw [if_neg this]
    rfl
  | succ n ih =>
    obtain ⟨h1, h2⟩ := ih (by omega) (by omega)
    rw [List.range_succ, List.foldl_append]
    simp only [List.foldl_cons, List.foldl_nil]
    refine ⟨by rw [List.length_set, h1], ?_⟩
    intro i
    rw [getD_set, h1, h2, h2]
    simp only [boardW]
    have hsrc : ¬ (v * 10 ≤ (v - 1) * 10 + n ∧ (v - 1) * 10 + n < v * 10 + n) := by omega
    rw [if_neg hsrc]
    by_cases hi : v * 10 + n = i
    · have hc1 : v * 10 + n = i ∧ v * 10 + n < b.length := ⟨hi, by omega⟩
      have hc2 : v * 10 ≤ i ∧ i < v * 10 + (n + 1) := by omega
      rw [if_pos hc1, if_pos hc2]
      congr 1
      omega
    · have hc1 : ¬ (v * 10 + n = i ∧ v * 10 + n < b.length) := fun h => hi h.1
      rw [if_neg hc1]
      by_cases hc2 : v * 10 ≤ i ∧ i < v * 10 + n
      · have hc3 : v * 10 ≤ i ∧ i < v * 10 + (n + 1) := by omega
        rw [if_pos hc2, if_pos hc3]
      · have hc3 : ¬ (v * 10 ≤ i ∧ i < v * 10 + (n + 1)) := by omega
        rw [if_neg hc2, if_neg hc3]

theorem copyRow_spec (b : List Int) (v : Nat) (hv : 1 ≤ v) (hl : (v + 1) * 10 ≤ b.length) :
    (copyRow b v).length = b.length ∧
    ∀ i, (copyRow b v).getD i 0 =
      if v * 10 ≤ i ∧ i < (v + 1) * 10 then b.getD (i - 10) 0 else b.getD i 0 := by
  obtain ⟨h1, h2⟩ := copyCells_spec b v 10 hv (le_refl _) (by omega)
  refine ⟨h1, ?_⟩
  intro i
  have := h2 i
  have e : (v + 1) * 10 = v * 10 + 10 := by ring
  rw [e]
  exact this

/-- The loop at lines 389 to 393: the rows 1 to `y` become the rows 0 to
`y - 1`. -/
theorem shiftDown_spec (y : Nat) (b : List Int) (hl : (y + 1) * 10 ≤ b.length) :
    (shiftDown b y).length = b.length ∧
    ∀ i, (shiftDown b y).getD i 0 =
      if 10 ≤ i ∧ i < (y + 1) * 10 then b.getD (i - 10) 0 else b.getD i 0 := by
  induction y generalizing b with
  | zero =>
    refine ⟨rfl, ?_⟩
    intro i
    have : ¬ (10 ≤ i ∧ i < (0 + 1) * 10) := by omega
    rw [if_neg this]
    rfl
  | succ v ih =>
    obtain ⟨c1, c2⟩ := copyRow_spec b (v + 1) (by omega) hl
    obtain ⟨h1, h2⟩ := ih (copyRow b (v + 1)) (by rw [c1]; omega)
    simp only [shiftDown]
    refine ⟨by rw [h1, c1], ?_⟩
    intro i
    rw [h2, c2, c2]
    by_cases hi1 : 10 ≤ i ∧ i < (v + 1) * 10
    · have ha : ¬ ((v + 1) * 10 ≤ i - 10 ∧ i - 10 < (v + 1 + 1) * 10) := by omega
      have hb : 10 ≤ i ∧ i < (v + 1 + 1) * 10 := by omega
      rw [if_pos hi1, if_neg ha, if_pos hb]
    · rw [if_neg hi1]
      by_cases hi2 : (v + 1) * 10 ≤ i ∧ i < (v + 1 + 1) * 10
      · have hb : 10 ≤ i ∧ i < (v + 1 + 1) * 10 := by omega
        rw [if_pos hi2, if_pos hb]
      · have hb : ¬ (10 ≤ i ∧ i < (v + 1 + 1) * 10) := by omega
        rw [if_neg hi2, if_neg hb]

theorem clearCells_spec (b : List Int) (n : Nat) (hl : n ≤ b.length) :
    ((List.range n).foldl (fun b u => b.set u 0) b).length = b.length ∧
    ∀ i, ((List.range n).foldl (fun b u => b.set u 0) b).getD i 0 =
      if i < n then 0 else b.getD i 0 := by
  induction n with
  | zero =>
    refine ⟨rfl, ?_⟩
    intro i
    rw [if_neg (by omega)]
    rfl
  | succ n ih =>
    obtain ⟨h1, h2⟩ := ih (by omega)
    rw [List.range_succ, List.foldl_append]
    simp only [List.foldl_cons, List.foldl_nil]
    refine ⟨by rw [List.length_set, h1], ?_⟩
    intro i
    rw [getD_set, h1, h2]
    by_cases hi : n = i
    · have hc1 : n = i ∧ n < b.length := ⟨hi, by omega⟩
      have hc2 : i < n + 1 := by omega
      rw [if_pos hc1, if_pos hc2]
    · have hc1 : ¬ (n = i ∧ n < b.length) := fun h => hi h.1
      rw [if_neg hc1]
      by_cases hc2 : i < n
      · have hc3 : i < n + 1 := by omega
        rw [if_pos hc2, if_pos hc3]
      · have hc3 : ¬ i < n + 1 := by omega
        rw [if_neg hc2, if_neg hc3]

/-- The cells after the lines 389 to 396 for an empty row `y`. -/
theorem dropCells_spec (y : Nat) (b : List Int) (hl : (y + 1) * 10 ≤ b.length) :
    (clearTop (shiftDown b y)).length = b.length ∧
    ∀ i, (clearTop (shiftDown b y)).getD i 0 =
      if i < 10 then 0 else if i < (y + 1) * 10 then b.getD (i - 10) 0 else b.getD i 0 := by
  obtain ⟨s1, s2⟩ := shiftDown_spec y b hl
  obtain ⟨c1, c2⟩ := clearCells_spec (shiftDown b y) 10 (by rw [s1]; omega)
  refine ⟨by unfold clearTop; rw [show boardW = 10 from rfl, c1, s1], ?_⟩
  intro i
  unfold clearTop
  rw [show boardW = 10 from rfl, c2, s2]
  by_cases h1 : i < 10
  · rw [if_pos h1, if_pos h1]
  · rw [if_neg h1, if_neg h1]
    by_cases h2 : i < (y + 1) * 10
    · rw [if_pos ⟨by omega, h2⟩, if_pos h2]
    · rw [if_neg (fun h => h2 h.2), if_neg h2]

end Game

namespace Game

theorem rowFilled_eq (b : List Int) (y : Nat) :
    rowFilled b y = (row b y).any (fun c => c != 0) := by
  unfold rowFilled row
  generalize List.range boardW = l
  induction l with
  | nil => rfl
  | cons x xs ih => simp only [List.any_cons, List.map_cons, ih]

theorem rows_getElem? (b : List Int) (r : Nat) :
    (rows b)[r]? = if r < 20 then some (row b r) else none := by
  unfold rows
  rw [List.getElem?_map]
  by_cases hr : r < 20
  · rw [if_pos hr, List.getElem?_range (by simpa [boardH] using hr)]
    rfl
  · rw [if_neg hr, List.getElem?_eq_none (by simpa [boardH] using hr)]
    rfl

theorem rows_length (b : List Int) : (rows b).length = 20 := by
  simp [rows, boardH]

/-- The rows after the lines 389 to 396 for an empty row `y`: an empty row on
top, then the rows above `y`, then the rows below `y`. -/
theorem row_dropCells (b : List Int) (y r : Nat) (hy : y < 20) (hl : b.length = 200) :
    row (clearTop (shiftDown b y)) r =
      if r = 0 then List.replicate 10 0 else if r ≤ y then row b (r - 1) else row b r := by
  obtain ⟨-, hc⟩ := dropCells_spec y b (by omega)
  unfold row
  simp only [boardW]
  by_cases h0 : r = 0
  · subst h0
    rw [if_pos rfl]
    have : (List.range 10).map (fun x => (clearTop (shiftDown b y)).getD (0 * 10 + x) 0) =
        (List.range 10).map (fun _ => (0 : Int)) := by
      apply List.map_congr_left
      intro x hx
      rw [List.mem_range] at hx
      rw [hc, if_pos (by omega)]
    rw [this]
    rfl
  · rw [if_neg h0]
    by_cases h1 : r ≤ y
    · rw [if_pos h1]
      apply List.map_congr_left
      intro x hx
      rw [List.mem_range] at hx
      rw [hc, if_neg (by omega), if_pos (by omega)]
      congr 1
      omega
    · rw [if_neg h1]
      apply List.map_congr_left
      intro x hx
      rw [List.mem_range] at hx
      rw [hc, if_neg (by omega), if_neg (by omega)]

/-- The rows after the body of the loop of `Game::dropLines` for the row `y`:
a row with a filled cell leaves the board as it is, an empty row is taken out
and an empty row is put on top. -/
theorem rows_dropRow (b : List Int) (y : Nat) (hy : y < 20) (hl : b.length = 200) :
    (dropRow b y).length = 200 ∧
    rows (dropRow b y) =
      if rowFilled b y then rows b else List.replicate 10 0 :: (rows b).eraseIdx y := by
  unfold dropRow
  by_cases hf : rowFilled b y = true
  · simp only [hf, if_true]
    exact ⟨hl, trivial⟩
  · simp only [hf, Bool.false_eq_true, if_false]
    obtain ⟨hlen, -⟩ := dropCells_spec y b (by omega)
    refine ⟨by rw [hlen, hl], ?_⟩
    apply List.ext_getElem?
    intro r
    rw [rows_getElem?]
    by_cases hr : r < 20
    · rw [if_pos hr, row_dropCells b y r hy hl]
      cases r with
      | zero => simp
      | succ s =>
        rw [if_neg (by omega), List.getElem?_cons_succ, List.getElem?_eraseIdx]
        by_cases h1 : s < y
        · rw [if_pos h1, if_pos (by omega), rows_getElem?, if_pos (by omega)]
          rfl
        · rw [if_neg h1, if_neg (by omega), rows_getElem?, if_pos hr]
    · rw [if_neg hr]
      symm
      apply List.getElem?_eq_none
      have hlt : y < (rows b).length := by rw [rows_length]; exact hy
      rw [List.length_cons, List.length_eraseIdx, if_pos hlt, rows_length]
      omega

/-- The rows after the first `y` passes of the loop of `Game::dropLines`: empty
rows, then the rows among the first `y` that hold a filled cell, in their order,
then the rows from `y` on, untouched. -/
theorem dropRows_spec (b0 : List Int) (hl : b0.length = 200) (y : Nat) (hy : y ≤ 20) :
    ((List.range y).foldl dropRow b0).length = 200 ∧
    ∃ k, k + (((rows b0).take y).filter (fun r => r.any (fun c => c != 0))).length = y ∧
      rows ((List.range y).foldl dropRow b0) =
        List.replicate k (List.replicate 10 0) ++
          ((rows b0).take y).filter (fun r => r.any (fun c => c != 0)) ++ (rows b0).drop y := by
  induction y with
  | zero => exact ⟨hl, 0, by simp, by simp⟩
  | succ y ih =>
    obtain ⟨hlen, k, hk, hrows⟩ := ih (by omega)
    have hy20 : y < 20 := by omega
    have hylt : y < (rows b0).length := by rw [rows_length]; exact hy20
    rw [List.range_succ, List.foldl_append]
    simp only [List.foldl_cons, List.foldl_nil]
    generalize hb : (List.range y).foldl dropRow b0 = b at hlen hrows
    obtain ⟨d1, d2⟩ := rows_dropRow b y hy20 hlen
    refine ⟨d1, ?_⟩
    have hdrop : (rows b0).drop y = (rows b0)[y] :: (rows b0).drop (y + 1) :=
      List.drop_eq_getElem_cons hylt
    have htake : (rows b0).take (y + 1) = (rows b0).take y ++ [(rows b0)[y]] := by
      rw [List.take_succ, List.getElem?_eq_getElem hylt]
      rfl
    have hpre : (List.replicate k (List.replicate 10 (0 : Int)) ++
        ((rows b0).take y).filter (fun r => r.any (fun c => c != 0))).length = y := by
      rw [List.length_append, List.length_replicate]
      exact hk
    -- the row `y` of the board is the row `y` of the board at the start
    have hrow : row b y = (rows b0)[y] := by
      have h1 := rows_getElem? b y
      rw [if_pos hy20, hrows, List.getElem?_append_right (by rw [hpre]), hpre, Nat.sub_self,
        hdrop] at h1
      simp only [List.getElem?_cons_zero, Option.some.injEq] at h1
      exact h1.symm
    rw [d2, rowFilled_eq, hrow, htake, List.filter_append]
    by_cases hf : ((rows b0)[y]).any (fun c => c != 0) = true
    · refine ⟨k, ?_, ?_⟩
      · rw [List.length_append]
        simp only [List.filter_cons, hf, if_true, List.filter_nil, List.length_singleton]
        omega
      · simp only [hf, if_true, List.filter_cons, List.filter_nil]
        rw [hrows, hdrop]
        simp
    · refine ⟨k + 1, ?_, ?_⟩
      · rw [List.length_append]
        simp only [List.filter_cons, hf, Bool.false_eq_true, if_false, List.filter_nil,
          List.length_nil]
        omega
      · simp only [hf, Bool.false_eq_true, if_false, List.filter_cons, List.filter_nil,
          List.append_nil]
        rw [hrows, hdrop, List.eraseIdx_append_of_length_le (by rw [hpre]), hpre, Nat.sub_self]
        simp only [List.eraseIdx_cons_zero, List.replicate_succ, List.cons_append,
          List.append_assoc]

end Game

/-! ## The `(into, out)` pairs of a bred genome -/

namespace Genome

theorem links_eq_skeleton (g : Genome) : g.links = g.skeleton.map (fun e => (e.1, e.2.1)) := by
  simp [links, skeleton, List.map_map, Function.comp_def]

/-- A step that keeps the genes up to their weights and flags, appends genes
with new innovation ids and endpoints in range, and raises neither `maxNeuron`
nor the counter without need, keeps the genome fit. -/
theorem Fits.extend {G : List Genome} {N : Int} {x : Genome} {a : Pool} (hQ : Fits G N x a)
    (x1 : Genome) (a1 : Pool) (new : List (Int × Int × Int))
    (hin : a1.inputSize = a.inputSize) (hc : a.innovation ≤ a1.innovation)
    (hm : x.maxNeuron ≤ x1.maxNeuron) (hs : x1.skeleton = x.skeleton ++ new)
    (hnew : ∀ e ∈ new, (e.1 ≤ x1.maxNeuron ∨ AI.MaxNodes ≤ e.1) ∧
      (e.2.1 ≤ x1.maxNeuron ∨ AI.MaxNodes ≤ e.2.1) ∧ a.innovation < e.2.2 ∧
      e.2.2 ≤ a1.innovation)
    (hids : ∀ e ∈ new, ∀ e2 ∈ new, e.2.2 = e2.2.2 → e = e2)
    (hu : x1.maxNeuron < AI.MaxNodes → x.links.Nodup → x1.links.Nodup) : Fits G N x1 a1 := by
  obtain ⟨q1, ⟨s1, s2, s3⟩, q3, q4⟩ := hQ
  refine ⟨by rw [hin, q1], ⟨by omega, ?_, ?_⟩, ?_, ?_⟩
  · intro e he
    rw [hs, List.mem_append] at he
    rcases he with he | he
    · obtain ⟨e1, e2, e3⟩ := s2 e he
      refine ⟨?_, ?_, by omega⟩
      · rcases e1 with h | h
        · exact Or.inl (by omega)
        · exact Or.inr h
      · rcases e2 with h | h
        · exact Or.inl (by omega)
        · exact Or.inr h
    · obtain ⟨e1, e2, -, e4⟩ := hnew e he
      exact ⟨e1, e2, e4⟩
  · intro hlt
    exact hu hlt (s3 (by omega))
  · intro e he e2 he2 hid
    rw [hs, List.mem_append] at he he2
    rcases he with he | he <;> rcases he2 with he2 | he2
    · exact q3 e he e2 he2 hid
    · exfalso
      have h1 := (s2 e he).2.2
      have h2 := (hnew e2 he2).2.2.1
      omega
    · exfalso
      have h1 := (s2 e2 he2).2.2
      have h2 := (hnew e he).2.2.1
      omega
    · rw [hids e he e2 he2 hid]
      exact ⟨rfl, rfl⟩
  · intro h hh
    obtain ⟨g1, g2⟩ := q4 h hh
    refine ⟨?_, fun e he => by have := g2 e he; omega⟩
    intro e he e2 he2 hid
    rw [hs, List.mem_append] at he
    rcases he with he | he
    · exact g1 e he e2 he2 hid
    · exfalso
      have h1 := g2 e2 he2
      have h2 := (hnew e he).2.2.1
      omega

/-- A step that keeps the genes up to their weights and flags keeps the genome
fit. -/
theorem Fits.same {G : List Genome} {N : Int} {x : Genome} {a : Pool} (hQ : Fits G N x a)
    (x1 : Genome) (a1 : Pool) (hin : a1.inputSize = a.inputSize)
    (hc : a1.innovation = a.innovation) (hm : x.maxNeuron ≤ x1.maxNeuron)
    (hs : x1.skeleton = x.skeleton) : Fits G N x1 a1 := by
  apply hQ.extend x1 a1 [] hin (by omega) hm (by rw [hs, List.append_nil])
  · intro e he
    simp at he
  · intro e he
    simp at he
  · intro _ hn
    rw [links_eq_skeleton, hs, ← links_eq_skeleton]
    exact hn

theorem pointMutateGenes_skeleton (step : ℚ) (genes : List Gene) (rand : Random) :
    (pointMutateGenes step genes rand).1.map
        (fun gene => (gene.into, gene.out, gene.innovation)) =
      genes.map (fun gene => (gene.into, gene.out, gene.innovation)) := by
  induction genes generalizing rand with
  | nil => rfl
  | cons gene rest ih =>
    unfold pointMutateGenes
    simp only [List.map_cons]
    rw [ih]
    congr 1
    split <;> rfl

theorem pointMutate_fits (G : List Genome) (N : Int) (x : Genome) (a : Pool) (x1 : Genome)
    (a1 : Pool) (hQ : Fits G N x a) (h : pointMutate x a = some (x1, a1)) : Fits G N x1 a1 := by
  unfold pointMutate at h
  split at h
  · simp at h
  · simp only [Option.some.injEq, Prod.mk.injEq] at h
    rw [← h.1, ← h.2]
    exact hQ.same _ _ rfl rfl (le_refl _) (pointMutateGenes_skeleton _ _ _)

theorem toggle_fits (G : List Genome) (N : Int) (e : Bool) (x : Genome) (a : Pool)
    (hQ : Fits G N x a) :
    Fits G N (enableDisableMutate x e a).1 (enableDisableMutate x e a).2 := by
  by_cases hall : ∀ gene ∈ x.genes, gene.enabled = e
  · rw [(enableDisableMutate_cases x e a).1 hall]
    exact hQ
  · have hex : ∃ gene ∈ x.genes, gene.enabled ≠ e := by
      by_contra hc
      apply hall
      intro gene hg
      by_contra hne
      exact hc ⟨gene, hg, hne⟩
    obtain ⟨idx, gene, hg, -, he⟩ := (enableDisableMutate_cases x e a).2 hex
    rw [he]
    refine hQ.same _ _ rfl rfl (le_refl _) ?_
    have hlt : idx < x.genes.length := by
      by_contra hge
      rw [List.getElem?_eq_none (by omega)] at hg
      simp at hg
    have hgi : x.genes[idx] = gene := by
      rw [List.getElem?_eq_getElem hlt] at hg
      simpa using hg
    apply List.ext_getElem?
    intro j
    simp only [skeleton, List.getElem?_map, List.getElem?_set]
    by_cases hj : idx = j
    · subst hj
      simp [hlt, hgi]
    · simp [hj]

/-- The node that `Genome::randomNeuron` returns is an input id, an output id or
an endpoint of a gene. -/
theorem randomNeuron_mem (g : Genome) (nonInput : Bool) (p : Pool) :
    ∃ n q, randomNeuron g nonInput p = some (n, q) ∧
      ((∃ i : Nat, (i : Int) < p.inputSize ∧ n = (i : Int)) ∨
        (∃ o : Nat, o < AI.Outputs ∧ n = AI.MaxNodes + (o : Int)) ∨
        ∃ gene ∈ g.genes, n = gene.into ∨ n = gene.out) := by
  cases nonInput with
  | true =>
    obtain ⟨n, q, h, -, hm⟩ := randomNeuron_true g p
    refine ⟨n, q, h, ?_⟩
    rcases hm with ho | ⟨gene, hg, hx, -⟩
    · exact Or.inr (Or.inl ho)
    · exact Or.inr (Or.inr ⟨gene, hg, hx⟩)
  | false =>
    obtain ⟨n, q, h, -, -⟩ := randomNeuron_spec g false p
    refine ⟨n, q, h, ?_⟩
    unfold randomNeuron at h
    simp only [Bool.not_false, if_true] at h
    split at h
    · simp at h
    · rename_i hsize
      split at h
      · rename_i pair hpair
        simp only [Option.some.injEq, Prod.mk.injEq] at h
        have hmem := List.mem_map_of_mem Prod.fst (List.getElem?_mem hpair)
        rw [← h.1]
        rcases neuronCandidates_keys _ _ _ _ _ hmem with ⟨gene, hg, hx, -⟩ | h1
        · exact Or.inr (Or.inr ⟨gene, hg, hx⟩)
        · rcases Map.keys_foldl_insert (fun o : Nat => AI.MaxNodes + (o : Int)) (fun _ => true)
            (List.range AI.Outputs) _ pair.1 h1 with ⟨o, ho, hx⟩ | h2
          · exact Or.inr (Or.inl ⟨o, List.mem_range.mp ho, hx⟩)
          · left
            rcases Map.keys_foldl_insert (fun i : Int => i) (fun _ => true)
                _ [] pair.1 h2 with ⟨i, hi, hx⟩ | h3
            · simp at hi
              obtain ⟨a, ha, rfl⟩ := hi
              exact ⟨a, by omega, hx⟩
            · simp at h3
      · rename_i hnone
        exfalso
        simp only [Map.getSize] at hnone hsize
        rw [List.getElem?_eq_none_iff] at hnone
        exact absurd (Nat.mod_lt p.rand.getUint32.1 (Nat.pos_of_ne_zero hsize)) (not_lt.mpr hnone)

theorem linkMutate_fits (G : List Genome) (N : Int) (forceBias : Bool) (x : Genome) (a : Pool)
    (x1 : Genome) (a1 : Pool) (hQ : Fits G N x a)
    (h : linkMutate x forceBias a = some (x1, a1)) : Fits G N x1 a1 := by
  obtain ⟨n1, p1, n2, p2, h1, h2, hin, hinn, hc⟩ := linkMutate_cases x forceBias a
  rcases hc with hc | ⟨gene, -, hinto, hout, hid, hnew, -, hc⟩
  · rw [hc] at h
    simp only [Option.some.injEq, Prod.mk.injEq] at h
    rw [← h.1, ← h.2]
    exact hQ.same _ _ hin hinn (le_refl _) rfl
  · rw [hc] at h
    simp only [Option.some.injEq, Prod.mk.injEq] at h
    rw [← h.1, ← h.2]
    have hQ0 := hQ
    obtain ⟨q1, ⟨s1, s2, s3⟩, -, -⟩ := hQ
    -- the endpoints that the two draws can give are in range
    have hp1 : p1.inputSize = a.inputSize := by
      obtain ⟨n, q, e, f, -⟩ := randomNeuron_spec x false a
      rw [h1] at e
      simp only [Option.some.injEq, Prod.mk.injEq] at e
      rw [e.2]
      exact f.2.1
    have hrange : ∀ (b : Bool) (p0 : Pool) (n : Int) (q : Pool), p0.inputSize = a.inputSize →
        randomNeuron x b p0 = some (n, q) → n ≤ x.maxNeuron ∨ AI.MaxNodes ≤ n := by
      intro b p0 n q hp0 he
      obtain ⟨n3, q3, e3, hm⟩ := randomNeuron_mem x b p0
      rw [he] at e3
      simp only [Option.some.injEq, Prod.mk.injEq] at e3
      rw [← e3.1] at hm
      rcases hm with ⟨i, hi, rfl⟩ | ⟨o, -, rfl⟩ | ⟨g0, hg0, hx⟩
      · left
        rw [hp0, q1] at hi
        omega
      · right
        have : (0 : Int) ≤ (o : Int) := Int.ofNat_nonneg _
        omega
      · have hmem : (g0.into, g0.out, g0.innovation) ∈ x.skeleton :=
          List.mem_map_of_mem (fun gene : Gene => (gene.into, gene.out, gene.innovation)) hg0
        obtain ⟨e1, e2, -⟩ := s2 _ hmem
        rcases hx with hx | hx
        · rw [hx]; exact e1
        · rw [hx]; exact e2
    have r1 := hrange false a n1 p1 rfl h1
    have r2 := hrange true p1 n2 p2 hp1 h2
    refine Fits.extend hQ0 _ _ [(gene.into, gene.out, gene.innovation)] ?_ ?_ ?_ ?_ ?_ ?_ ?_
    · exact hin
    · show a.innovation ≤ a.innovation + 1
      omega
    · exact le_refl _
    · simp [skeleton]
    · intro e he
      simp only [List.mem_singleton] at he
      subst he
      refine ⟨?_, ?_, by simp only [hid]; omega, by simp only [hid]; omega⟩
      · simp only [hinto]
        split
        · left
          rw [q1]
          exact s1
        · split
          · exact r2
          · exact r1
      · simp only [hout]
        split
        · exact r1
        · exact r2
    · intro e he e2 he2 _
      simp only [List.mem_singleton] at he he2
      rw [he, he2]
    · intro _ hn
      simp only [links, List.map_append, List.map_cons, List.map_nil]
      rw [List.nodup_append]
      refine ⟨hn, List.nodup_singleton _, ?_⟩
      intro pair hp hp2
      simp only [List.mem_singleton] at hp2
      subst hp2
      obtain ⟨old, hold, hpair⟩ := List.mem_map.mp hp
      simp only [Prod.mk.injEq] at hpair
      exact hnew old hold hpair

end Genome

namespace Genome

/-- Writing back a gene with the same endpoints and innovation id keeps the
skeleton. -/
theorem skeleton_set (genes : List Gene) (i : Nat) (picked gene : Gene)
    (hp : genes[i]? = some picked) (h1 : gene.into = picked.into) (h2 : gene.out = picked.out)
    (h3 : gene.innovation = picked.innovation) :
    (genes.set i gene).map (fun x => (x.into, x.out, x.innovation)) =
      genes.map (fun x => (x.into, x.out, x.innovation)) := by
  induction genes generalizing i with
  | nil => rfl
  | cons x rest ih =>
    cases i with
    | zero =>
      simp only [List.getElem?_cons_zero, Option.some.injEq] at hp
      subst hp
      simp [h1, h2, h3]
    | succ n =>
      simp only [List.getElem?_cons_succ] at hp
      simp only [List.set_cons_succ, List.map_cons, ih n hp]

/-- The skeleton after `Genome::nodeMutate`: the old one, and behind it the two
halves of the picked gene when it was enabled. -/
theorem nodeMutate_skeleton (g : Genome) (p : Pool) :
    (nodeMutate g p).1.skeleton = g.skeleton ∧ (nodeMutate g p).2.innovation = p.innovation ∧
        g.maxNeuron ≤ (nodeMutate g p).1.maxNeuron ∨
      ∃ picked ∈ g.genes, (nodeMutate g p).1.skeleton = g.skeleton ++
          [(picked.into, g.maxNeuron + 1, p.innovation + 1),
           (g.maxNeuron + 1, picked.out, p.innovation + 2)] ∧
        (nodeMutate g p).2.innovation = p.innovation + 2 ∧
        (nodeMutate g p).1.maxNeuron = g.maxNeuron + 1 := by
  by_cases hne : g.genes = []
  · have : nodeMutate g p = (g, p) := by
      unfold nodeMutate
      rw [if_pos (by rw [hne]; rfl)]
    rw [this]
    exact Or.inl ⟨rfl, rfl, le_refl _⟩
  · have hl : g.genes.length ≠ 0 := fun hc => hne (List.length_eq_zero.mp hc)
    have hlt := Nat.mod_lt p.rand.getUint32.1 (Nat.pos_of_ne_zero hl)
    have hp := List.getElem?_eq_getElem hlt
    generalize g.genes[p.rand.getUint32.1 % g.genes.length] = picked at hp
    cases he : picked.enabled with
    | false =>
      rw [nodeMutate_disabled g p picked hne hp he]
      refine Or.inl ⟨rfl, rfl, ?_⟩
      show g.maxNeuron ≤ g.maxNeuron + 1
      omega
    | true =>
      rw [nodeMutate_enabled g p picked hne hp he]
      refine Or.inr ⟨picked, List.getElem?_mem hp, ?_, rfl, rfl⟩
      simp only [skeleton, List.map_append, List.map_cons, List.map_nil, List.append_assoc,
        List.singleton_append]
      rw [skeleton_set g.genes _ picked { picked with enabled := false } hp rfl rfl rfl]

theorem mem_links_iff (g : Genome) (u v : Int) :
    (u, v) ∈ g.links ↔ ∃ e ∈ g.skeleton, e.1 = u ∧ e.2.1 = v := by
  rw [links_eq_skeleton]
  constructor
  · intro h
    obtain ⟨e, he, hx⟩ := List.mem_map.mp h
    simp only [Prod.mk.injEq] at hx
    exact ⟨e, he, hx.1, hx.2⟩
  · rintro ⟨e, he, rfl, rfl⟩
    exact List.mem_map_of_mem (fun e : Int × Int × Int => (e.1, e.2.1)) he

/-- While the new node id `maxNeuron + 1` is below `MaxNodes`, `Genome::nodeMutate`
keeps the `(into, out)` pairs of a genome distinct when every id of the genome
is in its range. -/
theorem nodeMutate_unique (g : Genome) (p : Pool)
    (hend : ∀ e ∈ g.skeleton, (e.1 ≤ g.maxNeuron ∨ AI.MaxNodes ≤ e.1) ∧
      (e.2.1 ≤ g.maxNeuron ∨ AI.MaxNodes ≤ e.2.1))
    (hm : g.maxNeuron + 1 < AI.MaxNodes) (hn : g.links.Nodup) :
    (nodeMutate g p).1.links.Nodup := by
  rcases nodeMutate_skeleton g p with ⟨hs, -, -⟩ | ⟨picked, hp, hs, -, -⟩
  · rw [links_eq_skeleton, hs, ← links_eq_skeleton]
    exact hn
  · rw [links_eq_skeleton, hs, List.map_append, ← links_eq_skeleton]
    simp only [List.map_cons, List.map_nil]
    have hmem : (picked.into, picked.out, picked.innovation) ∈ g.skeleton :=
      List.mem_map_of_mem (fun gene : Gene => (gene.into, gene.out, gene.innovation)) hp
    have hpi := (hend _ hmem).1
    simp only [] at hpi
    rw [List.nodup_append]
    refine ⟨hn, ?_, ?_⟩
    · rw [List.nodup_cons]
      refine ⟨?_, List.nodup_singleton _⟩
      simp only [List.mem_singleton, Prod.mk.injEq, not_and]
      intro h1
      omega
    · intro pair h1 h2
      simp only [List.mem_cons, List.mem_singleton, List.not_mem_nil, or_false] at h2
      rcases h2 with rfl | rfl
      · obtain ⟨e, he, -, h3⟩ := (mem_links_iff _ _ _).mp h1
        have := (hend e he).2
        omega
      · obtain ⟨e, he, h3, -⟩ := (mem_links_iff _ _ _).mp h1
        have := (hend e he).1
        omega

theorem nodeMutate_fits (G : List Genome) (N : Int) (x : Genome) (a : Pool)
    (hQ : Fits G N x a) : Fits G N (nodeMutate x a).1 (nodeMutate x a).2 := by
  have hQ0 := hQ
  obtain ⟨q1, ⟨s1, s2, s3⟩, -, -⟩ := hQ
  have hin : (nodeMutate x a).2.inputSize = a.inputSize := (nodeMutate_spec x a).2.2.1
  rcases nodeMutate_skeleton x a with ⟨hs, hc, hmx⟩ | ⟨picked, hp, hs, hc, hmx⟩
  · exact hQ0.same _ _ hin hc hmx hs
  · have hmem : (picked.into, picked.out, picked.innovation) ∈ x.skeleton :=
      List.mem_map_of_mem (fun gene : Gene => (gene.into, gene.out, gene.innovation)) hp
    obtain ⟨e1, e2, -⟩ := s2 _ hmem
    simp only [] at e1 e2
    refine hQ0.extend _ _ _ hin ?_ ?_ hs ?_ ?_ ?_
    · rw [hc]
      omega
    · rw [hmx]
      omega
    · intro e he
      simp only [List.mem_cons, List.mem_singleton, List.not_mem_nil, or_false] at he
      rw [hmx, hc]
      rcases he with rfl | rfl
      · refine ⟨?_, Or.inl (le_refl _), ?_, ?_⟩
        · rcases e1 with h | h
          · left
            show picked.into ≤ x.maxNeuron + 1
            omega
          · exact Or.inr h
        · show a.innovation < a.innovation + 1
          omega
        · show a.innovation + 1 ≤ a.innovation + 2
          omega
      · refine ⟨Or.inl (le_refl _), ?_, ?_, ?_⟩
        · rcases e2 with h | h
          · left
            show picked.out ≤ x.maxNeuron + 1
            omega
          · exact Or.inr h
        · show a.innovation < a.innovation + 2
          omega
        · exact le_refl _
    · intro e he e2 he2 hid
      simp only [List.mem_cons, List.mem_singleton, List.not_mem_nil, or_false] at he he2
      rcases he with rfl | rfl <;> rcases he2 with rfl | rfl
      · rfl
      · simp only [] at hid
        omega
      · simp only [] at hid
        omega
      · rfl
    · intro hlt hn
      rw [hmx] at hlt
      exact nodeMutate_unique x a (fun e he => ⟨(s2 e he).1, (s2 e he).2.1⟩) hlt hn

/-- The method `Genome::mutate` keeps a genome fit. -/
theorem mutate_fits (G : List Genome) (N : Int) (x : Genome) (a : Pool) (x1 : Genome)
    (a1 : Pool) (hQ : Fits G N x a) (h : mutate x a = some (x1, a1)) : Fits G N x1 a1 :=
  mutate_preserves (Fits G N)
    (fun _ _ _ hq => hq.same _ _ rfl rfl (le_refl _) rfl)
    (fun _ _ _ hq => hq.same _ _ rfl rfl (le_refl _) rfl)
    (fun g p g1 q hq he => pointMutate_fits G N g p g1 q hq he)
    (fun fb g p g1 q hq he => linkMutate_fits G N fb g p g1 q hq he)
    (fun g p hq => nodeMutate_fits G N g p hq)
    (fun e g p hq => toggle_fits G N e g p hq) x a x1 a1 h hQ

theorem Agree.symm {g h : Genome} (hgh : Agree g h) : Agree h g := by
  intro a ha b hb hid
  obtain ⟨h1, h2⟩ := hgh b hb a ha hid.symm
  exact ⟨h1.symm, h2.symm⟩

/-- A genome that fits the genomes of a list joins the list: every genome of the
longer list fits it. -/
theorem fits_cons {G : List Genome} {N : Int} {x1 : Genome} {a a1 : Pool}
    (hG : ∀ g ∈ G, Fits G N g a) (hx : Fits G N x1 a1) :
    ∀ g ∈ x1 :: G, Fits (x1 :: G) N g a1 := by
  obtain ⟨q1, ⟨s1, s2, s3⟩, hxx, hxG⟩ := hx
  intro g hg0
  rcases List.mem_cons.mp hg0 with rfl | hg
  · refine ⟨q1, ⟨s1, s2, s3⟩, hxx, ?_⟩
    intro h hh
    rcases List.mem_cons.mp hh with rfl | hh
    · exact ⟨hxx, fun e he => (s2 e he).2.2⟩
    · exact hxG h hh
  · clear hg0
    obtain ⟨-, ⟨t1, t2, t3⟩, hgg, hgG⟩ := hG g hg
    refine ⟨q1, ⟨t1, ?_, t3⟩, hgg, ?_⟩
    · intro e he
      exact ⟨(t2 e he).1, (t2 e he).2.1, (hxG g hg).2 e he⟩
    · intro h hh
      rcases List.mem_cons.mp hh with rfl | hh
      · exact ⟨(hxG g hg).1.symm, fun e he => (s2 e he).2.2⟩
      · exact ⟨(hgG h hh).1, (hxG h hh).2⟩

/-- A genome fits in every pool with the same `inputSize` and innovation
counter. -/
theorem Fits.pool {G : List Genome} {N : Int} {x : Genome} {a : Pool} (hQ : Fits G N x a)
    (a1 : Pool) (hin : a1.inputSize = a.inputSize) (hc : a1.innovation = a.innovation) :
    Fits G N x a1 :=
  hQ.same x a1 hin hc (le_refl _) rfl

end Genome

theorem map_eq_of_forall2 {α β : Type} (R : α → α → Prop) (f : α → β) (l1 l2 : List α)
    (h : List.Forall₂ R l1 l2) (hf : ∀ a, ∀ b ∈ l2, R a b → f a = f b) :
    l1.map f = l2.map f := by
  induction h with
  | nil => rfl
  | cons hab _ ih =>
    simp only [List.map_cons]
    rw [hf _ _ (List.mem_cons_self _ _) hab, ih (fun a b hb => hf a b (List.mem_cons_of_mem _ hb))]

namespace Species

/-- The child of `Species::crossover` has the skeleton of the fitter parent when
the parents agree on their innovation ids. -/
theorem crossover_skeleton (g1 g2 : Genome) (p : Pool) (child : Genome) (q : Pool)
    (h : crossover g1 g2 p = some (child, q)) (hag : Genome.Agree g1 g2) :
    child.skeleton = (if g2.fitness > g1.fitness then g2 else g1).skeleton ∧
      child.maxNeuron = max (if g2.fitness > g1.fitness then g2 else g1).maxNeuron
        (if g2.fitness > g1.fitness then g1 else g2).maxNeuron ∧
      q.inputSize = p.inputSize ∧ q.innovation = p.innovation := by
  have hag2 : Genome.Agree (if g2.fitness > g1.fitness then g2 else g1)
      (if g2.fitness > g1.fitness then g1 else g2) := by
    split
    · exact hag.symm
    · exact hag
  unfold crossover at h
  simp only [] at h
  revert h hag2
  generalize (if g2.fitness > g1.fitness then g2 else g1) = fit
  generalize (if g2.fitness > g1.fitness then g1 else g2) = other
  intro h hag2
  split at h
  · simp at h
  · simp only [Option.some.injEq, Prod.mk.injEq] at h
    rw [← h.1, ← h.2]
    refine ⟨?_, rfl, rfl, rfl⟩
    show (crossoverGenes (innovationIndex other.genes) fit.genes p.rand).1.map
        (fun gene : Gene => (gene.into, gene.out, gene.innovation)) =
      fit.genes.map (fun gene : Gene => (gene.into, gene.out, gene.innovation))
    apply map_eq_of_forall2 _ _ _ _ (crossoverGenes_spec (innovationIndex other.genes)
      other.genes (fun k gene2 hk => find_innovationIndex _ _ _ hk) fit.genes p.rand)
    rintro c gene1 hg1 ⟨hid, hc⟩
    rcases hc with rfl | ⟨hmem, -⟩
    · rfl
    · have := hag2 (gene1.into, gene1.out, gene1.innovation)
        (List.mem_map_of_mem (fun gene : Gene => (gene.into, gene.out, gene.innovation)) hg1)
        (c.into, c.out, c.innovation)
        (List.mem_map_of_mem (fun gene : Gene => (gene.into, gene.out, gene.innovation)) hmem)
        hid.symm
      simp only [] at this
      simp only [this.1, this.2, hid]

/-- The child of `Species::crossover` of two genomes of the list fits the list. -/
theorem crossover_fits (G : List Genome) (p : Pool) (hG : ∀ g ∈ G, Genome.Fits G p.inputSize g p)
    (g1 g2 : Genome) (h1 : g1 ∈ G) (h2 : g2 ∈ G) (child : Genome) (q : Pool)
    (h : crossover g1 g2 p = some (child, q)) : Genome.Fits G p.inputSize child q := by
  obtain ⟨hs, hm, hin, hc⟩ := crossover_skeleton g1 g2 p child q h ((hG g1 h1).2.2.2 g2 h2).1
  have hfit : (if g2.fitness > g1.fitness then g2 else g1) ∈ G := by
    split
    · exact h2
    · exact h1
  refine (hG _ hfit).same child q hin hc ?_ hs
  rw [hm]
  exact le_max_left _ _

/-- The child of `Species::breedChild` of a species of genomes of the list fits
the list. -/
theorem breedChild_fits (G : List Genome) (p : Pool)
    (hG : ∀ g ∈ G, Genome.Fits G p.inputSize g p) (s : Species) (hs : ∀ g ∈ s.genomes, g ∈ G)
    (child : Genome) (q : Pool) (h : breedChild s p = some (child, q)) :
    Genome.Fits G p.inputSize child q := by
  have hpool : ∀ r : Random, ∀ g ∈ G,
      Genome.Fits G ({ p with rand := r } : Pool).inputSize g { p with rand := r } :=
    fun r g hg => (hG g hg).pool _ rfl rfl
  unfold breedChild at h
  split at h
  · simp at h
  · simp only [] at h
    split at h
    · simp at h
    · rename_i c p1 hb
      have hc : Genome.Fits G p.inputSize c p1 := by
        split at hb
        · split at hb
          · rename_i x1 x2 e1 e2
            exact crossover_fits G _ (hpool p.rand.getFloat.2.getUint32.2.getUint32.2) x1 x2
              (hs _ (List.getElem?_mem e1)) (hs _ (List.getElem?_mem e2)) c p1 hb
          · simp at hb
        · split at hb
          · rename_i x e
            simp only [Option.some.injEq, Prod.mk.injEq] at hb
            rw [← hb.1, ← hb.2]
            exact hpool _ x (hs _ (List.getElem?_mem e))
          · simp at hb
      exact Genome.mutate_fits G _ c p1 child q hc h

end Species

/-- Every genome of a bred list fits the list: its ids are in their ranges, its
`(into, out)` pairs are distinct while `maxNeuron` is below `MaxNodes`, and
genes with the same innovation id have the same `(into, out)` pair, within a
genome and across the list. -/
theorem bred_fits (G : List Genome) (p : Pool) (h : Bred G p) :
    ∀ g ∈ G, Genome.Fits G p.inputSize g p := by
  induction h with
  | start p =>
    intro g hg
    simp at hg
  | init G p g q _ hm ih =>
    have hf : Genome.Fits G p.inputSize { Genome.new with maxNeuron := p.inputSize } p := by
      refine ⟨rfl, ⟨le_refl _, ?_, fun _ => List.nodup_nil⟩, ?_, ?_⟩
      · intro e he
        simp [Genome.skeleton, Genome.new] at he
      · intro a ha
        simp [Genome.skeleton, Genome.new] at ha
      · intro x hx
        refine ⟨?_, fun e he => ((ih x hx).2.1.2.1 e he).2.2⟩
        intro a ha
        simp [Genome.skeleton, Genome.new] at ha
    have hq := Genome.mutate_fits G _ _ p g q hf hm
    have := Genome.fits_cons ih hq
    rw [← hq.1] at this
    exact this
  | mutate G p g g1 q _ hg hm ih =>
    have hq := Genome.mutate_fits G _ g p g1 q (ih g hg) hm
    have := Genome.fits_cons ih hq
    rw [← hq.1] at this
    exact this
  | crossover G p g1 g2 child q _ h1 h2 hc ih =>
    have hq := Species.crossover_fits G p ih g1 g2 h1 h2 child q hc
    have := Genome.fits_cons ih hq
    rw [← hq.1] at this
    exact this
  | breedChild G p spec child q _ hs hc ih =>
    have hq := Species.breedChild_fits G p ih spec hs child q hc
    have := Genome.fits_cons ih hq
    rw [← hq.1] at this
    exact this
  | evaluated G p g g1 _ hg hperm hmax ih =>
    obtain ⟨q1, ⟨s1, s2, s3⟩, hgg, hgG⟩ := ih g hg
    have hsk : ∀ e, e ∈ g1.skeleton ↔ e ∈ g.skeleton := fun e =>
      (hperm.map (fun gene : Gene => (gene.into, gene.out, gene.innovation))).mem_iff
    have hq : Genome.Fits G p.inputSize g1 p := by
      refine ⟨q1, ⟨?_, ?_, ?_⟩, ?_, ?_⟩
      · rw [hmax]
        exact s1
      · intro e he
        rw [hmax]
        exact s2 e ((hsk e).mp he)
      · intro hlt
        rw [hmax] at hlt
        exact ((hperm.map (fun gene : Gene => (gene.into, gene.out))).nodup_iff).mpr (s3 hlt)
      · intro a ha b hb
        exact hgg a ((hsk a).mp ha) b ((hsk b).mp hb)
      · intro x hx
        refine ⟨?_, (hgG x hx).2⟩
        intro a ha b hb
        exact (hgG x hx).1 a ((hsk a).mp ha) b hb
    exact Genome.fits_cons ih hq
  | pool G p q _ hc hin ih =>
    intro g hg
    rw [hin]
    exact (ih g hg).pool q hin hc

/-! ## A genome with two genes on one `(into, out)` pair is reachable -/

namespace Pool

theorem Still.float {p : Pool} (hp : Still p) : p.rand.getFloat.1 = 0 := by
  simp [Random.getFloat, hp.2]

theorem Still.uint {p : Pool} (hp : Still p) : p.rand.getUint32.1 = 0 := by
  simp [Random.getUint32, hp.2]

/-- A pool stays still when its generator is replaced by one with the same
stream. -/
theorem Still.of {p : Pool} (hp : Still p) (q : Pool) (hin : q.inputSize = p.inputSize)
    (hs : q.rand.stream = p.rand.stream) : Still q :=
  ⟨hin.trans hp.1, fun i => by rw [hs]; exact hp.2 i⟩

end Pool

namespace Map

/-- An insertion into a map that is not empty keeps its first key. -/
theorem head_insert {K V : Type} [DecidableEq K] (m : Map K V) (a k : K) (v : V)
    (h : (m.head?).map Prod.fst = some a) : ((insert m k v).head?).map Prod.fst = some a := by
  cases m with
  | nil => simp at h
  | cons x rest =>
    obtain ⟨x1, x2⟩ := x
    simp only [List.head?_cons, Option.map_some', Option.some.injEq] at h
    subst h
    unfold insert
    split <;> rfl

end Map

namespace Genome

theorem neuronCandidates_head (genes : List Gene) (nonInput : Bool) (inputSize : Int)
    (m : Map Int Bool) (a : Int) (h : (m.head?).map Prod.fst = some a) :
    ((neuronCandidates genes nonInput inputSize m).head?).map Prod.fst = some a := by
  unfold neuronCandidates
  induction genes generalizing m with
  | nil => exact h
  | cons gene rest ih =>
    simp only [List.foldl_cons]
    apply ih
    split <;> split <;> first | exact h | exact Map.head_insert _ _ _ _ h |
      exact Map.head_insert _ _ _ _ (Map.head_insert _ _ _ _ h)

/-- With the 200 inputs of the board, a draw of zero makes `randomNeuron` return
the first candidate: the input 0, or the first output when inputs are left out. -/
theorem randomNeuron_zero (g : Genome) (nonInput : Bool) (p : Pool) (hp : p.Still) :
    randomNeuron g nonInput p =
      some (if nonInput then 1000000 else 0, { p with rand := p.rand.getUint32.2 }) := by
  have hhead : ∀ b : Bool, (((List.range AI.Outputs).foldl
      (fun acc o => Map.insert acc (AI.MaxNodes + (o : Int)) true)
      (if !b then
        (List.range (200 : Int).toNat).foldl (fun acc i => Map.insert acc (i : Int) true) []
      else [])).head?).map Prod.fst = some (if b then 1000000 else 0) := by
    decide!
  have hhead1 : (((List.range AI.Outputs).foldl
      (fun acc o => Map.insert acc (AI.MaxNodes + (o : Int)) true)
      (if !nonInput then
        (List.range p.inputSize.toNat).foldl (fun acc i => Map.insert acc (i : Int) true) []
      else [])).head?).map Prod.fst = some (if nonInput then 1000000 else 0) := by
    rw [hp.1]
    exact hhead nonInput
  have hn := neuronCandidates_head g.genes nonInput p.inputSize _ _ hhead1
  unfold randomNeuron
  simp only []
  revert hn
  generalize neuronCandidates g.genes nonInput p.inputSize _ = neurons
  intro hn
  cases neurons with
  | nil => simp at hn
  | cons x rest =>
    simp only [List.head?_cons, Option.map_some', Option.some.injEq] at hn
    rw [hp.uint]
    simp [Map.getSize, hn]

/-- With zero draws `Genome::linkMutate` proposes the link from the input 0, or
from the bias node, to the first output; a genome that has this link is left as
it is. -/
theorem linkMutate_still (g : Genome) (forceBias : Bool) (p : Pool) (hp : p.Still)
    (hl : ((if forceBias then 200 else 0 : Int), (1000000 : Int)) ∈ g.links) :
    ∃ q, linkMutate g forceBias p = some (g, q) ∧ q.Still ∧ q.innovation = p.innovation := by
  have hp1 : Pool.Still { p with rand := p.rand.getUint32.2 } := hp.of _ rfl rfl
  refine ⟨{ p with rand := p.rand.getUint32.2.getUint32.2 }, ?_, hp.of _ rfl rfl, rfl⟩
  have hc : containsLink g { into := if forceBias then 200 else 0, out := 1000000 } = true := by
    unfold containsLink
    rw [List.any_eq_true]
    obtain ⟨gene, hg, he⟩ := List.mem_map.mp hl
    simp only [Prod.mk.injEq] at he
    exact ⟨gene, hg, by simp [he.1, he.2]⟩
  unfold linkMutate
  rw [randomNeuron_zero g false p hp]
  simp only []
  rw [randomNeuron_zero g true _ hp1]
  simp only [hp.1]
  simp [hc]

/-- A rate loop whose operator leaves the genome as it is, on zero draws. -/
theorem rateLoop_still (op : Genome → Pool → Option (Genome × Pool)) (g : Genome)
    (hop : ∀ p : Pool, p.Still → ∃ q, op g p = some (g, q) ∧ q.Still ∧
      q.innovation = p.innovation)
    (fuel : Nat) (pr : ℚ) (p : Pool) (hp : p.Still) :
    ∃ q, rateLoop op fuel pr g p = some (g, q) ∧ q.Still ∧ q.innovation = p.innovation := by
  induction fuel generalizing pr p with
  | zero => exact ⟨p, rfl, hp, rfl⟩
  | succ n ih =>
    unfold rateLoop
    split
    · rename_i hpos
      have hlt : p.rand.getFloat.1 < pr := by
        rw [hp.float]
        exact hpos
      simp only [if_pos hlt]
      obtain ⟨q, hq, hs, hi⟩ := hop { p with rand := p.rand.getFloat.2 } (hp.of _ rfl rfl)
      simp only [hq]
      obtain ⟨q2, h2, hs2, hi2⟩ := ih (pr - 1) q hs
      exact ⟨q2, h2, hs2, hi2.trans hi⟩
    · exact ⟨p, rfl, hp, rfl⟩

/-- A rate loop with a rate in `(0, 1]` makes one roll, and on a zero draw it
invokes its operator. -/
theorem rateLoop_one (op : Genome → Pool → Option (Genome × Pool)) (pr : ℚ) (h0 : 0 < pr)
    (h1 : pr ≤ 1) (g : Genome) (p : Pool) (hp : p.Still) :
    rateLoop op (Int.toNat ⌈pr⌉) pr g p = op g { p with rand := p.rand.getFloat.2 } := by
  have hc : ⌈pr⌉ = 1 := by
    rw [Int.ceil_eq_iff]
    constructor
    · simpa using h0
    · simpa using h1
  rw [hc]
  show rateLoop op 1 pr g p = _
  unfold rateLoop
  have hlt : p.rand.getFloat.1 < pr := by
    rw [hp.float]
    exact h0
  simp only [gt_iff_lt, h0, if_true, if_pos hlt]
  cases op g { p with rand := p.rand.getFloat.2 } with
  | none => rfl
  | some r =>
    obtain ⟨g2, p2⟩ := r
    simp [rateLoop]

theorem perturbRates_zero (m : Map String ℚ) (r : Random) (hz : ∀ i, r.stream i = 0) :
    (perturbRates m r).1 = m.map (fun e => (e.1, e.2 * (95 / 100))) ∧
      (perturbRates m r).2.stream = r.stream := by
  induction m generalizing r with
  | nil => exact ⟨rfl, rfl⟩
  | cons e rest ih =>
    obtain ⟨a, b⟩ := e
    unfold perturbRates
    have h0 : r.getUint32.1 % 2 = 0 := by simp [Random.getUint32, hz]
    obtain ⟨i1, i2⟩ := ih r.getUint32.2 hz
    simp only [h0, if_true, List.map_cons, i1, i2]
    exact ⟨trivial, rfl⟩

theorem pointMutateGenes_flags (step : ℚ) (genes : List Gene) (rand : Random) :
    (pointMutateGenes step genes rand).1.map
        (fun gene => (gene.into, gene.out, gene.enabled)) =
      genes.map (fun gene => (gene.into, gene.out, gene.enabled)) ∧
    (pointMutateGenes step genes rand).2.stream = rand.stream := by
  induction genes generalizing rand with
  | nil => exact ⟨rfl, rfl⟩
  | cons gene rest ih =>
    unfold pointMutateGenes
    simp only [List.map_cons]
    obtain ⟨i1, i2⟩ := ih rand.getFloat.2.getFloat.2
    rw [i1, i2]
    refine ⟨?_, rfl⟩
    congr 1
    split <;> rfl

theorem SlowRates.finds {g : Genome} (h : g.SlowRates) :
    ∃ c l n e d s : ℚ, Map.find g.mutationRates "connections" = some c ∧
      Map.find g.mutationRates "link" = some l ∧
      (∃ b, Map.find g.mutationRates "bias" = some b) ∧
      Map.find g.mutationRates "node" = some n ∧ Map.find g.mutationRates "enable" = some e ∧
      Map.find g.mutationRates "disable" = some d ∧ Map.find g.mutationRates "step" = some s ∧
      0 < c ∧ 0 < n ∧ n ≤ 1 ∧ 0 < e ∧ e ≤ 1 ∧ 0 < d ∧ d ≤ 1 := by
  obtain ⟨c, l, b, n, e, d, s, hr, h1, -, -, h4, h5, h6, h7, h8, h9⟩ := h
  refine ⟨c, l, n, e, d, s, ?_, ?_, ⟨b, ?_⟩, ?_, ?_, ?_, ?_, h1, h4, h5, h6, h7, h8, h9⟩ <;>
    · rw [hr]
      simp [Map.find]

/-- The head of `Genome::mutate` on zero draws: every rate is scaled by 0.95, the
point mutation rewrites the weights. -/
theorem mutateHead_still (g : Genome) (p : Pool) (hr : g.SlowRates) (hp : p.Still) :
    ∃ g1 q, mutateHead g p = some (g1, q) ∧ g1.maxNeuron = g.maxNeuron ∧ g1.flags = g.flags ∧
      g1.SlowRates ∧ q.Still ∧ q.innovation = p.innovation := by
  obtain ⟨h1, h2⟩ := perturbRates_zero g.mutationRates p.rand hp.2
  have hr1 : SlowRates { g with mutationRates := (perturbRates g.mutationRates p.rand).1 } := by
    obtain ⟨c, l, b, n, e, d, s, hr, k1, k2, k3, k4, k5, k6, k7, k8, k9⟩ := hr
    refine ⟨c * (95 / 100), l * (95 / 100), b * (95 / 100), n * (95 / 100), e * (95 / 100),
      d * (95 / 100), s * (95 / 100), ?_, ?_⟩
    · show (perturbRates g.mutationRates p.rand).1 = _
      rw [h1, hr]
      rfl
    · refine ⟨?_, ?_, ?_, ?_, ?_, ?_, ?_, ?_, ?_⟩ <;> linarith
  obtain ⟨c, l, n, e, d, s, f1, -, -, -, -, -, f7, hc, -⟩ := hr1.finds
  have hp0 : Pool.Still { p with rand := (perturbRates g.mutationRates p.rand).2.getFloat.2 } :=
    hp.of _ rfl h2
  have hf : (perturbRates g.mutationRates p.rand).2.getFloat.1 = 0 := by
    simp [Random.getFloat, h2, hp.2]
  unfold mutateHead
  simp only [] at f1 f7 ⊢
  simp only [f1, hf, if_pos hc]
  unfold pointMutate
  simp only [f7]
  obtain ⟨k1, k2⟩ := pointMutateGenes_flags s g.genes
    (perturbRates g.mutationRates p.rand).2.getFloat.2
  refine ⟨_, _, rfl, rfl, k1, hr1, hp.of _ rfl ?_, rfl⟩
  exact k2.trans h2

theorem links_eq_flags (g : Genome) : g.links = g.flags.map (fun e => (e.1, e.2.1)) := by
  simp [links, flags, List.map_map, Function.comp_def]

theorem flags_cons (g : Genome) (x : Int × Int × Bool) (xs : List (Int × Int × Bool))
    (h : g.flags = x :: xs) :
    ∃ first rest, g.genes = first :: rest ∧ (first.into, first.out, first.enabled) = x ∧
      rest.map (fun gene => (gene.into, gene.out, gene.enabled)) = xs := by
  unfold flags at h
  cases hg : g.genes with
  | nil =>
    rw [hg] at h
    simp at h
  | cons first rest =>
    rw [hg] at h
    simp only [List.map_cons, List.cons.injEq] at h
    exact ⟨first, rest, rfl, h.1, h.2⟩

/-- A link block on zero draws leaves a genome as it is when the genome has the
link that `Genome::linkMutate` proposes. -/
theorem linkBlock_still (name : String) (forceBias : Bool) (g : Genome) (p : Pool)
    (hf : (Map.find g.mutationRates name).isSome = true) (hp : p.Still)
    (hl : ((if forceBias then 200 else 0 : Int), (1000000 : Int)) ∈ g.links) :
    ∃ q, rateBlock name (fun x q => linkMutate x forceBias q) g p = some (g, q) ∧ q.Still ∧
      q.innovation = p.innovation := by
  obtain ⟨pr, hpr⟩ := Option.isSome_iff_exists.mp hf
  unfold rateBlock
  simp only [hpr]
  exact rateLoop_still _ g (fun a ha => linkMutate_still g forceBias a ha hl) _ _ p hp

/-- The node block on zero draws when the first gene is disabled: one roll, the
first gene is picked, and only `maxNeuron` is raised. -/
theorem nodeBlock_idle (g : Genome) (p : Pool) (n : ℚ)
    (hf : Map.find g.mutationRates "node" = some n) (h0 : 0 < n) (h1 : n ≤ 1) (hp : p.Still)
    (first : Gene) (rest : List Gene) (hg : g.genes = first :: rest)
    (hd : first.enabled = false) :
    rateBlock "node" (fun x q => some (nodeMutate x q)) g p =
      some ({ g with maxNeuron := g.maxNeuron + 1 },
        { p with rand := p.rand.getFloat.2.getUint32.2 }) := by
  have hp1 : Pool.Still { p with rand := p.rand.getFloat.2 } := hp.of _ rfl rfl
  unfold rateBlock
  simp only [hf]
  rw [rateLoop_one _ n h0 h1 g p hp]
  rw [nodeMutate_disabled g _ first (by rw [hg]; simp) (by rw [hp1.uint, hg]; simp) hd]

/-- The node block on zero draws when the first gene is enabled: one roll, the
first gene is split. -/
theorem nodeBlock_split (g : Genome) (p : Pool) (n : ℚ)
    (hf : Map.find g.mutationRates "node" = some n) (h0 : 0 < n) (h1 : n ≤ 1) (hp : p.Still)
    (first : Gene) (rest : List Gene) (hg : g.genes = first :: rest)
    (he : first.enabled = true) :
    ∃ g1 q, rateBlock "node" (fun x q => some (nodeMutate x q)) g p = some (g1, q) ∧
      g1.links = g.links ++ [(first.into, g.maxNeuron + 1), (g.maxNeuron + 1, first.out)] ∧
      g1.mutationRates = g.mutationRates ∧ q.Still := by
  have hp1 : Pool.Still { p with rand := p.rand.getFloat.2 } := hp.of _ rfl rfl
  unfold rateBlock
  simp only [hf]
  rw [rateLoop_one _ n h0 h1 g p hp]
  rw [nodeMutate_enabled g _ first (by rw [hg]; simp) (by rw [hp1.uint, hg]; simp) he]
  refine ⟨_, _, rfl, ?_, rfl, hp.of _ rfl rfl⟩
  rw [hp1.uint]
  simp [links, hg]

/-- On a zero draw `Genome::enableDisableMutate` toggles the first gene when it is
a candidate. -/
theorem toggle_first (g : Genome) (enable : Bool) (p : Pool) (hp : p.Still) (first : Gene)
    (rest : List Gene) (hg : g.genes = first :: rest) (hne : first.enabled ≠ enable) :
    enableDisableMutate g enable p =
      ({ g with genes := { first with enabled := !first.enabled } :: rest },
        { p with rand := p.rand.getUint32.2 }) := by
  have hcand : ∃ tail, toggleCandidates g.genes enable = 0 :: tail := by
    rw [hg]
    unfold toggleCandidates
    rw [List.length_cons, List.range_succ_eq_map, List.filter_cons]
    simp [hne]
  obtain ⟨tail, ht⟩ := hcand
  unfold enableDisableMutate
  simp only [ht, hp.uint]
  simp [hg]

theorem toggleBlock_first (name : String) (enable : Bool) (g : Genome) (p : Pool) (n : ℚ)
    (hf : Map.find g.mutationRates name = some n) (h0 : 0 < n) (h1 : n ≤ 1) (hp : p.Still)
    (first : Gene) (rest : List Gene) (hg : g.genes = first :: rest)
    (hne : first.enabled ≠ enable) :
    rateBlock name (fun x q => some (enableDisableMutate x enable q)) g p =
      some ({ g with genes := { first with enabled := !first.enabled } :: rest },
        { p with rand := p.rand.getFloat.2.getUint32.2 }) := by
  have hp1 : Pool.Still { p with rand := p.rand.getFloat.2 } := hp.of _ rfl rfl
  unfold rateBlock
  simp only [hf]
  rw [rateLoop_one _ n h0 h1 g p hp, toggle_first g enable _ hp1 first rest hg hne]

/-- One more `Genome::mutate` on zero draws: the padded genome keeps its genes up
to their weights, and its `maxNeuron` goes up by one. -/
theorem mutate_padded (k : Int) (g : Genome) (p : Pool) (hg : g.Padded k) (hp : p.Still) :
    ∃ g1 q, mutate g p = some (g1, q) ∧ g1.Padded (k + 1) ∧ q.Still ∧
      q.innovation = p.innovation := by
  obtain ⟨hk, hfl, hr⟩ := hg
  obtain ⟨g1, q1, e1, m1, f1, r1, s1, i1⟩ := mutateHead_still g p hr hp
  rw [hfl] at f1
  obtain ⟨c, l, n, e, d, s, -, fl, ⟨b, fb⟩, fn, fe, fd, -, -, n0, n1, e0, e1x, d0, d1⟩ := r1.finds
  have hl0 : ((if false then 200 else 0 : Int), (1000000 : Int)) ∈ g1.links := by
    rw [links_eq_flags, f1]
    decide
  have hl1 : ((if true then 200 else 0 : Int), (1000000 : Int)) ∈ g1.links := by
    rw [links_eq_flags, f1]
    decide
  obtain ⟨q2, e2, s2, i2⟩ := linkBlock_still "link" false g1 q1 (by rw [fl]; rfl) s1 hl0
  obtain ⟨q3, e3, s3, i3⟩ := linkBlock_still "bias" true g1 q2 (by rw [fb]; rfl) s2 hl1
  obtain ⟨first, rest, hgenes, hfirst, hrest⟩ := flags_cons g1 _ _ f1
  simp only [Prod.mk.injEq] at hfirst
  have e4 := nodeBlock_idle g1 q3 n fn n0 n1 s3 first rest hgenes hfirst.2.2
  have s4 : Pool.Still { q3 with rand := q3.rand.getFloat.2.getUint32.2 } := s3.of _ rfl rfl
  have e5 := toggleBlock_first "enable" true { g1 with maxNeuron := g1.maxNeuron + 1 } _ e fe e0
    e1x s4 first rest hgenes (by rw [hfirst.2.2]; decide)
  have s5 : Pool.Still { q3 with rand :=
      q3.rand.getFloat.2.getUint32.2.getFloat.2.getUint32.2 } := s3.of _ rfl rfl
  have e6 := toggleBlock_first "disable" false
    { g1 with maxNeuron := g1.maxNeuron + 1, genes := { first with enabled := !first.enabled } :: rest }
    _ d fd d0 d1 s5 { first with enabled := !first.enabled } rest rfl
    (by simp [hfirst.2.2])
  rw [mutate_blocks, e1]
  simp only [Option.some_bind, runBlocks, rateOps, e2, e3, e4, e5, e6]
  refine ⟨_, _, rfl, ⟨?_, ?_, ?_⟩, s3.of _ rfl rfl, ?_⟩
  · show g1.maxNeuron + 1 = k + 1
    rw [m1, hk]
  · show List.map (fun gene : Gene => (gene.into, gene.out, gene.enabled)) _ = _
    simp only [List.map_cons, hrest, hfirst.1, hfirst.2.1, hfirst.2.2]
    rfl
  · exact r1
  · show q3.innovation = p.innovation
    rw [i3, i2, i1]

theorem toggle_links (g : Genome) (e : Bool) (p : Pool) :
    (enableDisableMutate g e p).1.links = g.links := by
  by_cases hall : ∀ gene ∈ g.genes, gene.enabled = e
  · rw [(enableDisableMutate_cases g e p).1 hall]
  · have hex : ∃ gene ∈ g.genes, gene.enabled ≠ e := by
      by_contra hc
      apply hall
      intro gene hg
      by_contra hne
      exact hc ⟨gene, hg, hne⟩
    obtain ⟨idx, gene, hg, -, he⟩ := (enableDisableMutate_cases g e p).2 hex
    rw [he, links_eq_skeleton, links_eq_skeleton]
    congr 1
    exact skeleton_set g.genes idx gene { gene with enabled := e } hg rfl rfl rfl

/-- The first `Genome::mutate` of `Pool::init` on zero draws gives the padded
genome with `maxNeuron` at 201. -/
theorem mutate_first :
    ∃ g q, mutate { Genome.new with maxNeuron := 200 } zeroPool = some (g, q) ∧ g.Padded 201 ∧
      q.inputSize = 200 := by
  have hval : (mutate { Genome.new with maxNeuron := 200 } zeroPool).map
      (fun r => decide (r.1.maxNeuron = 201) &&
        decide (r.1.flags =
          [(0, 1000000, false), (200, 1000000, true), (0, 201, true), (201, 1000000, true)]) &&
        decide (r.1.mutationRates =
          [("connections", 19 / 80), ("link", 19 / 10), ("bias", 19 / 50), ("node", 19 / 40),
            ("enable", 19 / 100), ("disable", 19 / 50), ("step", 19 / 200)])) = some true := by
    decide!
  cases h : mutate { Genome.new with maxNeuron := 200 } zeroPool with
  | none =>
    rw [h] at hval
    simp at hval
  | some r =>
    obtain ⟨g, q⟩ := r
    rw [h] at hval
    simp only [Option.map_some', Option.some.injEq, Bool.and_eq_true, decide_eq_true_eq] at hval
    refine ⟨g, q, rfl, ⟨hval.1.1, hval.1.2, ?_⟩, (mutate_frame _ _ _ _ h).2.1⟩
    refine ⟨19 / 80, 19 / 10, 19 / 50, 19 / 40, 19 / 100, 19 / 50, 19 / 200, hval.2, ?_⟩
    norm_num

/-- After `Genome::generateNetwork` has sorted the genes of a padded genome by
their `out`, the half of the first link that ends in the node 201 is up front. -/
theorem generateNetwork_padded (k : Int) (g : Genome) (h : g.Padded k) :
    (generateNetwork g 200).maxNeuron = k ∧
      (generateNetwork g 200).flags =
        [(0, 201, true), (0, 1000000, false), (200, 1000000, true), (201, 1000000, true)] ∧
      (generateNetwork g 200).SlowRates := by
  obtain ⟨hk, hfl, hr⟩ := h
  refine ⟨hk, ?_, hr⟩
  unfold flags at hfl
  show (sortBy (fun a b : Gene => decide (a.out < b.out)) g.genes).map
    (fun gene : Gene => (gene.into, gene.out, gene.enabled)) = _
  rcases hg : g.genes with _ | ⟨a, _ | ⟨b, _ | ⟨c, _ | ⟨d, _ | ⟨x, rest⟩⟩⟩⟩⟩ <;>
    rw [hg] at hfl <;> simp at hfl
  obtain ⟨⟨a1, a2, a3⟩, ⟨b1, b2, b3⟩, ⟨c1, c2, c3⟩, d1, d2, d3⟩ := hfl
  simp [sortBy, ordInsert, a1, a2, a3, b1, b2, b3, c1, c2, c3, d1, d2, d3]

/-- The `Genome::mutate` on zero draws of a sorted padded genome whose
`maxNeuron` is `MaxNodes - 1`: the node block splits the first gene, the link
from the input 0 to the node 201, through the new node 1000000. That id is the
first output, and the genome has a link from the input 0 to it already. -/
theorem mutate_border (g : Genome) (p : Pool) (hm : g.maxNeuron = 999999)
    (hfl : g.flags =
      [(0, 201, true), (0, 1000000, false), (200, 1000000, true), (201, 1000000, true)])
    (hr : g.SlowRates) (hp : p.Still) :
    ∃ g1 q, mutate g p = some (g1, q) ∧ q.inputSize = 200 ∧
      g1.links = [(0, 201), (0, 1000000), (200, 1000000), (201, 1000000), (0, 1000000),
        (1000000, 201)] := by
  obtain ⟨g1, q1, e1, m1, f1, r1, s1, i1⟩ := mutateHead_still g p hr hp
  rw [hfl] at f1
  obtain ⟨c, l, n, e, d, s, -, fl, ⟨b, fb⟩, fn, fe, fd, -, -, n0, n1, e0, e1x, d0, d1⟩ := r1.finds
  have hl0 : ((if false then 200 else 0 : Int), (1000000 : Int)) ∈ g1.links := by
    rw [links_eq_flags, f1]
    decide
  have hl1 : ((if true then 200 else 0 : Int), (1000000 : Int)) ∈ g1.links := by
    rw [links_eq_flags, f1]
    decide
  obtain ⟨q2, e2, s2, i2⟩ := linkBlock_still "link" false g1 q1 (by rw [fl]; rfl) s1 hl0
  obtain ⟨q3, e3, s3, i3⟩ := linkBlock_still "bias" true g1 q2 (by rw [fb]; rfl) s2 hl1
  obtain ⟨first, rest, hgenes, hfirst, hrest⟩ := flags_cons g1 _ _ f1
  simp only [Prod.mk.injEq] at hfirst
  obtain ⟨g4, q4, e4, l4, r4, s4⟩ :=
    nodeBlock_split g1 q3 n fn n0 n1 s3 first rest hgenes hfirst.2.2
  rw [links_eq_flags g1, f1, hfirst.1, hfirst.2.1, m1, hm] at l4
  have htog : ∀ (en : Bool) (x : Genome) (a : Pool),
      ∃ x1 a1, (fun x q => some (enableDisableMutate x en q)) x a = some (x1, a1) ∧
        x1.mutationRates = x.mutationRates ∧ Pool.SameFrame a a1 :=
    fun en x a => ⟨_, _, rfl, (enableDisableMutate_spec x en a).1,
      (enableDisableMutate_spec x en a).2⟩
  have hkeep : ∀ (en : Bool) (x : Genome) (a : Pool) (x1 : Genome) (a1 : Pool),
      x.links = g4.links →
      (fun x q => some (enableDisableMutate x en q)) x a = some (x1, a1) →
      x1.links = g4.links := by
    intro en x a x1 a1 hx he
    simp only [Option.some.injEq] at he
    have h1 : x1 = (enableDisableMutate x en a).1 := by rw [he]
    rw [h1, toggle_links]
    exact hx
  obtain ⟨g5, q5, e5, r5, t5⟩ := rateBlock_spec "enable" _ (htog true) g4 q4
    (by rw [r4, fe]; rfl)
  have l5 := rateBlock_preserves (fun x _ => x.links = g4.links) (fun _ _ _ hx => hx) "enable" _
    (hkeep true) g4 q4 g5 q5 e5 rfl
  obtain ⟨g6, q6, e6, r6, t6⟩ := rateBlock_spec "disable" _ (htog false) g5 q5
    (by rw [r5, r4, fd]; rfl)
  have l6 := rateBlock_preserves (fun x _ => x.links = g4.links) (fun _ _ _ hx => hx) "disable" _
    (hkeep false) g5 q5 g6 q6 e6 l5
  refine ⟨g6, q6, ?_, ?_, ?_⟩
  · rw [mutate_blocks, e1]
    simp only [Option.some_bind, runBlocks, rateOps, e2, e3, e4, e5, e6]
  · rw [t6.2.1, t5.2.1]
    exact s4.1
  · simp only [] at l6
    rw [l6, l4]
    rfl

end Genome

theorem firstBorn_eq :
    Genome.mutate { Genome.new with maxNeuron := 200 } zeroPool = some firstBorn := by
  obtain ⟨g, q, h, -, -⟩ := Genome.mutate_first
  unfold firstBorn
  rw [h]
  rfl

theorem firstBorn_padded : firstBorn.1.Padded 201 := by
  obtain ⟨g, q, h, hpad, -⟩ := Genome.mutate_first
  have := firstBorn_eq
  rw [h] at this
  simp only [Option.some.injEq] at this
  rw [← this]
  exact hpad

/-- The method `Genome::linkMutate` keeps the `(into, out)` pairs of a genome
distinct: it appends a gene only when `containsLink` has not found its pair. -/
theorem Genome.linkMutate_unique (g : Genome) (forceBias : Bool) (p : Pool) (g1 : Genome)
    (q : Pool) (h : Genome.linkMutate g forceBias p = some (g1, q)) (hn : g.links.Nodup) :
    g1.links.Nodup := by
  obtain ⟨n1, p1, n2, p2, -, -, -, -, hc⟩ := Genome.linkMutate_cases g forceBias p
  rcases hc with hc | ⟨gene, -, -, -, -, hnew, -, hc⟩
  · rw [hc] at h
    simp only [Option.some.injEq, Prod.mk.injEq] at h
    rw [← h.1]
    exact hn
  · rw [hc] at h
    simp only [Option.some.injEq, Prod.mk.injEq] at h
    rw [← h.1]
    simp only [Genome.links, List.map_append, List.map_cons, List.map_nil]
    rw [List.nodup_append]
    refine ⟨hn, List.nodup_singleton _, ?_⟩
    intro pair hp hp2
    simp only [List.mem_singleton] at hp2
    subst hp2
    obtain ⟨old, hold, hpair⟩ := List.mem_map.mp hp
    simp only [Prod.mk.injEq] at hpair
    exact hnew old hold hpair

/-- A padded genome with `maxNeuron` at `201 + n` is bred from `Pool::init` by
`n` mutations on zero draws. -/
theorem bred_padded (n : Nat) :
    ∃ G p g, Bred G p ∧ p.inputSize = 200 ∧ g ∈ G ∧ g.Padded (201 + (n : Int)) := by
  induction n with
  | zero =>
    obtain ⟨g, q, h, hpad, hin⟩ := Genome.mutate_first
    exact ⟨[g], q, g, Bred.init [] zeroPool g q (Bred.start zeroPool) h, hin,
      List.mem_cons_self _ _, hpad⟩
  | succ n ih =>
    obtain ⟨G, p, g, hB, hin, hg, hpad⟩ := ih
    have hp : Pool.Still { p with rand := zeroRandom } := ⟨hin, fun _ => rfl⟩
    obtain ⟨g1, q, h, hpad1, hq, -⟩ := Genome.mutate_padded _ g _ hpad hp
    refine ⟨g1 :: G, q, g1,
      Bred.mutate G { p with rand := zeroRandom } g g1 q (Bred.pool G p _ hB rfl rfl) hg h, hq.1,
      List.mem_cons_self _ _, ?_⟩
    have hcast : (201 : Int) + ((n + 1 : Nat) : Int) = 201 + (n : Int) + 1 := by
      push_cast
      ring
    rw [hcast]
    exact hpad1

/-- A genome with two genes on the same `(into, out)` pair is bred from
`Pool::init`: after the mutations that raise `maxNeuron` to `MaxNodes - 1`, one
evaluation sorts the genes and one more mutation splits a gene through the node
`MaxNodes`. -/
theorem bred_border :
    ∃ G p g, Bred G p ∧ p.inputSize = 200 ∧ g ∈ G ∧
      g.links = [(0, 201), (0, 1000000), (200, 1000000), (201, 1000000), (0, 1000000),
        (1000000, 201)] := by
  obtain ⟨G, p, g, hB, hin, hg, hpad⟩ := bred_padded 999798
  obtain ⟨hm, hfl, hr⟩ := Genome.generateNetwork_padded _ g hpad
  have hB1 : Bred (Genome.generateNetwork g 200 :: G) { p with rand := zeroRandom } :=
    Bred.pool _ p _ (Bred.evaluated G p g _ hB hg (sortBy_perm _ _) rfl) rfl rfl
  have hp : Pool.Still { p with rand := zeroRandom } := ⟨hin, fun _ => rfl⟩
  obtain ⟨g1, q, h, hq, hl⟩ := Genome.mutate_border _ _ (by rw [hm]; norm_num) hfl hr hp
  exact ⟨_, q, g1, Bred.mutate _ _ _ g1 q hB1 (List.mem_cons_self _ _) h, hq,
    List.mem_cons_self _ _, hl⟩

/-! ## Binary32 rounding: order, exact integers, and the quota of line 612 -/

namespace F32

theorem halvings_spec (fuel n : Nat) (h : n ≤ fuel) (hn : n ≠ 0) :
    2 ^ halvings fuel n ≤ n ∧ n < 2 ^ (halvings fuel n + 1) := by
  induction fuel generalizing n with
  | zero => omega
  | succ f ih =>
    unfold halvings
    split
    · constructor
      · simp
        omega
      · simp
        omega
    · have h2 : n / 2 ≤ f := by omega
      have h3 : n / 2 ≠ 0 := by omega
      obtain ⟨i1, i2⟩ := ih (n / 2) h2 h3
      constructor
      · rw [pow_succ]
        omega
      · rw [pow_succ]
        omega

theorem log2_spec (n : Nat) (hn : n ≠ 0) : 2 ^ log2 n ≤ n ∧ n < 2 ^ (log2 n + 1) :=
  halvings_spec n n (le_refl _) hn

/-- The exponent of a number other than zero: the binade that holds it, or
`-126`. -/
theorem expo_spec (x : ℚ) (hx : x ≠ 0) :
    ∃ e : Int, expo x = max e (-126) ∧ (2 : ℚ) ^ e ≤ |x| ∧ |x| < (2 : ℚ) ^ (e + 1) := by
  have hnum : x.num.natAbs ≠ 0 := by
    intro h
    exact hx (Rat.zero_of_num_zero (Int.natAbs_eq_zero.mp h))
  have habs : |x| = (x.num.natAbs : ℚ) / (x.den : ℚ) := by
    rw [Rat.abs_def, Rat.divInt_eq_div]
    push_cast
    rw [← Int.cast_abs, Int.abs_eq_natAbs, Int.cast_natCast]
  obtain ⟨n1, n2⟩ := log2_spec _ hnum
  obtain ⟨d1, d2⟩ := log2_spec _ x.den_nz
  have n1q : (2 : ℚ) ^ log2 x.num.natAbs ≤ (x.num.natAbs : ℚ) := by exact_mod_cast n1
  have n2q : (x.num.natAbs : ℚ) < (2 : ℚ) ^ (log2 x.num.natAbs + 1) := by exact_mod_cast n2
  have d1q : (2 : ℚ) ^ log2 x.den ≤ (x.den : ℚ) := by exact_mod_cast d1
  have d2q : (x.den : ℚ) < (2 : ℚ) ^ (log2 x.den + 1) := by exact_mod_cast d2
  have hd : (0 : ℚ) < (x.den : ℚ) := by exact_mod_cast x.den_pos
  have two : (2 : ℚ) ≠ 0 := two_ne_zero
  have hpa : (0 : ℚ) < (2 : ℚ) ^ log2 x.num.natAbs := pow_pos two_pos _
  have hpb : (0 : ℚ) < (2 : ℚ) ^ log2 x.den := pow_pos two_pos _
  have hk : (2 : ℚ) ^ ((log2 x.num.natAbs : Int) - (log2 x.den : Int)) =
      (2 : ℚ) ^ log2 x.num.natAbs / (2 : ℚ) ^ log2 x.den := by
    rw [zpow_sub₀ two, zpow_natCast, zpow_natCast]
  -- the quotient lies strictly between the binades below and above
  have hlow : (2 : ℚ) ^ ((log2 x.num.natAbs : Int) - (log2 x.den : Int) - 1) ≤ |x| := by
    rw [zpow_sub₀ two, hk, zpow_one, habs, div_div, div_le_div_iff₀ (by positivity) hd]
    rw [pow_succ] at d2q
    nlinarith
  have hhigh : |x| < (2 : ℚ) ^ ((log2 x.num.natAbs : Int) - (log2 x.den : Int) + 1) := by
    rw [zpow_add₀ two, hk, zpow_one, habs, div_mul_eq_mul_div, div_lt_div_iff₀ hd hpb]
    rw [pow_succ] at n2q
    nlinarith
  unfold expo
  rw [if_neg hx]
  simp only []
  by_cases hc : (2 : ℚ) ^ ((log2 x.num.natAbs : Int) - (log2 x.den : Int)) ≤ |x|
  · rw [if_pos hc]
    exact ⟨_, rfl, hc, hhigh⟩
  · rw [if_neg hc]
    refine ⟨_, rfl, hlow, ?_⟩
    rw [sub_add_cancel]
    exact lt_of_not_le hc

theorem expo_ge (x : ℚ) : -126 ≤ expo x := by
  unfold expo
  split
  · exact le_refl _
  · exact le_max_right _ _

theorem abs_lt_expo (x : ℚ) : |x| < (2 : ℚ) ^ (expo x + 1) := by
  by_cases hx : x = 0
  · subst hx
    rw [abs_zero]
    exact zpow_pos two_pos _
  · obtain ⟨e, he, -, h2⟩ := expo_spec x hx
    refine lt_of_lt_of_le h2 ?_
    apply zpow_le_zpow_right₀ (by norm_num)
    rw [he]
    have := le_max_left e (-126)
    omega

theorem expo_le_abs (x : ℚ) (h : -126 < expo x) : (2 : ℚ) ^ expo x ≤ |x| := by
  by_cases hx : x = 0
  · subst hx
    simp [expo] at h
  · obtain ⟨e, he, h1, -⟩ := expo_spec x hx
    have : expo x = e := by
      rw [he] at h ⊢
      rcases max_cases e (-126) with ⟨h3, -⟩ | ⟨h3, -⟩
      · exact h3
      · rw [h3] at h
        exact absurd h (lt_irrefl _)
    rw [this]
    exact h1

theorem expo_mono (x y : ℚ) (h : |x| ≤ |y|) : expo x ≤ expo y := by
  by_cases hx : x = 0
  · subst hx
    have := expo_ge y
    simpa [expo] using this
  · have hy : y ≠ 0 := by
      intro hy
      subst hy
      rw [abs_zero] at h
      exact hx (abs_eq_zero.mp (le_antisymm h (abs_nonneg x)))
    obtain ⟨e, he, h1, -⟩ := expo_spec x hx
    obtain ⟨f, hf, -, h2⟩ := expo_spec y hy
    have hlt : (2 : ℚ) ^ e < (2 : ℚ) ^ (f + 1) := lt_of_le_of_lt (le_trans h1 h) h2
    have hef : e < f + 1 := (zpow_lt_zpow_iff_right₀ (by norm_num)).mp hlt
    rw [he, hf]
    exact max_le_max (by omega) (le_refl _)

/-- The exponent of a number in a binade from `-126` on is that of the binade. -/
theorem expo_eq (x : ℚ) (e : Int) (he : -126 ≤ e) (h1 : (2 : ℚ) ^ e ≤ |x|)
    (h2 : |x| < (2 : ℚ) ^ (e + 1)) : expo x = e := by
  have hx : x ≠ 0 := by
    intro hx
    subst hx
    rw [abs_zero] at h1
    exact absurd (zpow_pos (two_pos : (0 : ℚ) < 2) e) (not_lt.mpr h1)
  obtain ⟨f, hf, f1, f2⟩ := expo_spec x hx
  have a1 : e < f + 1 :=
    (zpow_lt_zpow_iff_right₀ (by norm_num)).mp (lt_of_le_of_lt h1 f2)
  have a2 : f < e + 1 :=
    (zpow_lt_zpow_iff_right₀ (by norm_num)).mp (lt_of_le_of_lt f1 h2)
  rw [hf]
  have : f = e := by omega
  rw [this]
  exact max_eq_left he

theorem ulp_pos (x : ℚ) : 0 < ulp x := zpow_pos two_pos _

theorem rne_intCast (n : Int) : rne (n : ℚ) = n := by
  unfold rne
  simp

theorem floor_le_rne (x : ℚ) : ⌊x⌋ ≤ rne x := by
  unfold rne
  split_ifs <;> omega

theorem rne_le_floor_succ (x : ℚ) : rne x ≤ ⌊x⌋ + 1 := by
  unfold rne
  split_ifs <;> omega

theorem rne_mono (x y : ℚ) (h : x ≤ y) : rne x ≤ rne y := by
  have hf : ⌊x⌋ ≤ ⌊y⌋ := Int.floor_mono h
  rcases lt_or_eq_of_le hf with hlt | heq
  · have h1 := rne_le_floor_succ x
    have h2 := floor_le_rne y
    omega
  · unfold rne
    rw [← heq]
    have hxy : x - ⌊x⌋ ≤ y - ⌊x⌋ := by linarith
    split_ifs <;> first | omega | (exfalso; linarith)

theorem rne_le_of_le (x : ℚ) (m : Int) (h : x ≤ m) : rne x ≤ m := by
  have := rne_mono x m h
  rwa [rne_intCast] at this

theorem le_rne_of_le (x : ℚ) (m : Int) (h : (m : ℚ) ≤ x) : m ≤ rne x := by
  have := rne_mono m x h
  rwa [rne_intCast] at this

/-- A number that is a multiple of the spacing of its binade is a binary32
number. -/
theorem nearest_eq_self (x : ℚ) (m : Int) (h : x / ulp x = m) : nearest x = x := by
  unfold nearest
  rw [h, rne_intCast, ← h]
  exact div_mul_cancel₀ x (ne_of_gt (ulp_pos x))

theorem nearest_nonneg (x : ℚ) (hx : 0 ≤ x) : 0 ≤ nearest x := by
  unfold nearest
  apply mul_nonneg _ (le_of_lt (ulp_pos x))
  have := le_rne_of_le (x / ulp x) 0 (by simpa using div_nonneg hx (le_of_lt (ulp_pos x)))
  exact_mod_cast this

/-- Rounding keeps the order of the numbers that are not negative. -/
theorem nearest_mono (x y : ℚ) (hx : 0 ≤ x) (h : x ≤ y) : nearest x ≤ nearest y := by
  have hy : 0 ≤ y := le_trans hx h
  have he : expo x ≤ expo y := expo_mono x y (by rwa [abs_of_nonneg hx, abs_of_nonneg hy])
  rcases lt_or_eq_of_le he with hlt | heq
  · -- the smaller number rounds to at most the top of its binade
    have two : (2 : ℚ) ≠ 0 := two_ne_zero
    have h1 : nearest x ≤ (2 : ℚ) ^ (expo x + 1) := by
      unfold nearest ulp
      have hb : x / (2 : ℚ) ^ (expo x - 23) ≤ ((2 ^ 24 : Int) : ℚ) := by
        rw [div_le_iff₀ (zpow_pos two_pos _)]
        have := abs_lt_expo x
        rw [abs_of_nonneg hx] at this
        have e : ((2 ^ 24 : Int) : ℚ) * (2 : ℚ) ^ (expo x - 23) = (2 : ℚ) ^ (expo x + 1) := by
          rw [show expo x + 1 = 24 + (expo x - 23) by ring, zpow_add₀ two]
          norm_num
        rw [e]
        exact le_of_lt this
      have hr := rne_le_of_le _ _ hb
      have hr' : ((rne (x / (2 : ℚ) ^ (expo x - 23)) : Int) : ℚ) ≤ ((2 ^ 24 : Int) : ℚ) := by
        exact_mod_cast hr
      calc ((rne (x / (2 : ℚ) ^ (expo x - 23)) : Int) : ℚ) * (2 : ℚ) ^ (expo x - 23)
          ≤ ((2 ^ 24 : Int) : ℚ) * (2 : ℚ) ^ (expo x - 23) :=
            mul_le_mul_of_nonneg_right hr' (le_of_lt (zpow_pos two_pos _))
        _ = (2 : ℚ) ^ (expo x + 1) := by
            rw [show expo x + 1 = 24 + (expo x - 23) by ring, zpow_add₀ two]
            norm_num
    have h2 : (2 : ℚ) ^ expo y ≤ nearest y := by
      have hy126 : -126 < expo y := lt_of_le_of_lt (expo_ge x) hlt
      have hle := expo_le_abs y hy126
      rw [abs_of_nonneg hy] at hle
      unfold nearest ulp
      have hb : ((2 ^ 23 : Int) : ℚ) ≤ y / (2 : ℚ) ^ (expo y - 23) := by
        rw [le_div_iff₀ (zpow_pos two_pos _)]
        have e : ((2 ^ 23 : Int) : ℚ) * (2 : ℚ) ^ (expo y - 23) = (2 : ℚ) ^ expo y := by
          rw [show expo y = 23 + (expo y - 23) by ring, zpow_add₀ two]
          norm_num
        rw [e]
        exact hle
      have hr := le_rne_of_le _ _ hb
      have hr' : ((2 ^ 23 : Int) : ℚ) ≤ ((rne (y / (2 : ℚ) ^ (expo y - 23)) : Int) : ℚ) := by
        exact_mod_cast hr
      calc (2 : ℚ) ^ expo y = ((2 ^ 23 : Int) : ℚ) * (2 : ℚ) ^ (expo y - 23) := by
            rw [show expo y = 23 + (expo y - 23) by ring, zpow_add₀ two]
            norm_num
        _ ≤ ((rne (y / (2 : ℚ) ^ (expo y - 23)) : Int) : ℚ) * (2 : ℚ) ^ (expo y - 23) :=
            mul_le_mul_of_nonneg_right hr' (le_of_lt (zpow_pos two_pos _))
    have h3 : (2 : ℚ) ^ (expo x + 1) ≤ (2 : ℚ) ^ expo y :=
      zpow_le_zpow_right₀ (by norm_num) (by omega)
    exact le_trans h1 (le_trans h3 h2)
  · unfold nearest ulp
    rw [heq]
    apply mul_le_mul_of_nonneg_right _ (le_of_lt (zpow_pos two_pos _))
    have := rne_mono (x / (2 : ℚ) ^ (expo y - 23)) (y / (2 : ℚ) ^ (expo y - 23))
      (div_le_div_of_nonneg_right h (le_of_lt (zpow_pos two_pos _)))
    exact_mod_cast this

/-- Rounding to binary32 keeps the order. -/
theorem round_mono (x y : ℚ) (h : x ≤ y) : round x ≤ round y := by
  unfold round
  by_cases hx : x < 0
  · rw [if_pos hx]
    by_cases hy : y < 0
    · rw [if_pos hy]
      exact neg_le_neg (nearest_mono (-y) (-x) (by linarith) (by linarith))
    · rw [if_neg hy]
      have h1 := nearest_nonneg (-x) (by linarith)
      have h2 := nearest_nonneg y (by linarith)
      linarith
  · rw [if_neg hx, if_neg (by linarith)]
    exact nearest_mono x y (by linarith) h

/-- The integers up to `2 ^ 24` are binary32 numbers: their conversion is exact. -/
theorem round_natCast (n : Nat) (h : n ≤ 2 ^ 24) : round (n : ℚ) = n := by
  unfold round
  rw [if_neg (by simp)]
  by_cases hn : n = 0
  · subst hn
    unfold nearest
    simp [rne]
  · have hx : (n : ℚ) ≠ 0 := by exact_mod_cast hn
    have hpos : (1 : ℚ) ≤ (n : ℚ) := by exact_mod_cast Nat.one_le_iff_ne_zero.mpr hn
    have hle : (n : ℚ) ≤ (2 : ℚ) ^ (24 : Int) := by
      have : (n : ℚ) ≤ ((2 ^ 24 : Nat) : ℚ) := by exact_mod_cast h
      rw [show (24 : Int) = ((24 : Nat) : Int) by rfl, zpow_natCast]
      exact_mod_cast this
    obtain ⟨e, he, h1, h2⟩ := expo_spec (n : ℚ) hx
    rw [abs_of_nonneg (by linarith)] at h1 h2
    have two : (2 : ℚ) ≠ 0 := two_ne_zero
    have e0 : 0 < e + 1 := by
      have : (2 : ℚ) ^ (0 : Int) < (2 : ℚ) ^ (e + 1) := by
        rw [zpow_zero]
        exact lt_of_le_of_lt hpos h2
      exact (zpow_lt_zpow_iff_right₀ (by norm_num)).mp this
    have e24 : e ≤ 24 := (zpow_le_zpow_iff_right₀ (by norm_num)).mp (le_trans h1 hle)
    have hexp : expo (n : ℚ) = e := by
      rw [he]
      exact max_eq_left (by omega)
    rcases lt_or_eq_of_le e24 with hlt | heq
    · -- below `2 ^ 24` the spacing is at most 1
      apply nearest_eq_self (n : ℚ) ((n : Int) * 2 ^ (23 - e).toNat)
      unfold ulp
      rw [hexp, div_eq_iff (ne_of_gt (zpow_pos two_pos _))]
      push_cast
      rw [mul_assoc, ← zpow_natCast, ← zpow_add₀ two, Int.toNat_of_nonneg (by omega)]
      simp
    · subst heq
      have hn24 : (n : ℚ) = (2 : ℚ) ^ (24 : Int) := le_antisymm hle h1
      apply nearest_eq_self (n : ℚ) (2 ^ 23)
      unfold ulp
      rw [hexp, hn24]
      norm_num

theorem round_intCast (n : Int) (h0 : 0 ≤ n) (h : n ≤ 2 ^ 24) : round (n : ℚ) = n := by
  obtain ⟨m, rfl⟩ := Int.eq_ofNat_of_zero_le h0
  have := round_natCast m (by exact_mod_cast h)
  exact_mod_cast this

end F32

namespace Pool

/-- For averages that are not negative and a sum up to `2 ^ 24` the quota of line
612 in binary32 is 1 or more exactly when the exact quotient is: the conversions
are exact, and the quotients that the rounding moves across `1 / 300` belong to
larger sums. -/
theorem quotaF32_ge_one_iff (a s : Int) (ha : 0 ≤ a) (ha2 : a ≤ 2 ^ 24) (hs : 0 < s)
    (hs2 : s ≤ 2 ^ 24) : 1 ≤ breedQuotaF32 a s ↔ s ≤ 300 * a := by
  have hsq : (0 : ℚ) < (s : ℚ) := by exact_mod_cast hs
  have hs2q : (s : ℚ) ≤ 16777216 := by exact_mod_cast hs2
  have e300 : F32.round (((AI.Population : Nat) : Int) : ℚ) = 300 := by decide!
  unfold breedQuotaF32 F32.mul F32.div F32.ofInt
  rw [F32.round_intCast a ha ha2, F32.round_intCast s (le_of_lt hs) hs2, e300, Int.le_floor]
  constructor
  · intro h
    by_contra hc
    have hlt : 300 * a + 1 ≤ s := by omega
    have hq : (300 : ℚ) * (a : ℚ) + 1 ≤ (s : ℚ) := by exact_mod_cast hlt
    have hy : (a : ℚ) / (s : ℚ) ≤ 1 / 300 - 1 / (300 * 16777216) := by
      rw [div_le_iff₀ hsq]
      have : (1 / 300 - 1 / (300 * 16777216) : ℚ) * (s : ℚ) =
          (s : ℚ) / 300 - (s : ℚ) / (300 * 16777216) := by ring
      rw [this]
      have h1 : (s : ℚ) / (300 * 16777216) ≤ 1 / 300 := by
        rw [div_le_div_iff₀ (by norm_num) (by norm_num)]
        linarith
      have h2 : (a : ℚ) ≤ (s : ℚ) / 300 - 1 / 300 := by linarith
      linarith
    have h1 := F32.round_mono _ _ hy
    have h2 := F32.round_mono _ _ (mul_le_mul_of_nonneg_right h1 (by norm_num : (0 : ℚ) ≤ 300))
    have e : F32.round (F32.round (1 / 300 - 1 / (300 * 16777216)) * 300) =
        16777215 / 16777216 := by decide!
    rw [e] at h2
    have : (1 : ℚ) ≤ 16777215 / 16777216 := le_trans (by exact_mod_cast h) h2
    norm_num at this
  · intro h
    have hq : (s : ℚ) ≤ 300 * (a : ℚ) := by exact_mod_cast h
    have hy : (1 : ℚ) / 300 ≤ (a : ℚ) / (s : ℚ) := by
      rw [div_le_div_iff₀ (by norm_num) hsq]
      linarith
    have h1 := F32.round_mono _ _ hy
    have h2 := F32.round_mono _ _ (mul_le_mul_of_nonneg_right h1 (by norm_num : (0 : ℚ) ≤ 300))
    have e : F32.round (F32.round (1 / 300) * 300) = 1 := by decide!
    rw [e] at h2
    exact_mod_cast h2

/-- On the pools whose averages are not negative and add up to at most `2 ^ 24`,
`Pool::removeWeakSpecies` keeps the same species in binary32 and in exact
arithmetic. -/
theorem removeWeakSpeciesF32_eq (p : Pool) (h0 : ∀ spec ∈ p.species, 0 ≤ spec.averageFitness)
    (hs : p.totalAverageFitness ≤ 2 ^ 24) : p.removeWeakSpeciesF32 = p.removeWeakSpecies := by
  unfold removeWeakSpeciesF32 removeWeakSpecies
  simp only []
  congr 1
  apply List.filter_congr
  intro spec hspec
  by_cases hz : p.totalAverageFitness = 0
  · simp [hz]
  · have hsum : p.totalAverageFitness = (p.species.map (fun s => s.averageFitness)).sum := rfl
    have hnn : ∀ x ∈ p.species.map (fun s => s.averageFitness), 0 ≤ x := by
      intro x hx
      obtain ⟨s, hs1, rfl⟩ := List.mem_map.mp hx
      exact h0 s hs1
    have hle : spec.averageFitness ≤ p.totalAverageFitness := by
      rw [hsum]
      exact List.single_le_sum hnn _ (List.mem_map_of_mem _ hspec)
    have hpos : 0 < p.totalAverageFitness := by
      have : 0 ≤ p.totalAverageFitness := by
        rw [hsum]
        exact List.sum_nonneg hnn
      omega
    have e1 := quotaF32_ge_one_iff spec.averageFitness p.totalAverageFitness (h0 spec hspec)
      (by omega) hpos hs
    have e2 := quota_ge_one_iff spec.averageFitness p.totalAverageFitness hpos
    simp only [ne_eq, hz, not_false_eq_true, if_true, ge_iff_le, decide_eq_decide]
    rw [e1, e2]

/-- The quota of line 652 for the average 21 and the sum 25: the float nearest to
`21 / 25` is below it, so the product with 300 is below 252 in binary32. -/
theorem breedQuotaF32_below : breedQuotaF32 21 25 = 251 ∧ breedQuota 21 25 = 252 := by
  decide!

end Pool

/-! ## The exponential at `4.9f` and the sigmoid in binary32 -/

namespace Genome

/-- The exponential at an eighth of `4.9f`, from thirteen terms of its series. -/
theorem exp_eighth :
    (18450382554 / 10000000000 : ℝ) ≤ Real.exp (10276045 / 16777216) ∧
      Real.exp (10276045 / 16777216) ≤ (18450382555 / 10000000000 : ℝ) := by
  constructor
  · have h := Real.sum_le_exp_of_nonneg (x := (10276045 / 16777216 : ℝ)) (by norm_num) 13
    refine le_trans ?_ h
    norm_num [Finset.sum_range_succ, Nat.factorial]
  · have h := Real.exp_bound' (x := (10276045 / 16777216 : ℝ)) (by norm_num) (by norm_num)
      (n := 13) (by norm_num)
    refine le_trans h ?_
    norm_num [Finset.sum_range_succ, Nat.factorial]

/-- The exponential at `4.9f = 10276045 / 2097152`, to seven digits. -/
theorem exp_four_nine :
    (13428979 / 100000 : ℝ) ≤ Real.exp (10276045 / 2097152) ∧
      Real.exp (10276045 / 2097152) ≤ (13428980 / 100000 : ℝ) := by
  have e : Real.exp (10276045 / 2097152) = Real.exp (10276045 / 16777216) ^ 8 := by
    rw [← Real.exp_nat_mul]
    congr 1
    norm_num
  obtain ⟨h1, h2⟩ := exp_eighth
  rw [e]
  constructor
  · refine le_trans ?_ (pow_le_pow_left₀ (by norm_num) h1 8)
    norm_num
  · refine le_trans (pow_le_pow_left₀ (Real.exp_nonneg _) h2 8) ?_
    norm_num

/-- The tail `2.f / (1.f + t) - 1.f` of the sigmoid in binary32 falls as `t`
grows. -/
theorem squash_antitone (t u : ℚ) (ht : 0 ≤ t) (h : t ≤ u) :
    F32.sub (F32.div 2 (F32.add 1 u)) 1 ≤ F32.sub (F32.div 2 (F32.add 1 t)) 1 := by
  unfold F32.sub F32.div F32.add
  have e1 : F32.round 1 = 1 := by decide!
  have h0 : (1 : ℚ) ≤ F32.round (1 + t) := by
    have := F32.round_mono 1 (1 + t) (by linarith)
    rwa [e1] at this
  have h1 : F32.round (1 + t) ≤ F32.round (1 + u) := F32.round_mono _ _ (by linarith)
  have h2 : 2 / F32.round (1 + u) ≤ 2 / F32.round (1 + t) :=
    div_le_div_of_nonneg_left (by norm_num) (by linarith) h1
  have h3 := F32.round_mono _ _ h2
  exact F32.round_mono _ _ (by linarith)

/-- The values of the sigmoid in binary32 at 1 and at -1, for every `expf` whose
relative error at `-4.9f` and at `4.9f` is at most `2 ^ (-21)`. -/
theorem sigmoidF32_values (expf : ℚ → ℚ)
    (h1 : |((expf (-10276045 / 2097152) : ℚ) : ℝ) - Real.exp (-(10276045 / 2097152))| ≤
      Real.exp (-(10276045 / 2097152)) / 2 ^ 21)
    (h2 : |((expf (10276045 / 2097152) : ℚ) : ℝ) - Real.exp (10276045 / 2097152)| ≤
      Real.exp (10276045 / 2097152) / 2 ^ 21) :
    sigmoidF32 expf 1 = 16529198 / 16777216 ∧ sigmoidF32 expf (-1) = -16529197 / 16777216 := by
  obtain ⟨b1, b2⟩ := exp_four_nine
  have hpos : (0 : ℝ) < Real.exp (10276045 / 2097152) := Real.exp_pos _
  -- the exponential at `-4.9f` is the inverse of that at `4.9f`
  have n1 : (100000 / 13428980 : ℝ) ≤ Real.exp (-(10276045 / 2097152)) := by
    rw [Real.exp_neg, ← one_div, div_le_div_iff₀ (by norm_num) hpos]
    linarith
  have n2 : Real.exp (-(10276045 / 2097152)) ≤ (100000 / 13428979 : ℝ) := by
    rw [Real.exp_neg, ← one_div, div_le_div_iff₀ hpos (by norm_num)]
    linarith
  obtain ⟨l1, u1⟩ := abs_le.mp h1
  obtain ⟨l2, u2⟩ := abs_le.mp h2
  have t1lo : (74465780 / 10000000000 : ℚ) ≤ expf (-10276045 / 2097152) := by
    have : ((74465780 / 10000000000 : ℚ) : ℝ) ≤ ((expf (-10276045 / 2097152) : ℚ) : ℝ) := by
      push_cast
      have : Real.exp (-(10276045 / 2097152)) / 2 ^ 21 ≤ (100000 / 13428979 : ℝ) / 2 ^ 21 :=
        div_le_div_of_nonneg_right n2 (by norm_num)
      norm_num at this n1 ⊢
      linarith
    exact_mod_cast this
  have t1hi : expf (-10276045 / 2097152) ≤ (74465870 / 10000000000 : ℚ) := by
    have : ((expf (-10276045 / 2097152) : ℚ) : ℝ) ≤ ((74465870 / 10000000000 : ℚ) : ℝ) := by
      push_cast
      have : Real.exp (-(10276045 / 2097152)) / 2 ^ 21 ≤ (100000 / 13428979 : ℝ) / 2 ^ 21 :=
        div_le_div_of_nonneg_right n2 (by norm_num)
      norm_num at this n2 ⊢
      linarith
    exact_mod_cast this
  have t2lo : (13428970 / 100000 : ℚ) ≤ expf (10276045 / 2097152) := by
    have : ((13428970 / 100000 : ℚ) : ℝ) ≤ ((expf (10276045 / 2097152) : ℚ) : ℝ) := by
      push_cast
      have : Real.exp (10276045 / 2097152) / 2 ^ 21 ≤ (13428980 / 100000 : ℝ) / 2 ^ 21 :=
        div_le_div_of_nonneg_right b2 (by norm_num)
      norm_num at this b1 ⊢
      linarith
    exact_mod_cast this
  have t2hi : expf (10276045 / 2097152) ≤ (13428990 / 100000 : ℚ) := by
    have : ((expf (10276045 / 2097152) : ℚ) : ℝ) ≤ ((13428990 / 100000 : ℚ) : ℝ) := by
      push_cast
      have : Real.exp (10276045 / 2097152) / 2 ^ 21 ≤ (13428980 / 100000 : ℝ) / 2 ^ 21 :=
        div_le_div_of_nonneg_right b2 (by norm_num)
      norm_num at this b2 ⊢
      linarith
    exact_mod_cast this
  have a1 : F32.mul (-F32.round (49 / 10)) 1 = -10276045 / 2097152 := by decide!
  have a2 : F32.mul (-F32.round (49 / 10)) (-1) = 10276045 / 2097152 := by decide!
  have v1 : F32.sub (F32.div 2 (F32.add 1 (74465780 / 10000000000))) 1 =
      16529198 / 16777216 := by decide!
  have v2 : F32.sub (F32.div 2 (F32.add 1 (74465870 / 10000000000))) 1 =
      16529198 / 16777216 := by decide!
  have v3 : F32.sub (F32.div 2 (F32.add 1 (13428970 / 100000))) 1 =
      -16529197 / 16777216 := by decide!
  have v4 : F32.sub (F32.div 2 (F32.add 1 (13428990 / 100000))) 1 =
      -16529197 / 16777216 := by decide!
  constructor
  · unfold sigmoidF32
    rw [a1]
    apply le_antisymm
    · rw [← v1]
      exact squash_antitone _ _ (by norm_num) t1lo
    · rw [← v2]
      exact squash_antitone _ _ (le_trans (by norm_num) t1lo) t1hi
  · unfold sigmoidF32
    rw [a2]
    apply le_antisymm
    · rw [← v3]
      exact squash_antitone _ _ (by norm_num) t2lo
    · rw [← v4]
      exact squash_antitone _ _ (le_trans (by norm_num) t2lo) t2hi

end Genome

/-! ## The weak species in exact arithmetic -/

/-- The method `Pool::removeWeakSpecies` in exact arithmetic: with `S` the sum of
the `averageFitness` of all species, when `S` is not zero it keeps exactly the
species with `floor(averageFitness / S * Population) >= 1`, when `S` is zero it
keeps every species; the kept species are species of the pool in their order,
unchanged. -/
theorem removeWeakSpecies_spec (p : Pool) :
    p.totalAverageFitness = (p.species.map (fun spec => spec.averageFitness)).sum ∧
    (p.totalAverageFitness ≠ 0 →
      p.removeWeakSpecies.species = p.species.filter (fun spec =>
        decide (⌊(spec.averageFitness : ℚ) / (p.totalAverageFitness : ℚ) *
          (AI.Population : ℚ)⌋ ≥ 1))) ∧
    (p.totalAverageFitness = 0 → p.removeWeakSpecies.species = p.species) ∧
    p.removeWeakSpecies.species.Sublist p.species ∧ AI.Population = 300 := by
  refine ⟨rfl, ?_, ?_, ?_, rfl⟩
  · intro hS
    simp only [Pool.removeWeakSpecies, Pool.breedQuota, ne_eq, hS, not_false_eq_true, if_true]
  · intro hS
    simp [Pool.removeWeakSpecies, hS]
  · exact List.filter_sublist _

/-! # The claims -/

/-- C1. The claim fails on every input: after `Pool::init` on a fresh pool, for
every seed and input size and for every assignment of fitness values to the
genomes, `Pool::newGeneration` runs to its end and leaves more than
`AI::Population` genomes in the pool, never exactly 300. -/
theorem init_newGeneration_overshoots (inputSize : Int) (rand : Random) :
    ∃ p0, Pool.init { inputSize := inputSize, rand := rand } = some p0 ∧
      ∀ (f : Nat → Nat → Int) (maxFitness : Int),
        ∃ q, Pool.newGeneration (p0.withFitness f maxFitness) = some q ∧
          AI.Population < q.totalGenomes :=
  init_newGeneration_total inputSize rand

/-- C2. For every seed and every input size, `Pool::init` on a fresh pool returns
a pool with at least one species and exactly `AI::Population` genomes. -/
theorem init_population (inputSize : Int) (rand : Random) :
    ∃ q, Pool.init { inputSize := inputSize, rand := rand } = some q ∧
      1 ≤ q.species.length ∧ q.totalGenomes = AI.Population := by
  obtain ⟨q, hq, -, ⟨hk, -⟩, ht⟩ :=
    Pool.initLoop_spec AI.Population { inputSize := inputSize, rand := rand }
      (fun spec hs => absurd hs (List.not_mem_nil spec))
  refine ⟨q, hq, hk (by decide), ?_⟩
  rw [ht]
  simp [Pool.totalGenomes]

/-- C3. After `Genome::generateNetwork` the gene list is a reordering of the old
one, and for every enabled gene of the genome the network has a neuron keyed by
`gene.into` and a neuron keyed by `gene.out`; this holds for every gene list and
every input size. -/
theorem generateNetwork_has_endpoints (g : Genome) (inputSize : Int) :
    (g.generateNetwork inputSize).genes.Perm g.genes ∧
    ∀ gene ∈ (g.generateNetwork inputSize).genes, gene.enabled = true →
      (Map.find (g.generateNetwork inputSize).network.neurons gene.into).isSome = true ∧
      (Map.find (g.generateNetwork inputSize).network.neurons gene.out).isSome = true :=
  Genome.generateNetwork_endpoints g inputSize

/-- Witness for `generateNetwork_has_endpoints`: the enabled gene of `twoGenes`. -/
theorem generateNetwork_has_endpoints_witness :
    (Map.find (twoGenes.generateNetwork 2).network.neurons 0).isSome = true ∧
      (Map.find (twoGenes.generateNetwork 2).network.neurons 1000000).isSome = true :=
  (generateNetwork_has_endpoints twoGenes 2).2
    { into := 0, out := 1000000, weight := 1, innovation := 6 } (by decide!) rfl

/-- C4, as stated, fails: on a genome whose only gene is disabled `nodeMutate`
picks that gene and returns early, so the gene count stays 1 instead of 3. -/
theorem nodeMutate_disabled_pick :
    oneDisabled.genes ≠ [] ∧
      (Genome.nodeMutate oneDisabled zeroPool).1.genes.length ≠ oneDisabled.genes.length + 2 := by
  decide!

/-- C4, amended. On a genome without genes `Genome::nodeMutate` leaves the gene
count at 0. On a genome with genes it picks the gene at index
`getUint32() % size`; afterwards that gene is disabled and otherwise unchanged,
and the gene count has grown by exactly 2 when the picked gene was enabled and
is unchanged when it was already disabled. -/
theorem nodeMutate_gene_count (g : Genome) (p : Pool) :
    (g.genes = [] → (Genome.nodeMutate g p).1.genes.length = 0) ∧
    (g.genes ≠ [] →
      ∃ picked, g.genes[p.rand.getUint32.1 % g.genes.length]? = some picked ∧
        (Genome.nodeMutate g p).1.genes[p.rand.getUint32.1 % g.genes.length]? =
          some { picked with enabled := false } ∧
        (Genome.nodeMutate g p).1.genes.length =
          g.genes.length + (if picked.enabled then 2 else 0)) :=
  ⟨Genome.nodeMutate_nil g p, Genome.nodeMutate_picked g p⟩

/-- Witness for `nodeMutate_gene_count`: on `twoGenes` the enabled gene at index 0
is picked. -/
theorem nodeMutate_gene_count_witness :
    ∃ picked, twoGenes.genes[zeroPool.rand.getUint32.1 % twoGenes.genes.length]? = some picked ∧
      (Genome.nodeMutate twoGenes zeroPool).1.genes[zeroPool.rand.getUint32.1 %
          twoGenes.genes.length]? = some { picked with enabled := false } ∧
      (Genome.nodeMutate twoGenes zeroPool).1.genes.length =
        twoGenes.genes.length + (if picked.enabled then 2 else 0) :=
  (nodeMutate_gene_count twoGenes zeroPool).2 (by decide!)

/-- C5, as stated, fails: a genome that carries a rate under a name that
`Genome::Genome()` does not insert makes `Species::crossover` fail its assertion
`assert(mutation)`, so no child is returned. -/
theorem crossover_extra_rate :
    (Species.crossover extraRate extraRate zeroPool).isSome = false := by
  decide!

/-- C5, amended. For every genome `g` whose rate names are all among the seven
names of `Genome::Genome()` and every generator state, `Species::crossover(g, g)`
returns a child with as many genes as `g` and with the `maxNeuron` of `g`. -/
theorem crossover_self_shape (g : Genome) (p : Pool)
    (h : ∀ e ∈ g.mutationRates, e.1 ∈ Genome.rateNames) :
    ∃ child q, Species.crossover g g p = some (child, q) ∧
      child.genes.length = g.genes.length ∧ child.maxNeuron = g.maxNeuron :=
  Species.crossover_self g p h

/-- Witness for `crossover_self_shape` on `twoGenes`. -/
theorem crossover_self_shape_witness :
    ∃ child q, Species.crossover twoGenes twoGenes zeroPool = some (child, q) ∧
      child.genes.length = twoGenes.genes.length ∧ child.maxNeuron = twoGenes.maxNeuron :=
  crossover_self_shape twoGenes zeroPool (by decide)

/-- C6. On a genome without genes, as `Genome::Genome()` builds it,
`Species::disjoint(g, g)` is the quotient `0 / 0`, a NaN and not 0; on every
genome with at least one gene it is 0, as the claim says. -/
theorem disjoint_self_empty :
    Species.disjoint Genome.new Genome.new = none ∧
      ∀ g : Genome, g.genes ≠ [] → Species.disjoint g g = some 0 :=
  ⟨by decide, Species.disjoint_self_of_ne_nil⟩

/-- Witness for the second part of `disjoint_self_empty` on `twoGenes`. -/
theorem disjoint_self_empty_witness : Species.disjoint twoGenes twoGenes = some 0 :=
  disjoint_self_empty.2 twoGenes (by decide!)

/-- C7, as stated, fails: for a genome with two genes of the same innovation id
and different weights `Species::weights(g, g)` is not 0, and for a genome
without genes it is the quotient `0 / 0`, a NaN. -/
theorem weights_self_dup :
    Species.weights dupGenome dupGenome ≠ some 0 ∧
      Species.weights Genome.new Genome.new ≠ some 0 := by
  decide!

/-- C7, amended. For every genome `g` with at least one gene whose genes carry
pairwise different innovation ids, `Species::weights(g, g)` equals 0. -/
theorem weights_self (g : Genome) (hne : g.genes ≠ [])
    (hn : (g.genes.map Gene.innovation).Nodup) : Species.weights g g = some 0 := by
  have hl : g.genes.length ≠ 0 := by simpa using hne
  simp [Species.weights, Species.weightsSum_self g hn, hl]

/-- Witness for `weights_self` on `twoGenes`. -/
theorem weights_self_witness : Species.weights twoGenes twoGenes = some 0 :=
  weights_self twoGenes (by decide!) (by decide!)

/-- C8. After `Pool::cullSpecies(true)` the pool has as many species as before,
the species at every index keeps its `topFitness`, `staleness` and
`averageFitness`, and if it held a genome it now holds exactly one: a genome it
held before, of the greatest fitness among them. -/
theorem cullSpecies_cutToOne (p : Pool) :
    (p.cullSpecies true).species.length = p.species.length ∧
    ∀ (i : Nat) (spec : Species), p.species[i]? = some spec →
      ∃ spec1, (p.cullSpecies true).species[i]? = some spec1 ∧
        spec1.topFitness = spec.topFitness ∧ spec1.staleness = spec.staleness ∧
        spec1.averageFitness = spec.averageFitness ∧
        (spec.genomes ≠ [] → ∃ best, spec1.genomes = [best] ∧ best ∈ spec.genomes ∧
          ∀ z ∈ spec.genomes, z.fitness ≤ best.fitness) :=
  Pool.cullSpecies_true p

/-- Witness for `cullSpecies_cutToOne`: the species of `tinyPool`. -/
theorem cullSpecies_cutToOne_witness :
    ∃ spec1, (tinyPool.cullSpecies true).species[0]? = some spec1 ∧
      spec1.topFitness = 0 ∧ spec1.staleness = 0 ∧ spec1.averageFitness = 0 ∧
      ∃ best, spec1.genomes = [best] ∧
        best ∈ [quietGenome 1, quietGenome 2, quietGenome 3, quietGenome 4, quietGenome 5] ∧
        ∀ z ∈ [quietGenome 1, quietGenome 2, quietGenome 3, quietGenome 4, quietGenome 5],
          z.fitness ≤ best.fitness := by
  obtain ⟨spec1, h1, h2, h3, h4, h5⟩ := (cullSpecies_cutToOne tinyPool).2 0
    { genomes := [quietGenome 1, quietGenome 2, quietGenome 3, quietGenome 4, quietGenome 5] } rfl
  exact ⟨spec1, h1, h2, h3, h4, h5 (by simp)⟩

/-- C9. Writing a pool with `Pool::serialize` and reading the document into any
other pool succeeds, and the pool read has the same generation and maxFitness
and, at every species index and genome index, a genome with the same gene list,
the same fitness and the same rate map as the pool written. -/
theorem serialize_roundtrip (fresh p : Pool) :
    ∃ q, Pool.read fresh (Pool.write p) = some q ∧
      q.generation = p.generation ∧ q.maxFitness = p.maxFitness ∧
      q.species.map (fun s => s.genomes.map (fun g => (g.genes, g.fitness, g.mutationRates))) =
        p.species.map (fun s => s.genomes.map (fun g => (g.genes, g.fitness, g.mutationRates))) :=
  Pool.read_write_pool fresh p

/-- C10. The function `Genome::sigmoid`, read over the reals, is strictly
increasing, is 0 at 0 and takes its values strictly between -1 and 1. -/
theorem sigmoid_real :
    StrictMono Genome.sigmoid ∧ Genome.sigmoid 0 = 0 ∧
      ∀ x : ℝ, -1 < Genome.sigmoid x ∧ Genome.sigmoid x < 1 :=
  ⟨Genome.sigmoid_strictMono, Genome.sigmoid_zero, Genome.sigmoid_bounds⟩

/-- C11. In binary32 `Genome::sigmoid` is not odd: for every `expf` that is
accurate at the two arguments `-4.9f` and `4.9f` that the calls pass to it,
`sigmoid(1.f)` is `16529198 / 2 ^ 24 = 0.98521698` and `sigmoid(-1.f)` is
`-16529197 / 2 ^ 24 = -0.98521692`, so `sigmoid(-x)` differs from `-sigmoid(x)`
at `x = 1`. The quotient `2.f / (1.f + expf(4.9f))` is near 0.0148, and the
subtraction of 1 rounds it to a multiple of `2 ^ (-24)`, while `sigmoid(1.f)` is
a multiple of `2 ^ (-23)`. -/
theorem sigmoidF32_not_odd (expf : ℚ → ℚ)
    (h1 : Genome.Accurate expf (-F32.round (49 / 10)))
    (h2 : Genome.Accurate expf (F32.round (49 / 10))) :
    Genome.sigmoidF32 expf 1 = 16529198 / 16777216 ∧
    Genome.sigmoidF32 expf (-1) = -16529197 / 16777216 ∧
    ∃ x : ℚ, Genome.sigmoidF32 expf (-x) ≠ -Genome.sigmoidF32 expf x := by
  have e : F32.round (49 / 10) = 10276045 / 2097152 := by decide!
  unfold Genome.Accurate at h1 h2
  rw [e] at h1 h2
  have e1 : (-(10276045 / 2097152) : ℚ) = -10276045 / 2097152 := by norm_num
  rw [e1] at h1
  have c1 : (((-10276045 / 2097152 : ℚ)) : ℝ) = -(10276045 / 2097152) := by
    push_cast
    norm_num
  have c2 : (((10276045 / 2097152 : ℚ)) : ℝ) = 10276045 / 2097152 := by
    push_cast
    norm_num
  rw [c1] at h1
  rw [c2] at h2
  obtain ⟨v1, v2⟩ := Genome.sigmoidF32_values expf h1 h2
  refine ⟨v1, v2, 1, ?_⟩
  rw [v1, v2]
  norm_num

/-- Witness for `sigmoidF32_not_odd`: `expfTable`, whose two values are within
`2 ^ (-21)` of the exponential. -/
theorem sigmoidF32_not_odd_witness :
    Genome.Accurate expfTable (-F32.round (49 / 10)) ∧
    Genome.Accurate expfTable (F32.round (49 / 10)) ∧
    Genome.sigmoidF32 expfTable (-1) ≠ -Genome.sigmoidF32 expfTable 1 := by
  have e : F32.round (49 / 10) = 10276045 / 2097152 := by decide!
  obtain ⟨b1, b2⟩ := Genome.exp_four_nine
  have hpos : (0 : ℝ) < Real.exp (10276045 / 2097152) := Real.exp_pos _
  have n1 : (100000 / 13428980 : ℝ) ≤ Real.exp (-(10276045 / 2097152)) := by
    rw [Real.exp_neg, ← one_div, div_le_div_iff₀ (by norm_num) hpos]
    linarith
  have n2 : Real.exp (-(10276045 / 2097152)) ≤ (100000 / 13428979 : ℝ) := by
    rw [Real.exp_neg, ← one_div, div_le_div_iff₀ hpos (by norm_num)]
    linarith
  have h1 : Genome.Accurate expfTable (-F32.round (49 / 10)) := by
    unfold Genome.Accurate
    rw [e]
    have t : expfTable (-(10276045 / 2097152)) = 7995707 / 1073741824 := by decide!
    rw [t]
    push_cast
    rw [abs_le]
    have : (100000 / 13428980 : ℝ) / 2 ^ 21 ≤ Real.exp (-(10276045 / 2097152)) / 2 ^ 21 :=
      div_le_div_of_nonneg_right n1 (by norm_num)
    norm_num at this n1 n2 ⊢
    constructor <;> linarith
  have h2 : Genome.Accurate expfTable (F32.round (49 / 10)) := by
    unfold Genome.Accurate
    rw [e]
    have t : expfTable (10276045 / 2097152) = 550051 / 4096 := by decide!
    rw [t]
    push_cast
    rw [abs_le]
    have : (13428979 / 100000 : ℝ) / 2 ^ 21 ≤ Real.exp (10276045 / 2097152) / 2 ^ 21 :=
      div_le_div_of_nonneg_right b1 (by norm_num)
    norm_num at this b1 b2 ⊢
    constructor <;> linarith
  obtain ⟨v1, v2, -⟩ := sigmoidF32_not_odd expfTable h1 h2
  refine ⟨h1, h2, ?_⟩
  rw [v1, v2]
  norm_num

/-- C12. For every genome with a generated network and every vector:
`Genome::evaluateNetwork` returns; for a vector whose length is not
`pool->inputSize` it returns the empty list and leaves the genome, with every
neuron value, as it was; for a vector of that length it returns exactly
`AI::Outputs` values. So the list returned is empty exactly when the length is
wrong. The same holds at every later call: it holds for every wired network,
and the network after a call is wired again. -/
theorem evaluateNetwork_length (act : ℚ → ℚ) (g : Genome) (inputSize : Int) (inputs : List ℚ) :
    ((inputs.length : Int) ≠ inputSize →
      (g.generateNetwork inputSize).evaluateNetwork act inputSize inputs =
        some ([], g.generateNetwork inputSize)) ∧
    ((inputs.length : Int) = inputSize →
      ∃ out g1, (g.generateNetwork inputSize).evaluateNetwork act inputSize inputs =
          some (out, g1) ∧ out.length = AI.Outputs) ∧
    (∃ out g1, (g.generateNetwork inputSize).evaluateNetwork act inputSize inputs =
        some (out, g1) ∧ (out = [] ↔ (inputs.length : Int) ≠ inputSize)) ∧
    ∀ g2 : Genome, Genome.Wired g2.genes inputSize g2.network.neurons →
      ∃ out g3, g2.evaluateNetwork act inputSize inputs = some (out, g3) ∧
        (out = [] ↔ (inputs.length : Int) ≠ inputSize) ∧
        ((inputs.length : Int) ≠ inputSize → g3 = g2) ∧
        ((inputs.length : Int) = inputSize → out.length = AI.Outputs) ∧
        Genome.Wired g3.genes inputSize g3.network.neurons := by
  have hgen : ∀ g2 : Genome, Genome.Wired g2.genes inputSize g2.network.neurons →
      ∃ out g3, g2.evaluateNetwork act inputSize inputs = some (out, g3) ∧
        (out = [] ↔ (inputs.length : Int) ≠ inputSize) ∧
        ((inputs.length : Int) ≠ inputSize → g3 = g2) ∧
        ((inputs.length : Int) = inputSize → out.length = AI.Outputs) ∧
        Genome.Wired g3.genes inputSize g3.network.neurons := by
    intro g2 hw
    by_cases h : (inputs.length : Int) = inputSize
    · obtain ⟨out, m2, e, hl, hs, -⟩ := Genome.evaluateNetwork_spec act g2 inputSize inputs hw h
      refine ⟨out, _, e, ?_, fun hne => absurd h hne, fun _ => hl, hw.of_sameShape hs⟩
      constructor
      · intro ho
        rw [ho] at hl
        simp [AI.Outputs] at hl
      · intro hne
        exact absurd h hne
    · exact ⟨[], g2, by simp [Genome.evaluateNetwork, h], by simp [h], fun _ => rfl,
        fun he => absurd he h, hw⟩
  obtain ⟨out, g1, e, hiff, hsame, hlen, -⟩ :=
    hgen (g.generateNetwork inputSize) (Genome.generateNetwork_wired g inputSize).1
  refine ⟨?_, ?_, ⟨out, g1, e, hiff⟩, hgen⟩
  · intro h
    rw [e, hiff.mpr h, hsame h]
  · intro h
    exact ⟨out, g1, e, hlen h⟩

/-- C13 fails in the code: for every genome none of whose enabled genes has an
input id as its `out` (a genome without genes, say) and every vector of the
right length, `Genome::evaluateNetwork` on the generated network returns and
leaves the value 0, not `inputs[i]`, in every input neuron `i`: the loop over the
neurons visits the input neurons as well and clears each neuron without an
incoming gene. -/
theorem evaluateNetwork_clears_inputs (act : ℚ → ℚ) (g : Genome) (inputSize : Int)
    (inputs : List ℚ) (hlen : (inputs.length : Int) = inputSize)
    (hout : ∀ gene ∈ g.genes, gene.enabled = true → gene.out < 0 ∨ inputSize ≤ gene.out) :
    ∃ out g1, (g.generateNetwork inputSize).evaluateNetwork act inputSize inputs =
        some (out, g1) ∧
      ∀ i : Nat, (i : Int) < inputSize →
        (Map.find g1.network.neurons (i : Int)).map (fun n => n.value) = some 0 := by
  obtain ⟨hw, -⟩ := Genome.generateNetwork_wired g inputSize
  obtain ⟨out, m2, e, -, -, hzero⟩ := Genome.evaluateNetwork_spec act _ inputSize inputs hw hlen
  refine ⟨out, _, e, ?_⟩
  intro i hi
  refine hzero (i : Int) (hw.1 i hi) (Genome.generateNetwork_incoming_nil g inputSize _ ?_)
  intro gene hg he hk
  rcases hout gene hg he with h | h <;> omega

/-- Witness for `evaluateNetwork_clears_inputs`: the genome of `Genome::Genome()`
with one input and the vector `[1]`; the input neuron ends with the value 0. -/
theorem evaluateNetwork_clears_inputs_witness :
    ∃ out g1, (Genome.new.generateNetwork 1).evaluateNetwork (fun x => x) 1 [1] =
        some (out, g1) ∧
      (Map.find g1.network.neurons 0).map (fun n => n.value) = some 0 := by
  obtain ⟨out, g1, e, h⟩ := evaluateNetwork_clears_inputs (fun x => x) Genome.new 1 [1] rfl
    (fun gene hg => absurd hg (List.not_mem_nil gene))
  exact ⟨out, g1, e, h 0 (by decide)⟩

/-- C14. `Pool::newInnovation` returns the counter plus one and stores it. Over
any sequence of calls on one pool, with any steps in between that leave the
counter alone, the ids returned go up strictly, are pairwise different and are
all greater than the counter at the start, which is `AI::Outputs` for a pool
from the constructor. -/
theorem newInnovation_ids (p : Pool) (steps : List (Pool → Pool))
    (h : ∀ step ∈ steps, ∀ q : Pool, (step q).innovation = q.innovation) :
    p.newInnovation.1 = p.innovation + 1 ∧ p.newInnovation.2.innovation = p.innovation + 1 ∧
      (Pool.newInnovations steps p).1.Pairwise (fun a b => a < b) ∧
      (Pool.newInnovations steps p).1.Nodup ∧
      (∀ n ∈ (Pool.newInnovations steps p).1, p.innovation < n) ∧
      (Pool.newInnovations steps p).1.length = steps.length ∧
      ∀ rand : Random, ({ rand := rand } : Pool).innovation = AI.Outputs := by
  obtain ⟨h1, h2, h3, -⟩ := Pool.newInnovations_spec steps h p
  exact ⟨rfl, rfl, h1, h1.imp (fun hab => ne_of_lt hab), h2, h3, fun _ => rfl⟩

/-- Witness for `newInnovation_ids`: three calls on a fresh pool. -/
theorem newInnovation_ids_witness :
    (Pool.newInnovations [id, id, id] zeroPool).1.Pairwise (fun a b => a < b) ∧
      ∀ n ∈ (Pool.newInnovations [id, id, id] zeroPool).1, (AI.Outputs : Int) < n := by
  obtain ⟨-, -, h1, -, h2, -, -⟩ := newInnovation_ids zeroPool [id, id, id]
    (fun step hs q => by
      simp only [List.mem_cons, List.mem_singleton, List.not_mem_nil, or_false, or_self] at hs
      subst hs
      rfl)
  exact ⟨h1, h2⟩

/-- C15 fails in the code: `Pool::serialize` does not write the innovation
counter and `Pool::loadFile` sets it to `AI::Outputs`. A pool saved and loaded
has its genes back but the counter at 5, so the next `newInnovation` returns 6;
for `savedPool`, whose counter was 6, that is the id of a gene of the loaded
pool. -/
theorem loadFile_forgets_innovation :
    (∀ fresh p : Pool, ∃ q, Pool.loadFile fresh (some p.writeFile) = some q ∧
      q.innovation = AI.Outputs ∧ q.newInnovation.1 = AI.Outputs + 1 ∧
      q.species.map (fun s => s.genomes.map (fun g => g.genes)) =
        p.species.map (fun s => s.genomes.map (fun g => g.genes))) ∧
    ∃ q, Pool.loadFile zeroPool (some savedPool.writeFile) = some q ∧
      q.innovation ≠ savedPool.innovation ∧
      q.species.map (fun s => s.genomes.map (fun g => g.genes.map (fun gene => gene.innovation))) =
        [[[q.newInnovation.1]]] := by
  constructor
  · intro fresh p
    obtain ⟨q, e, hi, -, -, hg⟩ := Pool.loadFile_writeFile fresh p
    exact ⟨q, e, hi, by simp [Pool.newInnovation, hi], hg⟩
  · obtain ⟨q, e, hi, -, -, hg⟩ := Pool.loadFile_writeFile zeroPool savedPool
    refine ⟨q, e, ?_, ?_⟩
    · rw [hi]
      decide
    · have := congrArg (List.map (fun l : List (List Gene) =>
        l.map (fun genes => genes.map (fun gene => gene.innovation)))) hg
      simp only [List.map_map, Function.comp_def] at this
      rw [this]
      simp [Pool.newInnovation, hi, savedPool, quietGenome, AI.Outputs]

/-- C16 fails in the code: `Pool::loadFile` sets `generation`, `innovation`,
`maxFitness` and `species` to their initial values before it reads, so a load
that finds no file leaves them reset; `savedPool` loses all four. -/
theorem loadFile_failure_resets :
    (∀ p : Pool, ∃ q, Pool.loadFile p none = some q ∧ q.generation = 0 ∧
      q.innovation = AI.Outputs ∧ q.maxFitness = 0 ∧ q.species = []) ∧
    ∃ q, Pool.loadFile savedPool none = some q ∧ q.generation ≠ savedPool.generation ∧
      q.innovation ≠ savedPool.innovation ∧ q.maxFitness ≠ savedPool.maxFitness ∧
      q.species ≠ savedPool.species := by
  constructor
  · intro p
    exact ⟨_, Pool.loadFile_none p, rfl, rfl, rfl, rfl⟩
  · refine ⟨_, Pool.loadFile_none savedPool, ?_, ?_, ?_, ?_⟩
    · decide
    · decide
    · decide
    · simp [savedPool]

/-- C17. For every pool whose species all hold a genome and every genome `c`,
`Pool::addToSpecies` returns and the total number of genomes goes up by one.
Either there is a first species, at index `k`, whose first genome is of the same
species as `c`, and then the species list is the old one with `c` at the end of
the genomes of species `k`; or no species has such a first genome, and then the
species list is the old one with a new species at its end that holds `c` alone.
In both cases every species of the old list is still at its index, with its old
genomes at the front of its genome list. -/
theorem addToSpecies_first (p : Pool) (c : Genome) (h : ∀ spec ∈ p.species, spec.genomes ≠ []) :
    ∃ q, p.addToSpecies c = some q ∧ q.totalGenomes = p.totalGenomes + 1 ∧
      ((∃ k spec first, p.species[k]? = some spec ∧ spec.genomes.head? = some first ∧
          Species.sameSpecies c first = true ∧
          (∀ j sp f, j < k → p.species[j]? = some sp → sp.genomes.head? = some f →
            Species.sameSpecies c f = false) ∧
          q.species = p.species.set k { spec with genomes := spec.genomes ++ [c] }) ∨
        ((∀ sp ∈ p.species, ∀ f, sp.genomes.head? = some f →
            Species.sameSpecies c f = false) ∧
          q.species = p.species ++ [{ genomes := [c] }])) ∧
      ∀ (j : Nat) (sp : Species), p.species[j]? = some sp →
        ∃ sp1, q.species[j]? = some sp1 ∧ sp.genomes <+: sp1.genomes := by
  obtain ⟨q, e, -, -, ht, -⟩ := Pool.addToSpecies_spec p c h
  have hq : Pool.addToList c p.species = some q.species := by
    unfold Pool.addToSpecies at e
    cases hl : Pool.addToList c p.species with
    | none => rw [hl] at e; simp at e
    | some l =>
      rw [hl] at e
      simp only [Option.map_some', Option.some.injEq] at e
      rw [← e]
  refine ⟨q, e, ht, ?_, ?_⟩
  · rcases Pool.addToList_first c p.species h with
      ⟨k, spec, first, h1, h2, h3, h4, h5⟩ | ⟨h1, h2⟩
    · left
      rw [hq] at h5
      exact ⟨k, spec, first, h1, h2, h3, h4, Option.some.inj h5⟩
    · right
      rw [hq] at h2
      exact ⟨h1, Option.some.inj h2⟩
  · intro j sp hj
    rcases Pool.addToList_first c p.species h with
      ⟨k, spec, first, h1, -, -, -, h5⟩ | ⟨-, h2⟩
    · rw [hq] at h5
      rw [Option.some.inj h5]
      by_cases hjk : k = j
      · subst hjk
        rw [h1] at hj
        rw [← Option.some.inj hj]
        have hk : k < p.species.length := by
          by_contra hge
          rw [List.getElem?_eq_none (by omega)] at h1
          simp at h1
        exact ⟨{ spec with genomes := spec.genomes ++ [c] }, List.getElem?_set_self hk,
          List.prefix_append _ _⟩
      · exact ⟨sp, by rw [List.getElem?_set_ne hjk]; exact hj, List.prefix_refl _⟩
    · rw [hq] at h2
      rw [Option.some.inj h2]
      refine ⟨sp, ?_, List.prefix_refl _⟩
      have hlt : j < p.species.length := by
        by_contra hge
        rw [List.getElem?_eq_none (by omega)] at hj
        simp at hj
      rw [List.getElem?_append_left hlt]
      exact hj

/-- Witness for `addToSpecies_first`: a sixth genome for the species of
`tinyPool`. -/
theorem addToSpecies_first_witness :
    ∃ q, tinyPool.addToSpecies (quietGenome 7) = some q ∧
      q.totalGenomes = tinyPool.totalGenomes + 1 := by
  obtain ⟨q, e, ht, -, -⟩ := addToSpecies_first tinyPool (quietGenome 7) (by simp [tinyPool])
  exact ⟨q, e, ht⟩

/-- C18. For every genome that is not finished, with a wired network, and every
sound game in a pool with the 200 inputs of the board, `Genome::evaluateCurrent`
returns. When the game is still in session after its frame, the game returned is
the game after that frame, the new `framesSurvived` is the larger of the old
one and `(int)game->ticks`, which is `game->ticks` below `2^31`, and the new
`fitness` is the sum `game->score + framesSurvived + 1` as the code computes it,
in 32 bits, with 0 replaced by -1. When that 32-bit sum does not wrap, the
fitness is the sum and is at least 1, so the replacement by -1 does not happen;
for a `framesSurvived` that is not negative, as it is when `ticks` is below
`2^31` or the old value was not negative, the sum is that of the three
numbers. -/
theorem evaluateCurrent_fitness (act : ℚ → ℚ) (frame : Game → Game) (g : Genome) (gm : Game)
    (p : Pool) (hfin : g.finished = false)
    (hw : Genome.Wired g.genes p.inputSize g.network.neurons)
    (hin : 200 ≤ p.inputSize) (hs : gm.Sound) :
    ∃ g1 gm1 p1, g.evaluateCurrent act frame gm p = some (g1, gm1, p1) ∧
      gm1.gameInSession = (gm.process frame g1.outputs).gameInSession ∧
      (gm1.gameInSession = true →
        gm1 = gm.process frame g1.outputs ∧
        g1.framesSurvived = max g.framesSurvived (toInt gm1.ticks) ∧
        (gm1.ticks < 2 ^ 31 → g1.framesSurvived = max g.framesSurvived (gm1.ticks : Int)) ∧
        g1.fitness =
          (if ((gm1.score : Int) + g1.framesSurvived + 1) % 2 ^ 32 = 0 then -1
           else ((gm1.score : Int) + g1.framesSurvived + 1) % 2 ^ 32) ∧
        ((gm1.score : Int) + g1.framesSurvived % 2 ^ 32 + 1 < 2 ^ 32 →
          g1.fitness = (gm1.score : Int) + g1.framesSurvived % 2 ^ 32 + 1 ∧ 1 ≤ g1.fitness) ∧
        (0 ≤ g1.framesSurvived → (gm1.score : Int) + g1.framesSurvived + 1 < 2 ^ 32 →
          g1.fitness = (gm1.score : Int) + g1.framesSurvived + 1 ∧ 1 ≤ g1.fitness) ∧
        (gm1.ticks < 2 ^ 31 ∨ 0 ≤ g.framesSurvived → 0 ≤ g1.framesSurvived)) := by
  obtain ⟨controller, m2, -, he⟩ := Genome.evaluateCurrent_spec act frame g gm p hfin hw
    (fun _ => ⟨hin, hs⟩)
  refine ⟨_, _, _, he, ?_⟩
  by_cases hsess : (gm.process frame (Genome.joypad controller)).gameInSession = true
  · simp only [Genome.afterFrame_session _ _ _ hsess]
    refine ⟨trivial, ?_⟩
    intro _
    refine ⟨trivial, ?_⟩
    generalize (gm.process frame (Genome.joypad controller)).ticks = ticks
    generalize (gm.process frame (Genome.joypad controller)).score = score
    have ht := toInt_spec ticks
    have hscore : (0 : Int) ≤ (score : Int) := Int.ofNat_nonneg _
    have hmax1 : g.framesSurvived ≤ max g.framesSurvived (toInt ticks) := le_max_left _ _
    have hmax2 : toInt ticks ≤ max g.framesSurvived (toInt ticks) := le_max_right _ _
    refine ⟨trivial, ?_, trivial, ?_, ?_, ?_⟩
    · intro hlt
      rw [ht.1 hlt]
    · generalize max g.framesSurvived (toInt ticks) = fs
      intro hno
      have hmod : ((score : Int) + fs + 1) % 2 ^ 32 = (score : Int) + fs % 2 ^ 32 + 1 := by
        omega
      rw [hmod]
      have hfs : 0 ≤ fs % 2 ^ 32 := Int.emod_nonneg _ (by norm_num)
      rw [if_neg (by omega)]
      exact ⟨rfl, by omega⟩
    · generalize max g.framesSurvived (toInt ticks) = fs
      intro h0 hno
      have hmod : ((score : Int) + fs + 1) % 2 ^ 32 = (score : Int) + fs + 1 := by
        omega
      rw [hmod, if_neg (by omega)]
      exact ⟨rfl, by omega⟩
    · intro h
      rcases h with h | h
      · have := ht.2.2 (by
          have : ticks % 2 ^ 32 = ticks := Nat.mod_eq_of_lt (by omega)
          omega)
        omega
      · omega
  · simp only [Bool.not_eq_true] at hsess
    simp only [Genome.afterFrame_over _ _ _ hsess]
    refine ⟨by simp [Game.term, hsess], ?_⟩
    intro h
    simp [Game.term] at h

/-- Witness for `evaluateCurrent_fitness`: the genome of `Genome::Genome()` with
its generated network and a game fresh from `Game::init`, one step with a frame
that only counts the tick: the game is in session at tick 1 with score 0, and
the genome has `framesSurvived` 1 and `fitness` 2. -/
theorem evaluateCurrent_fitness_witness :
    ∃ g1 gm1 p1,
      (Genome.new.generateNetwork 200).evaluateCurrent (fun x => x) idleFrame
          (Game.init { rand := zeroRandom } zeroRandom) zeroPool = some (g1, gm1, p1) ∧
        gm1.gameInSession = true ∧ gm1.ticks = 1 ∧ gm1.score = 0 ∧ g1.framesSurvived = 1 ∧
        g1.fitness = 2 := by
  obtain ⟨g1, gm1, p1, e, h1, h2⟩ := evaluateCurrent_fitness (fun x => x) idleFrame
    (Genome.new.generateNetwork 200) (Game.init { rand := zeroRandom } zeroRandom) zeroPool rfl
    (Genome.generateNetwork_wired Genome.new 200).1 (by decide)
    (Game.init_sound { rand := zeroRandom } zeroRandom).1
  have hs : gm1.gameInSession = true := by
    rw [h1]
    rfl
  obtain ⟨hgm, hfs, -, -, -, hfit, -⟩ := h2 hs
  have hticks : gm1.ticks = 1 := by
    rw [hgm]
    rfl
  have hscore : gm1.score = 0 := by
    rw [hgm]
    rfl
  have hfs1 : g1.framesSurvived = 1 := by
    rw [hfs, hticks]
    decide
  refine ⟨g1, gm1, p1, e, hs, hticks, hscore, hfs1, ?_⟩
  have := hfit (by rw [hfs1]; decide) (by rw [hfs1, hscore]; decide)
  rw [this.1, hfs1, hscore]
  rfl

/-- C19 fails in the code: of a controller (down, right, left, clockwise,
counter-clockwise) the control right reaches the game as active exactly when its
value is positive and the value of left is zero, and left in the same way; the
other three controls are active exactly when their value is positive. The test
of line 803 takes every value other than zero for a control that fires. So for
the controller with right at 1/2 and left at -1/2, in which right alone is
positive, no control is active. -/
theorem joypad_cancels :
    (∀ (gm : Game) (d r l cw ccw : ℚ),
      (gm.doAI (Genome.joypad [d, r, l, cw, ccw])).inputs =
        [decide (d > 0), decide (r > 0 ∧ l = 0), decide (l > 0 ∧ r = 0), decide (cw > 0),
          decide (ccw > 0)]) ∧
    (∀ gm : Game, (gm.doAI (Genome.joypad [0, 1 / 2, -1 / 2, 0, 0])).inputs =
      [false, false, false, false, false]) ∧
    ∀ (frame : Game → Game) (gm : Game) (outputs : List ℚ), gm.gameInSession = true →
      gm.process frame outputs = frame (gm.doAI outputs) := by
  refine ⟨Game.doAI_joypad, ?_, ?_⟩
  · intro gm
    rw [Game.doAI_joypad]
    norm_num
  · intro frame gm outputs h
    simp [Game.process, h]

/-- C20 fails in the code: whenever `AI::process` returns, its flag is true
exactly when every genome came with a game and was finished; a pass over such
genomes returns true; and the pass over `onePool`, whose one genome is still to
be measured, returns false. The comment in AI.hpp says the opposite. -/
theorem process_flag (act : ℚ → ℚ) (frame : Game → Game) (seedTime : Nat → Random) :
    (∀ (ai : AI) (r : Bool) (ai1 : AI), AI.process act frame seedTime ai = some (r, ai1) →
      (r = true ↔ ∀ spec ∈ ai.pool.species, ∀ gen ∈ spec.genomes,
        gen.game.isSome = true ∧ gen.finished = true)) ∧
    (∀ ai : AI, (∀ spec ∈ ai.pool.species, ∀ gen ∈ spec.genomes,
        gen.game.isSome = true ∧ gen.finished = true) →
      ∃ ai1, AI.process act frame seedTime ai = some (true, ai1)) ∧
    ∃ ai1, AI.process act frame seedTime { pool := onePool } = some (false, ai1) := by
  have hall : ∀ ai : AI,
      (ai.pool.species.all (fun spec =>
        spec.genomes.all (fun gen => gen.game.isSome && gen.finished)) = true ↔
      ∀ spec ∈ ai.pool.species, ∀ gen ∈ spec.genomes,
        gen.game.isSome = true ∧ gen.finished = true) := by
    intro ai
    simp only [List.all_eq_true, Bool.and_eq_true]
  refine ⟨?_, ?_, ?_⟩
  · intro ai r ai1 h
    rw [AI.process_result act frame seedTime ai r ai1 h]
    exact hall ai
  · intro ai h
    exact AI.process_finished act frame seedTime ai ((hall ai).mpr h)
  · exact AI.process_fresh act frame seedTime { pool := onePool } { genomes := [Genome.new] }
      Genome.new rfl rfl rfl (by decide)

/-- C21, as stated, fails: `Species::crossover` does not return a child for all
genomes. A fitter parent that carries a rate under a name that
`Genome::Genome()` does not insert fails `assert(mutation)` at line 407, here
with `extraRate` as the fitter parent and `twoGenes` as the other. -/
theorem crossover_no_child :
    ¬ (twoGenes.fitness > extraRate.fitness) ∧
      (Species.crossover extraRate twoGenes zeroPool).isSome = false := by
  decide!

/-- C21, amended. Let `f` be `g2` if `g2.fitness > g1.fitness` and `g1` otherwise,
and `o` the other one. When every rate name of `f` is among the seven names of
`Genome::Genome()`, then for every generator state `Species::crossover(g1, g2)`
returns a child with exactly as many genes as `f`; its gene at every index `i`
has the innovation id of `f.genes[i]` and is equal either to `f.genes[i]` or to
an enabled gene of `o` with that innovation id; and every gene of the child
carries an innovation id of a gene of `f`, so that no gene whose innovation id
occurs only in `o` appears in the child. -/
theorem crossover_genes (g1 g2 f o : Genome) (p : Pool)
    (hfo : (f, o) = if g2.fitness > g1.fitness then (g2, g1) else (g1, g2))
    (h : ∀ e ∈ f.mutationRates, e.1 ∈ Genome.rateNames) :
    ∃ child q, Species.crossover g1 g2 p = some (child, q) ∧
      child.genes.length = f.genes.length ∧
      (∀ (i : Nat) (gene1 : Gene), f.genes[i]? = some gene1 →
        ∃ c, child.genes[i]? = some c ∧ c.innovation = gene1.innovation ∧
          (c = gene1 ∨ (c ∈ o.genes ∧ c.enabled = true))) ∧
      ∀ c ∈ child.genes, c.innovation ∈ f.genes.map Gene.innovation := by
  have hf : (if g2.fitness > g1.fitness then g2 else g1) = f := by
    split_ifs at hfo ⊢ with hc <;> simp only [Prod.mk.injEq] at hfo <;> exact hfo.1.symm
  have ho : (if g2.fitness > g1.fitness then g1 else g2) = o := by
    split_ifs at hfo ⊢ with hc <;> simp only [Prod.mk.injEq] at hfo <;> exact hfo.2.symm
  have hc := Species.copyRates_isSome f.mutationRates Genome.new.mutationRates
    (fun e he => Species.find_new_isSome e.1 (h e he))
  obtain ⟨rates, hr⟩ := Option.isSome_iff_exists.mp hc
  have hspec := Species.crossoverGenes_spec (Species.innovationIndex o.genes) o.genes
    (Species.find_innovationIndex o.genes) f.genes p.rand
  have hlen := hspec.length_eq
  unfold Species.crossover
  simp only [hf, ho, hr]
  refine ⟨_, _, rfl, hlen, ?_, ?_⟩
  · intro i gene1 hi
    have hi1 : i < f.genes.length := by
      by_contra hge
      rw [List.getElem?_eq_none (by omega)] at hi
      simp at hi
    have hi2 : i < (Species.crossoverGenes (Species.innovationIndex o.genes) f.genes
        p.rand).1.length := by omega
    show ∃ c, (Species.crossoverGenes (Species.innovationIndex o.genes) f.genes
        p.rand).1[i]? = some c ∧ _
    have hg : f.genes[i] = gene1 := by
      rw [List.getElem?_eq_getElem hi1] at hi
      simpa using hi
    refine ⟨_, List.getElem?_eq_getElem hi2, ?_⟩
    have := (List.forall₂_iff_get.mp hspec).2 i hi2 hi1
    simp only [List.get_eq_getElem, hg] at this
    exact this
  · intro c hcm
    replace hcm : c ∈ (Species.crossoverGenes (Species.innovationIndex o.genes) f.genes
        p.rand).1 := hcm
    obtain ⟨i, hi2, rfl⟩ := List.getElem_of_mem hcm
    have hi1 : i < f.genes.length := by omega
    have := (List.forall₂_iff_get.mp hspec).2 i hi2 hi1
    simp only [List.get_eq_getElem] at this
    rw [this.1]
    exact List.mem_map_of_mem _ (List.getElem_mem _)

/-- Witness for `crossover_genes`: `twoGenes` and the fitter `quietGenome 3`. -/
theorem crossover_genes_witness :
    ∃ child q, Species.crossover twoGenes (quietGenome 3) zeroPool = some (child, q) ∧
      child.genes.length = (quietGenome 3).genes.length ∧
      (∀ (i : Nat) (gene1 : Gene), (quietGenome 3).genes[i]? = some gene1 →
        ∃ c, child.genes[i]? = some c ∧ c.innovation = gene1.innovation ∧
          (c = gene1 ∨ (c ∈ twoGenes.genes ∧ c.enabled = true))) ∧
      ∀ c ∈ child.genes, c.innovation ∈ (quietGenome 3).genes.map Gene.innovation :=
  crossover_genes twoGenes (quietGenome 3) (quietGenome 3) twoGenes zeroPool
    (if_pos (by decide)).symm (by decide)

/-- C22. For all genomes `g1`, `g2` whose rate names are the seven names of
`Genome::Genome()`, each once, and every generator state, `Species::crossover`
returns a child whose `maxNeuron` is the larger of the two, and whose rate map
gives for every name what the rate map of the fitter parent gives: of `g2` if
`g2.fitness > g1.fitness`, of `g1` otherwise. -/
theorem crossover_rates (g1 g2 : Genome) (p : Pool)
    (h1 : (g1.mutationRates.map Prod.fst).Perm Genome.rateNames)
    (h2 : (g2.mutationRates.map Prod.fst).Perm Genome.rateNames) :
    ∃ child q, Species.crossover g1 g2 p = some (child, q) ∧
      child.maxNeuron = max g1.maxNeuron g2.maxNeuron ∧
      ∀ name : String, Map.find child.mutationRates name =
        Map.find (if g2.fitness > g1.fitness then g2 else g1).mutationRates name := by
  have hfit : ((if g2.fitness > g1.fitness then g2 else g1).mutationRates.map Prod.fst).Perm
      Genome.rateNames := by
    split
    · exact h2
    · exact h1
  have hnd : ((if g2.fitness > g1.fitness then g2 else g1).mutationRates.map Prod.fst).Nodup :=
    hfit.nodup_iff.mpr (by decide)
  have hc := Species.copyRates_isSome (if g2.fitness > g1.fitness then g2 else g1).mutationRates
    Genome.new.mutationRates
    (fun e he => Species.find_new_isSome e.1 (hfit.mem_iff.mp (List.mem_map_of_mem _ he)))
  obtain ⟨rates, hr⟩ := Option.isSome_iff_exists.mp hc
  have hv := Species.copyRates_find _ _ _ hnd hr
  unfold Species.crossover
  simp only [hr]
  refine ⟨_, _, rfl, ?_, ?_⟩
  · split
    · exact max_comm _ _
    · rfl
  · intro name
    show Map.find rates name = _
    rw [hv name]
    generalize (if g2.fitness > g1.fitness then g2 else g1) = fit at hfit ⊢
    by_cases hnot : name ∈ fit.mutationRates.map Prod.fst
    · rw [if_pos hnot]
    · rw [if_neg hnot]
      rw [Map.find_eq_none_of_not_mem_keys _ _ hnot]
      apply Map.find_eq_none_of_not_mem_keys
      intro hc2
      apply hnot
      apply hfit.mem_iff.mpr
      have : Genome.new.mutationRates.map Prod.fst = Genome.rateNames := Genome.new_ratesOK
      rw [← this]
      exact hc2

/-- Witness for `crossover_rates`: `twoGenes`, with the rates of
`Genome::Genome()`, and the fitter `quietGenome 3`, whose rates are all zero. -/
theorem crossover_rates_witness :
    ∃ child q, Species.crossover twoGenes (quietGenome 3) zeroPool = some (child, q) ∧
      child.maxNeuron = max twoGenes.maxNeuron (quietGenome 3).maxNeuron ∧
      ∀ name : String, Map.find child.mutationRates name =
        Map.find (if (quietGenome 3).fitness > twoGenes.fitness then quietGenome 3
          else twoGenes).mutationRates name :=
  crossover_rates twoGenes (quietGenome 3) zeroPool (List.Perm.of_eq (by decide))
    (List.Perm.of_eq (by decide))

/-- C23. For all genomes `g1`, `g2` that are not both without genes,
`Species::disjoint(g1, g2)` is the number of genes of `g1` whose innovation id
no gene of `g2` carries, plus the number of genes of `g2` whose innovation id no
gene of `g1` carries, divided by the larger of the two gene counts. -/
theorem disjoint_formula (g1 g2 : Genome) (h : g1.genes ≠ [] ∨ g2.genes ≠ []) :
    Species.disjoint g1 g2 =
      some (((g1.genes.countP
                (fun gene => decide (gene.innovation ∉ g2.genes.map Gene.innovation)) +
              g2.genes.countP
                (fun gene => decide (gene.innovation ∉ g1.genes.map Gene.innovation)) : Nat) : ℚ) /
        ((max g1.genes.length g2.genes.length : Nat) : ℚ)) := by
  have hn : max g1.genes.length g2.genes.length ≠ 0 := by
    rcases h with h | h
    · have := List.length_pos.mpr h
      omega
    · have := List.length_pos.mpr h
      omega
  unfold Species.disjoint
  simp only [if_neg hn, Species.disjointCount_eq]

/-- Witness for `disjoint_formula`: `twoGenes` with the ids 6 and 7 against
`quietGenome 3` with the id 6; one gene in two is disjoint. -/
theorem disjoint_formula_witness :
    Species.disjoint twoGenes (quietGenome 3) = some (1 / 2) := by
  rw [disjoint_formula twoGenes (quietGenome 3) (Or.inl (by decide))]
  have e1 : twoGenes.genes.countP
      (fun gene => decide (gene.innovation ∉ (quietGenome 3).genes.map Gene.innovation)) = 1 := by
    decide
  have e2 : (quietGenome 3).genes.countP
      (fun gene => decide (gene.innovation ∉ twoGenes.genes.map Gene.innovation)) = 0 := by
    decide
  have e3 : max twoGenes.genes.length (quietGenome 3).genes.length = 2 := by decide
  rw [e1, e2, e3]
  norm_num

/-- C25. After `Pool::rankGlobally` on a pool with `N` genomes the `globalRank`
values of the genomes are the numbers 0 to `N - 1` in some order; of two genomes
of the pool the one with the smaller fitness has the smaller rank; and nothing
but the ranks has changed: the species are the same, each with the same genomes
at the same places, up to `globalRank`. -/
theorem rankGlobally_order (p : Pool) :
    (Pool.allRanks p.rankGlobally.species).Perm
      ((List.range p.totalGenomes).map (fun i : Nat => (i : Int))) ∧
    (∀ (s g s2 g2 : Nat) (a b : Genome), Pool.genomeAt p.species s g = some a →
      Pool.genomeAt p.species s2 g2 = some b → a.fitness < b.fitness →
      ∃ a1 b1, Pool.genomeAt p.rankGlobally.species s g = some a1 ∧
        Pool.genomeAt p.rankGlobally.species s2 g2 = some b1 ∧
        a1.globalRank < b1.globalRank) ∧
    p.rankGlobally.species.map (fun spec : Species =>
        { spec with genomes := spec.genomes.map (fun a : Genome => { a with globalRank := 0 }) }) =
      p.species.map (fun spec : Species =>
        { spec with genomes := spec.genomes.map (fun a : Genome => { a with globalRank := 0 }) }) := by
  refine ⟨Pool.rankGlobally_ranks p, ?_, Pool.assignRanks_frame _ _ _⟩
  intro s g s2 g2 a b ha hb hlt
  obtain ⟨r, r2, h1, h2, h3⟩ := Pool.rankGlobally_mono p s g s2 g2 a b ha hb hlt
  rw [Pool.rankAt_eq_genomeAt] at h1 h2
  cases e1 : Pool.genomeAt p.rankGlobally.species s g with
  | none => rw [e1] at h1; simp at h1
  | some a1 =>
    cases e2 : Pool.genomeAt p.rankGlobally.species s2 g2 with
    | none => rw [e2] at h2; simp at h2
    | some b1 =>
      rw [e1] at h1
      rw [e2] at h2
      simp only [Option.map_some', Option.some.injEq] at h1 h2
      exact ⟨a1, b1, rfl, rfl, by rw [h1, h2]; exact_mod_cast h3⟩

/-- C26. On a pool whose species all hold a genome `Pool::removeStaleSpecies`
returns. Species by species, with `best` a genome of the greatest fitness of the
species: if `best.fitness > topFitness` then `topFitness` becomes that fitness
and `staleness` becomes 0, otherwise `topFitness` stays and `staleness` grows
by 1; the genomes are the same up to their order. The pool keeps exactly the
updated species with `staleness < 15` or `topFitness >= maxFitness`, in their
order. -/
theorem removeStaleSpecies_spec (p : Pool) (h : ∀ spec ∈ p.species, spec.genomes ≠ []) :
    ∃ updated q, p.removeStaleSpecies = some q ∧
      List.Forall₂ (fun spec spec1 : Species =>
          ∃ best, best ∈ spec.genomes ∧ (∀ g ∈ spec.genomes, g.fitness ≤ best.fitness) ∧
            spec1.genomes.Perm spec.genomes ∧ spec1.averageFitness = spec.averageFitness ∧
            (best.fitness > spec.topFitness →
              spec1.topFitness = best.fitness ∧ spec1.staleness = 0) ∧
            (¬ best.fitness > spec.topFitness →
              spec1.topFitness = spec.topFitness ∧ spec1.staleness = spec.staleness + 1))
        p.species updated ∧
      q.species = updated.filter
        (fun spec1 => decide (spec1.staleness < 15 ∨ spec1.topFitness ≥ p.maxFitness)) ∧
      q.maxFitness = p.maxFitness := by
  obtain ⟨updated, hu, hs⟩ := Pool.staleSurvivors_spec p.maxFitness p.species h
  refine ⟨updated, { p with species := updated.filter (Pool.staleKeep p.maxFitness) }, ?_, ?_,
    rfl, rfl⟩
  · unfold Pool.removeStaleSpecies
    rw [hs]
  · rw [List.forall₂_iff_get] at hu ⊢
    refine ⟨hu.1, ?_⟩
    intro i h1 h2
    have he := hu.2 i h1 h2
    obtain ⟨best, hb1, hb2, hb3⟩ := Pool.staleUpdate_spec (p.species.get ⟨i, h1⟩)
      (h _ (List.get_mem _ _ _))
    rw [hb3] at he
    simp only [Option.some.injEq] at he
    refine ⟨best, hb1, hb2, ?_⟩
    rw [← he]
    refine ⟨sortBy_perm _ _, rfl, ?_, ?_⟩
    · intro hgt
      simp only [if_pos hgt]
      exact ⟨trivial, trivial⟩
    · intro hgt
      simp only [if_neg hgt]
      exact ⟨trivial, trivial⟩

/-- Witness for `removeStaleSpecies_spec`: `tinyPool`, whose one species holds
five genomes. -/
theorem removeStaleSpecies_spec_witness :
    ∃ (updated : List Species) (q : Pool), tinyPool.removeStaleSpecies = some q ∧
      updated.length = 1 ∧
      q.species = updated.filter
        (fun spec1 => decide (spec1.staleness < 15 ∨ spec1.topFitness ≥ tinyPool.maxFitness)) := by
  obtain ⟨updated, q, h1, h2, h3, -⟩ := removeStaleSpecies_spec tinyPool (by simp [tinyPool])
  exact ⟨updated, q, h1, h2.length_eq.symm, h3⟩

/-- C27 fails where the sum of the averages is not a binary32 number. The averages
of `roundingPool` are 111848 and 33442553; line 612 converts their sum 33554401
to the float 33554400, and `111848 / 33554400 * 300` is 1 in binary32: the
quota of the first species is 1 and `Pool::removeWeakSpecies` keeps it, while
`floor(111848 / 33554401 * 300)` is 0. -/
theorem removeWeakSpecies_rounds :
    roundingPool.totalAverageFitness = 33554401 ∧
    F32.ofInt 33554401 = 33554400 ∧
    Pool.breedQuotaF32 111848 33554401 = 1 ∧
    roundingPool.removeWeakSpeciesF32.species = roundingPool.species ∧
    ⌊(111848 : ℚ) / (33554401 : ℚ) * (AI.Population : ℚ)⌋ = 0 := by
  decide!

/-- C27, amended. With `S` the sum of the `averageFitness` of all species: when
`S` is not zero `Pool::removeWeakSpecies` keeps exactly the species for which
`floorf(((float)averageFitness / (float)S) * (float)Population) >= 1` in
binary32, each conversion, the quotient and the product rounded to the nearest
float; when moreover no average is negative and `S` is at most `2 ^ 24`, these
are exactly the species with `floor(averageFitness / S * Population) >= 1`. When
`S` is zero it keeps every species. The kept species are species of the pool in
their order, unchanged. -/
theorem removeWeakSpeciesF32_spec (p : Pool) :
    p.totalAverageFitness = (p.species.map (fun spec => spec.averageFitness)).sum ∧
    (p.totalAverageFitness ≠ 0 →
      p.removeWeakSpeciesF32.species = p.species.filter (fun spec =>
        decide (⌊F32.round (F32.round
          (F32.round spec.averageFitness / F32.round p.totalAverageFitness) *
            F32.round (AI.Population : Int))⌋ ≥ 1))) ∧
    (p.totalAverageFitness ≠ 0 → (∀ spec ∈ p.species, 0 ≤ spec.averageFitness) →
      p.totalAverageFitness ≤ 2 ^ 24 →
      p.removeWeakSpeciesF32.species = p.species.filter (fun spec =>
        decide (⌊(spec.averageFitness : ℚ) / (p.totalAverageFitness : ℚ) *
          (AI.Population : ℚ)⌋ ≥ 1))) ∧
    (p.totalAverageFitness = 0 → p.removeWeakSpeciesF32.species = p.species) ∧
    p.removeWeakSpeciesF32.species.Sublist p.species ∧ AI.Population = 300 := by
  refine ⟨rfl, ?_, ?_, ?_, ?_, rfl⟩
  · intro hS
    simp only [Pool.removeWeakSpeciesF32, Pool.breedQuotaF32, F32.mul, F32.div, F32.ofInt, ne_eq,
      hS, not_false_eq_true, if_true]
  · intro hS h0 h24
    rw [Pool.removeWeakSpeciesF32_eq p h0 h24]
    simp only [Pool.removeWeakSpecies, Pool.breedQuota, ne_eq, hS, not_false_eq_true, if_true]
  · intro hS
    simp [Pool.removeWeakSpeciesF32, hS]
  · exact List.filter_sublist _

/-- C28. Let `p5` be the pool after the removals of lines 639 to 646, with at
least one species and a non-zero sum of averages. Whenever
`Pool::newGeneration` returns, the breeding of lines 647 to 661 has returned the
list of children and the pool after the cut of every species to one genome, the
total number of genomes of the result is the number of these species plus the
number of the children, and it is `Population` or more. And
`Pool::newGeneration` does return when the species of the pool are breedable. -/
theorem newGeneration_count (p p5 : Pool) (h5 : p.survivors = some p5)
    (hne : p5.species ≠ []) (hsum : p5.totalAverageFitness ≠ 0) :
    (∀ q, p.newGeneration = some q →
      ∃ children p8, p5.offspring = some (children, p8) ∧
        p8.species.length = p5.species.length ∧
        (∀ spec ∈ p8.species, spec.genomes.length = 1) ∧
        q.totalGenomes = p8.species.length + children.length ∧
        AI.Population ≤ q.totalGenomes) ∧
    ((∀ spec ∈ p.species, spec.Breedable) → ∃ q, p.newGeneration = some q) := by
  have hn5 := Pool.survivors_sizes p p5 h5
  constructor
  · intro q hq
    rw [Pool.newGeneration_eq, h5] at hq
    simp only [Option.some_bind] at hq
    cases ho : p5.offspring with
    | none => rw [ho] at hq; simp at hq
    | some r =>
      obtain ⟨children, p8⟩ := r
      rw [ho] at hq
      simp only [Option.some_bind] at hq
      cases h9 : Pool.addAll children p8 with
      | none => rw [h9] at hq; simp at hq
      | some p9 =>
        rw [h9] at hq
        simp only [Option.map_some', Option.some.injEq] at hq
        subst hq
        obtain ⟨-, -, hl, hreach⟩ := Pool.offspring_some p5 children p8 ho
        have ht := Pool.offspring_total p5 children p8 hn5 ho
        have t9 := Pool.addAll_total _ _ _ h9
        have hones := Pool.offspring_ones p5 children p8 hn5 ho
        refine ⟨children, p8, rfl, hl, hones, ?_, ?_⟩
        · show p9.totalGenomes = _
          rw [t9, ht]
        · show AI.Population ≤ p9.totalGenomes
          rw [t9, ht]
          omega
  · intro hb
    have hb5 := Pool.survivors_breedable p p5 hb h5
    obtain ⟨children, p8, ho, -, -, -, hne8⟩ := Pool.offspring_spec p5 hb5 hne hsum
    obtain ⟨p9, e9⟩ := Pool.addAll_total_some children p8 hne8
    refine ⟨{ p9 with generation := p9.generation + 1 }, ?_⟩
    rw [Pool.newGeneration_eq, h5]
    simp only [Option.some_bind, ho, e9, Option.map_some']

/-- Witness for `newGeneration_count`: `tinyPool`, on which the generational
turnover runs to its end. -/
theorem newGeneration_count_witness :
    ∃ p5 q, tinyPool.survivors = some p5 ∧ tinyPool.newGeneration = some q ∧
      ∃ children p8, p5.offspring = some (children, p8) ∧
        q.totalGenomes = p8.species.length + children.length ∧
        AI.Population ≤ q.totalGenomes := by
  have H1 : ∀ spec ∈ tinyPool.species, spec.Breedable := by
    intro spec hs
    simp only [tinyPool, List.mem_singleton] at hs
    subst hs
    refine ⟨by simp, ?_⟩
    intro g hg
    simp only [List.mem_cons, List.mem_singleton, List.not_mem_nil, or_false] at hg
    rcases hg with h | h | h | h | h <;> subst h <;> rfl
  obtain ⟨q, hq⟩ := Pool.newGeneration_defined tinyPool H1
    (by simp [tinyPool, AI.StaleSpecies]) (by simp [tinyPool, AI.Population]) (by decide)
  have hq2 := hq
  rw [Pool.newGeneration_eq] at hq2
  cases h5 : tinyPool.survivors with
  | none => rw [h5] at hq2; simp at hq2
  | some p5 =>
    rw [h5] at hq2
    simp only [Option.some_bind] at hq2
    cases ho : p5.offspring with
    | none => rw [ho] at hq2; simp at hq2
    | some r =>
      obtain ⟨hne, hsum, -, -⟩ := Pool.offspring_some p5 r.1 r.2 ho
      obtain ⟨children, p8, h1, -, -, h2, h3⟩ :=
        (newGeneration_count tinyPool p5 h5 hne hsum).1 q hq
      exact ⟨p5, q, rfl, hq, children, p8, h1, h2, h3⟩

/-- C29, as stated, fails: `Genome::nodeMutate` increments `maxNeuron` at line
262, before it picks a gene. On `oneDisabled`, whose only gene is disabled, the
gene is picked and `maxNeuron` goes from 0 to 1. -/
theorem nodeMutate_disabled_maxNeuron :
    oneDisabled.genes ≠ [] ∧
      (∃ picked, oneDisabled.genes[zeroPool.rand.getUint32.1 % oneDisabled.genes.length]? =
        some picked ∧ picked.enabled = false) ∧
      oneDisabled.maxNeuron = 0 ∧ (Genome.nodeMutate oneDisabled zeroPool).1.maxNeuron = 1 := by
  refine ⟨by decide, ⟨_, rfl, rfl⟩, rfl, ?_⟩
  decide!

/-- C29, amended. For every genome with at least one gene and every generator
state in which the gene picked by `Genome::nodeMutate` is disabled, the call
leaves the gene list and the innovation counter of the pool unchanged, and
`maxNeuron` is one larger than before; nothing else changes in the genome, and
the pool has consumed one draw. -/
theorem nodeMutate_disabled_frame (g : Genome) (p : Pool) (picked : Gene) (hne : g.genes ≠ [])
    (hp : g.genes[p.rand.getUint32.1 % g.genes.length]? = some picked)
    (hd : picked.enabled = false) :
    (Genome.nodeMutate g p).1.genes = g.genes ∧
      (Genome.nodeMutate g p).1.maxNeuron = g.maxNeuron + 1 ∧
      (Genome.nodeMutate g p).2.innovation = p.innovation ∧
      (Genome.nodeMutate g p).1 = { g with maxNeuron := g.maxNeuron + 1 } ∧
      (Genome.nodeMutate g p).2 = { p with rand := p.rand.getUint32.2 } := by
  rw [Genome.nodeMutate_disabled g p picked hne hp hd]
  exact ⟨rfl, rfl, rfl, rfl, rfl⟩

/-- Witness for `nodeMutate_disabled_frame`: `oneDisabled`. -/
theorem nodeMutate_disabled_frame_witness :
    (Genome.nodeMutate oneDisabled zeroPool).1.genes = oneDisabled.genes ∧
      (Genome.nodeMutate oneDisabled zeroPool).1.maxNeuron = oneDisabled.maxNeuron + 1 ∧
      (Genome.nodeMutate oneDisabled zeroPool).2.innovation = zeroPool.innovation :=
  have h := nodeMutate_disabled_frame oneDisabled zeroPool
    { into := 0, out := 1000000, weight := 1, enabled := false, innovation := 6 } (by decide)
    rfl rfl
  ⟨h.1, h.2.1, h.2.2.1⟩

/-- C30. For every genome and generator state in which `Genome::nodeMutate`
picks an enabled gene `picked`: afterwards `maxNeuron` is one larger than
before, call it `m`; the picked gene is disabled and otherwise unchanged;
exactly two genes are appended, in this order: the gene from `picked.into` to `m`
with weight 1, enabled, and the gene from `m` to `picked.out` with the weight of
`picked`, enabled; their innovation ids are the old counter of the pool plus 1
and plus 2, and the counter ends at plus 2; all other genes are unchanged. -/
theorem nodeMutate_split (g : Genome) (p : Pool) (picked : Gene) (hne : g.genes ≠ [])
    (hp : g.genes[p.rand.getUint32.1 % g.genes.length]? = some picked)
    (he : picked.enabled = true) :
    ∃ g1 q, Genome.nodeMutate g p = (g1, q) ∧
      g1.maxNeuron = g.maxNeuron + 1 ∧
      g1.genes =
        g.genes.set (p.rand.getUint32.1 % g.genes.length) { picked with enabled := false } ++
          [{ into := picked.into, out := g.maxNeuron + 1, weight := 1, enabled := true,
             innovation := p.innovation + 1 },
           { into := g.maxNeuron + 1, out := picked.out, weight := picked.weight, enabled := true,
             innovation := p.innovation + 2 }] ∧
      g1.genes.length = g.genes.length + 2 ∧
      (∀ j : Nat, j ≠ p.rand.getUint32.1 % g.genes.length → j < g.genes.length →
        g1.genes[j]? = g.genes[j]?) ∧
      q.innovation = p.innovation + 2 ∧
      g1 = { g with maxNeuron := g1.maxNeuron, genes := g1.genes } := by
  rw [Genome.nodeMutate_enabled g p picked hne hp he]
  refine ⟨_, _, rfl, rfl, ?_, ?_, ?_, rfl, rfl⟩
  · simp
  · simp
  · intro j hj hlt
    simp only [List.append_assoc]
    rw [List.getElem?_append_left (by simpa using hlt)]
    rw [List.getElem?_set_ne (fun hc => hj hc.symm)]

/-- Witness for `nodeMutate_split`: on `twoGenes` the enabled gene at index 0 is
picked. -/
theorem nodeMutate_split_witness :
    ∃ g1 q, Genome.nodeMutate twoGenes zeroPool = (g1, q) ∧
      g1.maxNeuron = 1 ∧ g1.genes.length = 4 ∧ q.innovation = 7 := by
  obtain ⟨g1, q, h1, h2, -, h4, -, h6, -⟩ := nodeMutate_split twoGenes zeroPool
    { into := 0, out := 1000000, weight := 1, innovation := 6 } (by decide) rfl rfl
  exact ⟨g1, q, h1, h2, h4, h6⟩

/-- C31. For every genome, flag `forceBias` and generator state
`Genome::linkMutate` returns, and either the genome and the innovation counter of
the pool are unchanged, or exactly one gene has been appended to the gene list:
it is enabled, no gene of the genome carried its `(into, out)` pair before, its
innovation id is the old counter of the pool plus 1, which is the new counter, and
its `into` is `pool.inputSize` when `forceBias` is true; the genes that were
there are not modified. -/
theorem linkMutate_appends (g : Genome) (forceBias : Bool) (p : Pool) :
    ∃ g1 q, Genome.linkMutate g forceBias p = some (g1, q) ∧
      ((g1 = g ∧ q.innovation = p.innovation) ∨
        ∃ gene : Gene, g1 = { g with genes := g.genes ++ [gene] } ∧ gene.enabled = true ∧
          (∀ old ∈ g.genes, ¬ (old.into = gene.into ∧ old.out = gene.out)) ∧
          gene.innovation = p.innovation + 1 ∧ q.innovation = p.innovation + 1 ∧
          (forceBias = true → gene.into = p.inputSize)) := by
  obtain ⟨n1, p1, n2, p2, -, -, -, hinn, hc⟩ := Genome.linkMutate_cases g forceBias p
  rcases hc with hc | ⟨gene, he, hinto, -, hid, hnew, -, hc⟩
  · exact ⟨g, p2, hc, Or.inl ⟨rfl, hinn⟩⟩
  · refine ⟨_, _, hc, Or.inr ⟨gene, rfl, he, hnew, hid, rfl, ?_⟩⟩
    intro hf
    rw [hinto, if_pos hf]

/-- C32. For every genome, flag `e` and generator state: if no gene has
`enabled != e`, `Genome::enableDisableMutate(e)` changes nothing, neither in the
genome nor in the pool; otherwise the gene at one index changes, that gene had
`enabled != e` before and has `enabled == e` after, its other fields are
unchanged, and every other gene and the gene count are unchanged. -/
theorem enableDisableMutate_toggle (g : Genome) (e : Bool) (p : Pool) :
    ((∀ gene ∈ g.genes, gene.enabled = e) → Genome.enableDisableMutate g e p = (g, p)) ∧
    ((∃ gene ∈ g.genes, gene.enabled ≠ e) →
      ∃ idx gene, g.genes[idx]? = some gene ∧ gene.enabled ≠ e ∧
        (Genome.enableDisableMutate g e p).1 =
          { g with genes := g.genes.set idx { gene with enabled := e } } ∧
        (Genome.enableDisableMutate g e p).1.genes[idx]? = some { gene with enabled := e } ∧
        (Genome.enableDisableMutate g e p).1.genes.length = g.genes.length ∧
        (∀ j : Nat, j ≠ idx → (Genome.enableDisableMutate g e p).1.genes[j]? = g.genes[j]?) ∧
        (Genome.enableDisableMutate g e p).2.innovation = p.innovation) := by
  refine ⟨(Genome.enableDisableMutate_cases g e p).1, ?_⟩
  intro h
  obtain ⟨idx, gene, hg, hne, he⟩ := (Genome.enableDisableMutate_cases g e p).2 h
  have hlt : idx < g.genes.length := by
    by_contra hge
    rw [List.getElem?_eq_none (by omega)] at hg
    simp at hg
  refine ⟨idx, gene, hg, hne, ?_, ?_, ?_, ?_, ?_⟩
  · rw [he]
  · rw [he]
    exact List.getElem?_set_self hlt
  · rw [he]
    simp
  · intro j hj
    rw [he]
    exact List.getElem?_set_ne (fun hc => hj hc.symm)
  · rw [he]

/-- C36 fails in the code on the path that clones a member. Whenever
`Species::breedChild` returns: after a crossover (the first draw is below
`CrossoverChance`) the child is not finished and has no game; after a clone the
child has the flag `finished` and the game of the member it was copied from,
through `Genome::operator=` (lines 78 and 82), and its fitness. So the child of
`doneGenome`, a finished genome with its game attached, as every genome is when
`Pool::newGeneration` runs, is finished with that game attached, and
`AI::process` launches no task for it. -/
theorem breedChild_clone_finished :
    (∀ (s : Species) (p : Pool) (child : Genome) (q : Pool),
      Species.breedChild s p = some (child, q) → p.rand.getFloat.1 < AI.CrossoverChance →
      child.finished = false ∧ child.game = none) ∧
    (∀ (s : Species) (p : Pool) (child : Genome) (q : Pool),
      Species.breedChild s p = some (child, q) → ¬ p.rand.getFloat.1 < AI.CrossoverChance →
      ∃ g, s.genomes[p.rand.getFloat.2.getUint32.1 % s.genomes.length]? = some g ∧
        child.finished = g.finished ∧ child.game = g.game ∧ child.fitness = g.fitness) ∧
    ∃ child q, Species.breedChild { genomes := [doneGenome] }
        { inputSize := 200, rand := lateRandom } = some (child, q) ∧
      child.finished = true ∧ child.game = some 0 ∧
      ∀ (seedTime : Nat → Random) (s g : Nat) (games : Map Nat Game) (focus : Option Nat)
        (st : Pass), (AI.visit seedTime 200 s g child games focus st).2.2.2.tasks = st.tasks := by
  have hcross : ∀ (s : Species) (p : Pool) (child : Genome) (q : Pool),
      Species.breedChild s p = some (child, q) → p.rand.getFloat.1 < AI.CrossoverChance →
      child.finished = false ∧ child.game = none := by
    intro s p child q h hf
    unfold Species.breedChild at h
    split at h
    · simp at h
    · simp only [if_pos hf] at h
      split at h
      · simp at h
      · rename_i c p1 hb
        split at hb
        · rename_i g1 g2 e1 e2
          unfold Species.crossover at hb
          simp only [] at hb
          split at hb
          · simp at hb
          · simp only [Option.some.injEq, Prod.mk.injEq] at hb
            obtain ⟨hfin, hgame, -⟩ := Genome.mutate_run _ _ _ _ h
            rw [hfin, hgame, ← hb.1]
            exact ⟨rfl, rfl⟩
        · simp at hb
  have hclone : ∀ (s : Species) (p : Pool) (child : Genome) (q : Pool),
      Species.breedChild s p = some (child, q) → ¬ p.rand.getFloat.1 < AI.CrossoverChance →
      ∃ g, s.genomes[p.rand.getFloat.2.getUint32.1 % s.genomes.length]? = some g ∧
        child.finished = g.finished ∧ child.game = g.game ∧ child.fitness = g.fitness := by
    intro s p child q h hf
    unfold Species.breedChild at h
    split at h
    · simp at h
    · simp only [if_neg hf] at h
      split at h
      · simp at h
      · rename_i c p1 hb
        split at hb
        · rename_i g e
          simp only [Option.some.injEq, Prod.mk.injEq] at hb
          obtain ⟨hfin, hgame, hfit⟩ := Genome.mutate_run _ _ _ _ h
          rw [← hb.1] at hfin hgame hfit
          exact ⟨g, e, hfin, hgame, hfit⟩
        · simp at hb
  refine ⟨hcross, hclone, ?_⟩
  have hb : Species.Breedable { genomes := [doneGenome] } := by
    refine ⟨by simp, ?_⟩
    intro g hg
    simp only [List.mem_singleton] at hg
    subst hg
    rfl
  obtain ⟨child, q, e, -, -⟩ := Species.breedChild_total { genomes := [doneGenome] }
    { inputSize := 200, rand := lateRandom } hb
  have hlate : ¬ ({ inputSize := 200, rand := lateRandom } : Pool).rand.getFloat.1 <
      AI.CrossoverChance := by
    simp only [Random.getFloat, lateRandom, AI.CrossoverChance]
    norm_num
  obtain ⟨g, hg, hfin, hgame, -⟩ := hclone _ _ _ _ e hlate
  have hgd : g = doneGenome := by
    simp only [List.length_singleton, Nat.mod_one, List.getElem?_cons_zero,
      Option.some.injEq] at hg
    exact hg.symm
  rw [hgd] at hfin hgame
  refine ⟨child, q, e, hfin, hgame, ?_⟩
  intro seedTime s g2 games focus st
  apply AI.visit_tasks
  rw [hfin, hgame]
  rfl

/-- C37. With `inputSize < MaxNodes`, for every genome and generator state
`Genome::randomNeuron(true)` returns: its candidate set is not empty, and the
node it returns is an output id or an endpoint of a gene, strictly greater than
`pool.inputSize`. Hence in `Genome::linkMutate`, for either flag, neither the
test of both nodes being inputs nor the test of the swap holds, and a gene that
is appended has the second node as its `out`, above `inputSize`. -/
theorem randomNeuron_above (g : Genome) (p : Pool) (h : p.inputSize < AI.MaxNodes) :
    (∃ n q, Genome.randomNeuron g true p = some (n, q) ∧ p.inputSize < n ∧
      ((∃ o : Nat, o < AI.Outputs ∧ n = AI.MaxNodes + (o : Int)) ∨
        ∃ gene ∈ g.genes, n = gene.into ∨ n = gene.out)) ∧
    ∀ forceBias : Bool, ∃ n1 p1 n2 p2, Genome.randomNeuron g false p = some (n1, p1) ∧
      Genome.randomNeuron g true p1 = some (n2, p2) ∧
      ¬ (n1 ≤ p2.inputSize ∧ n2 ≤ p2.inputSize) ∧ ¬ n2 ≤ p2.inputSize ∧
      (Genome.linkMutate g forceBias p = some (g, p2) ∨
        ∃ (gene : Gene) (q : Pool), gene.out = n2 ∧ p.inputSize < gene.out ∧
          Genome.linkMutate g forceBias p = some ({ g with genes := g.genes ++ [gene] }, q)) := by
  have key : ∀ p0 : Pool, p0.inputSize = p.inputSize →
      ∃ n q, Genome.randomNeuron g true p0 = some (n, q) ∧ p.inputSize < n ∧
      ((∃ o : Nat, o < AI.Outputs ∧ n = AI.MaxNodes + (o : Int)) ∨
        ∃ gene ∈ g.genes, n = gene.into ∨ n = gene.out) := by
    intro p0 hp0
    obtain ⟨n, q, e, -, hn⟩ := Genome.randomNeuron_true g p0
    refine ⟨n, q, e, ?_, ?_⟩
    · rcases hn with ⟨o, -, rfl⟩ | ⟨gene, -, -, hgt⟩
      · have : (0 : Int) ≤ (o : Int) := Int.ofNat_nonneg _
        omega
      · rw [← hp0]
        exact hgt
    · rcases hn with ho | ⟨gene, hg, hx, -⟩
      · exact Or.inl ho
      · exact Or.inr ⟨gene, hg, hx⟩
  refine ⟨key p rfl, ?_⟩
  intro forceBias
  obtain ⟨n1, p1, n2, p2, h1, h2, hin, -, hc⟩ := Genome.linkMutate_cases g forceBias p
  have hp1 : p1.inputSize = p.inputSize := by
    obtain ⟨n, q, e, f, -⟩ := Genome.randomNeuron_spec g false p
    rw [h1] at e
    simp only [Option.some.injEq, Prod.mk.injEq] at e
    rw [e.2]
    exact f.2.1
  obtain ⟨n, q, e, hgt, -⟩ := key p1 hp1
  rw [h2] at e
  simp only [Option.some.injEq, Prod.mk.injEq] at e
  have hn2 : p.inputSize < n2 := by rw [e.1]; exact hgt
  have hnot : ¬ n2 ≤ p.inputSize := by omega
  refine ⟨n1, p1, n2, p2, h1, h2, ?_, ?_, ?_⟩
  · rw [hin]
    exact fun hc2 => hnot hc2.2
  · rw [hin]
    exact hnot
  · rcases hc with hc | ⟨gene, -, -, hout, -, -, -, hc⟩
    · exact Or.inl hc
    · rw [if_neg hnot] at hout
      exact Or.inr ⟨gene, _, hout, by rw [hout]; exact hn2, hc⟩

/-- Witness for `randomNeuron_above`: `twoGenes` in a pool with 200 inputs. -/
theorem randomNeuron_above_witness :
    ∃ n q, Genome.randomNeuron twoGenes true zeroPool = some (n, q) ∧ zeroPool.inputSize < n :=
  have h := (randomNeuron_above twoGenes zeroPool (by decide)).1
  h.elim (fun n hn => hn.elim (fun q hq => ⟨n, q, hq.1, hq.2.1⟩))

/-- C38. Every species of a pool reached from a pool without species by the
steps of `Pool::init` and `Pool::newGeneration` holds at least one genome, so on
such a pool `Pool::addToSpecies` returns for every genome (the lookup
`genomes[0]` is in range) and `Pool::removeStaleSpecies` returns (its assertion
holds). The pool that `Pool::init` returns is reached, and from a reached pool
`Pool::newGeneration` returns a reached pool. -/
theorem reached_species_hold_genomes :
    (∀ p : Pool, p.Reached →
      (∀ spec ∈ p.species, spec.genomes ≠ []) ∧
      (∀ child : Genome, ∃ q, p.addToSpecies child = some q) ∧
      ∃ q, p.removeStaleSpecies = some q) ∧
    (∀ p0 p : Pool, p0.species = [] → p0.init = some p → p.Reached) ∧
    (∀ p q : Pool, p.Reached → p.newGeneration = some q → q.Reached) ∧
    ∀ (inputSize : Int) (rand : Random),
      ∃ p, Pool.init { inputSize := inputSize, rand := rand } = some p ∧ p.Reached := by
  refine ⟨?_, ?_, Pool.newGeneration_reached, ?_⟩
  · intro p hp
    have hne := Pool.reached_ne_nil hp
    refine ⟨hne, ?_, ?_⟩
    · intro child
      obtain ⟨q, e, -⟩ := Pool.addToSpecies_spec p child hne
      exact ⟨q, e⟩
    · obtain ⟨updated, -, hs⟩ := Pool.staleSurvivors_spec p.maxFitness p.species hne
      exact ⟨_, by unfold Pool.removeStaleSpecies; rw [hs]⟩
  · intro p0 p h0 hi
    exact Pool.initLoop_reached _ p0 p (Pool.Reached.fresh p0 h0) hi
  · intro inputSize rand
    obtain ⟨q, e, -⟩ := Pool.initLoop_spec AI.Population
      { inputSize := inputSize, rand := rand } (by simp)
    exact ⟨q, e, Pool.initLoop_reached _ _ q (Pool.Reached.fresh _ rfl) e⟩

/-- C39. For every pool with at least 1 and at most `Population` species whose
`averageFitness` values are not negative, `Pool::removeWeakSpecies` keeps at
least one species; and a pool with the species it keeps has a species after
`cullSpecies(true)` too, so the index `rand % species.getSize()` of line 659 is
not taken modulo zero. -/
theorem removeWeakSpecies_keeps_one (p : Pool) (h1 : p.species ≠ [])
    (h2 : p.species.length ≤ AI.Population)
    (h3 : ∀ spec ∈ p.species, 0 ≤ spec.averageFitness) :
    p.removeWeakSpecies.species ≠ [] ∧
      ∀ q : Pool, q.species = p.removeWeakSpecies.species →
        (q.cullSpecies true).species.length ≠ 0 := by
  have hne := Pool.removeWeakSpecies_ne_nil p h1 h2 h3
  refine ⟨hne, ?_⟩
  intro q hq
  simp only [Pool.cullSpecies, List.length_map, hq]
  exact fun hc => hne (List.length_eq_zero.mp hc)

/-- Witness for `removeWeakSpecies_keeps_one`: `weakPool`, of whose two species
the one with the average 1 is kept. -/
theorem removeWeakSpecies_keeps_one_witness : weakPool.removeWeakSpecies.species ≠ [] :=
  (removeWeakSpecies_keeps_one weakPool (by simp [weakPool]) (by simp [weakPool, AI.Population])
    (by simp [weakPool])).1

/-- C33. The method `Genome::mutate` is the perturbation of the rates and the
point mutation, followed by the five loops for link, bias, node, enable and
disable, each with the rate `r` that the genome carries under its name when the
loop begins; the operators leave the rates alone. Each loop ends: for `r > 0` it
makes exactly `ceil(r)` rolls, the roll `k` with the remaining mass `r - k`,
which is positive, and after the last roll the remaining mass is zero or less; it
invokes its operator on every roll whose remaining mass is 1 or more, so at
least `floor(r)` and at most `ceil(r)` times; for `r <= 0` it makes no roll and
changes nothing. A larger bound on the iterations gives the same result. -/
theorem mutate_rolls :
    (∀ (g : Genome) (p : Pool), Genome.mutate g p =
      (Genome.mutateHead g p).bind (fun r => Genome.runBlocks Genome.rateOps r.1 r.2)) ∧
    ∀ b ∈ Genome.rateOps, ∀ (g : Genome) (p : Pool) (r : ℚ),
      Map.find g.mutationRates b.1 = some r →
      ∃ rolls g1 q, Genome.rateBlock b.1 b.2 g p = some (g1, q) ∧
        Genome.rateLoopTrace b.2 (Int.toNat ⌈r⌉) r g p = some (rolls, g1, q) ∧
        g1.mutationRates = g.mutationRates ∧
        (∀ fuel : Nat, Int.toNat ⌈r⌉ ≤ fuel → Genome.rateLoop b.2 fuel r g p = some (g1, q)) ∧
        (0 < r → (rolls.length : Int) = ⌈r⌉) ∧
        (r ≤ 0 → rolls = [] ∧ g1 = g ∧ q = p) ∧
        (∀ (k : Nat) (e : ℚ × Bool), rolls[k]? = some e →
          e.1 = r - (k : ℚ) ∧ 0 < e.1 ∧ (1 ≤ e.1 → e.2 = true)) ∧
        r - (rolls.length : ℚ) ≤ 0 ∧
        (0 < r → ⌊r⌋ ≤ (rolls.countP (fun e => e.2) : Int) ∧
          (rolls.countP (fun e => e.2) : Int) ≤ ⌈r⌉) := by
  refine ⟨Genome.mutate_blocks, ?_⟩
  intro b hb g p r hr
  obtain ⟨rolls, g1, q, e, hl, hk, hcount⟩ := Genome.rateLoopTrace_spec b.2
    (Genome.rateOps_total b hb) (Int.toNat ⌈r⌉) r g p (le_refl _)
  have hloop : Genome.rateLoop b.2 (Int.toNat ⌈r⌉) r g p = some (g1, q) := by
    rw [← Genome.rateLoopTrace_forget, e]
    rfl
  have hrates : g1.mutationRates = g.mutationRates := by
    have hop : ∀ x a, ∃ x1 a1, b.2 x a = some (x1, a1) ∧ x1.mutationRates = x.mutationRates ∧
        Pool.SameFrame a a1 := by
      intro x a
      simp only [Genome.rateOps, List.mem_cons, List.mem_singleton, List.not_mem_nil,
        or_false] at hb
      rcases hb with h | h | h | h | h
      all_goals subst h
      · exact Genome.linkMutate_spec x false a
      · exact Genome.linkMutate_spec x true a
      · exact ⟨_, _, rfl, (Genome.nodeMutate_spec x a).1, (Genome.nodeMutate_spec x a).2⟩
      · exact ⟨_, _, rfl, (Genome.enableDisableMutate_spec x true a).1,
          (Genome.enableDisableMutate_spec x true a).2⟩
      · exact ⟨_, _, rfl, (Genome.enableDisableMutate_spec x false a).1,
          (Genome.enableDisableMutate_spec x false a).2⟩
    obtain ⟨x1, a1, e1, r1, -⟩ := Genome.rateLoop_spec b.2 hop (Int.toNat ⌈r⌉) r g p
    rw [hloop] at e1
    simp only [Option.some.injEq, Prod.mk.injEq] at e1
    rw [e1.1]
    exact r1
  refine ⟨rolls, g1, q, ?_, e, hrates, ?_, ?_, ?_, hk, ?_, ?_⟩
  · unfold Genome.rateBlock
    rw [hr]
    exact hloop
  · intro fuel hfuel
    rw [Genome.rateLoop_fuel b.2 fuel r g p hfuel]
    exact hloop
  · intro hpos
    have : (0 : Int) < ⌈r⌉ := Int.ceil_pos.mpr hpos
    rw [hl]
    omega
  · intro hneg
    have hz : Int.toNat ⌈r⌉ = 0 := by
      have : ⌈r⌉ ≤ 0 := Int.ceil_le.mpr (by push_cast; linarith)
      omega
    rw [hz] at e
    simp only [Genome.rateLoopTrace, Option.some.injEq, Prod.mk.injEq] at e
    exact ⟨e.1.symm, e.2.1.symm, e.2.2.symm⟩
  · by_cases hpos : 0 < r
    · have h1 : (0 : Int) < ⌈r⌉ := Int.ceil_pos.mpr hpos
      have h2 : ((rolls.length : Int) : ℚ) = ((⌈r⌉ : Int) : ℚ) := by
        rw [hl]
        congr 1
        omega
      have h3 : r ≤ ((⌈r⌉ : Int) : ℚ) := Int.le_ceil r
      have h4 : (rolls.length : ℚ) = ((⌈r⌉ : Int) : ℚ) := by
        rw [← h2]
        simp
      rw [h4]
      linarith
    · have : (0 : ℚ) ≤ (rolls.length : ℚ) := Nat.cast_nonneg _
      linarith
  · intro hpos
    have h1 : (0 : Int) < ⌈r⌉ := Int.ceil_pos.mpr hpos
    have h0 : (0 : Int) ≤ ⌊r⌋ := Int.floor_nonneg.mpr (le_of_lt hpos)
    have hle := List.countP_le_length (fun e : ℚ × Bool => e.2) (l := rolls)
    constructor
    · omega
    · omega

/-- C34. For every genome, after `Genome::generateNetwork` the genes are those
of before in the order of the sort, the network has a neuron for every input id
below `inputSize` and for every output id `MaxNodes + o`, and for every neuron
id `n` the list `incoming` holds the indices of exactly the enabled genes with
`out == n`, each once: an entry of a list is an enabled gene, no disabled gene
is in a list, and all lists together have as many entries as the genome has
enabled genes. -/
theorem generateNetwork_incoming_exact (g : Genome) (inputSize : Int) :
    (g.generateNetwork inputSize).genes.Perm g.genes ∧
    (∀ i : Nat, (i : Int) < inputSize →
      (Map.find (g.generateNetwork inputSize).network.neurons (i : Int)).isSome = true) ∧
    (∀ o : Nat, o < AI.Outputs →
      (Map.find (g.generateNetwork inputSize).network.neurons
        (AI.MaxNodes + (o : Int))).isSome = true) ∧
    (∀ n : Int, Genome.incomingOf (g.generateNetwork inputSize).network.neurons n =
      (List.range (g.generateNetwork inputSize).genes.length).filter (fun j =>
        match (g.generateNetwork inputSize).genes[j]? with
        | some gene => gene.enabled && decide (gene.out = n)
        | none => false)) ∧
    (∀ (n : Int) (j : Nat) (gene : Gene),
      (g.generateNetwork inputSize).genes[j]? = some gene →
      (j ∈ Genome.incomingOf (g.generateNetwork inputSize).network.neurons n ↔
        gene.enabled = true ∧ gene.out = n)) ∧
    (∀ n : Int, (Genome.incomingOf (g.generateNetwork inputSize).network.neurons n).Nodup) ∧
    (((g.generateNetwork inputSize).network.neurons).map (fun e => e.2.incoming.length)).sum =
      g.genes.countP (fun gene => gene.enabled) := by
  obtain ⟨hinc, hsum⟩ := Genome.generateNetwork_incoming g inputSize
  obtain ⟨⟨hin, hout, -⟩, -⟩ := Genome.generateNetwork_wired g inputSize
  have hperm : (g.generateNetwork inputSize).genes.Perm g.genes := sortBy_perm _ _
  refine ⟨hperm, hin, hout, hinc, ?_, ?_, ?_⟩
  · intro n j gene hj
    have hlt : j < (g.generateNetwork inputSize).genes.length := by
      by_contra hge
      rw [List.getElem?_eq_none (by omega)] at hj
      simp at hj
    rw [hinc n, List.mem_filter, List.mem_range, hj]
    simp only [Bool.and_eq_true, decide_eq_true_eq]
    exact ⟨fun h => h.2, fun h => ⟨hlt, h⟩⟩
  · intro n
    rw [hinc n]
    exact (List.nodup_range _).filter _
  · rw [hsum]
    exact hperm.countP_eq _

/-- C40. For every board of 10 by 20 cells, after `Game::dropLines` the rows of
the board are empty rows followed by the rows that held a filled cell before,
with their contents and in their order from top to bottom; so no empty row lies
below a row with a filled cell, and the rows with a filled cell are the same
as before. The board keeps its size. -/
theorem dropLines_settles (gm : Game) (h : gm.board.length = Game.boardH * Game.boardW) :
    gm.dropLines.board.length = Game.boardH * Game.boardW ∧
    (∃ k, Game.rows gm.dropLines.board =
      List.replicate k (List.replicate Game.boardW 0) ++
        (Game.rows gm.board).filter (fun r => r.any (fun c => c != 0))) ∧
    (∀ y1 y2 : Nat, y1 < y2 → y2 < Game.boardH →
      (∃ c ∈ Game.row gm.dropLines.board y1, c ≠ 0) →
      ∃ c ∈ Game.row gm.dropLines.board y2, c ≠ 0) ∧
    (Game.rows gm.dropLines.board).filter (fun r => r.any (fun c => c != 0)) =
      (Game.rows gm.board).filter (fun r => r.any (fun c => c != 0)) := by
  have hl : gm.board.length = 200 := h
  have hH : Game.boardH = 20 := rfl
  obtain ⟨hlen, k, hk, hrows⟩ := Game.dropRows_spec gm.board hl Game.boardH (by rw [hH])
  have htake : (Game.rows gm.board).take Game.boardH = Game.rows gm.board :=
    List.take_of_length_le (by rw [Game.rows_length, hH])
  have hdrop : (Game.rows gm.board).drop Game.boardH = [] :=
    List.drop_eq_nil_iff.mpr (by rw [Game.rows_length, hH])
  rw [htake, hdrop, List.append_nil] at hrows
  rw [htake] at hk
  have hfold : gm.dropLines.board = (List.range Game.boardH).foldl Game.dropRow gm.board := by
    simp only [Game.dropLines]
  rw [← hfold] at hrows hlen
  have hzero : ∀ c ∈ List.replicate 10 (0 : Int), c = 0 := fun c hc =>
    (List.mem_replicate.mp hc).2
  refine ⟨hlen, ⟨k, hrows⟩, ?_, ?_⟩
  · intro y1 y2 h12 h2 hfilled
    have e1 := Game.rows_getElem? gm.dropLines.board y1
    have e2 := Game.rows_getElem? gm.dropLines.board y2
    have h2' : y2 < 20 := h2
    rw [if_pos (by omega), hrows] at e1
    rw [if_pos h2', hrows] at e2
    have hk1 : k ≤ y1 := by
      by_contra hlt
      rw [List.getElem?_append_left (by rw [List.length_replicate]; omega),
        List.getElem?_replicate, if_pos (by omega)] at e1
      simp only [Option.some.injEq] at e1
      obtain ⟨c, hc, hne⟩ := hfilled
      rw [← e1] at hc
      exact hne (hzero c hc)
    rw [List.getElem?_append_right (by rw [List.length_replicate]; omega)] at e2
    have hmem := List.getElem?_mem e2
    rw [List.mem_filter] at hmem
    obtain ⟨c, hc, hne⟩ := List.any_eq_true.mp hmem.2
    exact ⟨c, hc, by simpa using hne⟩
  · rw [hrows, List.filter_append, List.filter_filter]
    have hnil : (List.replicate k (List.replicate Game.boardW (0 : Int))).filter
        (fun r => r.any (fun c => c != 0)) = [] := by
      apply List.filter_eq_nil_iff.mpr
      intro r hr
      rw [(List.mem_replicate.mp hr).2]
      decide
    have hW : List.replicate 10 (0 : Int) = List.replicate Game.boardW 0 := rfl
    rw [hW, hnil, List.nil_append]
    simp

/-- Witness for `dropLines_settles`: `stackedGame`, whose two rows with a filled
cell end at the bottom of the board. -/
theorem dropLines_settles_witness :
    (Game.rows stackedGame.dropLines.board).filter (fun r => r.any (fun c => c != 0)) =
      (Game.rows stackedGame.board).filter (fun r => r.any (fun c => c != 0)) :=
  (dropLines_settles stackedGame (by simp [stackedGame, Game.boardH, Game.boardW])).2.2.2

/-- C35 fails at the end of the range of the hidden node ids. `Genome::nodeMutate`
takes `maxNeuron + 1` as the id of its new node (line 262) and never compares it with
`MaxNodes`, the id of the first output. On `borderGenome`, whose one link is
unique and whose `maxNeuron` is `MaxNodes - 1`, it splits the link `(0, 1000000)`
through the node 1000000 and so appends a second gene on the pair
`(0, 1000000)`. Such a genome is reachable without a file: from `Pool::init`
with 200 inputs, mutations on zero draws raise `maxNeuron` to `MaxNodes - 1`,
an evaluation sorts the genes, and the next mutation gives a genome with two
genes on `(0, 1000000)`. -/
theorem nodeMutate_duplicate_link :
    borderGenome.links.Nodup ∧
    (Genome.nodeMutate borderGenome savedPool).1.links =
      [(0, 1000000), (0, 1000000), (1000000, 1000000)] ∧
    ∃ G p g, Bred G p ∧ p.inputSize = 200 ∧ g ∈ G ∧ ¬ g.links.Nodup := by
  refine ⟨by decide, by decide!, ?_⟩
  obtain ⟨G, p, g, hB, hin, hg, hl⟩ := bred_border
  refine ⟨G, p, g, hB, hin, hg, ?_⟩
  rw [hl]
  decide

/-- C35, amended. Every genome bred from `Pool::init` through `mutate`,
`crossover` and `breedChild`, with evaluations in between and no file load, has
no two genes with the same `(into, out)` pair while its `maxNeuron` is below
`MaxNodes`. `Genome::linkMutate` keeps the pairs of such a genome distinct in
every pool, and `Genome::nodeMutate` keeps them distinct in every pool while the
new node id `maxNeuron + 1` is below `MaxNodes`. -/
theorem bred_links_unique (G : List Genome) (p : Pool) (h : Bred G p) (g : Genome)
    (hg : g ∈ G) :
    (g.maxNeuron < AI.MaxNodes → g.links.Nodup) ∧
    (∀ (forceBias : Bool) (a : Pool) (g1 : Genome) (q : Pool), g.links.Nodup →
      Genome.linkMutate g forceBias a = some (g1, q) → g1.links.Nodup) ∧
    (∀ a : Pool, g.maxNeuron + 1 < AI.MaxNodes → (Genome.nodeMutate g a).1.links.Nodup) := by
  obtain ⟨-, ⟨-, s2, s3⟩, -, -⟩ := bred_fits G p h g hg
  refine ⟨s3, ?_, ?_⟩
  · intro forceBias a g1 q hn hl
    exact Genome.linkMutate_unique g forceBias a g1 q hl hn
  · intro a hm
    exact Genome.nodeMutate_unique g a (fun e he => ⟨(s2 e he).1, (s2 e he).2.1⟩) hm
      (s3 (by omega))

/-- The first genome of `Pool::init` on zero draws is bred, its `maxNeuron` is
201, and its four links are distinct, also after one more `nodeMutate`. -/
theorem bred_links_unique_witness :
    Bred [firstBorn.1] firstBorn.2 ∧ firstBorn.1 ∈ [firstBorn.1] ∧
      firstBorn.1.maxNeuron < AI.MaxNodes ∧ firstBorn.1.links.Nodup ∧
      (Genome.nodeMutate firstBorn.1 savedPool).1.links.Nodup := by
  have hB : Bred [firstBorn.1] firstBorn.2 :=
    Bred.init [] zeroPool firstBorn.1 firstBorn.2 (Bred.start zeroPool) firstBorn_eq
  have hm : firstBorn.1.maxNeuron < AI.MaxNodes := by
    rw [firstBorn_padded.1]
    decide
  have hm1 : firstBorn.1.maxNeuron + 1 < AI.MaxNodes := by
    rw [firstBorn_padded.1]
    decide
  have key := bred_links_unique [firstBorn.1] firstBorn.2 hB firstBorn.1 (List.mem_cons_self _ _)
  exact ⟨hB, List.mem_cons_self _ _, hm, key.1 hm, key.2.2 savedPool hm1⟩

end Tetris
